import Mathlib

/-! The s21 containers: the AVL tree engine and its adapters, and the
sequence containers.

Shallow embedding of `src/map/avl_tree.h` (class `AVLTree<Key, Value>`),
`src/multiset/s21_multiset.h`, `src/set/s21_set.h`, `src/map/s21_map.h`,
`src/queue/s21_queue.h`, `src/stack/s21_stack.h`, `src/vector/s21_vector.h`
and `src/list/s21_list.h`.

Memory model.  The tree owns its nodes exclusively, so the owned graph is an
inductive tree.  Every node carries the address it was allocated at; the
non-owning `parent_` link is stored as an optional address, exactly as the
source stores a raw pointer, and is followed by looking the address up in the
tree.  `new node` takes the next unused address of the allocator, which is part
of the tree state; a freed address is never handed out again.  Keys are taken
from a linear order, which provides the `<`, `>` and `==` the source uses.

The array-backed containers are their members together with the list of the
cells of the array; `size_t` arithmetic is taken modulo `2^64`.  The nodes of
`list` live in a heap indexed by address, a deleted node leaving an empty
cell.  Undefined behaviour and exceptions are outcomes of type `Fault`.  A
`const T&` parameter that the source reads after it has changed the container
(`map::insert_or_assign`, `Queue::push`) is a `Reference`, which may refer to
an object stored in the container itself.
-/

namespace s21

/-- A `node*` of the source: `nullptr`, or an owned node allocated at `addr`
with the fields `key_`, `value_`, `parent_`, `left_`, `right_`, `height_`. -/
inductive node (Key Value : Type) where
  | nullptr : node Key Value
  | mk (addr : Nat) (key_ : Key) (value_ : Value) (parent_ : Option Nat)
      (left_ right_ : node Key Value) (height_ : Int) : node Key Value
deriving DecidableEq, Repr

variable {Key Value : Type}

/-- The address held by a pointer (`none` for `nullptr`). -/
def node.addrOf : node Key Value → Option Nat
  | .nullptr => none
  | .mk a _ _ _ _ _ _ => some a

/-- The test `Node == nullptr`. -/
def node.isNull : node Key Value → Bool
  | .nullptr => true
  | .mk _ _ _ _ _ _ _ => false

/-- Source `new node(key, value, parent)`: both children null, `height_` 0. -/
def node.new (addr : Nat) (key : Key) (value : Value) (parent : Option Nat) :
    node Key Value :=
  .mk addr key value parent .nullptr .nullptr 0

/-- Source `GetHeightNum`: stored height, -1 for `nullptr`. -/
def GetHeightNum : node Key Value → Int
  | .nullptr => -1
  | .mk _ _ _ _ _ _ h => h

/-- Source `GetBalanceNum`: stored height of right minus stored height of left. -/
def GetBalanceNum : node Key Value → Int
  | .nullptr => 0
  | .mk _ _ _ _ l r _ => GetHeightNum r - GetHeightNum l

/-- Source `SetHeight`: `height_ = max(height(left), height(right)) + 1`. -/
def SetHeight : node Key Value → node Key Value
  | .nullptr => .nullptr
  | .mk a k v p l r _ => .mk a k v p l r (max (GetHeightNum l) (GetHeightNum r) + 1)

/-- The statement `if (X) X->parent_ = P;` of the rotations. -/
def setParent (p : Nat) : node Key Value → node Key Value
  | .nullptr => .nullptr
  | .mk a k v _ l r h => .mk a k v (some p) l r h

/-- Source `RightRotation(Node)`: the contents of `Node` and `Node->left_` are
swapped, the old left node becomes the right child.  The source dereferences
`Node->left_` unconditionally; on a node without a left child (undefined
behaviour there, never reached from `Balancing`, see
`Balancing_rotations_defined`) the model leaves the node as it is. -/
def RightRotation : node Key Value → node Key Value
  | .mk a k v p (.mk la lk lv lp ll lr lh) r h =>
      SetHeight (.mk a lk lv p (setParent a ll)
        (SetHeight (.mk la k v lp (setParent la lr) (setParent la r) lh)) h)
  | t => t

/-- Source `LeftRotation(Node)`: mirror image of `RightRotation`. -/
def LeftRotation : node Key Value → node Key Value
  | .mk a k v p l (.mk ra rk rv rp rl rr rh) h =>
      SetHeight (.mk a rk rv p
        (SetHeight (.mk ra k v rp (setParent ra l) (setParent ra rl) rh))
        (setParent a rr) h)
  | t => t

/-- Source `Balancing(Node)`. -/
def Balancing : node Key Value → node Key Value
  | .nullptr => .nullptr
  | .mk a k v p l r h =>
      if GetHeightNum r - GetHeightNum l = -2 then
        RightRotation (.mk a k v p (if GetBalanceNum l = 1 then LeftRotation l else l) r h)
      else if GetHeightNum r - GetHeightNum l = 2 then
        LeftRotation (.mk a k v p l (if GetBalanceNum r = -1 then RightRotation r else r) h)
      else .mk a k v p l r h

/-- Source `GetMinNode`: follow `left_` while it is not null. -/
def GetMinNode : node Key Value → node Key Value
  | .nullptr => .nullptr
  | .mk a k v p .nullptr r h => .mk a k v p .nullptr r h
  | .mk _ _ _ _ l _ _ => GetMinNode l

/-- Source `GetMaxNode`: follow `right_` while it is not null. -/
def GetMaxNode : node Key Value → node Key Value
  | .nullptr => .nullptr
  | .mk a k v p l .nullptr h => .mk a k v p l .nullptr h
  | .mk _ _ _ _ _ r _ => GetMaxNode r

/-- Source `RecursiveInsertion(Node, key, value, allow_duplicates)`.  The source
mutates the subtree in place and returns the flag; the model returns the
subtree after the call together with the flag.  `fresh` is the address the
allocator gives to the one node the call may create. -/
def RecursiveInsertion [LinearOrder Key] (fresh : Nat) :
    node Key Value → Key → Value → Bool → node Key Value × Bool
  | .nullptr, _, _, _ => (.nullptr, false)
  | .mk a k v p l r h, key, value, allow_duplicates =>
      if key < k ∨ (allow_duplicates = true ∧ key = k) then
        match l with
        | .nullptr =>
            (Balancing (SetHeight (.mk a k v p (node.new fresh key value (some a)) r h)), true)
        | .mk _ _ _ _ _ _ _ =>
            let res := RecursiveInsertion fresh l key value allow_duplicates
            (Balancing (SetHeight (.mk a k v p res.1 r h)), res.2)
      else if key > k then
        match r with
        | .nullptr =>
            (Balancing (SetHeight (.mk a k v p l (node.new fresh key value (some a)) h)), true)
        | .mk _ _ _ _ _ _ _ =>
            let res := RecursiveInsertion fresh r key value allow_duplicates
            (Balancing (SetHeight (.mk a k v p l res.1 h)), res.2)
      else
        (Balancing (SetHeight (.mk a k v p l r h)), false)

/-- Source `RecursiveDeleting(Node, key)`: the subtree after the call.  In the
one-child case `*Node = *temp` copies every field of the child, `parent_`,
`left_`, `right_` and `height_` included, into the node at `Node`.  In the
two-child case `GetMinNode(Node->right_)` is not null (`GetMinNode_spec`), so
the `nullptr` branch of the inner match is never taken. -/
def RecursiveDeleting [LinearOrder Key] : node Key Value → Key → node Key Value
  | .nullptr, _ => .nullptr
  | .mk a k v p l r h, key =>
      if key < k then
        Balancing (SetHeight (.mk a k v p (RecursiveDeleting l key) r h))
      else if key > k then
        Balancing (SetHeight (.mk a k v p l (RecursiveDeleting r key) h))
      else
        match l, r with
        | .nullptr, .nullptr => .nullptr
        | .mk _ tk tv tp tl tr th, .nullptr =>
            Balancing (SetHeight (.mk a tk tv tp tl tr th))
        | .nullptr, .mk _ tk tv tp tl tr th =>
            Balancing (SetHeight (.mk a tk tv tp tl tr th))
        | .mk _ _ _ _ _ _ _, .mk _ _ _ _ _ _ _ =>
            match GetMinNode r with
            | .mk _ tk tv _ _ _ _ =>
                Balancing (SetHeight (.mk a tk tv p l (RecursiveDeleting r tk) h))
            | .nullptr => .mk a k v p l r h

/-- Source `RecursiveSize`. -/
def RecursiveSize : node Key Value → Nat
  | .nullptr => 0
  | .mk _ _ _ _ l r _ => RecursiveSize l + RecursiveSize r + 1

/-- Source `RecursiveSearch(Node, key)`: the node found, or `nullptr`. -/
def RecursiveSearch [LinearOrder Key] : node Key Value → Key → node Key Value
  | .nullptr, _ => .nullptr
  | .mk a k v p l r h, key =>
      if k = key then .mk a k v p l r h
      else if key < k then RecursiveSearch l key
      else RecursiveSearch r key

/-- The loop of `lower_bound`, started with `current` and `result`. -/
def lower_bound_loop [LinearOrder Key] (key : Key) :
    node Key Value → node Key Value → node Key Value
  | .nullptr, result => result
  | .mk a k v p l r h, result =>
      if ¬ (k < key) then lower_bound_loop key l (.mk a k v p l r h)
      else lower_bound_loop key r result

/-- The loop of `upper_bound`, started with `current` and `result`. -/
def upper_bound_loop [LinearOrder Key] (key : Key) :
    node Key Value → node Key Value → node Key Value
  | .nullptr, result => result
  | .mk a k v p l r h, result =>
      if key < k then upper_bound_loop key l (.mk a k v p l r h)
      else upper_bound_loop key r result

/-- Reading memory through a raw pointer: the node of the tree `mem` allocated
at address `a`; `nullptr` when the tree has no node there (the pointer
dangles). -/
def lookup (a : Nat) : node Key Value → node Key Value
  | .nullptr => .nullptr
  | .mk b k v p l r h =>
      if b = a then .mk b k v p l r h
      else
        match lookup a l with
        | .nullptr => lookup a r
        | .mk b' k' v' p' l' r' h' => .mk b' k' v' p' l' r' h'

/-- In-order sequence of the entries `(key_, value_)`: left subtree, node,
right subtree. -/
def inorder : node Key Value → List (Key × Value)
  | .nullptr => []
  | .mk _ k v _ l r _ => inorder l ++ (k, v) :: inorder r

/-- In-order sequence of the keys. -/
def keys (t : node Key Value) : List Key := (inorder t).map Prod.fst

/-- In-order sequence of the node addresses. -/
def addrs : node Key Value → List Nat
  | .nullptr => []
  | .mk a _ _ _ l r _ => addrs l ++ a :: addrs r

/-- Class `Iterator`: the two raw pointers `it_node` and `it_prev_node`. -/
structure Iterator where
  it_node : Option Nat
  it_prev_node : Option Nat
deriving DecidableEq, Repr

/-- Source `Iterator::operator==`: only `it_node` is compared. -/
def Iterator.eq (x y : Iterator) : Bool := decide (x.it_node = y.it_node)

/-- Faults of a call: the `std::out_of_range` exception, the undefined
behaviour of an access outside an array, of a remainder by zero or of a read
through a pointer to no live node, and the `std::runtime_error` exception of
`list`. -/
inductive Fault where
  | out_of_range : Fault
  | undefined_behaviour : Fault
  | runtime_error : Fault
deriving DecidableEq, Repr

/-- An argument bound to a `const T&` parameter: a reference to an object
outside the container, which holds `x` throughout the call, or a reference to
an object stored in the container when the call is made, as `map::at`,
`Queue::front` and `Queue::back` return it: the `value_` of the node at address
`a` of a map, the cell of index `a` of the array of a queue. -/
inductive Reference (T : Type) where
  | object (x : T) : Reference T
  | stored (a : Nat) : Reference T
deriving DecidableEq, Repr

/-- Reading through a reference to a mapped value in the tree `mem`: the
`value_` the node at the address holds in `mem`; undefined behaviour when the
node has been deleted. -/
def Reference.in_tree (mem : node Key Value) : Reference Value → Except Fault Value
  | .object x => .ok x
  | .stored a =>
      match lookup a mem with
      | .nullptr => .error .undefined_behaviour
      | .mk _ _ v _ _ _ _ => .ok v

/-- Source `Iterator::operator*` on the memory `mem`: throws `out_of_range` when
`it_node` is null, else yields `it_node->key_`.  A pointer to no node of `mem`
(undefined behaviour in the source) also ends in the fault. -/
def Iterator.deref (mem : node Key Value) (it : Iterator) : Except Fault Key :=
  match it.it_node with
  | none => .error .out_of_range
  | some a =>
      match lookup a mem with
      | .nullptr => .error .out_of_range
      | .mk _ k _ _ _ _ _ => .ok k

/-- The `while (it_node != nullptr && prev == it_node->right_)` loop of
`operator++`, run for at most `fuel` tests of its condition: `none` when the
loop has not left by then or reads through a pointer to no node of `mem`,
else the final `it_node`. -/
def climb_from_right (mem : node Key Value) : Nat → Nat → Option Nat → Option (Option Nat)
  | _, _, none => some none
  | 0, _, some _ => none
  | fuel + 1, prev, some c =>
      match lookup c mem with
      | .nullptr => none
      | .mk _ _ _ p _ r _ =>
          if r.addrOf = some prev then climb_from_right mem fuel c p else some (some c)

/-- The `while (it_node != nullptr && prev == it_node->left_)` loop of
`operator--`. -/
def climb_from_left (mem : node Key Value) : Nat → Nat → Option Nat → Option (Option Nat)
  | _, _, none => some none
  | 0, _, some _ => none
  | fuel + 1, prev, some c =>
      match lookup c mem with
      | .nullptr => none
      | .mk _ _ _ p l _ _ =>
          if l.addrOf = some prev then climb_from_left mem fuel c p else some (some c)

/-- Source `Iterator::operator++` on the memory `mem`. -/
def Iterator.increment (mem : node Key Value) (fuel : Nat) (it : Iterator) : Option Iterator :=
  match it.it_node with
  | none => some it
  | some a =>
      match lookup a mem with
      | .nullptr => none
      | .mk _ _ _ p _ .nullptr _ =>
          (climb_from_right mem fuel a p).map (fun n => { it with it_node := n })
      | .mk _ _ _ _ _ r _ => some { it with it_node := (GetMinNode r).addrOf }

/-- Source `Iterator::operator--` on the memory `mem`. -/
def Iterator.decrement (mem : node Key Value) (fuel : Nat) (it : Iterator) : Option Iterator :=
  match it.it_node with
  | none => some it
  | some a =>
      match lookup a mem with
      | .nullptr => none
      | .mk _ _ _ p .nullptr _ _ =>
          (climb_from_left mem fuel a p).map (fun n => { it with it_node := n })
      | .mk _ _ _ _ l _ _ => some { it with it_node := (GetMaxNode l).addrOf }

/-- Source `std::distance(first, last)` for these forward iterators: the number of
`++first` until `first == last`; `none` when that is not reached within
`fuel` increments (each given `fuel` for its own loop). -/
def distance (mem : node Key Value) : Nat → Iterator → Iterator → Option Nat
  | 0, first, last => if first.eq last then some 0 else none
  | fuel + 1, first, last =>
      if first.eq last then some 0
      else
        match first.increment mem (fuel + 1) with
        | none => none
        | some nxt => (distance mem fuel nxt last).map (· + 1)

/-- Class `AVLTree`: the `root` pointer, with the allocator state `alloc`
(the next unused address). -/
structure AVLTree (Key Value : Type) where
  root : node Key Value
  alloc : Nat
deriving Repr

/-- Source `AVLTree()`. -/
def AVLTree.empty : AVLTree Key Value := { root := .nullptr, alloc := 0 }

/-- Source `begin()`. -/
def AVLTree.begin (t : AVLTree Key Value) : Iterator :=
  { it_node := (GetMinNode t.root).addrOf, it_prev_node := none }

/-- Source `end()`: null current node, cached maximum node. -/
def AVLTree.end (t : AVLTree Key Value) : Iterator :=
  { it_node := none, it_prev_node := (GetMaxNode t.root).addrOf }

/-- Source `size()`. -/
def AVLTree.size (t : AVLTree Key Value) : Nat := RecursiveSize t.root

/-- Source `contains(key)`. -/
def AVLTree.contains [LinearOrder Key] (t : AVLTree Key Value) (key : Key) : Bool :=
  !(RecursiveSearch t.root key).isNull

/-- Source `find(key)`. -/
def AVLTree.find [LinearOrder Key] (t : AVLTree Key Value) (key : Key) : Iterator :=
  { it_node := (RecursiveSearch t.root key).addrOf, it_prev_node := none }

/-- Source `lower_bound(key)`. -/
def AVLTree.lower_bound [LinearOrder Key] (t : AVLTree Key Value) (key : Key) : Iterator :=
  { it_node := (lower_bound_loop key t.root .nullptr).addrOf, it_prev_node := none }

/-- Source `upper_bound(key)`. -/
def AVLTree.upper_bound [LinearOrder Key] (t : AVLTree Key Value) (key : Key) : Iterator :=
  { it_node := (upper_bound_loop key t.root .nullptr).addrOf, it_prev_node := none }

/-- Source `insert(key, value, allow_duplicates)`: the tree after the call and the
returned pair. -/
def AVLTree.insert [LinearOrder Key] (t : AVLTree Key Value) (key : Key) (value : Value)
    (allow_duplicates : Bool) : AVLTree Key Value × Iterator × Bool :=
  match t.root with
  | .nullptr =>
      ({ root := node.new t.alloc key value none, alloc := t.alloc + 1 },
        { it_node := some t.alloc, it_prev_node := none }, true)
  | .mk a k v p l r h =>
      let res := RecursiveInsertion t.alloc (.mk a k v p l r h) key value allow_duplicates
      let t' : AVLTree Key Value :=
        { root := res.1, alloc := if res.2 then t.alloc + 1 else t.alloc }
      (t', t'.find key, res.2)

/-- Source `erase(pos)`, where `*pos` reads the memory `mem` the iterator points
into. -/
def AVLTree.erase_in [LinearOrder Key] (mem : node Key Value) (t : AVLTree Key Value)
    (pos : Iterator) : AVLTree Key Value :=
  if t.root.isNull ∨ pos.it_node = none then t
  else
    match pos.deref mem with
    | .ok key => { t with root := RecursiveDeleting t.root key }
    | .error _ => t

/-- Source `erase(pos)` for an iterator of the tree itself. -/
def AVLTree.erase [LinearOrder Key] (t : AVLTree Key Value) (pos : Iterator) :
    AVLTree Key Value :=
  t.erase_in t.root pos

/-- Class `Multiset`: the member `tree_`. -/
structure Multiset (Key : Type) where
  tree_ : AVLTree Key Key
deriving Repr

/-- Source `Multiset()`. -/
def Multiset.empty : Multiset Key := { tree_ := AVLTree.empty }

/-- Source `Multiset::insert(value)`: `tree_.insert(value, value, true).first`. -/
def Multiset.insert [LinearOrder Key] (m : Multiset Key) (value : Key) :
    Multiset Key × Iterator :=
  ({ tree_ := (m.tree_.insert value value true).1 }, (m.tree_.insert value value true).2.1)

/-- Source `Multiset::erase(pos)`. -/
def Multiset.erase [LinearOrder Key] (m : Multiset Key) (pos : Iterator) : Multiset Key :=
  { tree_ := m.tree_.erase pos }

/-- Source `Multiset::find(key)`. -/
def Multiset.find [LinearOrder Key] (m : Multiset Key) (key : Key) : Iterator :=
  m.tree_.find key

/-- Source `Multiset::size()`. -/
def Multiset.size (m : Multiset Key) : Nat := m.tree_.size

/-- Source `Multiset::equal_range(key)`. -/
def Multiset.equal_range [LinearOrder Key] (m : Multiset Key) (key : Key) :
    Iterator × Iterator :=
  (m.tree_.lower_bound key, m.tree_.upper_bound key)

/-- Source `Multiset::count(key)`: `std::distance` over `equal_range(key)`. -/
def Multiset.count [LinearOrder Key] (m : Multiset Key) (fuel : Nat) (key : Key) :
    Option Nat :=
  distance m.tree_.root fuel (m.equal_range key).1 (m.equal_range key).2

/-- The multiset built by inserting the items of a list one by one. -/
def Multiset.ofList [LinearOrder Key] (items : List Key) : Multiset Key :=
  items.foldl (fun m x => (m.insert x).1) Multiset.empty

/-- Trees built from the empty tree by `insert` and `erase` calls.  `dups`
tells whether inserts with `allow_duplicates = true` may occur, `erases`
whether `erase` calls may occur. -/
inductive Built [LinearOrder Key] (dups erases : Bool) : AVLTree Key Value → Prop
  | empty : Built dups erases AVLTree.empty
  | insert {t : AVLTree Key Value} (key : Key) (value : Value) (allow_duplicates : Bool) :
      (allow_duplicates = true → dups = true) → Built dups erases t →
      Built dups erases (t.insert key value allow_duplicates).1
  | erase {t : AVLTree Key Value} (pos : Iterator) :
      erases = true → Built dups erases t → Built dups erases (t.erase pos)

/-- Every tree obtained from the empty tree by a finite sequence of `insert`
calls (either duplicate mode) and `erase` calls. -/
def Reachable [LinearOrder Key] (t : AVLTree Key Value) : Prop := Built true true t

/-- Height of the subtree actually hanging at a pointer: -1 for `nullptr`. -/
def height : node Key Value → Int
  | .nullptr => -1
  | .mk _ _ _ _ l r _ => 1 + max (height l) (height r)

/-- Balance and height bookkeeping at every node, on the stored heights:
`|height(right) - height(left)| ≤ 1` and
`height_ = 1 + max(height(left), height(right))`. -/
def AVLInv : node Key Value → Prop
  | .nullptr => True
  | .mk _ _ _ _ l r h =>
      AVLInv l ∧ AVLInv r ∧ |GetHeightNum r - GetHeightNum l| ≤ 1 ∧
        h = 1 + max (GetHeightNum l) (GetHeightNum r)

/-- The same invariant read on the heights of the actual subtrees, the stored
height of every node being the actual height of its subtree. -/
def AVLActual : node Key Value → Prop
  | .nullptr => True
  | .mk _ _ _ _ l r h =>
      AVLActual l ∧ AVLActual r ∧ |height r - height l| ≤ 1 ∧
        h = 1 + max (height l) (height r)

/-- A tree of natural-number keys built by five inserts (the third one a
duplicate) and one erase: the running example of the checks below. -/
def sampleTree : AVLTree Nat Nat :=
  ((((((AVLTree.empty.insert 30 1 false).1.insert 20 2 false).1.insert 20 3 true).1.insert
    10 4 false).1.insert 40 5 true).1).erase { it_node := some 1, it_prev_node := none }

/-- In-order sequence of the nodes as triples `(address, key_, value_)`. -/
def cells : node Key Value → List (Nat × Key × Value)
  | .nullptr => []
  | .mk a k v _ l r _ => cells l ++ (a, k, v) :: cells r

/-- List-level meaning of an insertion in duplicate mode: the entry goes
immediately before the first entry whose key is not less than `key`. -/
def insertBefore [LinearOrder Key] (key : Key) (value : Value) :
    List (Key × Value) → List (Key × Value)
  | [] => [(key, value)]
  | e :: es => if e.1 < key then e :: insertBefore key value es else (key, value) :: e :: es

/-- The pointer `s` designates a node of the tree `t`: `t` itself or a node
reached from it through `left_` and `right_` links. -/
def nodeOf (s : node Key Value) : node Key Value → Prop
  | .nullptr => False
  | .mk a k v p l r h => s = .mk a k v p l r h ∨ nodeOf s l ∨ nodeOf s r

/-- A tree of natural-number keys built without duplicates: four inserts
(the last one of a key already stored) and one erase. -/
def sampleSet : AVLTree Nat Nat :=
  (((((AVLTree.empty.insert 2 20 false).1.insert 1 10 false).1.insert 3 30 false).1.insert
    2 99 false).1).erase { it_node := some 2, it_prev_node := none }

/-- Inserting the entries of a list one by one with `allow_duplicates = false`. -/
def insertAll [LinearOrder Key] (t : AVLTree Key Value) (es : List (Key × Value)) :
    AVLTree Key Value :=
  es.foldl (fun acc e => (acc.insert e.1 e.2 false).1) t

/-- Inserting the entries of a list one by one into the empty tree with
`allow_duplicates = true`. -/
def insertDups [LinearOrder Key] (es : List (Key × Value)) : AVLTree Key Value :=
  es.foldl (fun acc e => (acc.insert e.1 e.2 true).1) AVLTree.empty

/-- Order of the duplicate-allowing mode with duplicates on the left only: at
every node the keys of the left subtree are not greater than the key of the
node and the keys of the right subtree are strictly greater. -/
def DuplicatesLeftOrder [LinearOrder Key] : node Key Value → Prop
  | .nullptr => True
  | .mk _ k _ _ l r _ =>
      (∀ x ∈ keys l, x ≤ k) ∧ (∀ x ∈ keys r, k < x) ∧
        DuplicatesLeftOrder l ∧ DuplicatesLeftOrder r

/-- Order with duplicates on either side: at every node the keys of the left
subtree are not greater than the key of the node and the keys of the right
subtree are not less. -/
def WeakOrder [LinearOrder Key] : node Key Value → Prop
  | .nullptr => True
  | .mk _ k _ _ l r _ =>
      (∀ x ∈ keys l, x ≤ k) ∧ (∀ x ∈ keys r, k ≤ x) ∧ WeakOrder l ∧ WeakOrder r

/-- Consistency of the `parent_` links of a subtree hanging below `parent`:
the link of its top node is `parent` and the link of every other node is the
address of the node that holds it as a child. -/
def ParentsOK (parent : Option Nat) : node Key Value → Prop
  | .nullptr => True
  | .mk a _ _ p l r _ => p = parent ∧ ParentsOK (some a) l ∧ ParentsOK (some a) r

/-- The `it_node` reached by `++` from the node at address `x`. -/
def incNode (mem : node Key Value) (fuel : Nat) (x : Nat) : Option (Option Nat) :=
  (Iterator.increment mem fuel { it_node := some x, it_prev_node := none }).map (·.it_node)

/-- Along the list of addresses `++` leads from each node to the next one and
from the last one to `exit`. -/
def IncChain (mem : node Key Value) (fuel : Nat) : List Nat → Option Nat → Prop
  | [], _ => True
  | x :: rest, exit => incNode mem fuel x = some (rest.head?.or exit) ∧
      IncChain mem fuel rest exit

/-- The multiset obtained by inserting 30, 20, 40, 20 and then calling
`erase(find(20))`. -/
def erasedDuplicate : Multiset Nat :=
  (Multiset.ofList [30, 20, 40, 20]).erase ((Multiset.ofList [30, 20, 40, 20]).find 20)

/-- The multiset of the test fixture, 10, 20, 20, 30, after `erase(find(20))`. -/
def erasedFixture : Multiset Nat :=
  (Multiset.ofList [10, 20, 20, 30]).erase ((Multiset.ofList [10, 20, 20, 30]).find 20)

/-- Every stored height is at least 0, as it is after `new node` (0) and
after `SetHeight` over children satisfying the same. -/
def HeightsNonneg : node Key Value → Prop
  | .nullptr => True
  | .mk _ _ _ _ l r h => 0 ≤ h ∧ HeightsNonneg l ∧ HeightsNonneg r

/-- Source `CopyTree(Node, parent)`: every node is rebuilt by
`new node(key_, value_, parent)`, so the copy has `height_` 0 everywhere.  The
new nodes take the addresses from `next` on, in the order the source
allocates them (node, left subtree, right subtree); the second component is
the next unused address. -/
def CopyTree (next : Nat) : node Key Value → Option Nat → node Key Value × Nat
  | .nullptr, _ => (.nullptr, next)
  | .mk _ k v _ l r _, parent =>
      let cl := CopyTree (next + 1) l (some next)
      let cr := CopyTree cl.2 r (some next)
      (.mk next k v parent cl.1 cr.1 0, cr.2)

/-- Source `AVLTree(const AVLTree& other)`: `root = CopyTree(other.root, nullptr)`. -/
def AVLTree.copy (other : AVLTree Key Value) : AVLTree Key Value :=
  { root := (CopyTree 0 other.root none).1, alloc := (CopyTree 0 other.root none).2 }

/-- The statement `for (it = tree.begin(); it != tree.end(); ++it) body` of the
`merge` functions that walk a copy `tree` their body does not modify, from the
position `it` on: `last` is `tree.end()`, the body reads the iterator and
updates the state; `none` when the loop has not left within `fuel` rounds or
a step has no result. -/
def for_each_node {σ : Type} (mem : node Key Value) (last : Iterator)
    (body : Iterator → σ → Option σ) : Nat → Iterator → σ → Option σ
  | 0, it, s => if it.eq last then some s else none
  | fuel + 1, it, s =>
      if it.eq last then some s
      else
        match body it s with
        | none => none
        | some s' =>
            match it.increment mem (fuel + 1) with
            | none => none
            | some nxt => for_each_node mem last body fuel nxt s'

/-- Body of the loop of `AVLTree::merge`: `auto res = insert(*it); if
(res.second) other.erase(res.first);` on the pair `(this, other)`; `*it`
reads the copy `tree`, the inserted value is `value_type()`. -/
def AVLTree.merge_body [LinearOrder Key] [Inhabited Value] (tree : AVLTree Key Value)
    (it : Iterator) (s : AVLTree Key Value × AVLTree Key Value) :
    Option (AVLTree Key Value × AVLTree Key Value) :=
  match it.deref tree.root with
  | .error _ => none
  | .ok key =>
      let res := s.1.insert key default false
      some (res.1, if res.2.2 then s.2.erase_in res.1.root res.2.1 else s.2)

/-- Source `AVLTree::merge(other)`, called on `this`: the pair `(this, other)`
after the call. -/
def AVLTree.merge [LinearOrder Key] [Inhabited Value] (fuel : Nat)
    (this other : AVLTree Key Value) : Option (AVLTree Key Value × AVLTree Key Value) :=
  for_each_node other.copy.root (AVLTree.end other.copy) (AVLTree.merge_body other.copy) fuel
    other.copy.begin (this, other)

/-- Class `Set`: the member `tree_`. -/
structure Set (Key : Type) where
  tree_ : AVLTree Key Key
deriving Repr

/-- Source `Set()`. -/
def Set.empty : Set Key := { tree_ := AVLTree.empty }

/-- Source `Set::insert(key)`: `tree_.insert(key, key)`. -/
def Set.insert [LinearOrder Key] (s : Set Key) (key : Key) : Set Key × Iterator × Bool :=
  ({ tree_ := (s.tree_.insert key key false).1 }, (s.tree_.insert key key false).2)

/-- Source `Set::erase(pos)`, where `*pos` reads the memory `mem`. -/
def Set.erase_in [LinearOrder Key] (mem : node Key Key) (s : Set Key) (pos : Iterator) :
    Set Key :=
  { tree_ := s.tree_.erase_in mem pos }

/-- Source `Set::begin()`. -/
def Set.begin (s : Set Key) : Iterator := s.tree_.begin

/-- Source `Set::end()`. -/
def Set.end (s : Set Key) : Iterator := AVLTree.end s.tree_

/-- The set built by inserting the items of a list one by one. -/
def Set.ofList [LinearOrder Key] (items : List Key) : Set Key :=
  items.foldl (fun s x => (s.insert x).1) Set.empty

/-- One round of the loop of `Set::merge` on the state `(it, this, other)`,
entered with `it != other.end()`: `auto res = insert(*it); if (res.second)
other.erase(res.first);` followed by `++it`.  The iterator walks `other`
itself, so `*it` and `++it` read the memory of `other` as the erase left it. -/
def Set.merge_round [LinearOrder Key] (fuel : Nat) (s : Iterator × Set Key × Set Key) :
    Option (Iterator × Set Key × Set Key) :=
  match s.1.deref s.2.2.tree_.root with
  | .error _ => none
  | .ok key =>
      let res := s.2.1.insert key
      let other := if res.2.2 then s.2.2.erase_in res.1.tree_.root res.2.1 else s.2.2
      match s.1.increment other.tree_.root fuel with
      | none => none
      | some nxt => some (nxt, res.1, other)

/-- The loop `for (auto it = other.begin(); it != other.end(); ++it)` of
`Set::merge` from the state `(it, this, other)` on. -/
def Set.merge_loop [LinearOrder Key] : Nat → Iterator × Set Key × Set Key →
    Option (Set Key × Set Key)
  | 0, s => if s.1.eq s.2.2.end then some (s.2.1, s.2.2) else none
  | fuel + 1, s =>
      if s.1.eq s.2.2.end then some (s.2.1, s.2.2)
      else
        match Set.merge_round (fuel + 1) s with
        | none => none
        | some s' => Set.merge_loop fuel s'

/-- Source `Set::merge(other)`, called on `this`: the pair `(this, other)` after
the call. -/
def Set.merge [LinearOrder Key] (fuel : Nat) (this other : Set Key) :
    Option (Set Key × Set Key) :=
  Set.merge_loop fuel (other.begin, this, other)

/-- Class `map`: derived from `AVLTree<Key, T>`, no member of its own. -/
structure map (Key T : Type) extends AVLTree Key T
deriving Repr

/-- Class `MapIterator`: derived from `Iterator`, same two pointers. -/
abbrev MapIterator := Iterator

/-- Source `MapIterator::operator*` on the memory `mem`: the value-initialised
pair `{}` when `it_node` is null, else the pair of `key_` and `value_`.  A
pointer to no node of `mem` (undefined behaviour in the source) ends in the
fault. -/
def MapIterator.deref [Inhabited Key] [Inhabited Value] (mem : node Key Value)
    (it : MapIterator) : Except Fault (Key × Value) :=
  match it.it_node with
  | none => .ok (default, default)
  | some a =>
      match lookup a mem with
      | .nullptr => .error .out_of_range
      | .mk _ k v _ _ _ _ => .ok (k, v)

/-- Source `MapIterator::return_value` on the memory `mem`: the static
`imagine_val` (a value-initialised `T`) when `it_node` is null, else `value_`
of the node; also `imagine_val` for a pointer to no node of `mem`. -/
def MapIterator.return_value [Inhabited Value] (mem : node Key Value) (it : MapIterator) :
    Value :=
  match it.it_node with
  | none => default
  | some a =>
      match lookup a mem with
      | .nullptr => default
      | .mk _ _ v _ _ _ _ => v

/-- Source `map()`. -/
def map.empty : map Key Value := { root := .nullptr, alloc := 0 }

/-- Source `map::begin()`. -/
def map.begin (m : map Key Value) : MapIterator :=
  { it_node := (GetMinNode m.root).addrOf, it_prev_node := none }

/-- Source `map::end()`. -/
def map.end (m : map Key Value) : MapIterator :=
  if m.root.isNull then m.begin
  else { it_node := none, it_prev_node := (GetMaxNode m.root).addrOf }

/-- Source `map::find(key)` (private). -/
def map.find [LinearOrder Key] (m : map Key Value) (key : Key) : MapIterator :=
  { it_node := (RecursiveSearch m.root key).addrOf, it_prev_node := none }

/-- Source `map::size()`. -/
def map.size (m : map Key Value) : Nat := m.toAVLTree.size

/-- Source `map::contains(key)`. -/
def map.contains [LinearOrder Key] (m : map Key Value) (key : Key) : Bool :=
  m.toAVLTree.contains key

/-- Source `map::insert(key, obj)`: the map after the call and the returned pair. -/
def map.insert [LinearOrder Key] (m : map Key Value) (key : Key) (obj : Value) :
    map Key Value × MapIterator × Bool :=
  match m.root with
  | .nullptr =>
      ({ root := node.new m.alloc key obj none, alloc := m.alloc + 1 },
        { it_node := some m.alloc, it_prev_node := none }, true)
  | .mk a k v p l r h =>
      let status := RecursiveInsertion m.alloc (.mk a k v p l r h) key obj false
      let m' : map Key Value :=
        { root := status.1, alloc := if status.2 then m.alloc + 1 else m.alloc }
      (m', m'.find key, status.2)

/-- Source `map::erase(pos)`, where `*pos` reads the memory `mem` the iterator
points into. -/
def map.erase_in [LinearOrder Key] [Inhabited Key] [Inhabited Value] (mem : node Key Value)
    (m : map Key Value) (pos : MapIterator) : map Key Value :=
  if m.root.isNull ∨ pos.it_node = none then m
  else
    match MapIterator.deref mem pos with
    | .ok e => { m with root := RecursiveDeleting m.root e.1 }
    | .error _ => m

/-- Source `map::erase(pos)` for an iterator of the map itself. -/
def map.erase [LinearOrder Key] [Inhabited Key] [Inhabited Value] (m : map Key Value)
    (pos : MapIterator) : map Key Value :=
  m.erase_in m.root pos

/-- Source `map::at(key)`: the map after the call (the body writes nothing) and
the value returned or the `out_of_range` thrown. -/
def map.at [LinearOrder Key] [Inhabited Value] (m : map Key Value) (key : Key) :
    map Key Value × Except Fault Value :=
  if (m.find key).eq m.end then (m, .error .out_of_range)
  else (m, .ok (MapIterator.return_value m.root (m.find key)))

/-- Source `map::operator[](key)`: the map after the call and the value the
returned reference designates. -/
def map.subscript [LinearOrder Key] [Inhabited Value] (m : map Key Value) (key : Key) :
    map Key Value × Value :=
  if (m.find key).eq m.end then
    ((m.insert key default).1,
      MapIterator.return_value (m.insert key default).1.root (m.insert key default).2.1)
  else (m, MapIterator.return_value m.root (m.find key))

/-- Source `map::at(key)` as the reference it returns: the `value_` of the
node found (`return_value()`, which for a null `it_node` refers to its static
`imagine_val`), or the `out_of_range` thrown. -/
def map.at_reference [LinearOrder Key] [Inhabited Value] (m : map Key Value) (key : Key) :
    Except Fault (Reference Value) :=
  if (m.find key).eq m.end then .error .out_of_range
  else
    match (m.find key).it_node with
    | none => .ok (.object default)
    | some a => .ok (.stored a)

/-- Source `map::insert_or_assign(key, obj)`: the map after the call and the
returned pair, or the undefined behaviour met.  `obj` is a `const T&`: it is
read when `insert` copies it, which for a key already stored is after
`erase(ptr)` has deleted a node and moved entries between nodes. -/
def map.insert_or_assign [LinearOrder Key] [Inhabited Key] [Inhabited Value]
    (m : map Key Value) (key : Key) (obj : Reference Value) :
    Except Fault (map Key Value × MapIterator × Bool) :=
  if ¬ ((m.find key).eq m.end = true) then
    match obj.in_tree (m.erase (m.find key)).root with
    | .error e => .error e
    | .ok x =>
        .ok (((m.erase (m.find key)).insert key x).1,
          ((m.erase (m.find key)).insert key x).2.1, false)
  else
    match obj.in_tree m.root with
    | .error e => .error e
    | .ok x => .ok (m.insert key x)

/-- Source `map(const map &m)`: the copy constructor of `AVLTree`. -/
def map.copy (other : map Key Value) : map Key Value :=
  { root := (CopyTree 0 other.root none).1, alloc := (CopyTree 0 other.root none).2 }

/-- Body of the loop of `map::merge`: `key = (*c_it).first; obj =
(*c_it).second; res = insert(key, obj); if (res.second)
other.erase(res.first);` on the pair `(this, other)`; `*c_it` reads the copy
`c_tree`. -/
def map.merge_body [LinearOrder Key] [Inhabited Key] [Inhabited Value] (c_tree : map Key Value)
    (c_it : MapIterator) (s : map Key Value × map Key Value) :
    Option (map Key Value × map Key Value) :=
  match MapIterator.deref c_tree.root c_it with
  | .error _ => none
  | .ok e =>
      let res := s.1.insert e.1 e.2
      some (res.1, if res.2.2 then s.2.erase_in res.1.root res.2.1 else s.2)

/-- Source `map::merge(other)`, called on `this`: the pair `(this, other)` after
the call. -/
def map.merge [LinearOrder Key] [Inhabited Key] [Inhabited Value] (fuel : Nat)
    (this other : map Key Value) : Option (map Key Value × map Key Value) :=
  for_each_node other.copy.root other.copy.end (map.merge_body other.copy) fuel
    other.copy.begin (this, other)

/-- The map built by inserting the pairs of a list one by one (the
initializer-list constructor). -/
def map.ofList [LinearOrder Key] (items : List (Key × Value)) : map Key Value :=
  items.foldl (fun m e => (m.insert e.1 e.2).1) map.empty

/-- The tree obtained by inserting 10 and 20 and then calling `erase(find(10))`. -/
def erasedRoot : AVLTree Nat Nat :=
  ((AVLTree.empty.insert 10 10 false).1.insert 20 20 false).1.erase
    (((AVLTree.empty.insert 10 10 false).1.insert 20 20 false).1.find 10)

/-- The map built from the pairs (1, 10), (2, 20), (3, 30). -/
def sampleMap : map Nat Nat := map.ofList [(1, 10), (2, 20), (3, 30)]

/-- Invariant of a tree that stores every key once, as `map` and `Set` keep it:
the in-order keys increase strictly, the nodes have distinct addresses below
the allocator state, and no stored height is negative. -/
def TreeInv [LinearOrder Key] (t : AVLTree Key Value) : Prop :=
  (keys t.root).Pairwise (· < ·) ∧ (addrs t.root).Nodup ∧
    (∀ a ∈ addrs t.root, a < t.alloc) ∧ HeightsNonneg t.root

/-- What one round of the loop of a `merge` over a copy does to the pair
`(this, other)` at the entry `e` of the copy, `g e` being the value inserted:
`res = insert(e.first, g e); if (res.second) other.erase(res.first);`. -/
def mergeStep [LinearOrder Key] (g : Key × Value → Value) (e : Key × Value)
    (s : AVLTree Key Value × AVLTree Key Value) : AVLTree Key Value × AVLTree Key Value :=
  ((s.1.insert e.1 (g e) false).1,
    if (s.1.insert e.1 (g e) false).2.2 then
      s.2.erase_in (s.1.insert e.1 (g e) false).1.root (s.1.insert e.1 (g e) false).2.1
    else s.2)

/-- The tree with the keys 1, 2, 3 of the merge example. -/
def mergeLeft : AVLTree Nat Nat := insertAll AVLTree.empty [(1, 10), (2, 20), (3, 30)]

/-- The tree with the keys 2, 3, 4 of the merge example. -/
def mergeRight : AVLTree Nat Nat := insertAll AVLTree.empty [(2, 200), (3, 300), (4, 400)]

/-- The map with the keys 1, 2, 3 of the merge example. -/
def mergeLeftMap : map Nat Nat := map.ofList [(1, 10), (2, 20), (3, 30)]

/-- The map with the keys 2, 3, 4 of the merge example. -/
def mergeRightMap : map Nat Nat := map.ofList [(2, 200), (3, 300), (4, 400)]

/-- The set with the key 1 (the target of the merge that does not end). -/
def stuckTarget : Set Nat := Set.ofList [1]

/-- The set built by inserting 2 and then 1 (the source of the merge that does
not end): the root holds 2 and has the left child 1. -/
def stuckSource : Set Nat := Set.ofList [2, 1]

/-- The state `(it, this, other)` the loop of `Set::merge` reaches after two
rounds on `stuckTarget` and `stuckSource`: `this` holds 1 and 2, `other` is
the single node of address 0, holding 1, whose `parent_` is its own address,
and `it` is at this node. -/
def stuckState : Iterator × Set Nat × Set Nat :=
  ({ it_node := some 0, it_prev_node := none },
    { tree_ := { root := .mk 0 1 1 none .nullptr (.mk 1 2 2 (some 0) .nullptr .nullptr 0) 1,
                 alloc := 2 } },
    { tree_ := { root := .mk 0 1 1 (some 0) .nullptr .nullptr 0, alloc := 2 } })

/-- The sets of the merge example, with the keys 1, 2, 3 and 2, 3, 4. -/
def exampleTarget : Set Nat := Set.ofList [1, 2, 3]

/-- The source set of the merge example, with the keys 2, 3, 4. -/
def exampleSource : Set Nat := Set.ofList [2, 3, 4]

/-- Source `empty()`: `root == nullptr`. -/
def AVLTree.isEmpty (t : AVLTree Key Value) : Bool := t.root.isNull

/-- Source `erase(pos)` with the outcome of the call made explicit: the tree
after a call that returns, or the exception `*pos` throws.  The guard returns
before `*pos` is evaluated. -/
def AVLTree.erase_outcome [LinearOrder Key] (mem : node Key Value) (t : AVLTree Key Value)
    (pos : Iterator) : Except Fault (AVLTree Key Value) :=
  if t.root.isNull ∨ pos.it_node = none then .ok t
  else
    match pos.deref mem with
    | .ok key => .ok { t with root := RecursiveDeleting t.root key }
    | .error e => .error e

/-- Source `map::erase(pos)` with the outcome of the call made explicit. -/
def map.erase_outcome [LinearOrder Key] [Inhabited Key] [Inhabited Value]
    (mem : node Key Value) (m : map Key Value) (pos : MapIterator) :
    Except Fault (map Key Value) :=
  if m.root.isNull ∨ pos.it_node = none then .ok m
  else
    match MapIterator.deref mem pos with
    | .ok e => .ok { m with root := RecursiveDeleting m.root e.1 }
    | .error e => .error e

/-- Source `Set::erase(pos)` for an iterator of the set itself. -/
def Set.erase [LinearOrder Key] (s : Set Key) (pos : Iterator) : Set Key :=
  s.erase_in s.tree_.root pos

/-- Source `Set::erase(pos)`, `tree_.erase(pos)`, with the outcome made explicit. -/
def Set.erase_outcome [LinearOrder Key] (s : Set Key) (pos : Iterator) :
    Except Fault (Set Key) :=
  (s.tree_.erase_outcome s.tree_.root pos).map (fun t => { tree_ := t })

/-- Source `Multiset::erase(pos)`, `tree_.erase(pos)`, with the outcome made
explicit. -/
def Multiset.erase_outcome [LinearOrder Key] (m : Multiset Key) (pos : Iterator) :
    Except Fault (Multiset Key) :=
  (m.tree_.erase_outcome m.tree_.root pos).map (fun t => { tree_ := t })

/-- Source `Multiset::end()`. -/
def Multiset.end (m : Multiset Key) : Iterator := AVLTree.end m.tree_

/-- Source `Set::size()`. -/
def Set.size (s : Set Key) : Nat := s.tree_.size

/-- Source `Set::empty()`. -/
def Set.isEmpty (s : Set Key) : Bool := s.tree_.isEmpty

/-- Source `Multiset::empty()`. -/
def Multiset.isEmpty (m : Multiset Key) : Bool := m.tree_.isEmpty

/-- Source `Multiset::contains(key)`. -/
def Multiset.contains [LinearOrder Key] (m : Multiset Key) (key : Key) : Bool :=
  m.tree_.contains key

/-- Source `AVLTree(AVLTree&& other)`: the pair of the tree constructed, which
takes over `other.root`, and of `other` after the call, whose `root` is null. -/
def AVLTree.move_construct (other : AVLTree Key Value) :
    AVLTree Key Value × AVLTree Key Value :=
  ({ root := other.root, alloc := other.alloc }, { other with root := .nullptr })

/-- Source `operator=(AVLTree&& other)` on two distinct objects: the pair
`(this, other)` after the call.  The nodes `this` held before are not freed;
their addresses stay in use, so the allocator state covers both trees. -/
def AVLTree.move_assign (this other : AVLTree Key Value) :
    AVLTree Key Value × AVLTree Key Value :=
  ({ root := other.root, alloc := max this.alloc other.alloc }, { other with root := .nullptr })

/-- Source `Set(Set&& other)`: `tree_(std::move(other.tree_))`. -/
def Set.move_construct (other : Set Key) : Set Key × Set Key :=
  ({ tree_ := other.tree_.move_construct.1 }, { tree_ := other.tree_.move_construct.2 })

/-- Source `Set::operator=(Set&& other)` on two distinct objects. -/
def Set.move_assign (this other : Set Key) : Set Key × Set Key :=
  ({ tree_ := (this.tree_.move_assign other.tree_).1 },
    { tree_ := (this.tree_.move_assign other.tree_).2 })

/-- Source `Multiset(Multiset&& other)`: `tree_(std::move(other.tree_))`. -/
def Multiset.move_construct (other : Multiset Key) : Multiset Key × Multiset Key :=
  ({ tree_ := other.tree_.move_construct.1 }, { tree_ := other.tree_.move_construct.2 })

/-- Source `Multiset::operator=(Multiset&& other)` on two distinct objects. -/
def Multiset.move_assign (this other : Multiset Key) : Multiset Key × Multiset Key :=
  ({ tree_ := (this.tree_.move_assign other.tree_).1 },
    { tree_ := (this.tree_.move_assign other.tree_).2 })

/-- Source `Multiset(const Multiset& other)`: `tree_(other.tree_)`. -/
def Multiset.copy (other : Multiset Key) : Multiset Key := { tree_ := other.tree_.copy }

/-- The shape of a tree with the entry stored at every position: what is left
of the node graph when addresses, parent links and stored heights are
forgotten. -/
inductive Shape (Key Value : Type) where
  | leaf : Shape Key Value
  | fork (key_ : Key) (value_ : Value) (left_ right_ : Shape Key Value) : Shape Key Value
deriving DecidableEq, Repr

/-- The shape of the tree hanging at a pointer. -/
def shapeOf : node Key Value → Shape Key Value
  | .nullptr => .leaf
  | .mk _ k v _ l r _ => .fork k v (shapeOf l) (shapeOf r)

/-- The tree built by inserting 40, 20, 60, 10, 30, 50 (no duplicates). -/
def sixKeys : AVLTree Nat Nat :=
  insertAll AVLTree.empty [(40, 40), (20, 20), (60, 60), (10, 10), (30, 30), (50, 50)]

/-- The copy of `sixKeys` after `insert(25)`. -/
def sixKeysCopyInsert : AVLTree Nat Nat := (sixKeys.copy.insert 25 25 false).1

variable {T : Type}

/-- Arithmetic of `size_t`: every result is taken modulo 2^64. -/
def size_t (n : Nat) : Nat := n % 2 ^ 64

/-- Class `Queue<T>`: the array `data_` points to, as the list of its cells, and
the members `size_`, `capacity_`, `front_`, `back_`. -/
structure Queue (T : Type) where
  data_ : List T
  size_ : Nat
  capacity_ : Nat
  front_ : Nat
  back_ : Nat
deriving DecidableEq, Repr

/-- Source `Queue()`: an array of one value-initialised cell. -/
def Queue.new [Inhabited T] : Queue T :=
  { data_ := List.replicate 1 default, size_ := 0, capacity_ := 1, front_ := 0, back_ := 0 }

/-- Source `Queue::empty()`. -/
def Queue.empty (q : Queue T) : Bool := decide (q.size_ = 0)

/-- Source `Queue::size()`. -/
def Queue.size (q : Queue T) : Nat := q.size_

/-- The loop `for (i = 0; i < size_; ++i) dst[i] = src[(front_ + i) %
capacity_];` of `resize` and of the copy operations, from the index `i` on with
`n` rounds to go.  A remainder by zero and an access outside either array are
undefined behaviour. -/
def Queue.copy_loop (src : List T) (front_ capacity_ : Nat) :
    Nat → Nat → List T → Except Fault (List T)
  | 0, _, dst => .ok dst
  | n + 1, i, dst =>
      if capacity_ = 0 then .error .undefined_behaviour
      else
        match src[size_t (front_ + i) % capacity_]? with
        | none => .error .undefined_behaviour
        | some x =>
            if i < dst.length then
              Queue.copy_loop src front_ capacity_ n (i + 1) (dst.set i x)
            else .error .undefined_behaviour

/-- Source `Queue::resize(new_capacity)`: a new array of value-initialised
cells receives the elements from index 0 on; `front_ = 0`, `back_ = size_`. -/
def Queue.resize [Inhabited T] (q : Queue T) (new_capacity : Nat) : Except Fault (Queue T) :=
  match Queue.copy_loop q.data_ q.front_ q.capacity_ q.size_ 0
      (List.replicate new_capacity default) with
  | .error e => .error e
  | .ok new_data =>
      .ok { data_ := new_data, size_ := q.size_, capacity_ := new_capacity, front_ := 0,
            back_ := q.size_ }

/-- The statements `data_[back_] = value; back_ = (back_ + 1) % capacity_;
size_++;` of `push`. -/
def Queue.store (q : Queue T) (value : T) : Except Fault (Queue T) :=
  if q.back_ < q.data_.length then
    if q.capacity_ = 0 then .error .undefined_behaviour
    else
      .ok { q with data_ := q.data_.set q.back_ value,
                   back_ := size_t (q.back_ + 1) % q.capacity_,
                   size_ := size_t (q.size_ + 1) }
  else .error .undefined_behaviour

/-- Source `Queue::push(value)`: the queue after the call, or the undefined
behaviour met.  `value` is a `const T&` and is read by `data_[back_] = value`,
after `resize` has released the array `data_` pointed to: a reference into
that array then refers to no object. -/
def Queue.push [Inhabited T] (q : Queue T) (value : Reference T) : Except Fault (Queue T) :=
  match (if q.size_ = q.capacity_ then q.resize (size_t (q.capacity_ * 2)) else .ok q) with
  | .error e => .error e
  | .ok q1 =>
      match value with
      | .object x => q1.store x
      | .stored i =>
          if q.size_ = q.capacity_ then .error .undefined_behaviour
          else
            match q1.data_[i]? with
            | some x => q1.store x
            | none => .error .undefined_behaviour

/-- Source `Queue::pop()`: the queue after the call and its outcome; the
exception is thrown before any member is written. -/
def Queue.pop (q : Queue T) : Queue T × Except Fault Unit :=
  if q.empty then (q, .error .out_of_range)
  else if q.capacity_ = 0 then (q, .error .undefined_behaviour)
  else
    ({ q with front_ := size_t (q.front_ + 1) % q.capacity_,
              size_ := size_t (q.size_ + (2 ^ 64 - 1)) }, .ok ())

/-- Source `Queue::front()`. -/
def Queue.front (q : Queue T) : Except Fault T :=
  if q.empty then .error .out_of_range
  else
    match q.data_[q.front_]? with
    | none => .error .undefined_behaviour
    | some x => .ok x

/-- Source `Queue::back()`: `data_[(back_ - 1 + capacity_) % capacity_]`. -/
def Queue.back (q : Queue T) : Except Fault T :=
  if q.empty then .error .out_of_range
  else if q.capacity_ = 0 then .error .undefined_behaviour
  else
    match q.data_[size_t (size_t (q.back_ + (2 ^ 64 - 1)) + q.capacity_) % q.capacity_]? with
    | none => .error .undefined_behaviour
    | some x => .ok x

/-- Source `Queue::front()` as the reference it returns: the cell `front_` of
the array. -/
def Queue.front_reference (q : Queue T) : Except Fault (Reference T) :=
  if q.empty then .error .out_of_range else .ok (.stored q.front_)

/-- Source `Queue::clear()`. -/
def Queue.clear (q : Queue T) : Queue T := { q with size_ := 0, front_ := 0, back_ := 0 }

/-- Source `Queue(const Queue& other)`: the members are copied as they are and
the elements are copied to the indices from 0 on of a new array. -/
def Queue.copy [Inhabited T] (other : Queue T) : Except Fault (Queue T) :=
  match Queue.copy_loop other.data_ other.front_ other.capacity_ other.size_ 0
      (List.replicate other.capacity_ default) with
  | .error e => .error e
  | .ok d =>
      .ok { data_ := d, size_ := other.size_, capacity_ := other.capacity_,
            front_ := other.front_, back_ := other.back_ }

/-- Source `Queue::operator=(const Queue& other)` on two distinct objects: the
same statements as the copy constructor, the previous array being released. -/
def Queue.copy_assign [Inhabited T] (_this other : Queue T) : Except Fault (Queue T) :=
  match Queue.copy_loop other.data_ other.front_ other.capacity_ other.size_ 0
      (List.replicate other.capacity_ default) with
  | .error e => .error e
  | .ok d =>
      .ok { data_ := d, size_ := other.size_, capacity_ := other.capacity_,
            front_ := other.front_, back_ := other.back_ }

/-- A call of the mutating interface of `Queue` (and of `Stack`, which has no
other mutator than these); the argument of `push` is an object outside the
container, holding `value`. -/
inductive Call (T : Type) where
  | push (value : T) : Call T
  | pop : Call T
  | clear : Call T
deriving DecidableEq, Repr

/-- One call on a queue: the queue after it and its outcome. -/
def Queue.call [Inhabited T] (q : Queue T) : Call T → Queue T × Except Fault Unit
  | .push value =>
      match q.push (.object value) with
      | .ok q' => (q', .ok ())
      | .error e => (q, .error e)
  | .pop => q.pop
  | .clear => (q.clear, .ok ())

/-- A sequence of calls on a queue, the caller catching the exceptions: the
queue after the last call, or the undefined behaviour met on the way. -/
def Queue.run [Inhabited T] : Queue T → List (Call T) → Except Fault (Queue T)
  | q, [] => .ok q
  | q, c :: cs =>
      match q.call c with
      | (_, .error .undefined_behaviour) => .error .undefined_behaviour
      | (q', _) => Queue.run q' cs

/-- The first-in-first-out list of the claim: `push` puts an element behind
the newest one, `pop` removes the oldest one (nothing on the empty list),
`clear` removes all. -/
def fifo : List T → List (Call T) → List T
  | L, [] => L
  | L, .push value :: cs => fifo (L ++ [value]) cs
  | L, .pop :: cs => fifo L.tail cs
  | _, .clear :: cs => fifo [] cs

/-- What a reader of a list container gets, as the accessors of the source
report it: the element, or `out_of_range` when there is none. -/
def element_or_throw : Option T → Except Fault T
  | some x => .ok x
  | none => .error .out_of_range

/-- The elements of a queue from the oldest to the newest: the `size_` cells
from `front_` on, around the end of the array. -/
def Queue.lift [Inhabited T] (q : Queue T) : List T :=
  (List.range q.size_).map (fun i => q.data_.getD ((q.front_ + i) % q.capacity_) default)

/-- Invariant of the queues built from `Queue()` by at most `n` calls of `push`,
`pop` and `clear`. -/
def Queue.WF (q : Queue T) (n : Nat) : Prop :=
  q.data_.length = q.capacity_ ∧ 1 ≤ q.capacity_ ∧ q.size_ ≤ q.capacity_ ∧
    q.front_ < q.capacity_ ∧ q.back_ = (q.front_ + q.size_) % q.capacity_ ∧
    q.size_ ≤ n ∧ q.capacity_ ≤ 2 * n + 1
/-- Class `Stack<T>`: the array `data_` points to, as the list of its cells, and
the members `size_` and `capacity_`. -/
structure Stack (T : Type) where
  data_ : List T
  size_ : Nat
  capacity_ : Nat
deriving DecidableEq, Repr

/-- Source `Stack()`: an array of `MIN_STACK_SIZE` = 256 value-initialised cells. -/
def Stack.new [Inhabited T] : Stack T :=
  { data_ := List.replicate 256 default, size_ := 0, capacity_ := 256 }

/-- Source `Stack::empty()`. -/
def Stack.empty (s : Stack T) : Bool := decide (s.size_ = 0)

/-- Source `Stack::size()`. -/
def Stack.size (s : Stack T) : Nat := s.size_

/-- The loop `for (i = 0; i < size_; ++i) new_data[i] = std::move(data_[i]);` of
`Stack::resize`, from the index `i` on with `n` rounds to go.  An access
outside either array is undefined behaviour. -/
def Stack.move_loop (src : List T) : Nat → Nat → List T → Except Fault (List T)
  | 0, _, dst => .ok dst
  | n + 1, i, dst =>
      match src[i]? with
      | none => .error .undefined_behaviour
      | some x =>
          if i < dst.length then Stack.move_loop src n (i + 1) (dst.set i x)
          else .error .undefined_behaviour

/-- Source `Stack::resize(new_capacity)`. -/
def Stack.resize [Inhabited T] (s : Stack T) (new_capacity : Nat) : Except Fault (Stack T) :=
  match Stack.move_loop s.data_ s.size_ 0 (List.replicate new_capacity default) with
  | .error e => .error e
  | .ok new_data => .ok { data_ := new_data, size_ := s.size_, capacity_ := new_capacity }

/-- The statement `data_[size_++] = value;` of `push`. -/
def Stack.store (s : Stack T) (value : T) : Except Fault (Stack T) :=
  if s.size_ < s.data_.length then
    .ok { s with data_ := s.data_.set s.size_ value, size_ := size_t (s.size_ + 1) }
  else .error .undefined_behaviour

/-- Source `Stack::push(value)`: the stack after the call, or the undefined
behaviour met. -/
def Stack.push [Inhabited T] (s : Stack T) (value : T) : Except Fault (Stack T) :=
  match (if s.size_ = s.capacity_ then s.resize (size_t (s.capacity_ * 2)) else .ok s) with
  | .error e => .error e
  | .ok s1 => s1.store value

/-- Source `Stack::pop()`: the stack after the call and its outcome; the
exception is thrown before `size_` is written. -/
def Stack.pop (s : Stack T) : Stack T × Except Fault Unit :=
  if s.empty then (s, .error .out_of_range)
  else ({ s with size_ := size_t (s.size_ + (2 ^ 64 - 1)) }, .ok ())

/-- Source `Stack::top()`: `data_[size_ - 1]`. -/
def Stack.top (s : Stack T) : Except Fault T :=
  if s.empty then .error .out_of_range
  else
    match s.data_[size_t (s.size_ + (2 ^ 64 - 1))]? with
    | none => .error .undefined_behaviour
    | some x => .ok x

/-- Source `Stack::clear()`. -/
def Stack.clear (s : Stack T) : Stack T := { s with size_ := 0 }

/-- One call on a stack: the stack after it and its outcome. -/
def Stack.call [Inhabited T] (s : Stack T) : Call T → Stack T × Except Fault Unit
  | .push value =>
      match s.push value with
      | .ok s' => (s', .ok ())
      | .error e => (s, .error e)
  | .pop => s.pop
  | .clear => (s.clear, .ok ())

/-- A sequence of calls on a stack, the caller catching the exceptions: the
stack after the last call, or the undefined behaviour met on the way. -/
def Stack.run [Inhabited T] : Stack T → List (Call T) → Except Fault (Stack T)
  | s, [] => .ok s
  | s, c :: cs =>
      match s.call c with
      | (_, .error .undefined_behaviour) => .error .undefined_behaviour
      | (s', _) => Stack.run s' cs

/-- The last-in-first-out list of the claim, the most recently pushed element
last: `push` adds an element at the end, `pop` removes the last one (nothing
on the empty list), `clear` removes all. -/
def lifo : List T → List (Call T) → List T
  | L, [] => L
  | L, .push value :: cs => lifo (L ++ [value]) cs
  | L, .pop :: cs => lifo L.dropLast cs
  | _, .clear :: cs => lifo [] cs

/-- The elements of a stack from the oldest to the newest: the first `size_`
cells of the array. -/
def Stack.lift (s : Stack T) : List T := s.data_.take s.size_

/-- Invariant of the stacks built from `Stack()` by at most `n` calls of `push`,
`pop` and `clear`. -/
def Stack.WF (s : Stack T) (n : Nat) : Prop :=
  s.data_.length = s.capacity_ ∧ 1 ≤ s.capacity_ ∧ s.size_ ≤ s.capacity_ ∧
    s.size_ ≤ n ∧ s.capacity_ ≤ 2 * n + 256

/-- A sequence of calls that makes the buffer of a queue grow twice and its
indices wrap around. -/
def sampleCalls : List (Call Nat) :=
  [.push 1, .push 2, .pop, .push 3, .push 4, .pop, .pop, .push 5, .pop, .pop, .pop, .push 6,
    .clear, .push 7, .push 8]

/-- Three hundred `push` calls, one `pop` and one more `push`: more elements
than the initial capacity of a stack. -/
def manyCalls : List (Call Nat) := List.replicate 300 (.push 7) ++ [.pop, .push 9]

/-- The queue after `push(1); push(2); pop();` on a default-constructed queue:
the only element, 2, is in cell 1. -/
def poppedQueue : Queue Nat :=
  { data_ := [1, 2], size_ := 1, capacity_ := 2, front_ := 1, back_ := 0 }

/-- The copy of `poppedQueue` the copy constructor and the copy assignment
build: the element is in cell 0, `front_` is 1. -/
def poppedQueueCopy : Queue Nat :=
  { data_ := [2, 0], size_ := 1, capacity_ := 2, front_ := 1, back_ := 0 }
/-- Class `Vector<T>`: the members `size_` and `capacity_`, and the block `data_`
points to as the list of its cells, `none` for a cell that holds no
constructed object; a null `data_` has no cell. -/
structure Vector (T : Type) where
  size_ : Nat
  capacity_ : Nat
  data_ : List (Option T)
deriving DecidableEq, Repr

/-- Source `Vector()`: `size_(0), capacity_(0), data_(nullptr)`. -/
def Vector.new : Vector T := { size_ := 0, capacity_ := 0, data_ := [] }

/-- Source `Vector::empty()`. -/
def Vector.empty (v : Vector T) : Bool := decide (v.size_ = 0)

/-- Source `Vector::size()`. -/
def Vector.size (v : Vector T) : Nat := v.size_

/-- Source `Vector::at(index)`: `out_of_range` when `index >= size_`, else
`data_[index]`; reading a cell outside the block or without an object is
undefined behaviour. -/
def Vector.at (v : Vector T) (index : Nat) : Except Fault T :=
  if index ≥ v.size_ then .error .out_of_range
  else
    match v.data_[index]? with
    | some (some x) => .ok x
    | _ => .error .undefined_behaviour

/-- The loops `for (i = 0; i < size_; ++i) construct(dst + i, src[i]);` of
`reserve` (which moves) and `copyElements_` (which copies), from the index `i`
on with `n` rounds to go. -/
def Vector.construct_loop (src : List (Option T)) :
    Nat → Nat → List (Option T) → Except Fault (List (Option T))
  | 0, _, dst => .ok dst
  | n + 1, i, dst =>
      match src[i]? with
      | some (some x) =>
          if i < dst.length then Vector.construct_loop src n (i + 1) (dst.set i (some x))
          else .error .undefined_behaviour
      | _ => .error .undefined_behaviour

/-- Source `Vector::reserve(new_capacity)`. -/
def Vector.reserve (v : Vector T) (new_capacity : Nat) : Except Fault (Vector T) :=
  if new_capacity ≤ v.capacity_ then .ok v
  else
    match Vector.construct_loop v.data_ v.size_ 0 (List.replicate new_capacity none) with
    | .error e => .error e
    | .ok new_data => .ok { v with data_ := new_data, capacity_ := new_capacity }

/-- Source `Vector::push_back(value)`: the object is constructed at
`data_ + size_`, which is undefined behaviour outside the block (a null
`data_` included). -/
def Vector.push_back (v : Vector T) (value : T) : Except Fault (Vector T) :=
  match (if v.size_ = v.capacity_ then
      v.reserve (if v.capacity_ = 0 then 1 else size_t (v.capacity_ * 2)) else .ok v) with
  | .error e => .error e
  | .ok v1 =>
      if v1.size_ < v1.data_.length then
        .ok { v1 with data_ := v1.data_.set v1.size_ (some value), size_ := size_t (v1.size_ + 1) }
      else .error .undefined_behaviour

/-- The loop `for (i = size_ - 1; i > index; --i) std::swap(data_[i], data_[i - 1]);`
of `insert`, entered with the value `i`. -/
def Vector.swap_loop (index : Nat) : Nat → List (Option T) → Except Fault (List (Option T))
  | 0, d => .ok d
  | i + 1, d =>
      if i + 1 > index then
        match d[i + 1]?, d[i]? with
        | some (some x), some (some y) =>
            Vector.swap_loop index i ((d.set (i + 1) (some y)).set i (some x))
        | _, _ => .error .undefined_behaviour
      else .ok d

/-- Source `Vector::insert(pos, value)` for `pos = begin() + index`: the vector
after the call and the index of the returned iterator from the new `begin()`. -/
def Vector.insert (v : Vector T) (index : Nat) (value : T) : Except Fault (Vector T × Nat) :=
  match v.push_back value with
  | .error e => .error e
  | .ok v1 =>
      match Vector.swap_loop index (size_t (v1.size_ + (2 ^ 64 - 1))) v1.data_ with
      | .error e => .error e
      | .ok d => .ok ({ v1 with data_ := d }, index)

/-- The loop `for (i = index; i < index; ++i) data_[i] = std::move(data_[i + 1]);`
of `erase`, entered with the value `i`, with `fuel` tests of its condition. -/
def Vector.shift_loop (index : Nat) : Nat → Nat → List (Option T) → Except Fault (List (Option T))
  | 0, _, d => .ok d
  | fuel + 1, i, d =>
      if i < index then
        match d[i]?, d[i + 1]? with
        | some (some _), some (some y) => Vector.shift_loop index fuel (i + 1) (d.set i (some y))
        | _, _ => .error .undefined_behaviour
      else .ok d

/-- Source `Vector::erase(pos)` for `pos = begin() + offset`: the vector after
the call and the index of the returned iterator, or the exception. -/
def Vector.erase (v : Vector T) (offset : Int) : Vector T × Except Fault Nat :=
  if offset < 0 ∨ offset ≥ v.size_ then (v, .error .out_of_range)
  else
    match Vector.shift_loop offset.toNat v.size_ offset.toNat v.data_ with
    | .error e => (v, .error e)
    | .ok d => ({ v with size_ := size_t (v.size_ + (2 ^ 64 - 1)), data_ := d }, .ok offset.toNat)

/-- Source `Vector(const Vector& other)`: `size_` and `capacity_` are copied;
`data_` is null when `other` is empty, else a new block of `capacity_` cells
that receives copies of the elements. -/
def Vector.copy (other : Vector T) : Except Fault (Vector T) :=
  if other.empty then .ok { size_ := other.size_, capacity_ := other.capacity_, data_ := [] }
  else
    match Vector.construct_loop other.data_ other.size_ 0
        (List.replicate other.capacity_ none) with
    | .error e => .error e
    | .ok d => .ok { size_ := other.size_, capacity_ := other.capacity_, data_ := d }

/-- Source `Vector::operator=(const Vector& other)` on two distinct objects:
`copyElements_` allocates the block of `capacity_` cells whether `other` is
empty or not. -/
def Vector.copy_assign (_this other : Vector T) : Except Fault (Vector T) :=
  match Vector.construct_loop other.data_ other.size_ 0
      (List.replicate other.capacity_ none) with
  | .error e => .error e
  | .ok d => .ok { size_ := other.size_, capacity_ := other.capacity_, data_ := d }

/-- The elements of a vector in index order. -/
def Vector.lift (v : Vector T) : List T := (v.data_.take v.size_).reduceOption

/-- Well-formed vector: the block has `capacity_` cells, the first `size_` of
which hold an object, and the capacity can be doubled in `size_t`. -/
def Vector.WF (v : Vector T) : Prop :=
  v.data_.length = v.capacity_ ∧ v.size_ ≤ v.capacity_ ∧ v.capacity_ < 2 ^ 63 ∧
    ∀ i, i < v.size_ → ∃ x, v.data_[i]? = some (some x)

/-- The vector after `reserve(2)` on a default-constructed vector. -/
def reservedVector : Vector Nat := { size_ := 0, capacity_ := 2, data_ := [none, none] }

/-- The copy-constructed copy of `reservedVector`. -/
def reservedCopy : Vector Nat := { size_ := 0, capacity_ := 2, data_ := [] }

/-- The vector of the test of `erase`: 1, 2, 3 pushed on a default-constructed
vector. -/
def threeVector : Vector Nat :=
  { size_ := 3, capacity_ := 4, data_ := [some 1, some 2, some 3, none] }

/-- Parent links as `erase` leaves them: the `parent_` of a node is the address
of the node that holds it as a child (`parent` for the top node), or the
address of the node itself, or an address `dead` tells to be of no node of the
tree. -/
def ParentsLoose (dead : Nat → Prop) (parent : Option Nat) : node Key Value → Prop
  | .nullptr => True
  | .mk a _ _ p l r _ =>
      (p = parent ∨ p = some a ∨ ∃ q, p = some q ∧ dead q) ∧
        ParentsLoose dead (some a) l ∧ ParentsLoose dead (some a) r

/-- The tree built by inserting 10 and then 20. -/
def twoKeys : AVLTree Nat Nat :=
  ((AVLTree.empty.insert 10 10 false).1.insert 20 20 false).1
/-- Height bookkeeping alone: at every node
`height_ = 1 + max(height(left), height(right))` on the stored heights. -/
def HeightsExact : node Key Value → Prop
  | .nullptr => True
  | .mk _ _ _ _ l r h =>
      HeightsExact l ∧ HeightsExact r ∧ h = 1 + max (GetHeightNum l) (GetHeightNum r)

/-- A node with both children, each with a child of its own, all parent links
consistent and all stored heights correct. -/
def rotationFixture : node Nat Nat :=
  .mk 0 40 4 none
    (.mk 1 20 2 (some 0) (.mk 3 10 1 (some 1) .nullptr .nullptr 0) .nullptr 1)
    (.mk 2 60 6 (some 0) .nullptr (.mk 4 70 7 (some 2) .nullptr .nullptr 0) 1) 2

/-- The `it_node` reached by `--` from the node at address `x`. -/
def decNode (mem : node Key Value) (fuel : Nat) (x : Nat) : Option (Option Nat) :=
  (Iterator.decrement mem fuel { it_node := some x, it_prev_node := none }).map (·.it_node)

/-- Along the list of addresses `--` leads from each node to the next one of
the list and from the last one to `exit`. -/
def DecChain (mem : node Key Value) (fuel : Nat) : List Nat → Option Nat → Prop
  | [], _ => True
  | x :: rest, exit => decNode mem fuel x = some (rest.head?.or exit) ∧
      DecChain mem fuel rest exit

/-- The iterator after `n` applications of `++`, each with `fuel` for its
loop. -/
def Iterator.advance (mem : node Key Value) (fuel : Nat) : Nat → Iterator → Option Iterator
  | 0, it => some it
  | n + 1, it => (it.increment mem fuel).bind (Iterator.advance mem fuel n)

/-- Source `Queue(Queue&& other)`: the new queue takes the array and the
members of `other`; `other` is left with a null `data_` and `size_`,
`capacity_`, `front_`, `back_` all 0.  The pair is the new queue and `other`
after the call. -/
def Queue.move_construct (other : Queue T) : Queue T × Queue T :=
  (other, { data_ := [], size_ := 0, capacity_ := 0, front_ := 0, back_ := 0 })

/-- Source `Queue::operator=(Queue&& other)` on two distinct objects: the same
statements as the move constructor, the previous array being released. -/
def Queue.move_assign (_this other : Queue T) : Queue T × Queue T :=
  (other, { data_ := [], size_ := 0, capacity_ := 0, front_ := 0, back_ := 0 })

/-- Source `Queue::swap(other)`: the five members are exchanged. -/
def Queue.swap (q other : Queue T) : Queue T × Queue T := (other, q)

/-- The queue after `push(1); push(2)` on a new queue. -/
def twoPushed : Queue Nat :=
  { data_ := [1, 2], size_ := 2, capacity_ := 2, front_ := 0, back_ := 0 }

/-- The object a move leaves behind. -/
def movedFrom : Queue Nat := (Queue.move_construct twoPushed).2

/-- Struct `list<T>::Node`: `data`, `prev`, `next`; the pointers are addresses
of the heap. -/
structure ListNode (T : Type) where
  data : T
  prev : Option Nat
  next : Option Nat
deriving DecidableEq, Repr

/-- Class `list<T>`: the members `size_`, `head_`, `tail_`, together with the
heap of the nodes allocated so far: cell `a` holds the node at address `a`,
and `none` once the node has been deleted.  `new` takes the next address. -/
structure list (T : Type) where
  heap : List (Option (ListNode T))
  size_ : Nat
  head_ : Option Nat
  tail_ : Option Nat
deriving DecidableEq, Repr

/-- Source `list()`. -/
def list.new : list T := { heap := [], size_ := 0, head_ := none, tail_ := none }

/-- Source `list::size()`. -/
def list.size (l : list T) : Nat := l.size_

/-- Source `list::empty()`: `size_ == 0`. -/
def list.empty (l : list T) : Bool := decide (l.size_ = 0)

/-- Source `list::push_back(value)`.  Writing through a pointer to no live node
is undefined behaviour. -/
def list.push_back (l : list T) (value : T) : Except Fault (list T) :=
  let new_node := l.heap.length
  let heap1 := l.heap ++ [some { data := value, prev := none, next := none }]
  match l.tail_ with
  | some t =>
      match heap1[t]? with
      | some (some n) =>
          .ok { heap := (heap1.set t (some { n with next := some new_node })).set new_node
                  (some { data := value, prev := some t, next := none }),
                size_ := size_t (l.size_ + 1), head_ := l.head_, tail_ := some new_node }
      | _ => .error .undefined_behaviour
  | none =>
      .ok { heap := heap1, size_ := size_t (l.size_ + 1), head_ := some new_node,
            tail_ := some new_node }

/-- Source `list::push_front(value)`. -/
def list.push_front (l : list T) (value : T) : Except Fault (list T) :=
  let new_node := l.heap.length
  let heap1 := l.heap ++ [some { data := value, prev := none, next := none }]
  match l.head_ with
  | some h =>
      match heap1[h]? with
      | some (some n) =>
          .ok { heap := (heap1.set h (some { n with prev := some new_node })).set new_node
                  (some { data := value, prev := none, next := some h }),
                size_ := size_t (l.size_ + 1), head_ := some new_node, tail_ := l.tail_ }
      | _ => .error .undefined_behaviour
  | none =>
      .ok { heap := heap1, size_ := size_t (l.size_ + 1), head_ := some new_node,
            tail_ := some new_node }

/-- Source `list::pop_back()`: nothing when `tail_` is null; else the last node
is unlinked and deleted and `size_` decremented. -/
def list.pop_back (l : list T) : Except Fault (list T) :=
  match l.tail_ with
  | none => .ok l
  | some temp =>
      match l.heap[temp]? with
      | some (some n) =>
          match n.prev with
          | some p =>
              match l.heap[p]? with
              | some (some m) =>
                  .ok { heap := (l.heap.set p (some { m with next := none })).set temp none,
                        size_ := size_t (l.size_ + (2 ^ 64 - 1)), head_ := l.head_,
                        tail_ := some p }
              | _ => .error .undefined_behaviour
          | none =>
              .ok { heap := l.heap.set temp none, size_ := size_t (l.size_ + (2 ^ 64 - 1)),
                    head_ := none, tail_ := none }
      | _ => .error .undefined_behaviour

/-- Source `list::pop_front()`: nothing when `head_` is null; else the first
node is unlinked and deleted and `size_` decremented. -/
def list.pop_front (l : list T) : Except Fault (list T) :=
  match l.head_ with
  | none => .ok l
  | some temp =>
      match l.heap[temp]? with
      | some (some n) =>
          match n.next with
          | some p =>
              match l.heap[p]? with
              | some (some m) =>
                  .ok { heap := (l.heap.set p (some { m with prev := none })).set temp none,
                        size_ := size_t (l.size_ + (2 ^ 64 - 1)), head_ := some p,
                        tail_ := l.tail_ }
              | _ => .error .undefined_behaviour
          | none =>
              .ok { heap := l.heap.set temp none, size_ := size_t (l.size_ + (2 ^ 64 - 1)),
                    head_ := none, tail_ := none }
      | _ => .error .undefined_behaviour

/-- Source `list::clear()`: `while (!empty()) pop_front();`, run for at most
`fuel` rounds: `none` when the loop has not left by then. -/
def list.clear : Nat → list T → Option (Except Fault (list T))
  | 0, l => if l.empty then some (.ok l) else none
  | fuel + 1, l =>
      if l.empty then some (.ok l)
      else
        match l.pop_front with
        | .error e => some (.error e)
        | .ok l1 => list.clear fuel l1

/-- Source `list::front()`: throws `runtime_error` when `head_` is null. -/
def list.front (l : list T) : Except Fault T :=
  match l.head_ with
  | none => .error .runtime_error
  | some h =>
      match l.heap[h]? with
      | some (some n) => .ok n.data
      | _ => .error .undefined_behaviour

/-- Source `list::back()`: throws `runtime_error` when `tail_` is null. -/
def list.back (l : list T) : Except Fault T :=
  match l.tail_ with
  | none => .error .runtime_error
  | some t =>
      match l.heap[t]? with
      | some (some n) => .ok n.data
      | _ => .error .undefined_behaviour

/-- A call of the mutating interface of `list`. -/
inductive ListCall (T : Type) where
  | push_back (value : T) : ListCall T
  | push_front (value : T) : ListCall T
  | pop_back : ListCall T
  | pop_front : ListCall T
  | clear : ListCall T
deriving DecidableEq, Repr

/-- One call on a list, `clear` with `fuel` for its loop. -/
def list.call (fuel : Nat) (l : list T) : ListCall T → Option (Except Fault (list T))
  | .push_back value => some (l.push_back value)
  | .push_front value => some (l.push_front value)
  | .pop_back => some l.pop_back
  | .pop_front => some l.pop_front
  | .clear => list.clear fuel l

/-- A sequence of calls on a list: the list after the last call, the undefined
behaviour met on the way, or `none` when a loop ran out of fuel. -/
def list.run (fuel : Nat) : list T → List (ListCall T) → Option (Except Fault (list T))
  | l, [] => some (.ok l)
  | l, c :: cs =>
      match l.call fuel c with
      | some (.ok l1) => list.run fuel l1 cs
      | other => other

/-- The double-ended sequence of the claim: `push_back` and `push_front` add at
the two ends, `pop_back` and `pop_front` remove there (nothing on the empty
sequence), `clear` removes all. -/
def deque : List T → List (ListCall T) → List T
  | xs, [] => xs
  | xs, .push_back value :: cs => deque (xs ++ [value]) cs
  | xs, .push_front value :: cs => deque (value :: xs) cs
  | xs, .pop_back :: cs => deque xs.dropLast cs
  | xs, .pop_front :: cs => deque xs.tail cs
  | _, .clear :: cs => deque [] cs

/-- What `front()` and `back()` of `list` report: the element, or
`runtime_error` when there is none. -/
def element_or_runtime_error : Option T → Except Fault T
  | some x => .ok x
  | none => .error .runtime_error

/-- The cells `(address, data)` form a doubly linked segment of the heap:
each node is live, holds its datum, names its predecessor (`prev` for the
first) and its successor (`exit` for the last). -/
def Linked (heap : List (Option (ListNode T))) :
    Option Nat → List (Nat × T) → Option Nat → Prop
  | _, [], _ => True
  | prev, (a, x) :: rest, exit =>
      heap[a]? = some (some { data := x, prev := prev,
                              next := (rest.head?.map Prod.fst).or exit }) ∧
        Linked heap (some a) rest exit

/-- The list holds exactly the cells, from `head_` to `tail_`. -/
def list.Rep (l : list T) (cells : List (Nat × T)) : Prop :=
  Linked l.heap none cells none ∧ (cells.map Prod.fst).Nodup ∧
    l.head_ = cells.head?.map Prod.fst ∧ l.tail_ = cells.getLast?.map Prod.fst ∧
    l.size_ = cells.length

/-- Five calls on a list of natural numbers. -/
def sampleListCalls : List (ListCall Nat) :=
  [.push_back 1, .push_front 2, .pop_back, .clear, .pop_front]

/-- The safety conditions of a queue: `capacity_ ≥ 1`, `size_ ≤ capacity_`,
`front_ < capacity_` and `back_ = (front_ + size_) % capacity_`. -/
def Queue.Safe (q : Queue T) : Prop :=
  1 ≤ q.capacity_ ∧ q.size_ ≤ q.capacity_ ∧ q.front_ < q.capacity_ ∧
    q.back_ = (q.front_ + q.size_) % q.capacity_

/-- The map built by inserting (2, 20), (1, 10), (3, 30), (4, 40) in this
order: 2 at the root, 1 its left child, 3 its right child, 4 the right child
of 3. -/
def fourEntries : map Nat Nat := map.ofList [(2, 20), (1, 10), (3, 30), (4, 40)]

/-- The queue after `push(5)` on a new queue: the one cell of the array is
taken. -/
def onePushed : Queue Nat :=
  { data_ := [5], size_ := 1, capacity_ := 1, front_ := 0, back_ := 0 }

/-- The queue after `push(1); push(2); push(3)` on a new queue: three of four
cells are taken. -/
def threePushed : Queue Nat :=
  { data_ := [1, 2, 3, 0], size_ := 3, capacity_ := 4, front_ := 0, back_ := 3 }

/-! ## Heights and balance -/

@[simp] theorem GetHeightNum_nullptr :
    GetHeightNum (node.nullptr : node Key Value) = -1 := rfl

@[simp] theorem GetHeightNum_mk (a : Nat) (k : Key) (v : Value) (p : Option Nat)
    (l r : node Key Value) (h : Int) : GetHeightNum (node.mk a k v p l r h) = h := rfl

@[simp] theorem GetBalanceNum_mk (a : Nat) (k : Key) (v : Value) (p : Option Nat)
    (l r : node Key Value) (h : Int) :
    GetBalanceNum (node.mk a k v p l r h) = GetHeightNum r - GetHeightNum l := rfl

@[simp] theorem GetHeightNum_setParent (p : Nat) (t : node Key Value) :
    GetHeightNum (setParent p t) = GetHeightNum t := by
  cases t <;> rfl

@[simp] theorem AVLInv_setParent (p : Nat) (t : node Key Value) :
    AVLInv (setParent p t) ↔ AVLInv t := by
  cases t <;> simp [setParent, AVLInv]

theorem AVLInv_height_ge (t : node Key Value) (h : AVLInv t) : -1 ≤ GetHeightNum t := by
  induction t with
  | nullptr => simp
  | mk a k v p l r ht ihl ihr =>
    obtain ⟨hl, hr, _, he⟩ := h
    have := ihl hl
    simp only [GetHeightNum_mk]
    omega

theorem AVLInv_nonnull (t : node Key Value) (h : AVLInv t) (hp : 0 ≤ GetHeightNum t) :
    ∃ a k v p l r ht, t = .mk a k v p l r ht := by
  cases t with
  | nullptr => simp at hp
  | mk a k v p l r ht => exact ⟨a, k, v, p, l, r, ht, rfl⟩

theorem AVLInv_stored_eq_height (t : node Key Value) (h : AVLInv t) :
    GetHeightNum t = height t := by
  induction t with
  | nullptr => rfl
  | mk a k v p l r ht ihl ihr =>
    obtain ⟨hl, hr, _, he⟩ := h
    simp only [GetHeightNum_mk, height, he, ihl hl, ihr hr]

theorem AVLInv_imp_AVLActual (t : node Key Value) (h : AVLInv t) : AVLActual t := by
  induction t with
  | nullptr => trivial
  | mk a k v p l r ht ihl ihr =>
    obtain ⟨hl, hr, hb, he⟩ := h
    refine ⟨ihl hl, ihr hr, ?_, ?_⟩
    · rw [← AVLInv_stored_eq_height l hl, ← AVLInv_stored_eq_height r hr]; exact hb
    · rw [← AVLInv_stored_eq_height l hl, ← AVLInv_stored_eq_height r hr]; exact he

/-- What `Balancing` after `SetHeight` achieves on a node whose subtrees
satisfy the invariant and differ in height by at most two. -/
theorem Balancing_SetHeight_AVLInv (a : Nat) (k : Key) (v : Value) (p : Option Nat)
    (l r : node Key Value) (h : Int) (hl : AVLInv l) (hr : AVLInv r)
    (hb : |GetHeightNum r - GetHeightNum l| ≤ 2) :
    AVLInv (Balancing (SetHeight (.mk a k v p l r h))) ∧
    max (GetHeightNum l) (GetHeightNum r) ≤
      GetHeightNum (Balancing (SetHeight (.mk a k v p l r h))) ∧
    GetHeightNum (Balancing (SetHeight (.mk a k v p l r h))) ≤
      1 + max (GetHeightNum l) (GetHeightNum r) ∧
    (|GetHeightNum r - GetHeightNum l| ≤ 1 →
      GetHeightNum (Balancing (SetHeight (.mk a k v p l r h))) =
        1 + max (GetHeightNum l) (GetHeightNum r)) := by
  have hlge := AVLInv_height_ge l hl
  have hrge := AVLInv_height_ge r hr
  rw [abs_le] at hb
  simp only [SetHeight, Balancing]
  by_cases h1 : GetHeightNum r - GetHeightNum l = -2
  · rw [if_pos h1]
    obtain ⟨la, lk, lv, lp, ll, lr, lh, rfl⟩ := AVLInv_nonnull l hl (by omega)
    obtain ⟨hll, hlr, hlb, hle⟩ := hl
    have hllge := AVLInv_height_ge ll hll
    have hlrge := AVLInv_height_ge lr hlr
    rw [abs_le] at hlb
    simp only [GetHeightNum_mk] at h1 hle hlge ⊢
    by_cases h2 : GetBalanceNum (node.mk la lk lv lp ll lr lh) = 1
    · rw [if_pos h2]
      simp only [GetBalanceNum_mk] at h2
      obtain ⟨ra, rk, rv, rp, rl, rr, rh, rfl⟩ := AVLInv_nonnull lr hlr (by omega)
      obtain ⟨hrl, hrr, hrb, hre⟩ := hlr
      have hrlge := AVLInv_height_ge rl hrl
      have hrrge := AVLInv_height_ge rr hrr
      rw [abs_le] at hrb
      simp only [GetHeightNum_mk] at h2 hre hlrge hle
      simp only [LeftRotation, RightRotation, SetHeight, AVLInv, GetHeightNum_mk,
        GetHeightNum_setParent, AVLInv_setParent, abs_le]
      refine ⟨⟨⟨hll, hrl, ?_, ?_⟩, ⟨hrr, hr, ?_, ?_⟩, ?_, ?_⟩, ?_, ?_, ?_⟩ <;> omega
    · rw [if_neg h2]
      simp only [GetBalanceNum_mk] at h2
      simp only [RightRotation, SetHeight, AVLInv, GetHeightNum_mk,
        GetHeightNum_setParent, AVLInv_setParent, abs_le]
      refine ⟨⟨hll, ⟨hlr, hr, ?_, ?_⟩, ?_, ?_⟩, ?_, ?_, ?_⟩ <;> omega
  · rw [if_neg h1]
    by_cases h3 : GetHeightNum r - GetHeightNum l = 2
    · rw [if_pos h3]
      obtain ⟨ra, rk, rv, rp, rl, rr, rh, rfl⟩ := AVLInv_nonnull r hr (by omega)
      obtain ⟨hrl, hrr, hrb, hre⟩ := hr
      have hrlge := AVLInv_height_ge rl hrl
      have hrrge := AVLInv_height_ge rr hrr
      rw [abs_le] at hrb
      simp only [GetHeightNum_mk] at h3 hre hrge ⊢
      by_cases h4 : GetBalanceNum (node.mk ra rk rv rp rl rr rh) = -1
      · rw [if_pos h4]
        simp only [GetBalanceNum_mk] at h4
        obtain ⟨la, lk, lv, lp, ll, lr, lh, rfl⟩ := AVLInv_nonnull rl hrl (by omega)
        obtain ⟨hll, hlr, hlb, hle⟩ := hrl
        have hllge := AVLInv_height_ge ll hll
        have hlrge := AVLInv_height_ge lr hlr
        rw [abs_le] at hlb
        simp only [GetHeightNum_mk] at h4 hle hrlge hre
        simp only [LeftRotation, RightRotation, SetHeight, AVLInv, GetHeightNum_mk,
          GetHeightNum_setParent, AVLInv_setParent, abs_le]
        refine ⟨⟨⟨hl, hll, ?_, ?_⟩, ⟨hlr, hrr, ?_, ?_⟩, ?_, ?_⟩, ?_, ?_, ?_⟩ <;> omega
      · rw [if_neg h4]
        simp only [GetBalanceNum_mk] at h4
        simp only [LeftRotation, SetHeight, AVLInv, GetHeightNum_mk,
          GetHeightNum_setParent, AVLInv_setParent, abs_le]
        refine ⟨⟨⟨hl, hrl, ?_, ?_⟩, hrr, ?_, ?_⟩, ?_, ?_, ?_⟩ <;> omega
    · rw [if_neg h3]
      simp only [AVLInv, GetHeightNum_mk, abs_le]
      refine ⟨⟨hl, hr, ?_, ?_⟩, ?_, ?_, ?_⟩ <;> omega

/-- Rebalancing a node after its left subtree was replaced by one whose height
moved by at most one. -/
theorem rebalance_left_AVLInv (a : Nat) (k : Key) (v : Value) (p : Option Nat)
    (l l' r : node Key Value) (h h' : Int) (ht : AVLInv (.mk a k v p l r h))
    (hl' : AVLInv l') (h1 : GetHeightNum l - 1 ≤ GetHeightNum l')
    (h2 : GetHeightNum l' ≤ GetHeightNum l + 1) :
    AVLInv (Balancing (SetHeight (.mk a k v p l' r h'))) ∧
    (GetHeightNum l ≤ GetHeightNum l' →
      h ≤ GetHeightNum (Balancing (SetHeight (.mk a k v p l' r h'))) ∧
      GetHeightNum (Balancing (SetHeight (.mk a k v p l' r h'))) ≤ h + 1) ∧
    (GetHeightNum l' ≤ GetHeightNum l →
      h - 1 ≤ GetHeightNum (Balancing (SetHeight (.mk a k v p l' r h'))) ∧
      GetHeightNum (Balancing (SetHeight (.mk a k v p l' r h'))) ≤ h) := by
  obtain ⟨hl, hr, hb, he⟩ := ht
  rw [abs_le] at hb
  have hb' : |GetHeightNum r - GetHeightNum l'| ≤ 2 := by rw [abs_le]; omega
  obtain ⟨g1, g2, g3, g4⟩ := Balancing_SetHeight_AVLInv a k v p l' r h' hl' hr hb'
  rw [abs_le] at g4
  refine ⟨g1, ?_, ?_⟩
  · intro hle
    by_cases hc : GetHeightNum r - GetHeightNum l' = -2
    · omega
    · have := g4 (by omega); omega
  · intro hle
    by_cases hc : GetHeightNum r - GetHeightNum l' = 2
    · omega
    · have := g4 (by omega); omega

/-- Rebalancing a node after its right subtree was replaced by one whose
height moved by at most one. -/
theorem rebalance_right_AVLInv (a : Nat) (k : Key) (v : Value) (p : Option Nat)
    (l r r' : node Key Value) (h h' : Int) (ht : AVLInv (.mk a k v p l r h))
    (hr' : AVLInv r') (h1 : GetHeightNum r - 1 ≤ GetHeightNum r')
    (h2 : GetHeightNum r' ≤ GetHeightNum r + 1) :
    AVLInv (Balancing (SetHeight (.mk a k v p l r' h'))) ∧
    (GetHeightNum r ≤ GetHeightNum r' →
      h ≤ GetHeightNum (Balancing (SetHeight (.mk a k v p l r' h'))) ∧
      GetHeightNum (Balancing (SetHeight (.mk a k v p l r' h'))) ≤ h + 1) ∧
    (GetHeightNum r' ≤ GetHeightNum r →
      h - 1 ≤ GetHeightNum (Balancing (SetHeight (.mk a k v p l r' h'))) ∧
      GetHeightNum (Balancing (SetHeight (.mk a k v p l r' h'))) ≤ h) := by
  obtain ⟨hl, hr, hb, he⟩ := ht
  rw [abs_le] at hb
  have hb' : |GetHeightNum r' - GetHeightNum l| ≤ 2 := by rw [abs_le]; omega
  obtain ⟨g1, g2, g3, g4⟩ := Balancing_SetHeight_AVLInv a k v p l r' h' hl hr' hb'
  rw [abs_le] at g4
  refine ⟨g1, ?_, ?_⟩
  · intro hle
    by_cases hc : GetHeightNum r' - GetHeightNum l = 2
    · omega
    · have := g4 (by omega); omega
  · intro hle
    by_cases hc : GetHeightNum r' - GetHeightNum l = -2
    · omega
    · have := g4 (by omega); omega

theorem AVLInv_new (fresh : Nat) (key : Key) (value : Value) (p : Option Nat) :
    AVLInv (node.new fresh key value p) := by
  simp [node.new, AVLInv]

theorem RecursiveInsertion_AVLInv [LinearOrder Key] (fresh : Nat) (t : node Key Value)
    (key : Key) (value : Value) (dup : Bool) (ht : AVLInv t) :
    AVLInv (RecursiveInsertion fresh t key value dup).1 ∧
    GetHeightNum t ≤ GetHeightNum (RecursiveInsertion fresh t key value dup).1 ∧
    GetHeightNum (RecursiveInsertion fresh t key value dup).1 ≤ GetHeightNum t + 1 := by
  induction t with
  | nullptr => simp [RecursiveInsertion, AVLInv]
  | mk a k v p l r h ihl ihr =>
    have hl := ht.1
    have hr := ht.2.1
    have hlge := AVLInv_height_ge l hl
    have hrge := AVLInv_height_ge r hr
    simp only [RecursiveInsertion, GetHeightNum_mk]
    split_ifs with c1 c2
    · cases l with
      | nullptr =>
        have := rebalance_left_AVLInv a k v p .nullptr (node.new fresh key value (some a)) r h h
          ht (AVLInv_new _ _ _ _) (by simp [node.new]) (by simp [node.new])
        exact ⟨this.1, this.2.1 (by simp [node.new])⟩
      | mk la lk lv lp ll lr lh =>
        obtain ⟨i1, i2, i3⟩ := ihl hl
        have := rebalance_left_AVLInv a k v p _ _ r h h ht i1 (by omega) i3
        exact ⟨this.1, this.2.1 i2⟩
    · cases r with
      | nullptr =>
        have := rebalance_right_AVLInv a k v p l .nullptr (node.new fresh key value (some a)) h h
          ht (AVLInv_new _ _ _ _) (by simp [node.new]) (by simp [node.new])
        exact ⟨this.1, this.2.1 (by simp [node.new])⟩
      | mk la lk lv lp ll lr lh =>
        obtain ⟨i1, i2, i3⟩ := ihr hr
        have := rebalance_right_AVLInv a k v p l _ _ h h ht i1 (by omega) i3
        exact ⟨this.1, this.2.1 i2⟩
    · have := rebalance_left_AVLInv a k v p l l r h h ht hl (by omega) (by omega)
      exact ⟨this.1, this.2.1 le_rfl⟩

theorem RecursiveDeleting_AVLInv [LinearOrder Key] (t : node Key Value) (ht : AVLInv t) :
    ∀ key : Key, AVLInv (RecursiveDeleting t key) ∧
      GetHeightNum t - 1 ≤ GetHeightNum (RecursiveDeleting t key) ∧
      GetHeightNum (RecursiveDeleting t key) ≤ GetHeightNum t := by
  induction t with
  | nullptr => intro key; simp [RecursiveDeleting, AVLInv]
  | mk a k v p l r h ihl ihr =>
    intro key
    have hl := ht.1
    have hr := ht.2.1
    have hlge := AVLInv_height_ge l hl
    have hrge := AVLInv_height_ge r hr
    simp only [RecursiveDeleting, GetHeightNum_mk]
    split_ifs with c1 c2
    · obtain ⟨i1, i2, i3⟩ := ihl hl key
      have := rebalance_left_AVLInv a k v p _ _ r h h ht i1 i2 (by omega)
      exact ⟨this.1, this.2.2 i3⟩
    · obtain ⟨i1, i2, i3⟩ := ihr hr key
      have := rebalance_right_AVLInv a k v p l _ _ h h ht i1 i2 (by omega)
      exact ⟨this.1, this.2.2 i3⟩
    · obtain ⟨_, _, hb, he⟩ := ht
      rw [abs_le] at hb
      cases l with
      | nullptr =>
        cases r with
        | nullptr => simp only [AVLInv, GetHeightNum_nullptr] at he ⊢; simp; omega
        | mk ta tk tv tp tl tr th =>
          simp only [GetHeightNum_nullptr, GetHeightNum_mk] at he hb hrge ⊢
          have := rebalance_left_AVLInv a tk tv tp tl tl tr th th hr hr.1 (by omega) (by omega)
          refine ⟨this.1, ?_⟩
          have q1 := this.2.1 le_rfl
          have q2 := this.2.2 le_rfl
          omega
      | mk ta tk tv tp tl tr th =>
        cases r with
        | nullptr =>
          simp only [GetHeightNum_nullptr, GetHeightNum_mk] at he hb hlge ⊢
          have := rebalance_left_AVLInv a tk tv tp tl tl tr th th hl hl.1 (by omega) (by omega)
          refine ⟨this.1, ?_⟩
          have q1 := this.2.1 le_rfl
          have q2 := this.2.2 le_rfl
          omega
        | mk ra rk rv rp rl rr rh =>
          simp only []
          cases hm : GetMinNode (node.mk ra rk rv rp rl rr rh) with
          | nullptr => simp only [AVLInv, GetHeightNum_mk]; exact ⟨⟨hl, hr, abs_le.2 hb, he⟩, by omega, le_rfl⟩
          | mk ma mk mv mp ml mr mh =>
            simp only []
            obtain ⟨i1, i2, i3⟩ := ihr hr mk
            have := rebalance_right_AVLInv a mk mv p (node.mk ta tk tv tp tl tr th) _ _ h h
              ⟨hl, hr, abs_le.2 hb, he⟩ i1 i2 (by omega)
            exact ⟨this.1, this.2.2 i3⟩

theorem Built.mono [LinearOrder Key] {d e : Bool} {t : AVLTree Key Value}
    (h : Built d e t) : Reachable t := by
  induction h with
  | empty => exact Built.empty
  | insert key value dup _ _ ih => exact Built.insert key value dup (fun _ => rfl) ih
  | erase pos _ _ ih => exact Built.erase pos rfl ih

theorem insert_root [LinearOrder Key] (t : AVLTree Key Value) (key : Key) (value : Value)
    (dup : Bool) :
    (t.insert key value dup).1.root =
      if t.root.isNull then node.new t.alloc key value none
      else (RecursiveInsertion t.alloc t.root key value dup).1 := by
  unfold AVLTree.insert
  cases h : t.root <;> simp [node.isNull]

theorem erase_root [LinearOrder Key] (t : AVLTree Key Value) (pos : Iterator) :
    (t.erase pos).root = t.root ∨ ∃ key, (t.erase pos).root = RecursiveDeleting t.root key := by
  unfold AVLTree.erase AVLTree.erase_in
  split_ifs
  · exact Or.inl rfl
  · cases h : pos.deref t.root with
    | error e => exact Or.inl rfl
    | ok key => exact Or.inr ⟨key, rfl⟩

theorem Built_AVLInv [LinearOrder Key] {d e : Bool} {t : AVLTree Key Value}
    (h : Built d e t) : AVLInv t.root := by
  induction h with
  | empty => trivial
  | @insert t key value dup _ _ ih =>
    rw [insert_root]
    split_ifs
    · exact AVLInv_new _ _ _ _
    · exact (RecursiveInsertion_AVLInv _ _ _ _ _ ih).1
  | @erase t pos _ _ ih =>
    rcases erase_root t pos with h | ⟨key, h⟩
    · rw [h]; exact ih
    · rw [h]; exact (RecursiveDeleting_AVLInv _ ih key).1

theorem sampleTree_reachable : Reachable sampleTree :=
  Built.erase _ rfl (Built.insert 40 5 true (fun _ => rfl) (Built.insert 10 4 false (fun _ => rfl)
    (Built.insert 20 3 true (fun _ => rfl) (Built.insert 20 2 false (fun _ => rfl)
      (Built.insert 30 1 false (fun _ => rfl) Built.empty)))))

/-- C1: in every tree obtained from the empty tree by insert calls (either
duplicate mode) and erase calls, every node has child heights differing by at
most one and a stored height equal to one plus the larger child height, where
a null child has height -1; this holds for the stored heights and for the
heights of the actual subtrees alike. -/
theorem reachable_balanced_heights [LinearOrder Key] (t : AVLTree Key Value)
    (h : Reachable t) : AVLInv t.root ∧ AVLActual t.root :=
  ⟨Built_AVLInv h, AVLInv_imp_AVLActual _ (Built_AVLInv h)⟩

theorem reachable_balanced_heights_witness :
    Reachable sampleTree ∧ AVLInv sampleTree.root ∧ AVLActual sampleTree.root :=
  ⟨sampleTree_reachable, reachable_balanced_heights sampleTree sampleTree_reachable⟩

/-! ## In-order sequence -/

@[simp] theorem inorder_setParent (p : Nat) (t : node Key Value) :
    inorder (setParent p t) = inorder t := by
  cases t <;> rfl

@[simp] theorem inorder_SetHeight (t : node Key Value) : inorder (SetHeight t) = inorder t := by
  cases t <;> rfl

@[simp] theorem inorder_RightRotation (t : node Key Value) :
    inorder (RightRotation t) = inorder t := by
  unfold RightRotation
  split
  · simp [SetHeight, inorder]
  · rfl

@[simp] theorem inorder_LeftRotation (t : node Key Value) :
    inorder (LeftRotation t) = inorder t := by
  unfold LeftRotation
  split
  · simp [SetHeight, inorder]
  · rfl

@[simp] theorem inorder_Balancing (t : node Key Value) : inorder (Balancing t) = inorder t := by
  unfold Balancing
  split
  · rfl
  · split_ifs <;> simp [inorder]

theorem keys_mk (a : Nat) (k : Key) (v : Value) (p : Option Nat) (l r : node Key Value)
    (h : Int) : keys (.mk a k v p l r h) = keys l ++ k :: keys r := by
  simp [keys, inorder]

theorem RecursiveSize_eq_length (t : node Key Value) : RecursiveSize t = (inorder t).length := by
  induction t with
  | nullptr => rfl
  | mk a k v p l r h ihl ihr => simp [RecursiveSize, inorder, ihl, ihr]; omega

theorem insertBefore_append_left [LinearOrder Key] (key : Key) (value : Value)
    (L R : List (Key × Value)) (e : Key × Value) (h : ¬ e.1 < key) :
    insertBefore key value (L ++ e :: R) = insertBefore key value L ++ e :: R := by
  induction L with
  | nil => simp [insertBefore, h]
  | cons x xs ih =>
    simp only [List.cons_append, insertBefore]
    split_ifs
    · exact congrArg (List.cons x) ih
    · rfl

theorem insertBefore_append_right [LinearOrder Key] (key : Key) (value : Value)
    (L R : List (Key × Value)) (e : Key × Value) (hL : ∀ x ∈ L, x.1 < key) (h : e.1 < key) :
    insertBefore key value (L ++ e :: R) = L ++ e :: insertBefore key value R := by
  induction L with
  | nil => simp [insertBefore, h]
  | cons x xs ih =>
    simp only [List.cons_append, insertBefore]
    rw [if_pos (hL x (List.mem_cons_self _ _))]
    exact congrArg (List.cons x) (ih (fun y hy => hL y (List.mem_cons_of_mem _ hy)))

theorem insertBefore_eq_takeWhile [LinearOrder Key] (key : Key) (value : Value)
    (L : List (Key × Value)) :
    insertBefore key value L =
      L.takeWhile (fun e => decide (e.1 < key)) ++
        (key, value) :: L.dropWhile (fun e => decide (e.1 < key)) := by
  induction L with
  | nil => rfl
  | cons x xs ih =>
    by_cases hx : x.1 < key
    · simp [insertBefore, hx, List.takeWhile, List.dropWhile, ih]
    · simp [insertBefore, hx, List.takeWhile, List.dropWhile]

theorem insertBefore_length [LinearOrder Key] (key : Key) (value : Value)
    (L : List (Key × Value)) : (insertBefore key value L).length = L.length + 1 := by
  rw [insertBefore_eq_takeWhile]
  have := congrArg List.length (List.takeWhile_append_dropWhile (fun e => decide (e.1 < key)) L)
  simp only [List.length_append, List.length_cons] at this ⊢
  omega

theorem insertBefore_keys_sorted [LinearOrder Key] (key : Key) (value : Value)
    (L : List (Key × Value)) (h : (L.map Prod.fst).Pairwise (· ≤ ·)) :
    ((insertBefore key value L).map Prod.fst).Pairwise (· ≤ ·) := by
  induction L with
  | nil => simp [insertBefore]
  | cons x xs ih =>
    simp only [List.map_cons, List.pairwise_cons] at h
    simp only [insertBefore]
    split_ifs with hx
    · simp only [List.map_cons, List.pairwise_cons]
      refine ⟨?_, ih h.2⟩
      intro y hy
      rw [insertBefore_eq_takeWhile] at hy
      simp only [List.map_append, List.map_cons, List.mem_append, List.mem_cons,
        List.mem_map] at hy
      rcases hy with ⟨e, he, rfl⟩ | rfl | ⟨e, he, rfl⟩
      · exact h.1 _ (List.mem_map_of_mem _ (List.takeWhile_subset _ he))
      · exact le_of_lt hx
      · exact h.1 _ (List.mem_map_of_mem _ (List.dropWhile_subset _ he))
    · simp only [List.map_cons, List.pairwise_cons]
      refine ⟨?_, h⟩
      intro y hy
      simp only [List.mem_cons] at hy
      rcases hy with rfl | hy
      · exact not_lt.1 hx
      · exact le_trans (not_lt.1 hx) (h.1 y hy)

theorem sorted_mk [LinearOrder Key] {a : Nat} {k : Key} {v : Value} {p : Option Nat}
    {l r : node Key Value} {h : Int} (hs : (keys (.mk a k v p l r h)).Pairwise (· ≤ ·)) :
    (keys l).Pairwise (· ≤ ·) ∧ (keys r).Pairwise (· ≤ ·) ∧
      (∀ x ∈ keys l, x ≤ k) ∧ (∀ x ∈ keys r, k ≤ x) := by
  rw [keys_mk, List.pairwise_append, List.pairwise_cons] at hs
  exact ⟨hs.1, hs.2.1.2, fun x hx => hs.2.2 x hx k (List.mem_cons_self _ _), hs.2.1.1⟩

theorem strict_mk [LinearOrder Key] {a : Nat} {k : Key} {v : Value} {p : Option Nat}
    {l r : node Key Value} {h : Int} (hs : (keys (.mk a k v p l r h)).Pairwise (· < ·)) :
    (keys l).Pairwise (· < ·) ∧ (keys r).Pairwise (· < ·) ∧
      (∀ x ∈ keys l, x < k) ∧ (∀ x ∈ keys r, k < x) := by
  rw [keys_mk, List.pairwise_append, List.pairwise_cons] at hs
  exact ⟨hs.1, hs.2.1.2, fun x hx => hs.2.2 x hx k (List.mem_cons_self _ _), hs.2.1.1⟩

theorem mem_keys_mk [LinearOrder Key] {a : Nat} {k : Key} {v : Value} {p : Option Nat}
    {l r : node Key Value} {h : Int} (x : Key) :
    x ∈ keys (.mk a k v p l r h) ↔ x ∈ keys l ∨ x = k ∨ x ∈ keys r := by
  simp [keys_mk]

theorem insert_left_spec [LinearOrder Key] (a : Nat) (k : Key) (v : Value) (p : Option Nat)
    (l l' r : node Key Value) (h : Int) (key : Key) (value : Value) (dup f : Bool)
    (hs : (keys (.mk a k v p l r h)).Pairwise (· ≤ ·))
    (c : key < k ∨ (dup = true ∧ key = k))
    (hf : f = true ↔ (dup = true ∨ key ∉ keys l))
    (hin : inorder l' = if f then insertBefore key value (inorder l) else inorder l) :
    (f = true ↔ (dup = true ∨ key ∉ keys (.mk a k v p l r h))) ∧
    inorder (Balancing (SetHeight (.mk a k v p l' r h))) =
      if f then insertBefore key value (inorder (.mk a k v p l r h))
      else inorder (.mk a k v p l r h) := by
  obtain ⟨_, _, _, hkr⟩ := sorted_mk hs
  constructor
  · rw [hf, mem_keys_mk]
    constructor
    · rintro (h1 | h1)
      · exact Or.inl h1
      · rcases c with c | ⟨c, _⟩
        · right
          rintro (h2 | h2 | h2)
          · exact h1 h2
          · exact absurd h2 (ne_of_lt c)
          · exact absurd (hkr _ h2) (not_le.2 c)
        · exact Or.inl c
    · rintro (h1 | h1)
      · exact Or.inl h1
      · exact Or.inr (fun h2 => h1 (Or.inl h2))
  · have hk : ¬ ((k, v) : Key × Value).1 < key := by
      rcases c with c | ⟨_, c⟩
      · exact not_lt.2 (le_of_lt c)
      · exact not_lt.2 (le_of_eq c)
    simp only [inorder_Balancing, inorder_SetHeight, inorder, hin]
    cases f
    · simp
    · simp only [if_true]
      rw [insertBefore_append_left _ _ _ _ _ hk]

theorem insert_right_spec [LinearOrder Key] (a : Nat) (k : Key) (v : Value) (p : Option Nat)
    (l r r' : node Key Value) (h : Int) (key : Key) (value : Value) (dup f : Bool)
    (hs : (keys (.mk a k v p l r h)).Pairwise (· ≤ ·))
    (c : k < key)
    (hf : f = true ↔ (dup = true ∨ key ∉ keys r))
    (hin : inorder r' = if f then insertBefore key value (inorder r) else inorder r) :
    (f = true ↔ (dup = true ∨ key ∉ keys (.mk a k v p l r h))) ∧
    inorder (Balancing (SetHeight (.mk a k v p l r' h))) =
      if f then insertBefore key value (inorder (.mk a k v p l r h))
      else inorder (.mk a k v p l r h) := by
  obtain ⟨_, _, hlk, _⟩ := sorted_mk hs
  constructor
  · rw [hf, mem_keys_mk]
    constructor
    · rintro (h1 | h1)
      · exact Or.inl h1
      · right
        rintro (h2 | h2 | h2)
        · exact absurd (hlk _ h2) (not_le.2 c)
        · exact absurd h2 (ne_of_gt c)
        · exact h1 h2
    · rintro (h1 | h1)
      · exact Or.inl h1
      · exact Or.inr (fun h2 => h1 (Or.inr (Or.inr h2)))
  · have hL : ∀ x ∈ inorder l, x.1 < key := fun x hx =>
      lt_of_le_of_lt (hlk _ (List.mem_map_of_mem _ hx)) c
    simp only [inorder_Balancing, inorder_SetHeight, inorder, hin]
    cases f
    · simp
    · simp only [if_true]
      rw [insertBefore_append_right _ _ _ _ (k, v) hL c]

theorem RecursiveInsertion_inorder [LinearOrder Key] (fresh : Nat) (t : node Key Value)
    (key : Key) (value : Value) (dup : Bool) (hs : (keys t).Pairwise (· ≤ ·))
    (hn : t.isNull = false) :
    ((RecursiveInsertion fresh t key value dup).2 = true ↔
      (dup = true ∨ key ∉ keys t)) ∧
    inorder (RecursiveInsertion fresh t key value dup).1 =
      if (RecursiveInsertion fresh t key value dup).2 then insertBefore key value (inorder t)
      else inorder t := by
  induction t with
  | nullptr => simp [node.isNull] at hn
  | mk a k v p l r h ihl ihr =>
    obtain ⟨sl, sr, _, _⟩ := sorted_mk hs
    simp only [RecursiveInsertion]
    by_cases c1 : key < k ∨ (dup = true ∧ key = k)
    · simp only [if_pos c1]
      cases l with
      | nullptr =>
        exact insert_left_spec a k v p .nullptr _ r h key value dup true hs c1
          (by simp [keys, inorder]) (by simp [node.new, inorder, insertBefore])
      | mk la lk lv lp ll lr lh =>
        exact insert_left_spec a k v p _ _ r h key value dup _ hs c1 (ihl sl rfl).1 (ihl sl rfl).2
    by_cases c2 : key > k
    · simp only [if_neg c1, if_pos c2]
      cases r with
      | nullptr =>
        exact insert_right_spec a k v p l .nullptr _ h key value dup true hs c2
          (by simp [keys, inorder]) (by simp [node.new, inorder, insertBefore])
      | mk la lk lv lp ll lr lh =>
        exact insert_right_spec a k v p l _ _ h key value dup _ hs c2 (ihr sr rfl).1 (ihr sr rfl).2
    · simp only [if_neg c1, if_neg c2]
      have hk : key = k := by
        rcases lt_trichotomy key k with h1 | h1 | h1
        · exact absurd (Or.inl h1) c1
        · exact h1
        · exact absurd h1 c2
      have hd : dup = false := by
        cases dup
        · rfl
        · exact absurd (Or.inr ⟨rfl, hk⟩) c1
      subst hk hd
      simp [mem_keys_mk]

theorem cells_map_snd (t : node Key Value) : (cells t).map Prod.snd = inorder t := by
  induction t with
  | nullptr => rfl
  | mk a k v p l r h ihl ihr => simp [cells, inorder, ihl, ihr]

theorem cells_map_fst (t : node Key Value) : (cells t).map Prod.fst = addrs t := by
  induction t with
  | nullptr => rfl
  | mk a k v p l r h ihl ihr => simp [cells, addrs, ihl, ihr]

theorem GetMinNode_spec (t : node Key Value) (hn : t.isNull = false) :
    ∃ ma mk mv mp mr mh rest,
      GetMinNode t = .mk ma mk mv mp .nullptr mr mh ∧ cells t = (ma, mk, mv) :: rest := by
  induction t with
  | nullptr => simp [node.isNull] at hn
  | mk a k v p l r h ihl _ =>
    cases l with
    | nullptr => exact ⟨a, k, v, p, r, h, cells r, rfl, rfl⟩
    | mk la lk lv lp ll lr lh =>
      obtain ⟨ma, mk, mv, mp, mr, mh, rest, e1, e2⟩ := ihl rfl
      refine ⟨ma, mk, mv, mp, mr, mh, rest ++ (a, k, v) :: cells r, ?_, ?_⟩
      · rw [GetMinNode]
        · exact e1
        · intro hh; cases hh
      · rw [cells, e2]; rfl

theorem GetMaxNode_spec (t : node Key Value) (hn : t.isNull = false) :
    ∃ ma mk mv mp ml mh rest,
      GetMaxNode t = .mk ma mk mv mp ml .nullptr mh ∧ cells t = rest ++ [(ma, mk, mv)] := by
  induction t with
  | nullptr => simp [node.isNull] at hn
  | mk a k v p l r h _ ihr =>
    cases r with
    | nullptr => exact ⟨a, k, v, p, l, h, cells l, rfl, rfl⟩
    | mk la lk lv lp ll lr lh =>
      obtain ⟨ma, mk, mv, mp, ml, mh, rest, e1, e2⟩ := ihr rfl
      refine ⟨ma, mk, mv, mp, ml, mh, cells l ++ (a, k, v) :: rest, ?_, ?_⟩
      · rw [GetMaxNode]
        · exact e1
        · intro hh; cases hh
      · rw [cells, e2]; simp

theorem cons_append_of_all_eq {α : Type} (x : α) (L1 L2 : List α) (h : ∀ y ∈ L1, y = x) :
    x :: (L1 ++ L2) = L1 ++ x :: L2 := by
  induction L1 with
  | nil => rfl
  | cons y ys ih =>
    have hy : y = x := h y (List.mem_cons_self _ _)
    subst hy
    simp only [List.cons_append]
    rw [ih (fun z hz => h z (List.mem_cons_of_mem _ hz))]

theorem RecursiveDeleting_inorder_absent [LinearOrder Key] (t : node Key Value) (key : Key)
    (hk : key ∉ keys t) : inorder (RecursiveDeleting t key) = inorder t := by
  induction t with
  | nullptr => rfl
  | mk a k v p l r h ihl ihr =>
    rw [mem_keys_mk] at hk
    simp only [not_or] at hk
    simp only [RecursiveDeleting]
    split_ifs with c1 c2
    · simp [inorder, ihl hk.1]
    · simp [inorder, ihr hk.2.2]
    · exact absurd (le_antisymm (not_lt.1 c2) (not_lt.1 c1)) hk.2.1

/-- Deleting a stored key removes exactly one occurrence of it from the
in-order key sequence. -/
theorem RecursiveDeleting_keys [LinearOrder Key] (t : node Key Value)
    (hs : (keys t).Pairwise (· ≤ ·)) :
    ∀ key : Key, key ∈ keys t →
      ∃ L1 L2, keys t = L1 ++ key :: L2 ∧ keys (RecursiveDeleting t key) = L1 ++ L2 := by
  induction t with
  | nullptr => intro key hk; simp [keys, inorder] at hk
  | mk a k v p l r h ihl ihr =>
    intro key hk
    obtain ⟨sl, sr, hlk, hkr⟩ := sorted_mk hs
    rw [mem_keys_mk] at hk
    simp only [RecursiveDeleting]
    by_cases c1 : key < k
    · simp only [if_pos c1]
      have hkl : key ∈ keys l := by
        rcases hk with h1 | h1 | h1
        · exact h1
        · exact absurd h1 (ne_of_lt c1)
        · exact absurd (hkr _ h1) (not_le.2 c1)
      obtain ⟨L1, L2, e1, e2⟩ := ihl sl key hkl
      refine ⟨L1, L2 ++ k :: keys r, ?_, ?_⟩
      · rw [keys_mk, e1]; simp
      · simp only [keys, inorder_Balancing, inorder_SetHeight, inorder, List.map_append,
          List.map_cons] at e2 ⊢
        rw [e2]; simp
    by_cases c2 : key > k
    · simp only [if_neg c1, if_pos c2]
      have hkr' : key ∈ keys r := by
        rcases hk with h1 | h1 | h1
        · exact absurd (hlk _ h1) (not_le.2 c2)
        · exact absurd h1 (ne_of_gt c2)
        · exact h1
      obtain ⟨L1, L2, e1, e2⟩ := ihr sr key hkr'
      refine ⟨keys l ++ k :: L1, L2, ?_, ?_⟩
      · rw [keys_mk, e1]; simp
      · simp only [keys, inorder_Balancing, inorder_SetHeight, inorder, List.map_append,
          List.map_cons] at e2 ⊢
        rw [e2]; simp
    · simp only [if_neg c1, if_neg c2]
      have hkk : key = k := le_antisymm (not_lt.1 c2) (not_lt.1 c1)
      subst hkk
      cases l with
      | nullptr =>
        cases r with
        | nullptr => exact ⟨[], [], by simp [keys, inorder], by simp [keys, inorder]⟩
        | mk ta tk tv tp tl tr th =>
          refine ⟨[], keys (.mk ta tk tv tp tl tr th), by simp [keys, inorder], ?_⟩
          simp [keys, inorder]
      | mk ta tk tv tp tl tr th =>
        cases r with
        | nullptr =>
          refine ⟨keys (.mk ta tk tv tp tl tr th), [], by simp [keys, inorder], ?_⟩
          simp [keys, inorder]
        | mk ra rk rv rp rl rr rh =>
          simp only []
          obtain ⟨ma, mk, mv, mp, mr, mh, rest, e1, e2⟩ :=
            GetMinNode_spec (.mk ra rk rv rp rl rr rh) rfl
          rw [e1]
          simp only []
          have hin : inorder (.mk ra rk rv rp rl rr rh) = (mk, mv) :: rest.map Prod.snd := by
            rw [← cells_map_snd, e2]; rfl
          have hkeys : keys (.mk ra rk rv rp rl rr rh) = mk :: (rest.map Prod.snd).map Prod.fst := by
            rw [keys, hin]; rfl
          have hmem : mk ∈ keys (.mk ra rk rv rp rl rr rh) := by
            rw [hkeys]; exact List.mem_cons_self _ _
          obtain ⟨R1, R2, f1, f2⟩ := ihr sr mk hmem
          have hR1 : ∀ y ∈ R1, y = mk := by
            intro y hy
            have hle : y ≤ mk := by
              have := sr
              rw [f1, List.pairwise_append] at this
              exact this.2.2 y hy mk (List.mem_cons_self _ _)
            have hge : mk ≤ y := by
              have hy' : y ∈ keys (.mk ra rk rv rp rl rr rh) := by
                rw [f1]; exact List.mem_append_left _ hy
              rw [hkeys, List.mem_cons] at hy'
              rcases hy' with h1 | h1
              · exact le_of_eq h1.symm
              · have := sr
                rw [hkeys, List.pairwise_cons] at this
                exact this.1 y h1
            exact le_antisymm hle hge
          refine ⟨keys (.mk ta tk tv tp tl tr th), keys (.mk ra rk rv rp rl rr rh), ?_, ?_⟩
          · rw [keys_mk]
          · have : keys (Balancing (SetHeight (.mk a mk mv p (.mk ta tk tv tp tl tr th)
                (RecursiveDeleting (.mk ra rk rv rp rl rr rh) mk) h))) =
                keys (.mk ta tk tv tp tl tr th) ++
                  mk :: keys (RecursiveDeleting (.mk ra rk rv rp rl rr rh) mk) := by
              simp [keys, inorder]
            rw [this, f2, cons_append_of_all_eq mk R1 R2 hR1, ← f1]

theorem insertBefore_perm [LinearOrder Key] (key : Key) (value : Value)
    (L : List (Key × Value)) : (insertBefore key value L).Perm ((key, value) :: L) := by
  induction L with
  | nil => exact List.Perm.refl _
  | cons x xs ih =>
    simp only [insertBefore]
    split_ifs
    · exact (List.Perm.cons x ih).trans (List.Perm.swap _ _ _)
    · exact List.Perm.refl _

theorem mem_insertBefore_keys [LinearOrder Key] (key : Key) (value : Value)
    (L : List (Key × Value)) (y : Key) :
    y ∈ (insertBefore key value L).map Prod.fst ↔ y = key ∨ y ∈ L.map Prod.fst := by
  rw [((insertBefore_perm key value L).map Prod.fst).mem_iff]
  simp

theorem insertBefore_keys_strict [LinearOrder Key] (key : Key) (value : Value)
    (L : List (Key × Value)) (h : (L.map Prod.fst).Pairwise (· < ·))
    (hk : key ∉ L.map Prod.fst) :
    ((insertBefore key value L).map Prod.fst).Pairwise (· < ·) := by
  induction L with
  | nil => simp [insertBefore]
  | cons x xs ih =>
    simp only [List.map_cons, List.pairwise_cons, List.mem_cons, not_or] at h hk
    simp only [insertBefore]
    split_ifs with hx
    · simp only [List.map_cons, List.pairwise_cons]
      refine ⟨?_, ih h.2 hk.2⟩
      intro y hy
      rw [mem_insertBefore_keys] at hy
      rcases hy with rfl | hy
      · exact hx
      · exact h.1 y hy
    · have hlt : key < x.1 := lt_of_le_of_ne (not_lt.1 hx) hk.1
      simp only [List.map_cons, List.pairwise_cons]
      refine ⟨?_, h⟩
      intro y hy
      simp only [List.mem_cons] at hy
      rcases hy with rfl | hy
      · exact hlt
      · exact lt_trans hlt (h.1 y hy)

theorem lookup_mem_cells (a : Nat) (t : node Key Value) (b : Nat) (k : Key) (v : Value)
    (p : Option Nat) (l r : node Key Value) (h : Int)
    (e : lookup a t = .mk b k v p l r h) : b = a ∧ (b, k, v) ∈ cells t := by
  induction t with
  | nullptr => simp [lookup] at e
  | mk a' k' v' p' l' r' h' ihl ihr =>
    simp only [lookup] at e
    split_ifs at e with c
    · injection e with e1 e2 e3
      subst e1 e2 e3
      exact ⟨c, by simp [cells]⟩
    · cases hl : lookup a l' with
      | nullptr =>
        rw [hl] at e
        simp only [] at e
        obtain ⟨q1, q2⟩ := ihr e
        exact ⟨q1, by simp [cells, q2]⟩
      | mk b2 k2 v2 p2 l2 r2 h2 =>
        rw [hl] at e
        simp only [] at e
        rw [e] at hl
        obtain ⟨q1, q2⟩ := ihl hl
        exact ⟨q1, by simp [cells, q2]⟩

theorem mem_cells_key (t : node Key Value) (c : Nat × Key × Value) (h : c ∈ cells t) :
    c.2.1 ∈ keys t := by
  rw [keys, ← cells_map_snd, List.map_map]
  exact List.mem_map_of_mem _ h

theorem deref_mem_keys [LinearOrder Key] (mem : node Key Value) (pos : Iterator) (key : Key)
    (h : pos.deref mem = .ok key) : key ∈ keys mem := by
  unfold Iterator.deref at h
  cases ha : pos.it_node with
  | none => rw [ha] at h; simp at h
  | some a =>
    rw [ha] at h
    simp only [] at h
    cases hl : lookup a mem with
    | nullptr => rw [hl] at h; simp at h
    | mk b k v p l r ht =>
      rw [hl] at h
      simp only [Except.ok.injEq] at h
      subst h
      exact mem_cells_key _ _ (lookup_mem_cells a mem b k v p l r ht hl).2

/-- Unfolding of `erase` on an iterator of the tree itself: either nothing
happens, or the key read through `pos` is stored and is deleted. -/
theorem erase_cases [LinearOrder Key] (t : AVLTree Key Value) (pos : Iterator) :
    t.erase pos = t ∨
      ∃ key, pos.deref t.root = .ok key ∧ key ∈ keys t.root ∧
        t.erase pos = { t with root := RecursiveDeleting t.root key } := by
  unfold AVLTree.erase AVLTree.erase_in
  split_ifs
  · exact Or.inl rfl
  · cases h : pos.deref t.root with
    | error e => exact Or.inl rfl
    | ok key => exact Or.inr ⟨key, rfl, deref_mem_keys _ _ _ h, rfl⟩

theorem insert_inorder [LinearOrder Key] (t : AVLTree Key Value) (key : Key) (value : Value)
    (dup : Bool) (hs : (keys t.root).Pairwise (· ≤ ·)) :
    ((t.insert key value dup).2.2 = true ↔ (dup = true ∨ key ∉ keys t.root)) ∧
    inorder (t.insert key value dup).1.root =
      if (t.insert key value dup).2.2 then insertBefore key value (inorder t.root)
      else inorder t.root := by
  unfold AVLTree.insert
  cases h : t.root with
  | nullptr => simp [keys, inorder, node.new, insertBefore]
  | mk a k v p l r ht =>
    rw [h] at hs
    exact RecursiveInsertion_inorder t.alloc _ key value dup hs rfl

theorem Built_sorted [LinearOrder Key] {d e : Bool} {t : AVLTree Key Value}
    (h : Built d e t) : (keys t.root).Pairwise (· ≤ ·) := by
  induction h with
  | empty => simp [AVLTree.empty, keys, inorder]
  | @insert t key value dup _ _ ih =>
    rw [keys, (insert_inorder t key value dup ih).2]
    split_ifs
    · exact insertBefore_keys_sorted _ _ _ ih
    · exact ih
  | @erase t pos _ _ ih =>
    rcases erase_cases t pos with h | ⟨key, _, hk, h⟩
    · rw [h]; exact ih
    · rw [h]
      obtain ⟨L1, L2, e1, e2⟩ := RecursiveDeleting_keys t.root ih key hk
      show (keys (RecursiveDeleting t.root key)).Pairwise (· ≤ ·)
      rw [e2]
      rw [e1] at ih
      exact ih.sublist (List.Sublist.append_left (List.sublist_cons_self _ _) _)

theorem Built_strict [LinearOrder Key] {e : Bool} {t : AVLTree Key Value}
    (h : Built false e t) : (keys t.root).Pairwise (· < ·) := by
  induction h with
  | empty => simp [AVLTree.empty, keys, inorder]
  | @insert t key value dup hd hb ih =>
    have hdup : dup = false := by
      cases dup
      · rfl
      · exact absurd (hd rfl) (by simp)
    subst hdup
    have hs := Built_sorted hb
    obtain ⟨hf, hin⟩ := insert_inorder t key value false hs
    rw [keys, hin]
    split_ifs with c
    · have hk : key ∉ keys t.root := by
        rcases hf.1 c with h1 | h1
        · exact absurd h1 (by simp)
        · exact h1
      exact insertBefore_keys_strict _ _ _ ih hk
    · exact ih
  | @erase t pos _ hb ih =>
    have hs := Built_sorted hb
    rcases erase_cases t pos with h | ⟨key, _, hk, h⟩
    · rw [h]; exact ih
    · rw [h]
      obtain ⟨L1, L2, e1, e2⟩ := RecursiveDeleting_keys t.root hs key hk
      show (keys (RecursiveDeleting t.root key)).Pairwise (· < ·)
      rw [e2]
      rw [e1] at ih
      exact ih.sublist (List.Sublist.append_left (List.sublist_cons_self _ _) _)

/-- C2: in every tree obtained from the empty tree by insert and erase calls
the in-order key sequence is sorted in non-decreasing order, and it is
strictly increasing when every insert was made with allow_duplicates =
false. -/
theorem reachable_inorder_sorted [LinearOrder Key] (t : AVLTree Key Value) :
    (Reachable t → (keys t.root).Pairwise (· ≤ ·)) ∧
    (Built false true t → (keys t.root).Pairwise (· < ·)) :=
  ⟨fun h => Built_sorted h, fun h => Built_strict h⟩

/-! ## Addresses -/

@[simp] theorem addrs_setParent (p : Nat) (t : node Key Value) :
    addrs (setParent p t) = addrs t := by
  cases t <;> rfl

@[simp] theorem addrs_SetHeight (t : node Key Value) : addrs (SetHeight t) = addrs t := by
  cases t <;> rfl

theorem addrs_RightRotation_perm (t : node Key Value) :
    (addrs (RightRotation t)).Perm (addrs t) := by
  unfold RightRotation
  split
  · rename_i a k v p la lk lv lp ll lr lh r h
    simp only [addrs_SetHeight, addrs, addrs_setParent, List.append_assoc, List.cons_append]
    refine List.Perm.append_left _ ?_
    exact ((List.Perm.cons a List.perm_middle).trans (List.Perm.swap _ _ _)).trans
      (List.Perm.cons la List.perm_middle.symm)
  · exact List.Perm.refl _

theorem addrs_LeftRotation_perm (t : node Key Value) :
    (addrs (LeftRotation t)).Perm (addrs t) := by
  unfold LeftRotation
  split
  · rename_i a k v p l ra rk rv rp rl rr rh h
    simp only [addrs_SetHeight, addrs, addrs_setParent, List.append_assoc, List.cons_append]
    refine List.Perm.append_left _ ?_
    exact ((List.Perm.cons ra List.perm_middle).trans (List.Perm.swap _ _ _)).trans
      (List.Perm.cons a List.perm_middle.symm)
  · exact List.Perm.refl _

theorem addrs_Balancing_perm (t : node Key Value) : (addrs (Balancing t)).Perm (addrs t) := by
  unfold Balancing
  split
  · exact List.Perm.refl _
  · rename_i a k v p l r h
    split_ifs
    · refine (addrs_RightRotation_perm _).trans ?_
      simp only [addrs]
      exact List.Perm.append_right _ (addrs_LeftRotation_perm l)
    · exact addrs_RightRotation_perm _
    · refine (addrs_LeftRotation_perm _).trans ?_
      simp only [addrs]
      exact List.Perm.append_left _ (List.Perm.cons _ (addrs_RightRotation_perm r))
    · exact addrs_LeftRotation_perm _
    · exact List.Perm.refl _

theorem addrs_rebalance_perm (a : Nat) (k : Key) (v : Value) (p : Option Nat)
    (l r : node Key Value) (h : Int) :
    (addrs (Balancing (SetHeight (.mk a k v p l r h)))).Perm (addrs l ++ a :: addrs r) := by
  refine (addrs_Balancing_perm _).trans ?_
  simp [addrs]

theorem insert_left_addrs (fresh a : Nat) (k : Key) (v : Value) (p : Option Nat)
    (l l' r : node Key Value) (h : Int) (f : Bool)
    (hp : (addrs l').Perm (if f then fresh :: addrs l else addrs l)) :
    (addrs (Balancing (SetHeight (.mk a k v p l' r h)))).Perm
      (if f then fresh :: addrs (.mk a k v p l r h) else addrs (.mk a k v p l r h)) := by
  refine (addrs_rebalance_perm _ _ _ _ _ _ _).trans ?_
  cases f
  · exact List.Perm.append_right _ hp
  · exact List.Perm.append_right _ hp

theorem insert_right_addrs (fresh a : Nat) (k : Key) (v : Value) (p : Option Nat)
    (l r r' : node Key Value) (h : Int) (f : Bool)
    (hp : (addrs r').Perm (if f then fresh :: addrs r else addrs r)) :
    (addrs (Balancing (SetHeight (.mk a k v p l r' h)))).Perm
      (if f then fresh :: addrs (.mk a k v p l r h) else addrs (.mk a k v p l r h)) := by
  refine (addrs_rebalance_perm _ _ _ _ _ _ _).trans ?_
  cases f
  · exact List.Perm.append_left _ (List.Perm.cons a hp)
  · refine (List.Perm.append_left _ (List.Perm.cons a hp)).trans ?_
    simp only [addrs, if_true]
    have h1 : (addrs l ++ a :: fresh :: addrs r).Perm (fresh :: (addrs l ++ a :: addrs r)) := by
      have := @List.perm_middle Nat fresh (addrs l ++ [a]) (addrs r)
      simpa using this
    exact h1

theorem RecursiveInsertion_addrs [LinearOrder Key] (fresh : Nat) (t : node Key Value)
    (key : Key) (value : Value) (dup : Bool) (hn : t.isNull = false) :
    (addrs (RecursiveInsertion fresh t key value dup).1).Perm
      (if (RecursiveInsertion fresh t key value dup).2 then fresh :: addrs t else addrs t) := by
  induction t with
  | nullptr => simp [node.isNull] at hn
  | mk a k v p l r h ihl ihr =>
    simp only [RecursiveInsertion]
    by_cases c1 : key < k ∨ (dup = true ∧ key = k)
    · simp only [if_pos c1]
      cases l with
      | nullptr =>
        exact insert_left_addrs fresh a k v p .nullptr _ r h true (by simp [addrs, node.new])
      | mk la lk lv lp ll lr lh =>
        exact insert_left_addrs fresh a k v p _ _ r h _ (ihl rfl)
    by_cases c2 : key > k
    · simp only [if_neg c1, if_pos c2]
      cases r with
      | nullptr =>
        exact insert_right_addrs fresh a k v p l .nullptr _ h true (by simp [addrs, node.new])
      | mk la lk lv lp ll lr lh =>
        exact insert_right_addrs fresh a k v p l _ _ h _ (ihr rfl)
    · simp only [if_neg c1, if_neg c2]
      exact addrs_rebalance_perm _ _ _ _ _ _ _

theorem RecursiveDeleting_addrs [LinearOrder Key] (t : node Key Value) :
    ∀ key : Key, (addrs (RecursiveDeleting t key)).Subperm (addrs t) := by
  induction t with
  | nullptr => intro key; exact List.Subperm.refl _
  | mk a k v p l r h ihl ihr =>
    intro key
    simp only [RecursiveDeleting]
    split_ifs with c1 c2
    · refine (addrs_rebalance_perm _ _ _ _ _ _ _).subperm.trans ?_
      exact (List.subperm_append_right _).2 (ihl key)
    · refine (addrs_rebalance_perm _ _ _ _ _ _ _).subperm.trans ?_
      exact (List.subperm_append_left _).2 ((List.subperm_cons a).2 (ihr key))
    · cases l with
      | nullptr =>
        cases r with
        | nullptr => exact List.nil_subperm
        | mk ta tk tv tp tl tr th =>
          refine (addrs_rebalance_perm _ _ _ _ _ _ _).subperm.trans ?_
          simp only [addrs, List.nil_append]
          refine List.Subperm.trans (List.perm_middle.subperm) ?_
          refine (List.subperm_cons a).2 (List.Sublist.subperm ?_)
          exact List.Sublist.append_left (List.sublist_cons_self _ _) _
      | mk ta tk tv tp tl tr th =>
        cases r with
        | nullptr =>
          refine (addrs_rebalance_perm _ _ _ _ _ _ _).subperm.trans ?_
          simp only [addrs, List.append_nil]
          refine List.Subperm.trans (List.perm_middle.subperm) ?_
          refine List.Subperm.trans ?_ (List.perm_append_singleton a _).symm.subperm
          refine (List.subperm_cons a).2 (List.Sublist.subperm ?_)
          exact List.Sublist.append_left (List.sublist_cons_self _ _) _
        | mk ra rk rv rp rl rr rh =>
          simp only []
          cases hm : GetMinNode (node.mk ra rk rv rp rl rr rh) with
          | nullptr => exact List.Subperm.refl _
          | mk ma mk mv mp ml mr mh =>
            simp only []
            refine (addrs_rebalance_perm _ _ _ _ _ _ _).subperm.trans ?_
            exact (List.subperm_append_left _).2 ((List.subperm_cons a).2 (ihr mk))

theorem insert_alloc [LinearOrder Key] (t : AVLTree Key Value) (key : Key) (value : Value)
    (dup : Bool) :
    (t.insert key value dup).1.alloc =
      if (t.insert key value dup).2.2 then t.alloc + 1 else t.alloc := by
  unfold AVLTree.insert
  cases h : t.root <;> simp

theorem insert_addrs [LinearOrder Key] (t : AVLTree Key Value) (key : Key) (value : Value)
    (dup : Bool) :
    (addrs (t.insert key value dup).1.root).Perm
      (if (t.insert key value dup).2.2 then t.alloc :: addrs t.root else addrs t.root) := by
  unfold AVLTree.insert
  cases h : t.root with
  | nullptr => simp [addrs, node.new]
  | mk a k v p l r ht => exact RecursiveInsertion_addrs t.alloc _ key value dup rfl

theorem Built_addrs [LinearOrder Key] {d e : Bool} {t : AVLTree Key Value}
    (h : Built d e t) : (addrs t.root).Nodup ∧ ∀ x ∈ addrs t.root, x < t.alloc := by
  induction h with
  | empty => simp [AVLTree.empty, addrs]
  | @insert t key value dup _ _ ih =>
    have hp := insert_addrs t key value dup
    have ha := insert_alloc t key value dup
    rw [hp.nodup_iff, ha]
    cases hf : (t.insert key value dup).2.2
    · rw [hf] at hp
      simp only [Bool.false_eq_true, if_false] at hp ⊢
      exact ⟨ih.1, fun x hx => ih.2 x (hp.mem_iff.1 hx)⟩
    · rw [hf] at hp
      simp only [if_true] at hp ⊢
      refine ⟨List.nodup_cons.2 ⟨fun hx => absurd (ih.2 _ hx) (lt_irrefl _), ih.1⟩, ?_⟩
      intro x hx
      rcases List.mem_cons.1 (hp.mem_iff.1 hx) with rfl | hx
      · exact Nat.lt_succ_self _
      · exact Nat.lt_succ_of_lt (ih.2 x hx)
  | @erase t pos _ _ ih =>
    rcases erase_cases t pos with h | ⟨key, _, _, h⟩
    · rw [h]; exact ih
    · rw [h]
      have hs := RecursiveDeleting_addrs t.root key
      obtain ⟨L, hL, hsub⟩ := hs
      refine ⟨hL.nodup_iff.1 (ih.1.sublist hsub), ?_⟩
      intro x hx
      exact ih.2 x (hsub.subset (hL.mem_iff.2 hx))

theorem nodeOf_mem_cells (b : Nat) (k : Key) (v : Value) (p : Option Nat)
    (l r : node Key Value) (h : Int) (t : node Key Value)
    (hn : nodeOf (.mk b k v p l r h) t) : (b, k, v) ∈ cells t := by
  induction t with
  | nullptr => exact absurd hn (by simp [nodeOf])
  | mk a' k' v' p' l' r' h' ihl ihr =>
    rcases hn with h1 | h1 | h1
    · injection h1 with e1 e2 e3
      subst e1 e2 e3
      simp [cells]
    · simp [cells, ihl h1]
    · simp [cells, ihr h1]

theorem nodeOf_mem_addrs (b : Nat) (k : Key) (v : Value) (p : Option Nat)
    (l r : node Key Value) (h : Int) (t : node Key Value)
    (hn : nodeOf (.mk b k v p l r h) t) : b ∈ addrs t := by
  rw [← cells_map_fst]
  exact List.mem_map_of_mem Prod.fst (nodeOf_mem_cells b k v p l r h t hn)

theorem lookup_absent (b : Nat) (t : node Key Value) (hb : b ∉ addrs t) :
    lookup b t = .nullptr := by
  induction t with
  | nullptr => rfl
  | mk a' k' v' p' l' r' h' ihl ihr =>
    simp only [addrs, List.mem_append, List.mem_cons, not_or] at hb
    simp only [lookup]
    rw [if_neg (fun hh => hb.2.1 hh.symm), ihl hb.1]
    exact ihr hb.2.2

/-- With pairwise distinct addresses, reading through the address of a node of
the tree yields that node. -/
theorem lookup_nodeOf (b : Nat) (k : Key) (v : Value) (p : Option Nat)
    (l r : node Key Value) (h : Int) (t : node Key Value) (hd : (addrs t).Nodup)
    (hn : nodeOf (.mk b k v p l r h) t) : lookup b t = .mk b k v p l r h := by
  induction t with
  | nullptr => exact absurd hn (by simp [nodeOf])
  | mk a' k' v' p' l' r' h' ihl ihr =>
    simp only [addrs, List.nodup_append, List.nodup_cons] at hd
    obtain ⟨dl, ⟨ha', dr⟩, hdis⟩ := hd
    simp only [lookup]
    rcases hn with h1 | h1 | h1
    · injection h1 with e1 e2 e3 e4 e5 e6 e7
      subst e1 e2 e3 e4 e5 e6 e7
      simp
    · have hb := nodeOf_mem_addrs b k v p l r h l' h1
      have hne : ¬ a' = b := by
        rintro rfl
        exact hdis hb (List.mem_cons_self _ _)
      rw [if_neg hne, ihl dl h1]
    · have hb := nodeOf_mem_addrs b k v p l r h r' h1
      have hne : ¬ a' = b := by
        rintro rfl
        exact ha' hb
      have hbl : b ∉ addrs l' := fun hh => hdis hh (List.mem_cons_of_mem _ hb)
      rw [if_neg hne, lookup_absent b l' hbl]
      exact ihr dr h1

theorem RecursiveSearch_nodeOf [LinearOrder Key] (t : node Key Value) (key : Key) (b : Nat)
    (k : Key) (v : Value) (p : Option Nat) (l r : node Key Value) (h : Int)
    (e : RecursiveSearch t key = .mk b k v p l r h) :
    k = key ∧ nodeOf (.mk b k v p l r h) t := by
  induction t with
  | nullptr => simp [RecursiveSearch] at e
  | mk a' k' v' p' l' r' h' ihl ihr =>
    simp only [RecursiveSearch] at e
    split_ifs at e with c1 c2
    · injection e with e1 e2 e3 e4 e5 e6 e7
      subst e1 e2 e3 e4 e5 e6 e7
      exact ⟨c1, Or.inl rfl⟩
    · exact ⟨(ihl e).1, Or.inr (Or.inl (ihl e).2)⟩
    · exact ⟨(ihr e).1, Or.inr (Or.inr (ihr e).2)⟩

theorem RecursiveSearch_absent [LinearOrder Key] (t : node Key Value) (key : Key)
    (hk : key ∉ keys t) : RecursiveSearch t key = .nullptr := by
  induction t with
  | nullptr => rfl
  | mk a k v p l r h ihl ihr =>
    rw [mem_keys_mk] at hk
    simp only [not_or] at hk
    simp only [RecursiveSearch]
    rw [if_neg (fun hh => hk.2.1 hh.symm)]
    split_ifs
    · exact ihl hk.1
    · exact ihr hk.2.2

theorem RecursiveSearch_found [LinearOrder Key] (t : node Key Value) (key : Key)
    (hs : (keys t).Pairwise (· ≤ ·)) (hk : key ∈ keys t) :
    (RecursiveSearch t key).isNull = false := by
  induction t with
  | nullptr => simp [keys, inorder] at hk
  | mk a k v p l r h ihl ihr =>
    obtain ⟨sl, sr, hlk, hkr⟩ := sorted_mk hs
    rw [mem_keys_mk] at hk
    simp only [RecursiveSearch]
    split_ifs with c1 c2
    · rfl
    · rcases hk with h1 | h1 | h1
      · exact ihl sl h1
      · exact absurd h1.symm c1
      · exact absurd (hkr _ h1) (not_le.2 c2)
    · rcases hk with h1 | h1 | h1
      · exact absurd (lt_of_le_of_ne (hlk _ h1) (fun hh => c1 hh.symm)) c2
      · exact absurd h1.symm c1
      · exact ihr sr h1

/-- In a sorted tree with distinct addresses, `find` on a stored key returns
an iterator that dereferences to this key. -/
theorem find_deref [LinearOrder Key] (t : AVLTree Key Value) (key : Key)
    (hs : (keys t.root).Pairwise (· ≤ ·)) (hd : (addrs t.root).Nodup)
    (hk : key ∈ keys t.root) :
    (t.find key).it_node ≠ none ∧ (t.find key).deref t.root = .ok key := by
  have hf := RecursiveSearch_found t.root key hs hk
  cases e : RecursiveSearch t.root key with
  | nullptr => rw [e] at hf; simp [node.isNull] at hf
  | mk b k v p l r h =>
    obtain ⟨e1, e2⟩ := RecursiveSearch_nodeOf t.root key b k v p l r h e
    subst e1
    have hl := lookup_nodeOf b k v p l r h t.root hd e2
    simp [AVLTree.find, Iterator.deref, e, node.addrOf, hl]

theorem find_absent [LinearOrder Key] (t : AVLTree Key Value) (key : Key)
    (hk : key ∉ keys t.root) :
    (t.find key).it_node = none ∧ t.contains key = false := by
  simp [AVLTree.find, AVLTree.contains, RecursiveSearch_absent t.root key hk, node.addrOf,
    node.isNull]

/-! ## Insertion, erasure and search on the whole tree -/

theorem sampleSet_built : Built false true sampleSet :=
  Built.erase _ rfl (Built.insert 2 99 false (fun h => by cases h)
    (Built.insert 3 30 false (fun h => by cases h) (Built.insert 1 10 false (fun h => by cases h)
      (Built.insert 2 20 false (fun h => by cases h) Built.empty))))

theorem size_eq_length (t : AVLTree Key Value) : t.size = (inorder t.root).length :=
  RecursiveSize_eq_length t.root

theorem keys_length (t : node Key Value) : (keys t).length = (inorder t).length := by
  simp [keys]

theorem insert_iterator [LinearOrder Key] (t : AVLTree Key Value) (key : Key) (value : Value)
    (dup : Bool) : (t.insert key value dup).2.1 = (t.insert key value dup).1.find key := by
  unfold AVLTree.insert
  cases h : t.root with
  | nullptr => simp [AVLTree.find, RecursiveSearch, node.new, node.addrOf]
  | mk a k v p l r ht => rfl

theorem insert_mem_keys [LinearOrder Key] (t : AVLTree Key Value) (key : Key) (value : Value)
    (dup : Bool) (hs : (keys t.root).Pairwise (· ≤ ·)) :
    key ∈ keys (t.insert key value dup).1.root := by
  obtain ⟨hf, hin⟩ := insert_inorder t key value dup hs
  rw [keys, hin]
  split_ifs with c
  · exact (mem_insertBefore_keys key value _ key).2 (Or.inl rfl)
  · by_contra hc
    exact c (hf.2 (Or.inr hc))

theorem insert_deref [LinearOrder Key] {d e : Bool} (t : AVLTree Key Value) (h : Built d e t)
    (key : Key) (value : Value) (dup : Bool) :
    (t.insert key value dup).2.1.deref (t.insert key value dup).1.root = .ok key := by
  have hb : Reachable (t.insert key value dup).1 := Built.insert key value dup (fun _ => rfl) h.mono
  rw [insert_iterator]
  exact (find_deref _ key (Built_sorted hb) (Built_addrs hb).1
    (insert_mem_keys t key value dup (Built_sorted h))).2

theorem insertAll_size [LinearOrder Key] (es : List (Key × Value)) :
    ∀ t : AVLTree Key Value, Built false true t → (es.map Prod.fst).Nodup →
      (∀ x ∈ es.map Prod.fst, x ∉ keys t.root) → (insertAll t es).size = t.size + es.length := by
  induction es with
  | nil => intro t _ _ _; rfl
  | cons e es ih =>
    intro t hb hd hk
    simp only [List.map_cons, List.nodup_cons] at hd
    have hs := Built_sorted hb
    obtain ⟨hf, hin⟩ := insert_inorder t e.1 e.2 false hs
    have he : e.1 ∉ keys t.root := hk e.1 (by simp)
    have hflag : (t.insert e.1 e.2 false).2.2 = true := hf.2 (Or.inr he)
    rw [hflag, if_pos rfl] at hin
    have hb' : Built false true (t.insert e.1 e.2 false).1 :=
      Built.insert e.1 e.2 false (fun h => by cases h) hb
    have hk' : ∀ x ∈ es.map Prod.fst, x ∉ keys (t.insert e.1 e.2 false).1.root := by
      intro x hx hmem
      rw [keys, hin, mem_insertBefore_keys] at hmem
      rcases hmem with h1 | h1
      · exact hd.1 (h1 ▸ hx)
      · exact hk x (List.mem_cons_of_mem _ hx) h1
    have := ih _ hb' hd.2 hk'
    simp only [insertAll, List.foldl_cons] at this ⊢
    rw [this, size_eq_length, size_eq_length, hin, insertBefore_length, List.length_cons]
    omega

/-- C3: on a tree built with allow_duplicates = false, `insert(k, v)` reports
`inserted = true` exactly when `k` was absent; then size() grows by one and
the in-order entry sequence is the old one with `(k, v)` put in before the
first entry of larger key; when `k` was present size() and all entries are
unchanged; in both cases the returned iterator dereferences to `k`.  Hence
inserting the entries of a list with pairwise distinct keys into the empty
tree gives size() equal to the length of the list. -/
theorem insert_without_duplicates [LinearOrder Key] (t : AVLTree Key Value)
    (h : Built false true t) (k : Key) (v : Value) :
    ((t.insert k v false).2.2 = true ↔ k ∉ keys t.root) ∧
    (k ∉ keys t.root →
      (t.insert k v false).1.size = t.size + 1 ∧
      inorder (t.insert k v false).1.root =
        (inorder t.root).takeWhile (fun e => decide (e.1 < k)) ++
          (k, v) :: (inorder t.root).dropWhile (fun e => decide (e.1 < k))) ∧
    (k ∈ keys t.root →
      (t.insert k v false).1.size = t.size ∧
      inorder (t.insert k v false).1.root = inorder t.root) ∧
    (t.insert k v false).2.1.deref (t.insert k v false).1.root = .ok k ∧
    (∀ es : List (Key × Value), (es.map Prod.fst).Nodup →
      (insertAll (AVLTree.empty : AVLTree Key Value) es).size = es.length) := by
  have hs := Built_sorted h
  obtain ⟨hf, hin⟩ := insert_inorder t k v false hs
  have hf' : (t.insert k v false).2.2 = true ↔ k ∉ keys t.root := by
    rw [hf]; simp
  refine ⟨hf', ?_, ?_, insert_deref t h k v false, ?_⟩
  · intro hk
    rw [hf'.2 hk, if_pos rfl] at hin
    refine ⟨?_, ?_⟩
    · rw [size_eq_length, size_eq_length, hin, insertBefore_length]
    · rw [hin, insertBefore_eq_takeWhile]
  · intro hk
    have : (t.insert k v false).2.2 = false := by
      cases hc : (t.insert k v false).2.2
      · rfl
      · exact absurd hk (hf'.1 hc)
    rw [this] at hin
    simp only [Bool.false_eq_true, if_false] at hin
    exact ⟨by rw [size_eq_length, size_eq_length, hin], hin⟩
  · intro es hd
    have := insertAll_size es AVLTree.empty Built.empty hd (by simp [AVLTree.empty, keys, inorder])
    simpa [AVLTree.size, AVLTree.empty, RecursiveSize] using this

theorem insert_without_duplicates_witness :
    Built false true sampleSet ∧
    (((sampleSet.insert 5 50 false).2.2 = true ↔ 5 ∉ keys sampleSet.root) ∧
    (5 ∉ keys sampleSet.root →
      (sampleSet.insert 5 50 false).1.size = sampleSet.size + 1 ∧
      inorder (sampleSet.insert 5 50 false).1.root =
        (inorder sampleSet.root).takeWhile (fun e => decide (e.1 < 5)) ++
          (5, 50) :: (inorder sampleSet.root).dropWhile (fun e => decide (e.1 < 5))) ∧
    (5 ∈ keys sampleSet.root →
      (sampleSet.insert 5 50 false).1.size = sampleSet.size ∧
      inorder (sampleSet.insert 5 50 false).1.root = inorder sampleSet.root) ∧
    (sampleSet.insert 5 50 false).2.1.deref (sampleSet.insert 5 50 false).1.root = .ok 5 ∧
    (∀ es : List (Nat × Nat), (es.map Prod.fst).Nodup →
      (insertAll (AVLTree.empty : AVLTree Nat Nat) es).size = es.length)) :=
  ⟨sampleSet_built, insert_without_duplicates sampleSet sampleSet_built 5 50⟩

theorem mem_cells_nodeOf (t : node Key Value) (a : Nat) (k : Key) (v : Value)
    (hc : (a, k, v) ∈ cells t) : ∃ p l r h, nodeOf (.mk a k v p l r h) t := by
  induction t with
  | nullptr => simp [cells] at hc
  | mk a' k' v' p' l' r' h' ihl ihr =>
    simp only [cells, List.mem_append, List.mem_cons] at hc
    rcases hc with h1 | h1 | h1
    · obtain ⟨p, l, r, h, hn⟩ := ihl h1
      exact ⟨p, l, r, h, Or.inr (Or.inl hn)⟩
    · injection h1 with e1 e2
      injection e2 with e2 e3
      subst e1 e2 e3
      exact ⟨p', l', r', h', Or.inl rfl⟩
    · obtain ⟨p, l, r, h, hn⟩ := ihr h1
      exact ⟨p, l, r, h, Or.inr (Or.inr hn)⟩

/-- With distinct addresses, an iterator at the node of address `a` that
stores key `k` dereferences to `k`. -/
theorem deref_of_cell (t : node Key Value) (pos : Iterator) (a : Nat) (k : Key) (v : Value)
    (hd : (addrs t).Nodup) (hpos : pos.it_node = some a) (hc : (a, k, v) ∈ cells t) :
    pos.deref t = .ok k := by
  obtain ⟨p, l, r, h, hn⟩ := mem_cells_nodeOf t a k v hc
  simp [Iterator.deref, hpos, lookup_nodeOf a k v p l r h t hd hn]

theorem erase_of_deref [LinearOrder Key] (t : AVLTree Key Value) (pos : Iterator) (k : Key)
    (hk : pos.deref t.root = .ok k) :
    t.erase pos = { t with root := RecursiveDeleting t.root k } := by
  unfold AVLTree.erase AVLTree.erase_in
  have h1 : ¬ (t.root.isNull = true ∨ pos.it_node = none) := by
    rintro (h1 | h1)
    · cases hr : t.root with
      | nullptr =>
        have := deref_mem_keys _ _ _ hk
        rw [hr] at this
        simp [keys, inorder] at this
      | mk a k v p l r h => rw [hr] at h1; simp [node.isNull] at h1
    · simp [Iterator.deref, h1] at hk
  rw [if_neg h1, hk]

theorem RecursiveDeleting_inorder_strict [LinearOrder Key] (t : node Key Value)
    (hs : (keys t).Pairwise (· < ·)) :
    ∀ key : Key, inorder (RecursiveDeleting t key) =
      (inorder t).filter (fun e => decide (e.1 ≠ key)) := by
  induction t with
  | nullptr => intro key; rfl
  | mk a k v p l r h ihl ihr =>
    intro key
    obtain ⟨sl, sr, hlk, hkr⟩ := strict_mk hs
    have fl : ∀ x : Key, k ≤ x → (inorder l).filter (fun e => decide (e.1 ≠ x)) = inorder l := by
      intro x hx
      rw [List.filter_eq_self]
      intro e he
      have := hlk e.1 (List.mem_map_of_mem _ he)
      simpa using ne_of_lt (lt_of_lt_of_le this hx)
    have fr : ∀ x : Key, x ≤ k → (inorder r).filter (fun e => decide (e.1 ≠ x)) = inorder r := by
      intro x hx
      rw [List.filter_eq_self]
      intro e he
      have := hkr e.1 (List.mem_map_of_mem _ he)
      simpa using ne_of_gt (lt_of_le_of_lt hx this)
    simp only [RecursiveDeleting]
    by_cases c1 : key < k
    · simp only [if_pos c1]
      simp only [inorder_Balancing, inorder_SetHeight, inorder, List.filter_append, ihl sl key]
      rw [List.filter_cons_of_pos (by simpa using ne_of_gt c1), fr key (le_of_lt c1)]
    by_cases c2 : key > k
    · simp only [if_neg c1, if_pos c2]
      simp only [inorder_Balancing, inorder_SetHeight, inorder, List.filter_append, ihr sr key]
      rw [List.filter_cons_of_pos (by simpa using ne_of_lt c2), fl key (le_of_lt c2)]
    · simp only [if_neg c1, if_neg c2]
      have hkk : key = k := le_antisymm (not_lt.1 c2) (not_lt.1 c1)
      subst hkk
      have hgoal : (inorder (.mk a key v p l r h)).filter (fun e => decide (e.1 ≠ key)) =
          inorder l ++ inorder r := by
        simp only [inorder, List.filter_append]
        rw [List.filter_cons_of_neg (by simp), fl key le_rfl, fr key le_rfl]
      rw [hgoal]
      cases l with
      | nullptr =>
        cases r with
        | nullptr => rfl
        | mk ta tk tv tp tl tr th => simp [inorder]
      | mk ta tk tv tp tl tr th =>
        cases r with
        | nullptr => simp [inorder]
        | mk ra rk rv rp rl rr rh =>
          simp only []
          obtain ⟨ma, mk, mv, mp, mr, mh, rest, e1, e2⟩ :=
            GetMinNode_spec (.mk ra rk rv rp rl rr rh) rfl
          rw [e1]
          simp only []
          have hin : inorder (.mk ra rk rv rp rl rr rh) = (mk, mv) :: rest.map Prod.snd := by
            rw [← cells_map_snd, e2]; rfl
          have hrest : (rest.map Prod.snd).filter (fun e => decide (e.1 ≠ mk)) =
              rest.map Prod.snd := by
            rw [List.filter_eq_self]
            intro e he
            have hsr := sr
            rw [keys, hin, List.map_cons, List.pairwise_cons] at hsr
            simpa using ne_of_gt (hsr.1 e.1 (List.mem_map_of_mem _ he))
          simp only [inorder_Balancing, inorder_SetHeight]
          rw [inorder, ihr sr mk, hin, List.filter_cons_of_neg (by simp), hrest]

theorem reachable_inorder_sorted_witness :
    (Reachable sampleTree ∧ (keys sampleTree.root).Pairwise (· ≤ ·)) ∧
    (Built false true sampleSet ∧ (keys sampleSet.root).Pairwise (· < ·)) :=
  ⟨⟨sampleTree_reachable, (reachable_inorder_sorted sampleTree).1 sampleTree_reachable⟩,
    ⟨sampleSet_built, (reachable_inorder_sorted sampleSet).2 sampleSet_built⟩⟩

/-- C4: on a tree obtained by inserts (either mode) and erases, erasing through
an iterator at a stored entry of key `k` removes exactly one occurrence of `k`
from the in-order key sequence, so size() drops by one; when the tree was
built without duplicates, `find(k)` then equals `end()`, `contains(k)` is
false and the entries of all other keys are unchanged. -/
theorem erase_removes_one_entry [LinearOrder Key] (t : AVLTree Key Value) (h : Reachable t)
    (pos : Iterator) (a : Nat) (k : Key) (v : Value) (hpos : pos.it_node = some a)
    (hcell : (a, k, v) ∈ cells t.root) :
    (∃ L1 L2, keys t.root = L1 ++ k :: L2 ∧ keys (t.erase pos).root = L1 ++ L2) ∧
    (t.erase pos).size + 1 = t.size ∧
    (Built false true t →
      ((t.erase pos).find k).eq (AVLTree.end (t.erase pos)) = true ∧
      (t.erase pos).contains k = false ∧
      inorder (t.erase pos).root = (inorder t.root).filter (fun e => decide (e.1 ≠ k))) := by
  have hs := Built_sorted h
  have hd := (Built_addrs h).1
  have hderef := deref_of_cell t.root pos a k v hd hpos hcell
  have he := erase_of_deref t pos k hderef
  have hk : k ∈ keys t.root := mem_cells_key _ _ hcell
  obtain ⟨L1, L2, e1, e2⟩ := RecursiveDeleting_keys t.root hs k hk
  have e2' : keys (t.erase pos).root = L1 ++ L2 := by rw [he]; exact e2
  refine ⟨⟨L1, L2, e1, e2'⟩, ?_, ?_⟩
  · rw [size_eq_length, size_eq_length, ← keys_length, ← keys_length, e1, e2']
    simp only [List.length_append, List.length_cons]
    omega
  · intro hb
    have hstrict := Built_strict hb
    have hin : inorder (t.erase pos).root =
        (inorder t.root).filter (fun e => decide (e.1 ≠ k)) := by
      rw [he]; exact RecursiveDeleting_inorder_strict t.root hstrict k
    have hnot : k ∉ keys (t.erase pos).root := by
      rw [keys, hin]
      simp [List.mem_filter]
    obtain ⟨f1, f2⟩ := find_absent (t.erase pos) k hnot
    exact ⟨by simp [Iterator.eq, AVLTree.end, f1], f2, hin⟩

theorem erase_removes_one_entry_witness :
    (Reachable sampleSet ∧ (0, 2, 20) ∈ cells sampleSet.root ∧ Built false true sampleSet) ∧
    (∃ L1 L2, keys sampleSet.root = L1 ++ 2 :: L2 ∧
      keys (sampleSet.erase { it_node := some 0, it_prev_node := none }).root = L1 ++ L2) ∧
    (sampleSet.erase { it_node := some 0, it_prev_node := none }).size + 1 = sampleSet.size ∧
    ((sampleSet.erase { it_node := some 0, it_prev_node := none }).find 2).eq
      (AVLTree.end (sampleSet.erase { it_node := some 0, it_prev_node := none })) = true ∧
    (sampleSet.erase { it_node := some 0, it_prev_node := none }).contains 2 = false ∧
    inorder (sampleSet.erase { it_node := some 0, it_prev_node := none }).root =
      (inorder sampleSet.root).filter (fun e => decide (e.1 ≠ 2)) :=
  have w := erase_removes_one_entry sampleSet sampleSet_built.mono
    { it_node := some 0, it_prev_node := none } 0 2 20 rfl (by decide)
  ⟨⟨sampleSet_built.mono, by decide, sampleSet_built⟩, w.1, w.2.1, w.2.2 sampleSet_built⟩

/-- C5: on a tree obtained by inserts (either mode) and erases, `contains(k)`
is true exactly when `k` occurs in the in-order key sequence, `find(k)`
dereferences to `k` when `k` occurs and equals `end()` otherwise. -/
theorem find_and_contains [LinearOrder Key] (t : AVLTree Key Value) (h : Reachable t)
    (k : Key) :
    (t.contains k = true ↔ k ∈ keys t.root) ∧
    (k ∈ keys t.root → (t.find k).deref t.root = .ok k) ∧
    (k ∉ keys t.root → (t.find k).eq (AVLTree.end t) = true) := by
  have hs := Built_sorted h
  have hd := (Built_addrs h).1
  refine ⟨?_, ?_, ?_⟩
  · constructor
    · intro hc
      by_contra hk
      rw [(find_absent t k hk).2] at hc
      exact absurd hc (by simp)
    · intro hk
      simp [AVLTree.contains, RecursiveSearch_found t.root k hs hk]
  · intro hk
    exact (find_deref t k hs hd hk).2
  · intro hk
    simp [Iterator.eq, AVLTree.end, (find_absent t k hk).1]

theorem find_and_contains_witness :
    Reachable sampleTree ∧
    ((sampleTree.contains 20 = true ↔ 20 ∈ keys sampleTree.root) ∧
    (20 ∈ keys sampleTree.root → (sampleTree.find 20).deref sampleTree.root = .ok 20) ∧
    (20 ∉ keys sampleTree.root →
      (sampleTree.find 20).eq (AVLTree.end sampleTree) = true)) :=
  ⟨sampleTree_reachable, find_and_contains sampleTree sampleTree_reachable 20⟩

/-! ## Bounds -/

theorem sorted_cells_mk [LinearOrder Key] {a : Nat} {k : Key} {v : Value} {p : Option Nat}
    {l r : node Key Value} {h : Int} (hs : (keys (.mk a k v p l r h)).Pairwise (· ≤ ·)) :
    (∀ c ∈ cells l, c.2.1 ≤ k) ∧ (∀ c ∈ cells r, k ≤ c.2.1) :=
  ⟨fun c hc => (sorted_mk hs).2.2.1 _ (mem_cells_key l c hc),
    fun c hc => (sorted_mk hs).2.2.2 _ (mem_cells_key r c hc)⟩

theorem lower_bound_loop_spec [LinearOrder Key] (key : Key) (t : node Key Value)
    (hs : (keys t).Pairwise (· ≤ ·)) :
    ∀ result : node Key Value,
      (lower_bound_loop key t result).addrOf =
        (((cells t).find? (fun c => decide (¬ c.2.1 < key))).map Prod.fst).or result.addrOf := by
  induction t with
  | nullptr => intro result; simp [lower_bound_loop, cells]
  | mk a k v p l r h ihl ihr =>
    intro result
    obtain ⟨sl, sr, _, _⟩ := sorted_mk hs
    obtain ⟨hl, _⟩ := sorted_cells_mk hs
    simp only [lower_bound_loop, cells, List.find?_append]
    by_cases c : k < key
    · have hnone : (cells l).find? (fun c => decide (¬ c.2.1 < key)) = none := by
        rw [List.find?_eq_none]
        intro x hx
        have := lt_of_le_of_lt (hl x hx) c
        simpa using this
      rw [if_neg (not_not.2 c), ihr sr, hnone, List.find?_cons_of_neg _ (by simpa using c)]
      simp
    · rw [if_pos c, ihl sl, List.find?_cons_of_pos _ (by simpa using c)]
      cases (cells l).find? (fun c => decide (¬ c.2.1 < key)) <;> simp [node.addrOf]

theorem upper_bound_loop_spec [LinearOrder Key] (key : Key) (t : node Key Value)
    (hs : (keys t).Pairwise (· ≤ ·)) :
    ∀ result : node Key Value,
      (upper_bound_loop key t result).addrOf =
        (((cells t).find? (fun c => decide (key < c.2.1))).map Prod.fst).or result.addrOf := by
  induction t with
  | nullptr => intro result; simp [upper_bound_loop, cells]
  | mk a k v p l r h ihl ihr =>
    intro result
    obtain ⟨sl, sr, _, _⟩ := sorted_mk hs
    obtain ⟨hl, _⟩ := sorted_cells_mk hs
    simp only [upper_bound_loop, cells, List.find?_append]
    split_ifs with c
    · rw [ihl sl, List.find?_cons_of_pos _ (by simpa using c)]
      cases (cells l).find? (fun c => decide (key < c.2.1)) <;> simp [node.addrOf]
    · have hnone : (cells l).find? (fun c => decide (key < c.2.1)) = none := by
        rw [List.find?_eq_none]
        intro x hx
        have := le_trans (hl x hx) (not_lt.1 c)
        simpa using this
      rw [ihr sr, hnone, List.find?_cons_of_neg _ (by simpa using c)]
      simp

theorem lower_bound_it_node [LinearOrder Key] (t : AVLTree Key Value) (k : Key)
    (hs : (keys t.root).Pairwise (· ≤ ·)) :
    (t.lower_bound k).it_node =
      ((cells t.root).find? (fun c => decide (¬ c.2.1 < k))).map Prod.fst := by
  show (lower_bound_loop k t.root .nullptr).addrOf = _
  rw [lower_bound_loop_spec k t.root hs]
  simp [node.addrOf]

theorem upper_bound_it_node [LinearOrder Key] (t : AVLTree Key Value) (k : Key)
    (hs : (keys t.root).Pairwise (· ≤ ·)) :
    (t.upper_bound k).it_node =
      ((cells t.root).find? (fun c => decide (k < c.2.1))).map Prod.fst := by
  show (upper_bound_loop k t.root .nullptr).addrOf = _
  rw [upper_bound_loop_spec k t.root hs]
  simp [node.addrOf]

theorem deref_of_find [LinearOrder Key] (t : node Key Value) (hd : (addrs t).Nodup)
    (q : Nat × Key × Value → Bool) (it : Iterator)
    (hit : it.it_node = ((cells t).find? q).map Prod.fst) :
    (∀ c, (cells t).find? q = some c → it.deref t = .ok c.2.1) ∧
    ((cells t).find? q = none → it.it_node = none) := by
  refine ⟨?_, ?_⟩
  · intro c hc
    rw [hc] at hit
    exact deref_of_cell t it c.1 c.2.1 c.2.2 hd hit (List.mem_of_find?_eq_some hc)
  · intro hc
    rw [hc] at hit
    exact hit

/-- C6: on a tree obtained by inserts (either mode) and erases,
`lower_bound(k)` is at the first node of the in-order sequence whose key is not
less than `k` and `upper_bound(k)` at the first node whose key is greater than
`k`: each iterator holds the address of that node and dereferences to its key,
and each equals `end()` when there is no such node. -/
theorem bounds_designate_first [LinearOrder Key] (t : AVLTree Key Value) (h : Reachable t)
    (k : Key) :
    ((t.lower_bound k).it_node =
        ((cells t.root).find? (fun c => decide (¬ c.2.1 < k))).map Prod.fst ∧
      (∀ c, (cells t.root).find? (fun c => decide (¬ c.2.1 < k)) = some c →
        (t.lower_bound k).deref t.root = .ok c.2.1) ∧
      ((cells t.root).find? (fun c => decide (¬ c.2.1 < k)) = none →
        (t.lower_bound k).eq (AVLTree.end t) = true)) ∧
    ((t.upper_bound k).it_node =
        ((cells t.root).find? (fun c => decide (k < c.2.1))).map Prod.fst ∧
      (∀ c, (cells t.root).find? (fun c => decide (k < c.2.1)) = some c →
        (t.upper_bound k).deref t.root = .ok c.2.1) ∧
      ((cells t.root).find? (fun c => decide (k < c.2.1)) = none →
        (t.upper_bound k).eq (AVLTree.end t) = true)) := by
  have hs := Built_sorted h
  have hd := (Built_addrs h).1
  have h1 := lower_bound_it_node t k hs
  have h2 := upper_bound_it_node t k hs
  obtain ⟨a1, a2⟩ := deref_of_find t.root hd _ _ h1
  obtain ⟨b1, b2⟩ := deref_of_find t.root hd _ _ h2
  exact ⟨⟨h1, a1, fun hn => by simp [Iterator.eq, AVLTree.end, a2 hn]⟩,
    ⟨h2, b1, fun hn => by simp [Iterator.eq, AVLTree.end, b2 hn]⟩⟩

theorem bounds_designate_first_witness :
    Reachable sampleTree ∧
    (((sampleTree.lower_bound 20).it_node =
        ((cells sampleTree.root).find? (fun c => decide (¬ c.2.1 < 20))).map Prod.fst ∧
      (∀ c, (cells sampleTree.root).find? (fun c => decide (¬ c.2.1 < 20)) = some c →
        (sampleTree.lower_bound 20).deref sampleTree.root = .ok c.2.1) ∧
      ((cells sampleTree.root).find? (fun c => decide (¬ c.2.1 < 20)) = none →
        (sampleTree.lower_bound 20).eq (AVLTree.end sampleTree) = true)) ∧
    ((sampleTree.upper_bound 20).it_node =
        ((cells sampleTree.root).find? (fun c => decide (20 < c.2.1))).map Prod.fst ∧
      (∀ c, (cells sampleTree.root).find? (fun c => decide (20 < c.2.1)) = some c →
        (sampleTree.upper_bound 20).deref sampleTree.root = .ok c.2.1) ∧
      ((cells sampleTree.root).find? (fun c => decide (20 < c.2.1)) = none →
        (sampleTree.upper_bound 20).eq (AVLTree.end sampleTree) = true))) :=
  ⟨sampleTree_reachable, bounds_designate_first sampleTree sampleTree_reachable 20⟩

/-! ## Duplicate mode -/

/-- C9: on a tree obtained by inserts and erases, `insert(k, v, true)` puts
`(k, v)` into the in-order entry sequence immediately before the first entry
whose key is not less than `k`: all entries before it have smaller keys, all
entries after it have keys not less than `k`, the key sequence stays sorted,
and among the entries of key `k` the new one comes first. -/
theorem insert_duplicate_position [LinearOrder Key] (t : AVLTree Key Value) (h : Reachable t)
    (k : Key) (v : Value) :
    inorder (t.insert k v true).1.root =
      (inorder t.root).takeWhile (fun e => decide (e.1 < k)) ++
        (k, v) :: (inorder t.root).dropWhile (fun e => decide (e.1 < k)) ∧
    (∀ e ∈ (inorder t.root).takeWhile (fun e => decide (e.1 < k)), e.1 < k) ∧
    (∀ e ∈ (inorder t.root).dropWhile (fun e => decide (e.1 < k)), k ≤ e.1) ∧
    (keys (t.insert k v true).1.root).Pairwise (· ≤ ·) ∧
    (inorder (t.insert k v true).1.root).filter (fun e => decide (e.1 = k)) =
      (k, v) :: (inorder t.root).filter (fun e => decide (e.1 = k)) := by
  have hs := Built_sorted h
  obtain ⟨hf, hin⟩ := insert_inorder t k v true hs
  rw [hf.2 (Or.inl rfl), if_pos rfl, insertBefore_eq_takeWhile] at hin
  have h2 : ∀ e ∈ (inorder t.root).takeWhile (fun e => decide (e.1 < k)), e.1 < k := by
    intro e he
    simpa using List.mem_takeWhile_imp he
  have h3 : ∀ e ∈ (inorder t.root).dropWhile (fun e => decide (e.1 < k)), k ≤ e.1 := by
    intro e he
    cases hdw : (inorder t.root).dropWhile (fun e => decide (e.1 < k)) with
    | nil => rw [hdw] at he; simp at he
    | cons x xs =>
      have hx : k ≤ x.1 := by
        have := List.head_dropWhile_not (fun e : Key × Value => decide (e.1 < k))
          (inorder t.root) (by rw [hdw]; simp)
        simp only [hdw, List.head_cons] at this
        simpa using this
      have hsorted : ((x :: xs).map Prod.fst).Pairwise (· ≤ ·) := by
        rw [← hdw]
        exact hs.sublist ((List.dropWhile_sublist _).map Prod.fst)
      rw [hdw] at he
      rcases List.mem_cons.1 he with rfl | he
      · exact hx
      · rw [List.map_cons, List.pairwise_cons] at hsorted
        exact le_trans hx (hsorted.1 _ (List.mem_map_of_mem _ he))
  refine ⟨hin, h2, h3, Built_sorted (Built.insert k v true (fun _ => rfl) h), ?_⟩
  have hnil : ((inorder t.root).takeWhile (fun e => decide (e.1 < k))).filter
      (fun e => decide (e.1 = k)) = [] := by
    rw [List.filter_eq_nil_iff]
    intro e he
    simpa using ne_of_lt (h2 e he)
  have hold : (inorder t.root).filter (fun e => decide (e.1 = k)) =
      ((inorder t.root).dropWhile (fun e => decide (e.1 < k))).filter
        (fun e => decide (e.1 = k)) := by
    conv_lhs => rw [← List.takeWhile_append_dropWhile (fun e => decide (e.1 < k)) (inorder t.root)]
    rw [List.filter_append, hnil, List.nil_append]
  rw [hin, List.filter_append, hnil, List.nil_append, List.filter_cons_of_pos (by simp), hold]

theorem insert_duplicate_position_witness :
    Reachable sampleTree ∧
    (inorder (sampleTree.insert 20 9 true).1.root =
      (inorder sampleTree.root).takeWhile (fun e => decide (e.1 < 20)) ++
        (20, 9) :: (inorder sampleTree.root).dropWhile (fun e => decide (e.1 < 20)) ∧
    (∀ e ∈ (inorder sampleTree.root).takeWhile (fun e => decide (e.1 < 20)), e.1 < 20) ∧
    (∀ e ∈ (inorder sampleTree.root).dropWhile (fun e => decide (e.1 < 20)), 20 ≤ e.1) ∧
    (keys (sampleTree.insert 20 9 true).1.root).Pairwise (· ≤ ·) ∧
    (inorder (sampleTree.insert 20 9 true).1.root).filter (fun e => decide (e.1 = 20)) =
      (20, 9) :: (inorder sampleTree.root).filter (fun e => decide (e.1 = 20))) :=
  ⟨sampleTree_reachable, insert_duplicate_position sampleTree sampleTree_reachable 20 9⟩

theorem insertDups_reachable [LinearOrder Key] (es : List (Key × Value)) :
    Built true false (insertDups es : AVLTree Key Value) := by
  have key : ∀ (l : List (Key × Value)) (t : AVLTree Key Value), Built true false t →
      Built true false (l.foldl (fun acc e => (acc.insert e.1 e.2 true).1) t) := by
    intro l
    induction l with
    | nil => intro t ht; exact ht
    | cons e l ih => intro t ht; exact ih _ (Built.insert e.1 e.2 true (fun _ => rfl) ht)
  exact key es _ Built.empty

theorem WeakOrder_of_sorted [LinearOrder Key] (t : node Key Value)
    (hs : (keys t).Pairwise (· ≤ ·)) : WeakOrder t := by
  induction t with
  | nullptr => trivial
  | mk a k v p l r h ihl ihr =>
    obtain ⟨sl, sr, hlk, hkr⟩ := sorted_mk hs
    exact ⟨hlk, hkr, ihl sl, ihr sr⟩

/-- C10, as stated, fails: three inserts of the key 20 in duplicate mode end,
after the right rotation at the root, with a node of key 20 in the right
subtree of the root of key 20. -/
theorem duplicates_left_only_fails :
    ¬ DuplicatesLeftOrder (insertDups [((20 : Nat), (1 : Nat)), (20, 2), (20, 3)]).root := by
  have e : (insertDups [((20 : Nat), (1 : Nat)), (20, 2), (20, 3)]).root =
      .mk 0 20 2 none (.mk 2 20 3 (some 0) .nullptr .nullptr 0)
        (.mk 1 20 1 (some 0) .nullptr .nullptr 0) 1 := by decide
  rw [e]
  intro hc
  have := hc.2.1 20 (by simp [keys, inorder])
  exact absurd this (lt_irrefl _)

/-- C10, amended: in every tree built from the empty tree by inserts in
duplicate mode, at every node the keys of the left subtree are not greater
than the key of the node and the keys of the right subtree are not less than
it. -/
theorem duplicates_weak_order [LinearOrder Key] (es : List (Key × Value)) :
    WeakOrder (insertDups es : AVLTree Key Value).root :=
  WeakOrder_of_sorted _ (Built_sorted (insertDups_reachable es))

/-! ## Parent links -/

theorem ParentsOK_setParent (q : Option Nat) (p : Nat) (t : node Key Value)
    (h : ParentsOK q t) : ParentsOK (some p) (setParent p t) := by
  cases t with
  | nullptr => trivial
  | mk a k v p' l r ht => exact ⟨rfl, h.2.1, h.2.2⟩

@[simp] theorem ParentsOK_SetHeight (q : Option Nat) (t : node Key Value) :
    ParentsOK q (SetHeight t) ↔ ParentsOK q t := by
  cases t <;> simp [SetHeight, ParentsOK]

theorem ParentsOK_RightRotation (q : Option Nat) (t : node Key Value) (h : ParentsOK q t) :
    ParentsOK q (RightRotation t) := by
  unfold RightRotation
  split
  · rename_i a k v p la lk lv lp ll lr lh r ht
    obtain ⟨h1, ⟨h2, h3, h4⟩, h5⟩ := h
    simp only [ParentsOK_SetHeight]
    exact ⟨h1, ParentsOK_setParent _ _ _ h3,
      ⟨h2, ParentsOK_setParent _ _ _ h4, ParentsOK_setParent _ _ _ h5⟩⟩
  · exact h

theorem ParentsOK_LeftRotation (q : Option Nat) (t : node Key Value) (h : ParentsOK q t) :
    ParentsOK q (LeftRotation t) := by
  unfold LeftRotation
  split
  · rename_i a k v p l ra rk rv rp rl rr rh ht
    obtain ⟨h1, h2, ⟨h3, h4, h5⟩⟩ := h
    simp only [ParentsOK_SetHeight]
    exact ⟨h1, ⟨h3, ParentsOK_setParent _ _ _ h2, ParentsOK_setParent _ _ _ h4⟩,
      ParentsOK_setParent _ _ _ h5⟩
  · exact h

theorem ParentsOK_Balancing (q : Option Nat) (t : node Key Value) (h : ParentsOK q t) :
    ParentsOK q (Balancing t) := by
  unfold Balancing
  split
  · trivial
  · rename_i a k v p l r ht
    obtain ⟨h1, h2, h3⟩ := h
    split_ifs
    · exact ParentsOK_RightRotation _ _ ⟨h1, ParentsOK_LeftRotation _ _ h2, h3⟩
    · exact ParentsOK_RightRotation _ _ ⟨h1, h2, h3⟩
    · exact ParentsOK_LeftRotation _ _ ⟨h1, h2, ParentsOK_RightRotation _ _ h3⟩
    · exact ParentsOK_LeftRotation _ _ ⟨h1, h2, h3⟩
    · exact ⟨h1, h2, h3⟩

theorem ParentsOK_rebalance (q : Option Nat) (a : Nat) (k : Key) (v : Value) (p : Option Nat)
    (l r : node Key Value) (h : Int) (hp : p = q) (hl : ParentsOK (some a) l)
    (hr : ParentsOK (some a) r) :
    ParentsOK q (Balancing (SetHeight (.mk a k v p l r h))) :=
  ParentsOK_Balancing _ _ ((ParentsOK_SetHeight _ _).2 ⟨hp, hl, hr⟩)

theorem RecursiveInsertion_ParentsOK [LinearOrder Key] (fresh : Nat) (t : node Key Value)
    (key : Key) (value : Value) (dup : Bool) :
    ∀ q : Option Nat, ParentsOK q t →
      ParentsOK q (RecursiveInsertion fresh t key value dup).1 := by
  induction t with
  | nullptr => intro q _; trivial
  | mk a k v p l r h ihl ihr =>
    intro q hq
    obtain ⟨h1, h2, h3⟩ := hq
    simp only [RecursiveInsertion]
    by_cases c1 : key < k ∨ (dup = true ∧ key = k)
    · simp only [if_pos c1]
      cases l with
      | nullptr => exact ParentsOK_rebalance q a k v p _ r h h1 ⟨rfl, trivial, trivial⟩ h3
      | mk la lk lv lp ll lr lh => exact ParentsOK_rebalance q a k v p _ r h h1 (ihl _ h2) h3
    by_cases c2 : key > k
    · simp only [if_neg c1, if_pos c2]
      cases r with
      | nullptr => exact ParentsOK_rebalance q a k v p l _ h h1 h2 ⟨rfl, trivial, trivial⟩
      | mk la lk lv lp ll lr lh => exact ParentsOK_rebalance q a k v p l _ h h1 h2 (ihr _ h3)
    · simp only [if_neg c1, if_neg c2]
      exact ParentsOK_rebalance q a k v p l r h h1 h2 h3

/-- Inserts alone keep the parent links consistent. -/
theorem Built_ParentsOK [LinearOrder Key] {d : Bool} {t : AVLTree Key Value}
    (h : Built d false t) : ParentsOK none t.root := by
  induction h with
  | empty => trivial
  | @insert t key value dup _ _ ih =>
    rw [insert_root]
    split_ifs
    · exact ⟨rfl, trivial, trivial⟩
    · exact RecursiveInsertion_ParentsOK _ _ _ _ _ none ih
  | erase pos he _ _ => cases he

/-! ## Iterator steps -/

theorem climb_from_right_mono (mem : node Key Value) :
    ∀ (f f' : Nat) (prev : Nat) (cur : Option Nat) (x : Option Nat),
      climb_from_right mem f prev cur = some x → f ≤ f' →
      climb_from_right mem f' prev cur = some x := by
  intro f
  induction f with
  | zero =>
    intro f' prev cur x h _
    cases cur with
    | none => cases f' <;> simpa [climb_from_right] using h
    | some c => simp [climb_from_right] at h
  | succ n ih =>
    intro f' prev cur x h hle
    cases cur with
    | none => cases f' <;> simpa [climb_from_right] using h
    | some c =>
      obtain ⟨m, rfl⟩ : ∃ m, f' = m + 1 := ⟨f' - 1, by omega⟩
      simp only [climb_from_right] at h ⊢
      cases hl : lookup c mem with
      | nullptr => rw [hl] at h; simp at h
      | mk b k v p l r ht =>
        rw [hl] at h
        simp only [] at h ⊢
        split_ifs at h ⊢ with c1
        · exact ih m c p x h (by omega)
        · exact h

theorem incNode_mono (mem : node Key Value) (f f' : Nat) (x : Nat) (y : Option Nat)
    (h : incNode mem f x = some y) (hle : f ≤ f') : incNode mem f' x = some y := by
  unfold incNode Iterator.increment at h ⊢
  simp only [] at h ⊢
  cases hl : lookup x mem with
  | nullptr => rw [hl] at h; simp at h
  | mk b k v p l r ht =>
    rw [hl] at h
    cases r with
    | nullptr =>
      simp only [] at h ⊢
      cases hc : climb_from_right mem f x p with
      | none => rw [hc] at h; simp at h
      | some z =>
        rw [hc] at h
        rw [climb_from_right_mono mem f f' x p z hc hle]
        exact h
    | mk rb rk rv rp rl rr rh => exact h

theorem IncChain_mono (mem : node Key Value) (f f' : Nat) (hle : f ≤ f') :
    ∀ (L : List Nat) (e : Option Nat), IncChain mem f L e → IncChain mem f' L e := by
  intro L
  induction L with
  | nil => intro e _; trivial
  | cons x rest ih =>
    intro e h
    exact ⟨incNode_mono mem f f' x _ h.1 hle, ih e h.2⟩

theorem IncChain_append (mem : node Key Value) (f : Nat) (L2 : List Nat) (e : Option Nat) :
    ∀ L1 : List Nat, IncChain mem f L1 (L2.head?.or e) → IncChain mem f L2 e →
      IncChain mem f (L1 ++ L2) e := by
  intro L1
  induction L1 with
  | nil => intro _ h2; exact h2
  | cons x rest ih =>
    intro h1 h2
    refine ⟨?_, ih h1.2 h2⟩
    have := h1.1
    cases rest with
    | nil => simpa using this
    | cons y ys => simpa using this

theorem IncChain_get (mem : node Key Value) (f : Nat) (e : Option Nat) :
    ∀ (L : List Nat) (i : Nat) (x : Nat), IncChain mem f L e → L[i]? = some x →
      incNode mem f x = some (L[i + 1]?.or e) := by
  intro L
  induction L with
  | nil => intro i x _ hx; simp at hx
  | cons y rest ih =>
    intro i x h hx
    cases i with
    | zero =>
      simp only [List.getElem?_cons_zero, Option.some.injEq] at hx
      subst hx
      have := h.1
      cases rest <;> simpa using this
    | succ n =>
      simp only [List.getElem?_cons_succ] at hx ⊢
      exact ih n x h.2 hx

theorem nodeOf_self (a : Nat) (k : Key) (v : Value) (p : Option Nat) (l r : node Key Value)
    (h : Int) : nodeOf (.mk a k v p l r h) (.mk a k v p l r h) := Or.inl rfl

theorem nodeOf_trans (s T R : node Key Value) (h1 : nodeOf s T) (h2 : nodeOf T R) :
    nodeOf s R := by
  induction R with
  | nullptr => exact h2
  | mk a k v p l r h ihl ihr =>
    rcases h2 with h2 | h2 | h2
    · rw [h2] at h1; exact h1
    · exact Or.inr (Or.inl (ihl h2))
    · exact Or.inr (Or.inr (ihr h2))

theorem nodeOf_addrs_sublist (T R : node Key Value) (h : nodeOf T R) :
    (addrs T).Sublist (addrs R) := by
  induction R with
  | nullptr => exact absurd h (by simp [nodeOf])
  | mk a k v p l r ht ihl ihr =>
    rcases h with h | h | h
    · rw [h]
    · exact (ihl h).trans (List.sublist_append_left _ _)
    · exact (ihr h).trans ((List.sublist_cons_self _ _).trans (List.sublist_append_right _ _))

theorem addrOf_mem_addrs (t : node Key Value) (a : Nat) (h : t.addrOf = some a) :
    a ∈ addrs t := by
  cases t with
  | nullptr => simp [node.addrOf] at h
  | mk b k v p l r ht =>
    simp only [node.addrOf, Option.some.injEq] at h
    subst h
    simp [addrs]

theorem addrs_length (t : node Key Value) : (addrs t).length = RecursiveSize t := by
  induction t with
  | nullptr => rfl
  | mk a k v p l r h ihl ihr => simp [addrs, RecursiveSize, ihl, ihr]; omega

theorem incNode_of_lookup_leafright (mem : node Key Value) (f : Nat) (a : Nat) (k : Key)
    (v : Value) (p : Option Nat) (l : node Key Value) (h : Int)
    (hl : lookup a mem = .mk a k v p l .nullptr h) :
    incNode mem f a = climb_from_right mem f a p := by
  unfold incNode Iterator.increment
  simp only [hl]
  cases climb_from_right mem f a p <;> rfl

theorem incNode_of_lookup_right (mem : node Key Value) (f : Nat) (a : Nat) (k : Key)
    (v : Value) (p : Option Nat) (l : node Key Value) (h : Int)
    (ra : Nat) (rk : Key) (rv : Value) (rp : Option Nat) (rl rr : node Key Value) (rh : Int)
    (hl : lookup a mem = .mk a k v p l (.mk ra rk rv rp rl rr rh) h) :
    incNode mem f a = some (addrs (.mk ra rk rv rp rl rr rh)).head? := by
  unfold incNode Iterator.increment
  simp only [hl]
  obtain ⟨ma, mk, mv, mp, mr, mh, rest, e1, e2⟩ := GetMinNode_spec (.mk ra rk rv rp rl rr rh) rfl
  rw [e1, ← cells_map_fst, e2]
  rfl

/-- In a tree with distinct addresses, within a subtree with consistent parent
links `++` walks the nodes in in-order sequence and leaves the subtree towards
the node the climb from its top node ends at. -/
theorem subtree_IncChain (R : node Key Value) (hd : (addrs R).Nodup) (T : node Key Value) :
    ∀ (q e : Option Nat) (f : Nat), (T.isNull = true ∨ nodeOf T R) → ParentsOK q T →
      (∀ a, T.addrOf = some a → climb_from_right R f a q = some e) →
      IncChain R (f + RecursiveSize T) (addrs T) e := by
  induction T with
  | nullptr => intro q e f _ _ _; trivial
  | mk a k v p l r h ihl ihr =>
    intro q e f hT hq hexit
    have hT : nodeOf (.mk a k v p l r h) R := by
      rcases hT with h1 | h1
      · simp [node.isNull] at h1
      · exact h1
    obtain ⟨hp, hpl, hpr⟩ := hq
    subst hp
    have hlook := lookup_nodeOf a k v p l r h R hd hT
    have hnd : (addrs (.mk a k v p l r h)).Nodup := hd.sublist (nodeOf_addrs_sublist _ _ hT)
    simp only [addrs, List.nodup_append, List.nodup_cons] at hnd
    obtain ⟨_, ⟨har, _⟩, hdis⟩ := hnd
    have hex := hexit a rfl
    simp only [addrs, RecursiveSize]
    refine IncChain_append R _ _ e _ ?_ ⟨?_, ?_⟩
    · -- the left subtree leads to the node itself
      simp only [List.head?_cons, Option.or_some]
      cases l with
      | nullptr => trivial
      | mk la lk lv lp ll lr lh =>
        have hl : nodeOf (.mk la lk lv lp ll lr lh) R :=
          nodeOf_trans _ (.mk a k v p (.mk la lk lv lp ll lr lh) r h) R
            (Or.inr (Or.inl (nodeOf_self _ _ _ _ _ _ _))) hT
        have hne : r.addrOf ≠ some la := by
          intro hc
          exact hdis (by simp [addrs]) (List.mem_cons_of_mem _ (addrOf_mem_addrs r la hc))
        have hclimb : ∀ b, (node.mk la lk lv lp ll lr lh).addrOf = some b →
            climb_from_right R 1 b (some a) = some (some a) := by
          intro b hb
          simp only [node.addrOf, Option.some.injEq] at hb
          subst hb
          simp [climb_from_right, hlook, hne]
        have := ihl (some a) (some a) 1 (Or.inr hl) hpl hclimb
        exact IncChain_mono R _ _ (by omega) _ _ this
    · -- the node itself
      cases r with
      | nullptr =>
        rw [incNode_of_lookup_leafright R _ a k v p l h hlook]
        simp only [addrs, List.head?_nil, Option.none_or]
        exact climb_from_right_mono R f _ a p e hex (by omega)
      | mk ra rk rv rp rl rr rh =>
        rw [incNode_of_lookup_right R _ a k v p l h ra rk rv rp rl rr rh hlook]
        have : (addrs (node.mk ra rk rv rp rl rr rh)).head? ≠ none := by
          obtain ⟨ma, mk, mv, mp, mr, mh, rest, _, e2⟩ :=
            GetMinNode_spec (.mk ra rk rv rp rl rr rh) rfl
          rw [← cells_map_fst, e2]; simp
        cases hh : (addrs (node.mk ra rk rv rp rl rr rh)).head? with
        | none => exact absurd hh this
        | some y => simp
    · -- the right subtree leads where the node leads
      cases r with
      | nullptr => trivial
      | mk ra rk rv rp rl rr rh =>
        have hr : nodeOf (.mk ra rk rv rp rl rr rh) R :=
          nodeOf_trans _ (.mk a k v p l (.mk ra rk rv rp rl rr rh) h) R
            (Or.inr (Or.inr (nodeOf_self _ _ _ _ _ _ _))) hT
        have hclimb : ∀ b, (node.mk ra rk rv rp rl rr rh).addrOf = some b →
            climb_from_right R (f + 1) b (some a) = some e := by
          intro b hb
          simp only [node.addrOf, Option.some.injEq] at hb
          subst hb
          simp only [climb_from_right, hlook, node.addrOf, if_true]
          exact hex
        have := ihr (some a) e (f + 1) (Or.inr hr) hpr hclimb
        exact IncChain_mono R _ _ (by simp only [RecursiveSize]; omega) _ _ this

/-- In a tree with distinct addresses and consistent parent links, `++` leads
from every node to its in-order successor and from the last node to the null
`it_node` of `end()`. -/
theorem tree_IncChain (R : node Key Value) (hd : (addrs R).Nodup) (hp : ParentsOK none R) :
    IncChain R (RecursiveSize R) (addrs R) none := by
  have := subtree_IncChain R hd R none none 0 (by
    cases R with
    | nullptr => exact Or.inl rfl
    | mk a k v p l r h => exact Or.inr (nodeOf_self _ _ _ _ _ _ _)) hp
    (fun a _ => by cases a <;> rfl)
  simpa using this

theorem increment_eq_incNode (mem : node Key Value) (f : Nat) (x : Nat) (pv : Option Nat) :
    Iterator.increment mem f { it_node := some x, it_prev_node := pv } =
      (incNode mem f x).map (fun n => { it_node := n, it_prev_node := pv }) := by
  unfold incNode Iterator.increment
  simp only []
  cases lookup x mem with
  | nullptr => rfl
  | mk b k v p l r h =>
    cases r with
    | nullptr =>
      simp only []
      cases climb_from_right mem f x p <;> rfl
    | mk rb rk rv rp rl rr rh => rfl

/-- Along a chain of `++` steps over distinct addresses, `std::distance`
between two positions is the difference of the positions. -/
theorem distance_chain (R : node Key Value) (L : List Nat) (hL : L.Nodup) (F0 : Nat)
    (hc : IncChain R F0 L none) :
    ∀ (n i : Nat) (pv pv' : Option Nat) (F : Nat), i + n ≤ L.length → F0 + n ≤ F →
      distance R F { it_node := L[i]?, it_prev_node := pv }
        { it_node := L[i + n]?, it_prev_node := pv' } = some n := by
  intro n
  induction n with
  | zero =>
    intro i pv pv' F _ _
    cases F <;> simp [distance, Iterator.eq]
  | succ n ih =>
    intro i pv pv' F hi hF
    obtain ⟨m, rfl⟩ : ∃ m, F = m + 1 := ⟨F - 1, by omega⟩
    have hlt : i < L.length := by omega
    have hne : ¬ (L[i]? = L[i + (n + 1)]?) := by
      intro heq
      have := List.getElem?_inj hlt hL heq
      omega
    have hx : L[i]? = some L[i] := List.getElem?_eq_getElem hlt
    have hstep := IncChain_get R F0 none L i L[i] hc hx
    have hstep' := incNode_mono R F0 (m + 1) _ _ hstep (by omega)
    simp only [distance, Iterator.eq, decide_eq_true_eq, if_neg hne]
    rw [hx, increment_eq_incNode, hstep']
    simp only [Option.map_some', Option.or_none]
    have := ih (i + 1) pv pv' m (by omega) (by omega)
    rw [show i + 1 + n = i + (n + 1) by omega] at this
    rw [this]
    rfl

theorem find?_eq_getElem?_takeWhile {α : Type} (p : α → Bool) (L : List α) :
    L.find? p = L[(L.takeWhile (fun x => !p x)).length]? := by
  induction L with
  | nil => rfl
  | cons x xs ih =>
    by_cases hx : p x = true
    · simp [List.find?, List.takeWhile, hx]
    · simp only [Bool.not_eq_true] at hx
      simp [List.find?, List.takeWhile, hx, ih]

theorem takeWhile_lt_nil_of_sorted [LinearOrder Key] (k : Key) (C : List (Nat × Key × Value))
    (hs : (C.map (fun c => c.2.1)).Pairwise (· ≤ ·)) (x : Key) (hx : k ≤ x)
    (hC : ∀ c ∈ C, x ≤ c.2.1) : C.takeWhile (fun c => decide (c.2.1 < k)) = [] := by
  cases C with
  | nil => rfl
  | cons c cs =>
    have := hC c (List.mem_cons_self _ _)
    simp [List.takeWhile, not_lt.2 (le_trans hx this)]

theorem sorted_takeWhile_count [LinearOrder Key] (k : Key) (C : List (Nat × Key × Value))
    (hs : (C.map (fun c => c.2.1)).Pairwise (· ≤ ·)) :
    (C.takeWhile (fun c => decide (c.2.1 ≤ k))).length =
      (C.takeWhile (fun c => decide (c.2.1 < k))).length + (C.map (fun c => c.2.1)).count k := by
  induction C with
  | nil => rfl
  | cons c cs ih =>
    simp only [List.map_cons, List.pairwise_cons] at hs
    have hcs : ∀ d ∈ cs, c.2.1 ≤ d.2.1 := fun d hd => hs.1 _ (List.mem_map_of_mem _ hd)
    rcases lt_trichotomy c.2.1 k with h1 | h1 | h1
    · have hne : c.2.1 ≠ k := ne_of_lt h1
      simp only [List.takeWhile, h1, le_of_lt h1, decide_True, List.length_cons, List.map_cons,
        List.count_cons_of_ne hne.symm, ih hs.2]
      omega
    · have h0 : cs.takeWhile (fun c => decide (c.2.1 < k)) = [] :=
        takeWhile_lt_nil_of_sorted k cs hs.2 c.2.1 (le_of_eq h1.symm) hcs
      have := ih hs.2
      rw [h0] at this
      simp only [List.takeWhile, h1, le_refl, lt_irrefl, decide_True, decide_False,
        List.length_cons, List.length_nil, List.map_cons, List.count_cons_self, this]
      omega
    · have hnot : k ∉ cs.map (fun c => c.2.1) := by
        intro hmem
        exact absurd (hs.1 k hmem) (not_le.2 h1)
      simp only [List.takeWhile, not_le.2 h1, not_lt.2 (le_of_lt h1), decide_False,
        List.length_nil, List.map_cons, List.count_cons_of_ne (ne_of_lt h1),
        List.count_eq_zero.2 hnot]

theorem keys_eq_cells_map (t : node Key Value) : keys t = (cells t).map (fun c => c.2.1) := by
  rw [keys, ← cells_map_snd, List.map_map]
  rfl

/-- In a sorted tree with distinct addresses and consistent parent links,
the number of `++` steps from `lower_bound(k)` to `upper_bound(k)` is the
number of occurrences of `k` in the in-order key sequence. -/
theorem distance_bounds [LinearOrder Key] (t : AVLTree Key Value)
    (hs : (keys t.root).Pairwise (· ≤ ·)) (hd : (addrs t.root).Nodup)
    (hp : ParentsOK none t.root) (k : Key) (F : Nat) (hF : 2 * t.size ≤ F) :
    distance t.root F (t.lower_bound k) (t.upper_bound k) = some ((keys t.root).count k) := by
  have hchain := tree_IncChain t.root hd hp
  have e1 : (fun c : Nat × Key × Value => !decide (¬ c.2.1 < k)) =
      (fun c => decide (c.2.1 < k)) := by
    funext c
    by_cases hc : c.2.1 < k <;> simp [hc]
  have e2 : (fun c : Nat × Key × Value => !decide (k < c.2.1)) =
      (fun c => decide (c.2.1 ≤ k)) := by
    funext c
    by_cases hc : k < c.2.1
    · simp [hc, not_le.2 hc]
    · simp [hc, not_lt.1 hc]
  have hlow := lower_bound_it_node t k hs
  have hup := upper_bound_it_node t k hs
  rw [find?_eq_getElem?_takeWhile, e1, ← List.getElem?_map, cells_map_fst] at hlow
  rw [find?_eq_getElem?_takeWhile, e2, ← List.getElem?_map, cells_map_fst] at hup
  have hs' : ((cells t.root).map (fun c => c.2.1)).Pairwise (· ≤ ·) := by
    rw [← keys_eq_cells_map]; exact hs
  have hcount := sorted_takeWhile_count k (cells t.root) hs'
  rw [← keys_eq_cells_map] at hcount
  have hlen : ((cells t.root).takeWhile (fun c => decide (c.2.1 ≤ k))).length ≤
      (addrs t.root).length := by
    rw [← cells_map_fst, List.length_map]
    exact (List.takeWhile_sublist _).length_le
  have hsize : (addrs t.root).length = t.size := addrs_length t.root
  rw [hcount] at hup hlen
  have hl : t.lower_bound k = { it_node := (t.lower_bound k).it_node, it_prev_node := none } := rfl
  have hu : t.upper_bound k = { it_node := (t.upper_bound k).it_node, it_prev_node := none } := rfl
  rw [hl, hu, hlow, hup]
  exact distance_chain t.root (addrs t.root) hd (RecursiveSize t.root) hchain _ _ none none F
    hlen (by unfold AVLTree.size at hsize hF; omega)

theorem insertDups_foldl_built [LinearOrder Key] (es : List (Key × Value)) :
    ∀ t : AVLTree Key Value, Built true false t →
      Built true false (es.foldl (fun acc e => (acc.insert e.1 e.2 true).1) t) ∧
      (keys (es.foldl (fun acc e => (acc.insert e.1 e.2 true).1) t).root).Perm
        (es.map Prod.fst ++ keys t.root) := by
  induction es with
  | nil => intro t ht; exact ⟨ht, List.Perm.refl _⟩
  | cons e es ih =>
    intro t ht
    have hb : Built true false (t.insert e.1 e.2 true).1 :=
      Built.insert e.1 e.2 true (fun _ => rfl) ht
    obtain ⟨h1, h2⟩ := ih _ hb
    refine ⟨h1, h2.trans ?_⟩
    obtain ⟨hf, hin⟩ := insert_inorder t e.1 e.2 true (Built_sorted ht)
    rw [hf.2 (Or.inl rfl), if_pos rfl] at hin
    have hk : (keys (t.insert e.1 e.2 true).1.root).Perm (e.1 :: keys t.root) := by
      rw [keys, hin]
      exact (insertBefore_perm e.1 e.2 _).map Prod.fst
    simp only [List.map_cons, List.cons_append]
    exact (List.Perm.append_left _ hk).trans List.perm_middle

theorem ofList_tree [LinearOrder Key] (L : List Key) :
    (Multiset.ofList L).tree_ = insertDups (L.map (fun x => (x, x))) := by
  have key : ∀ (l : List Key) (m : Multiset Key),
      (l.foldl (fun m x => (m.insert x).1) m).tree_ =
        (l.map (fun x => (x, x))).foldl (fun acc e => (acc.insert e.1 e.2 true).1) m.tree_ := by
    intro l
    induction l with
    | nil => intro m; rfl
    | cons x xs ih => intro m; exact ih _
  exact key L Multiset.empty

/-- C7: for the multiset built by inserting the items of a list `L` one by
one, size() is the length of `L` and, for every key `k`, count(k), computed
as the number of `++` steps from `lower_bound(k)` to `upper_bound(k)`,
returns the number of occurrences of `k` in `L`, which is 0 when `k` was
never inserted. -/
theorem multiset_size_and_count [LinearOrder Key] (L : List Key) (k : Key) (fuel : Nat)
    (hfuel : 2 * L.length ≤ fuel) :
    (Multiset.ofList L).size = L.length ∧
    (Multiset.ofList L).count fuel k = some (L.count k) ∧
    (k ∉ L → (Multiset.ofList L).count fuel k = some 0) := by
  obtain ⟨hb, hperm⟩ := insertDups_foldl_built (L.map (fun x => (x, x)))
    (AVLTree.empty : AVLTree Key Key) Built.empty
  have htree := ofList_tree L
  unfold insertDups at htree
  rw [← htree] at hb hperm
  have hperm' : (keys (Multiset.ofList L).tree_.root).Perm L := by
    refine hperm.trans ?_
    simp [AVLTree.empty, keys, inorder, List.map_map, Function.comp_def]
  have hsize : (Multiset.ofList L).size = L.length := by
    rw [Multiset.size, size_eq_length, ← keys_length]
    exact hperm'.length_eq
  have hcount : (Multiset.ofList L).count fuel k = some (L.count k) := by
    unfold Multiset.count Multiset.equal_range
    rw [distance_bounds _ (Built_sorted hb) (Built_addrs hb).1 (Built_ParentsOK hb) k fuel
      (by rw [Multiset.size] at hsize; omega), hperm'.count_eq]
  exact ⟨hsize, hcount, fun hk => by rw [hcount, List.count_eq_zero.2 hk]⟩

theorem multiset_size_and_count_witness :
    2 * [10, 20, 20, 30].length ≤ 8 ∧
    ((Multiset.ofList [10, 20, 20, 30]).size = [10, 20, 20, 30].length ∧
    (Multiset.ofList [10, 20, 20, 30]).count 8 20 = some ([10, 20, 20, 30].count 20) ∧
    (20 ∉ [10, 20, 20, 30] → (Multiset.ofList [10, 20, 20, 30]).count 8 20 = some 0)) :=
  ⟨by decide, multiset_size_and_count [10, 20, 20, 30] 20 8 (by decide)⟩

/-- C8 on the code: after inserting 30, 20, 40, 20 (count(20) is 2) and
`erase(find(20))`, size() is 3 but the node that took over the fields of its
deleted child has a `parent_` link to itself, `++` on it returns the same
node, and `count(20)`, which walks from that node to the root, returns for no
amount of fuel.  On the test fixture 10, 20, 20, 30 the same calls give
count(20) = 1 and size() = 3. -/
theorem count_after_erase_never_returns :
    (Multiset.ofList [30, 20, 40, 20]).count 8 20 = some 2 ∧
    erasedDuplicate.size = 3 ∧
    erasedDuplicate.tree_.root =
      .mk 0 30 30 none (.mk 1 20 20 (some 1) .nullptr .nullptr 0)
        (.mk 2 40 40 (some 0) .nullptr .nullptr 0) 1 ∧
    (∀ fuel, Iterator.increment erasedDuplicate.tree_.root (fuel + 1)
      (erasedDuplicate.tree_.lower_bound 20) = some (erasedDuplicate.tree_.lower_bound 20)) ∧
    (∀ fuel, erasedDuplicate.count fuel 20 = none) ∧
    (erasedFixture.count 8 20 = some 1 ∧ erasedFixture.size = 3) := by
  have hroot : erasedDuplicate.tree_.root =
      .mk 0 30 30 none (.mk 1 20 20 (some 1) .nullptr .nullptr 0)
        (.mk 2 40 40 (some 0) .nullptr .nullptr 0) 1 := by decide
  have hlow : erasedDuplicate.tree_.lower_bound 20 = { it_node := some 1, it_prev_node := none } := by
    decide
  have hup : erasedDuplicate.tree_.upper_bound 20 = { it_node := some 0, it_prev_node := none } := by
    decide
  have hinc : ∀ fuel, Iterator.increment erasedDuplicate.tree_.root (fuel + 1)
      { it_node := some 1, it_prev_node := none } =
        some { it_node := some 1, it_prev_node := none } := by
    intro fuel
    rw [hroot]
    simp [Iterator.increment, lookup, climb_from_right, node.addrOf]
  have hdist : ∀ fuel, distance erasedDuplicate.tree_.root fuel
      { it_node := some 1, it_prev_node := none } { it_node := some 0, it_prev_node := none } =
        none := by
    intro fuel
    induction fuel with
    | zero => simp [distance, Iterator.eq]
    | succ n ih => simp [distance, Iterator.eq, hinc n, ih]
  refine ⟨by decide, by decide, hroot, ?_, ?_, by decide, by decide⟩
  · intro fuel
    rw [hlow]
    exact hinc fuel
  · intro fuel
    unfold Multiset.count Multiset.equal_range
    rw [hlow, hup]
    exact hdist fuel

/-! ## The rotations are called on nodes that have the child they read -/

theorem HeightsNonneg_isNull (t : node Key Value) (h : HeightsNonneg t)
    (hp : 0 ≤ GetHeightNum t) : t.isNull = false := by
  cases t with
  | nullptr => simp at hp
  | mk a k v p l r ht => rfl

theorem HeightsNonneg_ge (t : node Key Value) (h : HeightsNonneg t) : -1 ≤ GetHeightNum t := by
  cases t with
  | nullptr => simp
  | mk a k v p l r ht => have := h.1; simp only [GetHeightNum_mk]; omega

theorem AVLInv_HeightsNonneg (t : node Key Value) (h : AVLInv t) : HeightsNonneg t := by
  induction t with
  | nullptr => trivial
  | mk a k v p l r ht ihl ihr =>
    obtain ⟨hl, hr, _, he⟩ := h
    have := AVLInv_height_ge l hl
    exact ⟨by omega, ihl hl, ihr hr⟩

/-- Whenever `Balancing` calls a rotation, the node rotated has the child the
rotation dereferences: with balance -2 the left child exists, and when that
child has balance 1 it has a right child; symmetrically for balance 2. -/
theorem Balancing_rotations_defined (l r : node Key Value) (hl : HeightsNonneg l)
    (hr : HeightsNonneg r) :
    (GetHeightNum r - GetHeightNum l = -2 →
      ∃ la lk lv lp ll lr lh, l = .mk la lk lv lp ll lr lh ∧
        (GetBalanceNum l = 1 → lr.isNull = false)) ∧
    (GetHeightNum r - GetHeightNum l = 2 →
      ∃ ra rk rv rp rl rr rh, r = .mk ra rk rv rp rl rr rh ∧
        (GetBalanceNum r = -1 → rl.isNull = false)) := by
  have h1 := HeightsNonneg_ge l hl
  have h2 := HeightsNonneg_ge r hr
  constructor
  · intro hb
    cases l with
    | nullptr => simp only [GetHeightNum_nullptr] at hb; omega
    | mk la lk lv lp ll lr lh =>
      refine ⟨la, lk, lv, lp, ll, lr, lh, rfl, ?_⟩
      intro h3
      simp only [GetBalanceNum_mk] at h3
      have := HeightsNonneg_ge ll hl.2.1
      exact HeightsNonneg_isNull lr hl.2.2 (by omega)
  · intro hb
    cases r with
    | nullptr => simp only [GetHeightNum_nullptr] at hb; omega
    | mk ra rk rv rp rl rr rh =>
      refine ⟨ra, rk, rv, rp, rl, rr, rh, rfl, ?_⟩
      intro h3
      simp only [GetBalanceNum_mk] at h3
      have := HeightsNonneg_ge rr hr.2.2
      exact HeightsNonneg_isNull rl hr.2.1 (by omega)

/-! ## Stepping from and to the ends -/

/-- C11 on the code: after inserting 10 and 20 and calling `erase(find(10))`
the only node, of key 20, has a `parent_` link to itself, left there by
`*Node = *temp`; `++` on the iterator at this maximum key returns an iterator
at the same node, which is not equal to `end()`. -/
theorem increment_at_maximum_after_erase :
    erasedRoot.root = .mk 0 20 20 (some 0) .nullptr .nullptr 0 ∧
    keys erasedRoot.root = [20] ∧
    (erasedRoot.find 20).deref erasedRoot.root = .ok 20 ∧
    (∀ fuel, Iterator.increment erasedRoot.root (fuel + 1) (erasedRoot.find 20) =
      some (erasedRoot.find 20)) ∧
    (erasedRoot.find 20).eq (AVLTree.end erasedRoot) = false := by
  have hroot : erasedRoot.root = .mk 0 20 20 (some 0) .nullptr .nullptr 0 := by decide
  have hfind : erasedRoot.find 20 = { it_node := some 0, it_prev_node := none } := by decide
  refine ⟨hroot, by decide, by rfl, ?_, by decide⟩
  intro fuel
  rw [hfind, hroot]
  simp [Iterator.increment, lookup, climb_from_right, node.addrOf]

/-- C12 on the code: `operator--` returns at once when `it_node` is null, so
decrementing `end()` gives `end()` again on every tree, and dereferencing the
result throws `out_of_range`; the maximum node cached in `it_prev_node` is
never read. -/
theorem decrement_end_stays_end (t : AVLTree Key Value) (fuel : Nat) :
    Iterator.decrement t.root fuel (AVLTree.end t) = some (AVLTree.end t) ∧
    (AVLTree.end t).deref t.root = .error .out_of_range := by
  constructor <;> rfl

/-- C19: dereferencing an engine iterator whose current node is null throws
`out_of_range`, in particular for `end()` and for the result of `find` on an
absent key; dereferencing an iterator at a node of the tree (addresses being
distinct) returns the key of that node. -/
theorem deref_null_or_node [LinearOrder Key] :
    (∀ (mem : node Key Value) (it : Iterator), it.it_node = none →
      it.deref mem = .error .out_of_range) ∧
    (∀ t : AVLTree Key Value, (AVLTree.end t).deref t.root = .error .out_of_range) ∧
    (∀ (t : AVLTree Key Value) (k : Key), k ∉ keys t.root →
      (t.find k).deref t.root = .error .out_of_range) ∧
    (∀ (mem : node Key Value) (it : Iterator) (a : Nat) (k : Key) (v : Value),
      (addrs mem).Nodup → it.it_node = some a → (a, k, v) ∈ cells mem →
      it.deref mem = .ok k) := by
  refine ⟨?_, ?_, ?_, ?_⟩
  · intro mem it h
    simp [Iterator.deref, h]
  · intro t
    rfl
  · intro t k hk
    simp [Iterator.deref, (find_absent t k hk).1]
  · intro mem it a k v hd hit hc
    exact deref_of_cell mem it a k v hd hit hc

theorem deref_null_or_node_witness :
    ((sampleTree.find 15).it_node = none ∧
      (sampleTree.find 15).deref sampleTree.root = .error .out_of_range) ∧
    (15 ∉ keys sampleTree.root ∧
      (sampleTree.find 15).deref sampleTree.root = .error .out_of_range) ∧
    (((addrs sampleTree.root).Nodup ∧ (sampleTree.find 10).it_node = some 3 ∧
      (3, 10, 4) ∈ cells sampleTree.root) ∧
      (sampleTree.find 10).deref sampleTree.root = .ok 10) :=
  have w := @deref_null_or_node Nat Nat _
  ⟨⟨by decide, w.1 sampleTree.root _ (by decide)⟩,
    ⟨by decide, w.2.2.1 sampleTree 15 (by decide)⟩,
    ⟨⟨by decide, by decide, by decide⟩,
      w.2.2.2 sampleTree.root _ 3 10 4 (by decide) (by decide) (by decide)⟩⟩

theorem map_end_it_node (m : map Key Value) : m.end.it_node = none := by
  unfold map.end
  cases h : m.root with
  | nullptr => simp [node.isNull, map.begin, h, GetMinNode, node.addrOf]
  | mk a k v p l r ht => simp [node.isNull]

/-- C20, as stated, fails: on the map of (1, 10), (2, 20), (3, 30),
dereferencing `end()` does not throw but yields the pair (0, 0). -/
theorem map_deref_end_returns :
    MapIterator.deref sampleMap.root sampleMap.end ≠ .error .out_of_range ∧
    MapIterator.deref sampleMap.root sampleMap.end = .ok (0, 0) := by
  have h : MapIterator.deref sampleMap.root sampleMap.end = .ok (0, 0) := by rfl
  refine ⟨?_, h⟩
  rw [h]
  intro hc
  cases hc

/-- C20, amended: dereferencing the `end()` iterator of a map never throws; it
returns the value-initialised pair of a default key and a default mapped
value. -/
theorem map_deref_end_default [Inhabited Key] [Inhabited Value] (m : map Key Value) :
    MapIterator.deref m.root m.end = .ok (default, default) := by
  simp [MapIterator.deref, map_end_it_node]

/-! ## The invariant of trees without duplicates -/

@[simp] theorem HeightsNonneg_setParent (p : Nat) (t : node Key Value) :
    HeightsNonneg (setParent p t) ↔ HeightsNonneg t := by
  cases t <;> simp [setParent, HeightsNonneg]

theorem HeightsNonneg_SetHeight (a : Nat) (k : Key) (v : Value) (p : Option Nat)
    (l r : node Key Value) (h : Int) (hl : HeightsNonneg l) (hr : HeightsNonneg r) :
    HeightsNonneg (SetHeight (.mk a k v p l r h)) := by
  have := HeightsNonneg_ge l hl
  exact ⟨by omega, hl, hr⟩

theorem HeightsNonneg_RightRotation (t : node Key Value) (h : HeightsNonneg t) :
    HeightsNonneg (RightRotation t) := by
  unfold RightRotation
  split
  · rename_i a k v p la lk lv lp ll lr lh r ht
    obtain ⟨_, ⟨_, h1, h2⟩, h3⟩ := h
    exact HeightsNonneg_SetHeight _ _ _ _ _ _ _ ((HeightsNonneg_setParent _ _).2 h1)
      (HeightsNonneg_SetHeight _ _ _ _ _ _ _ ((HeightsNonneg_setParent _ _).2 h2)
        ((HeightsNonneg_setParent _ _).2 h3))
  · exact h

theorem HeightsNonneg_LeftRotation (t : node Key Value) (h : HeightsNonneg t) :
    HeightsNonneg (LeftRotation t) := by
  unfold LeftRotation
  split
  · rename_i a k v p l ra rk rv rp rl rr rh ht
    obtain ⟨_, h1, ⟨_, h2, h3⟩⟩ := h
    exact HeightsNonneg_SetHeight _ _ _ _ _ _ _
      (HeightsNonneg_SetHeight _ _ _ _ _ _ _ ((HeightsNonneg_setParent _ _).2 h1)
        ((HeightsNonneg_setParent _ _).2 h2)) ((HeightsNonneg_setParent _ _).2 h3)
  · exact h

theorem HeightsNonneg_Balancing (t : node Key Value) (h : HeightsNonneg t) :
    HeightsNonneg (Balancing t) := by
  unfold Balancing
  split
  · trivial
  · rename_i a k v p l r ht
    obtain ⟨h0, h1, h2⟩ := h
    split_ifs
    · exact HeightsNonneg_RightRotation _ ⟨h0, HeightsNonneg_LeftRotation _ h1, h2⟩
    · exact HeightsNonneg_RightRotation _ ⟨h0, h1, h2⟩
    · exact HeightsNonneg_LeftRotation _ ⟨h0, h1, HeightsNonneg_RightRotation _ h2⟩
    · exact HeightsNonneg_LeftRotation _ ⟨h0, h1, h2⟩
    · exact ⟨h0, h1, h2⟩

theorem HeightsNonneg_rebalance (a : Nat) (k : Key) (v : Value) (p : Option Nat)
    (l r : node Key Value) (h : Int) (hl : HeightsNonneg l) (hr : HeightsNonneg r) :
    HeightsNonneg (Balancing (SetHeight (.mk a k v p l r h))) :=
  HeightsNonneg_Balancing _ (HeightsNonneg_SetHeight a k v p l r h hl hr)

theorem RecursiveInsertion_HeightsNonneg [LinearOrder Key] (fresh : Nat) (t : node Key Value)
    (key : Key) (value : Value) (dup : Bool) (ht : HeightsNonneg t) :
    HeightsNonneg (RecursiveInsertion fresh t key value dup).1 := by
  induction t with
  | nullptr => trivial
  | mk a k v p l r h ihl ihr =>
    obtain ⟨_, hl, hr⟩ := ht
    simp only [RecursiveInsertion]
    by_cases c1 : key < k ∨ (dup = true ∧ key = k)
    · simp only [if_pos c1]
      cases l with
      | nullptr =>
        exact HeightsNonneg_rebalance a k v p _ r h ⟨le_refl _, trivial, trivial⟩ hr
      | mk la lk lv lp ll lr lh => exact HeightsNonneg_rebalance a k v p _ r h (ihl hl) hr
    by_cases c2 : key > k
    · simp only [if_neg c1, if_pos c2]
      cases r with
      | nullptr =>
        exact HeightsNonneg_rebalance a k v p l _ h hl ⟨le_refl _, trivial, trivial⟩
      | mk la lk lv lp ll lr lh => exact HeightsNonneg_rebalance a k v p l _ h hl (ihr hr)
    · simp only [if_neg c1, if_neg c2]
      exact HeightsNonneg_rebalance a k v p l r h hl hr

theorem RecursiveDeleting_HeightsNonneg [LinearOrder Key] (t : node Key Value)
    (ht : HeightsNonneg t) : ∀ key : Key, HeightsNonneg (RecursiveDeleting t key) := by
  induction t with
  | nullptr => intro key; trivial
  | mk a k v p l r h ihl ihr =>
    intro key
    obtain ⟨h0, hl, hr⟩ := ht
    simp only [RecursiveDeleting]
    split_ifs with c1 c2
    · exact HeightsNonneg_rebalance a k v p _ r h (ihl hl key) hr
    · exact HeightsNonneg_rebalance a k v p l _ h hl (ihr hr key)
    · cases l with
      | nullptr =>
        cases r with
        | nullptr => trivial
        | mk ta tk tv tp tl tr th => exact HeightsNonneg_rebalance a tk tv tp tl tr th hr.2.1 hr.2.2
      | mk ta tk tv tp tl tr th =>
        cases r with
        | nullptr => exact HeightsNonneg_rebalance a tk tv tp tl tr th hl.2.1 hl.2.2
        | mk ra rk rv rp rl rr rh =>
          simp only []
          cases hm : GetMinNode (node.mk ra rk rv rp rl rr rh) with
          | nullptr => exact ⟨h0, hl, hr⟩
          | mk ma mk mv mp ml mr mh =>
            simp only []
            exact HeightsNonneg_rebalance a mk mv p _ _ h hl (ihr hr mk)

theorem strict_sorted {L : List Key} [LinearOrder Key] (h : L.Pairwise (· < ·)) :
    L.Pairwise (· ≤ ·) :=
  h.imp (fun hab => le_of_lt hab)

theorem TreeInv_empty [LinearOrder Key] : TreeInv (AVLTree.empty : AVLTree Key Value) := by
  simp [TreeInv, AVLTree.empty, keys, inorder, addrs, HeightsNonneg]

theorem insert_HeightsNonneg [LinearOrder Key] (t : AVLTree Key Value) (key : Key)
    (value : Value) (dup : Bool) (h : HeightsNonneg t.root) :
    HeightsNonneg (t.insert key value dup).1.root := by
  rw [insert_root]
  split_ifs
  · exact ⟨le_refl _, trivial, trivial⟩
  · exact RecursiveInsertion_HeightsNonneg _ _ _ _ _ h

/-- An insert without duplicates keeps the invariant. -/
theorem TreeInv_insert [LinearOrder Key] (t : AVLTree Key Value) (h : TreeInv t) (key : Key)
    (value : Value) : TreeInv (t.insert key value false).1 := by
  obtain ⟨hs, hd, hb, hh⟩ := h
  obtain ⟨hf, hin⟩ := insert_inorder t key value false (strict_sorted hs)
  have hp := insert_addrs t key value false
  have ha := insert_alloc t key value false
  refine ⟨?_, ?_, ?_, insert_HeightsNonneg t key value false hh⟩
  · rw [keys, hin]
    split_ifs with c
    · have hk : key ∉ keys t.root := by
        rcases hf.1 c with h1 | h1
        · exact absurd h1 (by simp)
        · exact h1
      exact insertBefore_keys_strict _ _ _ hs hk
    · exact hs
  · rw [hp.nodup_iff]
    split_ifs
    · exact List.nodup_cons.2 ⟨fun hx => absurd (hb _ hx) (lt_irrefl _), hd⟩
    · exact hd
  · intro x hx
    rw [ha]
    have := hp.mem_iff.1 hx
    split_ifs at this ⊢ with c
    · rcases List.mem_cons.1 this with rfl | hx'
      · exact Nat.lt_succ_self _
      · exact Nat.lt_succ_of_lt (hb x hx')
    · exact hb x this

/-- Deleting a key keeps the invariant. -/
theorem TreeInv_delete [LinearOrder Key] (t : AVLTree Key Value) (h : TreeInv t) (key : Key) :
    TreeInv { t with root := RecursiveDeleting t.root key } := by
  obtain ⟨hs, hd, hb, hh⟩ := h
  obtain ⟨L, hL, hsub⟩ := RecursiveDeleting_addrs t.root key
  refine ⟨?_, hL.nodup_iff.1 (hd.sublist hsub),
    fun x hx => hb x (hsub.subset (hL.mem_iff.2 hx)), RecursiveDeleting_HeightsNonneg _ hh key⟩
  show (keys (RecursiveDeleting t.root key)).Pairwise (· < ·)
  rw [keys, RecursiveDeleting_inorder_strict t.root hs key]
  exact hs.sublist ((List.filter_sublist _).map Prod.fst)

theorem Built_TreeInv [LinearOrder Key] {e : Bool} {t : AVLTree Key Value}
    (h : Built false e t) : TreeInv t :=
  ⟨Built_strict h, (Built_addrs h).1, (Built_addrs h).2,
    AVLInv_HeightsNonneg _ (Built_AVLInv h)⟩

/-! ## The map adapter -/

theorem map_insert_eq [LinearOrder Key] (m : map Key Value) (key : Key) (obj : Value) :
    (m.insert key obj).1.toAVLTree = (m.toAVLTree.insert key obj false).1 ∧
    (m.insert key obj).2 = (m.toAVLTree.insert key obj false).2 := by
  unfold map.insert AVLTree.insert
  cases h : m.root <;> exact ⟨rfl, rfl⟩

theorem mem_inorder_of_cell (t : node Key Value) (a : Nat) (k : Key) (v : Value)
    (h : (a, k, v) ∈ cells t) : (k, v) ∈ inorder t := by
  rw [← cells_map_snd]
  exact List.mem_map_of_mem Prod.snd h

theorem inorder_value_unique [LinearOrder Key] (t : node Key Value)
    (hs : (keys t).Pairwise (· < ·)) (k : Key) (v v' : Value) (h1 : (k, v) ∈ inorder t)
    (h2 : (k, v') ∈ inorder t) : v = v' := by
  have hnd : ((inorder t).map Prod.fst).Nodup := hs.imp (fun hab => ne_of_lt hab)
  have := List.inj_on_of_nodup_map hnd h1 h2 rfl
  exact (Prod.mk.inj this).2

/-- In a tree without duplicates, `find` on a stored key is at the node that
holds the entry of this key. -/
theorem find_entry [LinearOrder Key] (t : AVLTree Key Value) (h : TreeInv t) (k : Key)
    (v : Value) (hk : (k, v) ∈ inorder t.root) :
    ∃ b p l r ht, RecursiveSearch t.root k = .mk b k v p l r ht ∧
      lookup b t.root = .mk b k v p l r ht := by
  obtain ⟨hs, hd, _, _⟩ := h
  have hkeys : k ∈ keys t.root := List.mem_map_of_mem Prod.fst hk
  have hf := RecursiveSearch_found t.root k (strict_sorted hs) hkeys
  cases e : RecursiveSearch t.root k with
  | nullptr => rw [e] at hf; simp [node.isNull] at hf
  | mk b k' v' p l r ht =>
    obtain ⟨e1, e2⟩ := RecursiveSearch_nodeOf t.root k b k' v' p l r ht e
    subst e1
    have hc := nodeOf_mem_cells b k' v' p l r ht t.root e2
    have hv : v' = v := inorder_value_unique t.root hs k' v' v (mem_inorder_of_cell _ _ _ _ hc) hk
    subst hv
    exact ⟨b, p, l, r, ht, rfl, lookup_nodeOf b k' v' p l r ht t.root hd e2⟩

theorem map_find_present [LinearOrder Key] [Inhabited Key] [Inhabited Value] (m : map Key Value)
    (h : TreeInv m.toAVLTree) (k : Key) (v : Value) (hk : (k, v) ∈ inorder m.root) :
    (m.find k).eq m.end = false ∧ MapIterator.return_value m.root (m.find k) = v ∧
      MapIterator.deref m.root (m.find k) = .ok (k, v) := by
  obtain ⟨b, p, l, r, ht, e1, e2⟩ := find_entry m.toAVLTree h k v hk
  simp [map.find, Iterator.eq, map_end_it_node, MapIterator.return_value, MapIterator.deref,
    e1, e2, node.addrOf]

theorem map_find_absent [LinearOrder Key] (m : map Key Value) (k : Key)
    (hk : k ∉ keys m.root) : (m.find k).eq m.end = true := by
  simp [map.find, Iterator.eq, map_end_it_node, RecursiveSearch_absent m.root k hk, node.addrOf]

theorem map_at_present [LinearOrder Key] [Inhabited Key] [Inhabited Value] (m : map Key Value)
    (h : TreeInv m.toAVLTree) (k : Key) (v : Value) (hv : (k, v) ∈ inorder m.root) :
    (map.at m k).2 = .ok v := by
  obtain ⟨h1, h2, _⟩ := map_find_present m h k v hv
  simp [map.at, h1, h2]

/-- C16: on a map (a tree that stores every key once, see `map_invariant_kept`),
`at(k)` returns the value stored for `k` when `k` is present and throws
`out_of_range` when `k` is absent; in both cases the map is left as it was. -/
theorem map_at_spec [LinearOrder Key] [Inhabited Key] [Inhabited Value] (m : map Key Value)
    (h : TreeInv m.toAVLTree) (k : Key) :
    (∀ v, (k, v) ∈ inorder m.root → (map.at m k).2 = .ok v) ∧
    (k ∉ keys m.root → (map.at m k).2 = .error .out_of_range) ∧
    (map.at m k).1 = m := by
  refine ⟨?_, ?_, ?_⟩
  · intro v hv
    exact map_at_present m h k v hv
  · intro hk
    simp [map.at, map_find_absent m k hk]
  · unfold map.at
    split_ifs <;> rfl

theorem map_insert_spec [LinearOrder Key] (m : map Key Value) (h : TreeInv m.toAVLTree)
    (k : Key) (v : Value) :
    TreeInv (m.insert k v).1.toAVLTree ∧
    ((m.insert k v).2.2 = true ↔ k ∉ keys m.root) ∧
    inorder (m.insert k v).1.root =
      (if (m.insert k v).2.2 then insertBefore k v (inorder m.root) else inorder m.root) ∧
    (m.insert k v).2.1 = (m.insert k v).1.find k := by
  obtain ⟨e1, e2⟩ := map_insert_eq m k v
  obtain ⟨hf, hin⟩ := insert_inorder m.toAVLTree k v false (strict_sorted h.1)
  refine ⟨?_, ?_, ?_, ?_⟩
  · rw [e1]; exact TreeInv_insert _ h k v
  · rw [e2, hf]; simp
  · rw [e2, e1]; exact hin
  · rw [e2, insert_iterator, ← e1]; rfl

theorem map_ofList_TreeInv [LinearOrder Key] (items : List (Key × Value)) :
    TreeInv (map.ofList items).toAVLTree := by
  have key : ∀ (l : List (Key × Value)) (m : map Key Value), TreeInv m.toAVLTree →
      TreeInv (l.foldl (fun m e => (m.insert e.1 e.2).1) m).toAVLTree := by
    intro l
    induction l with
    | nil => intro m hm; exact hm
    | cons e l ih => intro m hm; exact ih _ (map_insert_spec m hm e.1 e.2).1
  exact key items map.empty TreeInv_empty

theorem map_at_spec_witness :
    TreeInv sampleMap.toAVLTree ∧
    ((∀ v, (2, v) ∈ inorder sampleMap.root → (map.at sampleMap 2).2 = .ok v) ∧
    (2 ∉ keys sampleMap.root → (map.at sampleMap 2).2 = .error .out_of_range) ∧
    (map.at sampleMap 2).1 = sampleMap) :=
  ⟨map_ofList_TreeInv _, map_at_spec sampleMap (map_ofList_TreeInv _) 2⟩

theorem insertBefore_absent_mem [LinearOrder Key] (k : Key) (v : Value)
    (L : List (Key × Value)) : (k, v) ∈ insertBefore k v L :=
  (insertBefore_perm k v L).mem_iff.2 (List.mem_cons_self _ _)

/-- C17: on a map, `m[k]` yields the value stored for `k` and leaves the map
unchanged when `k` is present; when `k` is absent it inserts `(k, T())` before
the first entry of larger key, keeping every other entry, so that size()
grows by one, and yields the stored default value. -/
theorem map_subscript_spec [LinearOrder Key] [Inhabited Key] [Inhabited Value]
    (m : map Key Value) (h : TreeInv m.toAVLTree) (k : Key) :
    (∀ v, (k, v) ∈ inorder m.root → m.subscript k = (m, v)) ∧
    (k ∉ keys m.root →
      inorder (m.subscript k).1.root =
        (inorder m.root).takeWhile (fun e => decide (e.1 < k)) ++
          (k, default) :: (inorder m.root).dropWhile (fun e => decide (e.1 < k)) ∧
      (m.subscript k).1.size = m.size + 1 ∧
      (m.subscript k).2 = default ∧
      (map.at (m.subscript k).1 k).2 = .ok (m.subscript k).2) := by
  refine ⟨?_, ?_⟩
  · intro v hv
    obtain ⟨h1, h2, _⟩ := map_find_present m h k v hv
    simp [map.subscript, h1, h2]
  · intro hk
    obtain ⟨hinv, hf, hin, hit⟩ := map_insert_spec m h k default
    rw [hf.2 hk, if_pos rfl] at hin
    have hsub1 : (m.subscript k).1 = (m.insert k default).1 := by
      simp [map.subscript, map_find_absent m k hk]
    have hsub2 : (m.subscript k).2 =
        MapIterator.return_value (m.insert k default).1.root ((m.insert k default).1.find k) := by
      simp [map.subscript, map_find_absent m k hk, ← hit]
    have hmem : (k, (default : Value)) ∈ inorder (m.insert k default).1.root := by
      rw [hin]; exact insertBefore_absent_mem k default _
    obtain ⟨_, g2, _⟩ := map_find_present _ hinv k default hmem
    refine ⟨?_, ?_, ?_, ?_⟩
    · rw [hsub1, hin, insertBefore_eq_takeWhile]
    · rw [hsub1, map.size, map.size, size_eq_length, size_eq_length]
      show (inorder (m.insert k default).1.root).length = _
      rw [hin, insertBefore_length]
    · rw [hsub2, g2]
    · rw [hsub2, g2, hsub1]
      exact map_at_present _ hinv k default hmem

theorem map_subscript_spec_witness :
    TreeInv sampleMap.toAVLTree ∧
    ((∀ v, (5, v) ∈ inorder sampleMap.root → sampleMap.subscript 5 = (sampleMap, v)) ∧
    (5 ∉ keys sampleMap.root →
      inorder (sampleMap.subscript 5).1.root =
        (inorder sampleMap.root).takeWhile (fun e => decide (e.1 < 5)) ++
          (5, default) :: (inorder sampleMap.root).dropWhile (fun e => decide (e.1 < 5)) ∧
      (sampleMap.subscript 5).1.size = sampleMap.size + 1 ∧
      (sampleMap.subscript 5).2 = default ∧
      (map.at (sampleMap.subscript 5).1 5).2 = .ok (sampleMap.subscript 5).2)) :=
  ⟨map_ofList_TreeInv _, map_subscript_spec sampleMap (map_ofList_TreeInv _) 5⟩

theorem map_erase_find [LinearOrder Key] [Inhabited Key] [Inhabited Value] (m : map Key Value)
    (h : TreeInv m.toAVLTree) (k : Key) (v : Value) (hk : (k, v) ∈ inorder m.root) :
    m.erase (m.find k) = { m with root := RecursiveDeleting m.root k } := by
  obtain ⟨h1, _, h3⟩ := map_find_present m h k v hk
  have hne : (m.find k).it_node ≠ none := by
    intro hc
    simp [Iterator.eq, map_end_it_node, hc] at h1
  have hroot : m.root.isNull = false := by
    cases hr : m.root with
    | nullptr => rw [hr] at hk; simp [inorder] at hk
    | mk a k' v' p l r ht => rfl
  unfold map.erase map.erase_in
  rw [if_neg (by simp [hroot, hne]), h3]

theorem filter_ne_of_absent [LinearOrder Key] (L : List (Key × Value)) (k : Key)
    (hk : k ∉ L.map Prod.fst) : L.filter (fun e => decide (e.1 ≠ k)) = L := by
  rw [List.filter_eq_self]
  intro e he
  have : e.1 ≠ k := fun hc => hk (hc ▸ List.mem_map_of_mem Prod.fst he)
  simpa using this

/-- For an argument `obj` that is an object outside the map, holding `v`:
after `insert_or_assign(k, obj)` the entries are the previous ones without the
entry of key `k`, with `(k, v)` put in at its place in the order: `at(k)`
returns `v`, every entry of another key is unchanged, size() grows by one
exactly when `k` was absent, and the returned flag is true exactly when `k`
was absent. -/
theorem map_insert_or_assign_object [LinearOrder Key] [Inhabited Key] [Inhabited Value]
    (m : map Key Value) (h : TreeInv m.toAVLTree) (k : Key) (v : Value) :
    ∃ r, m.insert_or_assign k (.object v) = .ok r ∧
    (map.at r.1 k).2 = .ok v ∧
    inorder r.1.root =
      insertBefore k v ((inorder m.root).filter (fun e => decide (e.1 ≠ k))) ∧
    (∀ e : Key × Value, e.1 ≠ k → (e ∈ inorder r.1.root ↔ e ∈ inorder m.root)) ∧
    (k ∉ keys m.root → r.1.size = m.size + 1) ∧
    (k ∈ keys m.root → r.1.size = m.size) ∧
    (r.2.2 = true ↔ k ∉ keys m.root) := by
  have main : ∃ r, m.insert_or_assign k (.object v) = .ok r ∧ TreeInv r.1.toAVLTree ∧
      inorder r.1.root =
        insertBefore k v ((inorder m.root).filter (fun e => decide (e.1 ≠ k))) ∧
      (k ∉ keys m.root → r.1.size = m.size + 1) ∧
      (k ∈ keys m.root → r.1.size = m.size) ∧
      (r.2.2 = true ↔ k ∉ keys m.root) := by
    by_cases hk : k ∈ keys m.root
    · obtain ⟨e, he, hek⟩ := List.mem_map.1 hk
      obtain ⟨k', v0⟩ := e
      simp only at hek
      subst hek
      obtain ⟨h1, _, _⟩ := map_find_present m h k' v0 he
      have herase := map_erase_find m h k' v0 he
      have hinv1 : TreeInv (m.erase (m.find k')).toAVLTree := by
        rw [herase]; exact TreeInv_delete m.toAVLTree h k'
      have hin1 : inorder (m.erase (m.find k')).root =
          (inorder m.root).filter (fun e => decide (e.1 ≠ k')) := by
        rw [herase]; exact RecursiveDeleting_inorder_strict m.root h.1 k'
      have hk1 : k' ∉ keys (m.erase (m.find k')).root := by
        rw [keys, hin1]; simp [List.mem_filter]
      obtain ⟨g1, g2, g3, _⟩ := map_insert_spec (m.erase (m.find k')) hinv1 k' v
      rw [g2.2 hk1, if_pos rfl, hin1] at g3
      obtain ⟨L1, L2, q1, q2⟩ := RecursiveDeleting_keys m.root (strict_sorted h.1) k' hk
      have hlen : ((inorder m.root).filter (fun e => decide (e.1 ≠ k'))).length + 1 =
          (inorder m.root).length := by
        have e1 : ((inorder m.root).filter (fun e => decide (e.1 ≠ k'))).length =
            (keys (RecursiveDeleting m.root k')).length := by
          rw [keys_length, RecursiveDeleting_inorder_strict m.root h.1 k']
        rw [e1, q2, ← keys_length, q1]
        simp only [List.length_append, List.length_cons]
        omega
      refine ⟨(((m.erase (m.find k')).insert k' v).1,
        ((m.erase (m.find k')).insert k' v).2.1, false), ?_, g1, g3,
        fun hc => absurd hk hc, ?_, ?_⟩
      · simp [map.insert_or_assign, h1, Reference.in_tree]
      · intro _
        rw [map.size, map.size, size_eq_length, size_eq_length]
        show (inorder ((m.erase (m.find k')).insert k' v).1.root).length = _
        rw [g3, insertBefore_length, hlen]
      · simp [hk]
    · have h1 := map_find_absent m k hk
      obtain ⟨g1, g2, g3, _⟩ := map_insert_spec m h k v
      rw [g2.2 hk, if_pos rfl] at g3
      refine ⟨m.insert k v, ?_, g1, ?_, ?_, fun hc => absurd hc hk, ?_⟩
      · simp [map.insert_or_assign, h1, Reference.in_tree]
      · rw [g3, filter_ne_of_absent _ k hk]
      · intro _
        rw [map.size, map.size, size_eq_length, size_eq_length]
        show (inorder (m.insert k v).1.root).length = _
        rw [g3, insertBefore_length]
      · rw [g2]
  obtain ⟨r, hr, hinv, hin, hs1, hs2, hfl⟩ := main
  have hmem : (k, v) ∈ inorder r.1.root := by
    rw [hin]; exact insertBefore_absent_mem k v _
  refine ⟨r, hr, map_at_present _ hinv k v hmem, hin, ?_, hs1, hs2, hfl⟩
  intro e he
  rw [hin, (insertBefore_perm k v _).mem_iff, List.mem_cons, List.mem_filter]
  constructor
  · rintro (h1 | h1)
    · exact absurd (congrArg Prod.fst h1) he
    · exact h1.1
  · intro h1
    exact Or.inr ⟨h1, by simpa using he⟩

theorem map_insert_or_assign_object_witness :
    TreeInv sampleMap.toAVLTree ∧
    ∃ r, sampleMap.insert_or_assign 2 (.object 77) = .ok r ∧
    (map.at r.1 2).2 = .ok 77 ∧
    inorder r.1.root =
      insertBefore 2 77 ((inorder sampleMap.root).filter (fun e => decide (e.1 ≠ 2))) ∧
    (∀ e : Nat × Nat, e.1 ≠ 2 → (e ∈ inorder r.1.root ↔ e ∈ inorder sampleMap.root)) ∧
    (2 ∉ keys sampleMap.root → r.1.size = sampleMap.size + 1) ∧
    (2 ∈ keys sampleMap.root → r.1.size = sampleMap.size) ∧
    (r.2.2 = true ↔ 2 ∉ keys sampleMap.root) :=
  ⟨map_ofList_TreeInv _, map_insert_or_assign_object sampleMap (map_ofList_TreeInv _) 2 77⟩

/-! ## Copies and the loops that walk them -/

theorem CopyTree_spec (t : node Key Value) :
    ∀ (n : Nat) (q : Option Nat),
      (CopyTree n t q).2 = n + RecursiveSize t ∧
      (∀ a ∈ addrs (CopyTree n t q).1, n ≤ a ∧ a < n + RecursiveSize t) ∧
      (addrs (CopyTree n t q).1).Nodup ∧
      ParentsOK q (CopyTree n t q).1 ∧
      inorder (CopyTree n t q).1 = inorder t ∧
      HeightsNonneg (CopyTree n t q).1 := by
  induction t with
  | nullptr => intro n q; simp [CopyTree, RecursiveSize, addrs, ParentsOK, inorder, HeightsNonneg]
  | mk a k v p l r h ihl ihr =>
    intro n q
    obtain ⟨l1, l2, l3, l4, l5, l6⟩ := ihl (n + 1) (some n)
    simp only [CopyTree]
    rw [l1]
    obtain ⟨r1, r2, r3, r4, r5, r6⟩ := ihr (n + 1 + RecursiveSize l) (some n)
    refine ⟨?_, ?_, ?_, ⟨rfl, l4, r4⟩, ?_, ⟨le_refl _, l6, r6⟩⟩
    · rw [r1]; simp only [RecursiveSize]; omega
    · intro x hx
      simp only [addrs, List.mem_append, List.mem_cons] at hx
      simp only [RecursiveSize]
      rcases hx with hx | hx | hx
      · have := l2 x hx; omega
      · omega
      · have := r2 x hx; omega
    · simp only [addrs]
      rw [List.nodup_append]
      refine ⟨l3, List.nodup_cons.2 ⟨?_, r3⟩, ?_⟩
      · intro hx
        have := r2 n hx; omega
      · intro x hx1 hx2
        have h1 := l2 x hx1
        rcases List.mem_cons.1 hx2 with rfl | hx2
        · omega
        · have := r2 x hx2; omega
    · simp only [inorder, l5, r5]

theorem copy_spec (t : AVLTree Key Value) :
    (addrs t.copy.root).Nodup ∧ ParentsOK none t.copy.root ∧
      inorder t.copy.root = inorder t.root ∧ t.copy.size = t.size := by
  obtain ⟨_, _, c3, c4, c5, _⟩ := CopyTree_spec t.root 0 none
  refine ⟨c3, c4, c5, ?_⟩
  rw [size_eq_length, size_eq_length]
  exact congrArg List.length c5

theorem cells_length (t : node Key Value) : (cells t).length = (addrs t).length := by
  rw [← cells_map_fst, List.length_map]

/-- Over a chain of `++` steps, the loop from position `i` on applies the body
to the remaining nodes in in-order sequence and ends: `g` tells what the body
does at a node. -/
theorem for_each_node_chain {σ : Type} (R : node Key Value) (last : Iterator)
    (hlast : last.it_node = none) (body : Iterator → σ → Option σ)
    (g : Nat × Key × Value → σ → σ)
    (hbody : ∀ c ∈ cells R, ∀ (pv : Option Nat) (s : σ),
      body { it_node := some c.1, it_prev_node := pv } s = some (g c s))
    (F0 : Nat) (hc : IncChain R F0 (addrs R) none) :
    ∀ (n i : Nat) (pv : Option Nat) (s : σ) (F : Nat), i + n = (addrs R).length → F0 + n ≤ F →
      for_each_node R last body F { it_node := (addrs R)[i]?, it_prev_node := pv } s =
        some (((cells R).drop i).foldl (fun s c => g c s) s) := by
  intro n
  induction n with
  | zero =>
    intro i pv s F hi _
    have h1 : (addrs R)[i]? = none := List.getElem?_eq_none (by omega)
    have h2 : (cells R).drop i = [] := List.drop_eq_nil_of_le (by rw [cells_length]; omega)
    cases F <;> simp [for_each_node, Iterator.eq, h1, hlast, h2]
  | succ n ih =>
    intro i pv s F hi hF
    obtain ⟨m, rfl⟩ : ∃ m, F = m + 1 := ⟨F - 1, by omega⟩
    have hlt : i < (addrs R).length := by omega
    have hlt' : i < (cells R).length := by rw [cells_length]; exact hlt
    have hx : (addrs R)[i]? = some (addrs R)[i] := List.getElem?_eq_getElem hlt
    have hci : ((cells R)[i]).1 = (addrs R)[i] := by
      have := List.getElem_map Prod.fst (l := cells R) (n := i) (h := by simpa using hlt')
      simp only [cells_map_fst] at this
      exact this.symm
    have hstep := IncChain_get R F0 none (addrs R) i (addrs R)[i] hc hx
    have hstep' := incNode_mono R F0 (m + 1) _ _ hstep (by omega)
    have hb := hbody (cells R)[i] (List.getElem_mem _) pv s
    rw [hci] at hb
    have hdrop : (cells R).drop i = (cells R)[i] :: (cells R).drop (i + 1) :=
      List.drop_eq_getElem_cons hlt'
    simp only [for_each_node, Iterator.eq, hx, hlast, decide_eq_true_eq, hb]
    rw [if_neg (by simp), increment_eq_incNode, hstep']
    simp only [Option.map_some', Option.or_none]
    rw [ih (i + 1) pv _ m (by omega) (by omega), hdrop, List.foldl_cons]

theorem erase_in_of_deref [LinearOrder Key] (mem : node Key Value) (t : AVLTree Key Value)
    (pos : Iterator) (k : Key) (hk : pos.deref mem = .ok k) (hroot : t.root.isNull = false) :
    t.erase_in mem pos = { t with root := RecursiveDeleting t.root k } := by
  unfold AVLTree.erase_in
  have h1 : ¬ (t.root.isNull = true ∨ pos.it_node = none) := by
    rintro (h1 | h1)
    · rw [hroot] at h1; exact absurd h1 (by simp)
    · simp [Iterator.deref, h1] at hk
  rw [if_neg h1, hk]

theorem isNull_of_mem_keys [LinearOrder Key] (t : node Key Value) (k : Key) (h : k ∈ keys t) :
    t.isNull = false := by
  cases t with
  | nullptr => simp [keys, inorder] at h
  | mk a k' v p l r ht => rfl

/-- One round of a merge: a key already in `this` changes nothing; a new key
is inserted into `this` and deleted from `other`. -/
theorem mergeStep_spec [LinearOrder Key] (g : Key × Value → Value) (e : Key × Value)
    (A B : AVLTree Key Value) (hA : TreeInv A) (hB : TreeInv B) (he : e.1 ∈ keys B.root) :
    TreeInv (mergeStep g e (A, B)).1 ∧ TreeInv (mergeStep g e (A, B)).2 ∧
    (e.1 ∈ keys A.root →
      inorder (mergeStep g e (A, B)).1.root = inorder A.root ∧ (mergeStep g e (A, B)).2 = B) ∧
    (e.1 ∉ keys A.root →
      inorder (mergeStep g e (A, B)).1.root = insertBefore e.1 (g e) (inorder A.root) ∧
      inorder (mergeStep g e (A, B)).2.root =
        (inorder B.root).filter (fun x => decide (x.1 ≠ e.1))) := by
  obtain ⟨hf, hin⟩ := insert_inorder A e.1 (g e) false (strict_sorted hA.1)
  have hA1 := TreeInv_insert A hA e.1 (g e)
  have hf' : (A.insert e.1 (g e) false).2.2 = true ↔ e.1 ∉ keys A.root := by
    rw [hf]; simp
  by_cases hk : e.1 ∈ keys A.root
  · have hflag : (A.insert e.1 (g e) false).2.2 = false := by
      cases hc : (A.insert e.1 (g e) false).2.2
      · rfl
      · exact absurd hk (hf'.1 hc)
    rw [hflag] at hin
    simp only [Bool.false_eq_true, if_false] at hin
    have h2 : (mergeStep g e (A, B)).2 = B := by simp [mergeStep, hflag]
    refine ⟨hA1, by rw [h2]; exact hB, fun _ => ⟨hin, h2⟩, fun hc => absurd hk hc⟩
  · have hflag := hf'.2 hk
    rw [hflag, if_pos rfl] at hin
    have hderef : (A.insert e.1 (g e) false).2.1.deref (A.insert e.1 (g e) false).1.root =
        .ok e.1 := by
      rw [insert_iterator]
      exact (find_deref _ e.1 (strict_sorted hA1.1) hA1.2.1
        (insert_mem_keys A e.1 (g e) false (strict_sorted hA.1))).2
    have h2 : (mergeStep g e (A, B)).2 = { B with root := RecursiveDeleting B.root e.1 } := by
      simp only [mergeStep, hflag, if_true]
      exact erase_in_of_deref _ B _ e.1 hderef (isNull_of_mem_keys _ _ he)
    refine ⟨hA1, by rw [h2]; exact TreeInv_delete B hB e.1, fun hc => absurd hc hk,
      fun _ => ⟨hin, ?_⟩⟩
    rw [h2]
    exact RecursiveDeleting_inorder_strict B.root hB.1 e.1

/-- The rounds of a merge over the entries `es` of the copy, which have
distinct keys all still stored in `other`: `this` gains an entry for every
key it did not have, `other` loses exactly those keys. -/
theorem mergeAll_spec [LinearOrder Key] (g : Key × Value → Value) :
    ∀ (es : List (Key × Value)) (A B : AVLTree Key Value), TreeInv A → TreeInv B →
      (es.map Prod.fst).Nodup → (∀ e ∈ es, e.1 ∈ keys B.root) →
      TreeInv (es.foldl (fun s e => mergeStep g e s) (A, B)).1 ∧
      TreeInv (es.foldl (fun s e => mergeStep g e s) (A, B)).2 ∧
      (∀ x, x ∈ inorder (es.foldl (fun s e => mergeStep g e s) (A, B)).1.root ↔
        x ∈ inorder A.root ∨ ∃ e ∈ es, e.1 ∉ keys A.root ∧ x = (e.1, g e)) ∧
      inorder (es.foldl (fun s e => mergeStep g e s) (A, B)).2.root =
        (inorder B.root).filter
          (fun x => decide (¬ (x.1 ∈ es.map Prod.fst ∧ x.1 ∉ keys A.root))) := by
  intro es
  induction es with
  | nil =>
    intro A B hA hB _ _
    refine ⟨hA, hB, fun x => by simp, ?_⟩
    simp
  | cons e es ih =>
    intro A B hA hB hnd hmem
    simp only [List.map_cons, List.nodup_cons] at hnd
    obtain ⟨hne, hnd'⟩ := hnd
    have heB : e.1 ∈ keys B.root := hmem e (List.mem_cons_self _ _)
    have hdiff : ∀ e' ∈ es, e'.1 ≠ e.1 :=
      fun e' he' hc => hne (hc ▸ List.mem_map_of_mem Prod.fst he')
    obtain ⟨s1, s2, s3, s4⟩ := mergeStep_spec g e A B hA hB heB
    have hmem' : ∀ e' ∈ es, e'.1 ∈ keys (mergeStep g e (A, B)).2.root := by
      intro e' he'
      have h1 := hmem e' (List.mem_cons_of_mem _ he')
      by_cases hk : e.1 ∈ keys A.root
      · rw [(s3 hk).2]; exact h1
      · rw [keys, (s4 hk).2]
        obtain ⟨x, hx, hxe⟩ := List.mem_map.1 h1
        refine List.mem_map.2 ⟨x, List.mem_filter.2 ⟨hx, ?_⟩, hxe⟩
        have : x.1 ≠ e.1 := by rw [hxe]; exact hdiff e' he'
        simpa using this
    obtain ⟨i1, i2, i3, i4⟩ :=
      ih (mergeStep g e (A, B)).1 (mergeStep g e (A, B)).2 s1 s2 hnd' hmem'
    simp only [List.foldl_cons]
    refine ⟨i1, i2, ?_, ?_⟩
    · intro x
      rw [i3 x]
      by_cases hk : e.1 ∈ keys A.root
      · have hkeys : keys (mergeStep g e (A, B)).1.root = keys A.root := by
          rw [keys, (s3 hk).1]; rfl
        rw [(s3 hk).1, hkeys]
        constructor
        · rintro (h1 | ⟨e', he', h2, h3⟩)
          · exact Or.inl h1
          · exact Or.inr ⟨e', List.mem_cons_of_mem _ he', h2, h3⟩
        · rintro (h1 | ⟨e', he', h2, h3⟩)
          · exact Or.inl h1
          · rcases List.mem_cons.1 he' with rfl | he'
            · exact absurd hk h2
            · exact Or.inr ⟨e', he', h2, h3⟩
      · have hkeys : ∀ y, y ∈ keys (mergeStep g e (A, B)).1.root ↔ y = e.1 ∨ y ∈ keys A.root := by
          intro y
          rw [keys, (s4 hk).1]
          exact mem_insertBefore_keys e.1 (g e) _ y
        rw [(s4 hk).1, (insertBefore_perm e.1 (g e) _).mem_iff, List.mem_cons]
        constructor
        · rintro ((h1 | h1) | ⟨e', he', h2, h3⟩)
          · exact Or.inr ⟨e, List.mem_cons_self _ _, hk, h1⟩
          · exact Or.inl h1
          · refine Or.inr ⟨e', List.mem_cons_of_mem _ he', ?_, h3⟩
            exact fun hc => h2 ((hkeys _).2 (Or.inr hc))
        · rintro (h1 | ⟨e', he', h2, h3⟩)
          · exact Or.inl (Or.inr h1)
          · rcases List.mem_cons.1 he' with rfl | he'
            · exact Or.inl (Or.inl h3)
            · refine Or.inr ⟨e', he', ?_, h3⟩
              intro hc
              rcases (hkeys _).1 hc with h4 | h4
              · exact hdiff e' he' h4
              · exact h2 h4
    · rw [i4]
      by_cases hk : e.1 ∈ keys A.root
      · have hkeys : keys (mergeStep g e (A, B)).1.root = keys A.root := by
          rw [keys, (s3 hk).1]; rfl
        rw [(s3 hk).2, hkeys]
        apply List.filter_congr
        intro x _
        apply decide_eq_decide.2
        simp only [List.map_cons, List.mem_cons]
        constructor
        · rintro h1 ⟨h2 | h2, h3⟩
          · exact h3 (h2 ▸ hk)
          · exact h1 ⟨h2, h3⟩
        · rintro h1 ⟨h2, h3⟩
          exact h1 ⟨Or.inr h2, h3⟩
      · have hkeys : ∀ y, y ∈ keys (mergeStep g e (A, B)).1.root ↔ y = e.1 ∨ y ∈ keys A.root := by
          intro y
          rw [keys, (s4 hk).1]
          exact mem_insertBefore_keys e.1 (g e) _ y
        rw [(s4 hk).2, List.filter_filter]
        apply List.filter_congr
        intro x _
        by_cases hx : x.1 = e.1
        · have h1 : decide (x.1 ≠ e.1) = false := decide_eq_false (not_not.2 hx)
          have h2 : decide (¬ (x.1 ∈ (e :: es).map Prod.fst ∧ x.1 ∉ keys A.root)) = false := by
            have : x.1 ∈ (e :: es).map Prod.fst ∧ x.1 ∉ keys A.root :=
              ⟨by rw [hx]; exact List.mem_map_of_mem Prod.fst (List.mem_cons_self _ _),
                by rw [hx]; exact hk⟩
            exact decide_eq_false (not_not.2 this)
          rw [h1, h2, Bool.and_false]
        · have h1 : decide (x.1 ≠ e.1) = true := decide_eq_true hx
          rw [h1, Bool.and_true]
          apply decide_eq_decide.2
          simp only [List.map_cons, List.mem_cons]
          constructor
          · rintro h2 ⟨h3 | h3, h4⟩
            · exact hx h3
            · exact h2 ⟨h3, fun hc => by
                rcases (hkeys _).1 hc with h5 | h5
                · exact hx h5
                · exact h4 h5⟩
          · rintro h2 ⟨h3, h4⟩
            exact h2 ⟨Or.inr h3, fun hc => h4 ((hkeys _).2 (Or.inr hc))⟩

theorem GetMinNode_addrOf (t : node Key Value) : (GetMinNode t).addrOf = (addrs t)[0]? := by
  cases t with
  | nullptr => rfl
  | mk a k v p l r h =>
    obtain ⟨ma, mk, mv, mp, mr, mh, rest, e1, e2⟩ := GetMinNode_spec (.mk a k v p l r h) rfl
    rw [e1, ← cells_map_fst, e2]
    simp [node.addrOf]

/-- A loop over a whole tree with distinct addresses and consistent parent
links, started at `begin()`, applies the body to every node in in-order
sequence and ends, given fuel for twice the number of nodes. -/
theorem for_each_node_tree {σ : Type} (R : node Key Value) (hd : (addrs R).Nodup)
    (hp : ParentsOK none R) (last : Iterator) (hlast : last.it_node = none)
    (body : Iterator → σ → Option σ) (g : Nat × Key × Value → σ → σ)
    (hbody : ∀ c ∈ cells R, ∀ (pv : Option Nat) (s : σ),
      body { it_node := some c.1, it_prev_node := pv } s = some (g c s))
    (s : σ) (F : Nat) (hF : 2 * RecursiveSize R ≤ F) :
    for_each_node R last body F { it_node := (GetMinNode R).addrOf, it_prev_node := none } s =
      some ((cells R).foldl (fun s c => g c s) s) := by
  have hchain := tree_IncChain R hd hp
  have hlen := addrs_length R
  rw [GetMinNode_addrOf]
  have := for_each_node_chain R last hlast body g hbody (RecursiveSize R) hchain
    (addrs R).length 0 none s F (by omega) (by omega)
  simpa using this

theorem merge_body_at_cell [LinearOrder Key] [Inhabited Value] (tree : AVLTree Key Value)
    (hd : (addrs tree.root).Nodup) (c : Nat × Key × Value) (hc : c ∈ cells tree.root)
    (pv : Option Nat) (s : AVLTree Key Value × AVLTree Key Value) :
    AVLTree.merge_body tree { it_node := some c.1, it_prev_node := pv } s =
      some (mergeStep (fun _ => default) c.2 s) := by
  have := deref_of_cell tree.root { it_node := some c.1, it_prev_node := pv } c.1 c.2.1 c.2.2
    hd rfl hc
  simp only [AVLTree.merge_body, this, mergeStep]

theorem strict_keys_nodup [LinearOrder Key] (t : node Key Value)
    (hs : (keys t).Pairwise (· < ·)) : ((inorder t).map Prod.fst).Nodup :=
  hs.imp (fun hab => ne_of_lt hab)

theorem filter_other_eq [LinearOrder Key] (A B : node Key Value) :
    (inorder B).filter
        (fun x => decide (¬ (x.1 ∈ (inorder B).map Prod.fst ∧ x.1 ∉ keys A))) =
      (inorder B).filter (fun x => decide (x.1 ∈ keys A)) := by
  apply List.filter_congr
  intro x hx
  apply decide_eq_decide.2
  constructor
  · intro h
    by_contra hc
    exact h ⟨List.mem_map_of_mem Prod.fst hx, hc⟩
  · rintro h ⟨_, h2⟩
    exact h2 h

/-- What `AVLTree::merge` computes on trees without duplicates. -/
theorem AVLTree_merge_spec [LinearOrder Key] [Inhabited Value] (A B : AVLTree Key Value)
    (hA : TreeInv A) (hB : TreeInv B) (fuel : Nat) (hfuel : 2 * B.size ≤ fuel) :
    ∃ A' B', AVLTree.merge fuel A B = some (A', B') ∧ TreeInv A' ∧ TreeInv B' ∧
      (∀ x, x ∈ inorder A'.root ↔
        x ∈ inorder A.root ∨ ∃ e ∈ inorder B.root, e.1 ∉ keys A.root ∧ x = (e.1, default)) ∧
      inorder B'.root = (inorder B.root).filter (fun x => decide (x.1 ∈ keys A.root)) := by
  obtain ⟨c1, c2, c3, c4⟩ := copy_spec B
  have hrun := for_each_node_tree B.copy.root c1 c2 (AVLTree.end B.copy) rfl
    (AVLTree.merge_body B.copy) (fun c s => mergeStep (fun _ => default) c.2 s)
    (fun c hc pv s => merge_body_at_cell B.copy c1 c hc pv s) (A, B) fuel
    (by unfold AVLTree.size at c4 hfuel; omega)
  have hfold : (cells B.copy.root).foldl (fun s c => mergeStep (fun _ => default) c.2 s) (A, B) =
      (inorder B.root).foldl (fun s e => mergeStep (fun _ => default) e s) (A, B) := by
    rw [← c3, ← cells_map_snd, List.foldl_map]
  rw [hfold] at hrun
  obtain ⟨i1, i2, i3, i4⟩ := mergeAll_spec (fun _ : Key × Value => (default : Value))
    (inorder B.root) A B hA hB (strict_keys_nodup B.root hB.1)
    (fun e he => List.mem_map_of_mem Prod.fst he)
  refine ⟨_, _, hrun, i1, i2, i3, ?_⟩
  rw [i4]
  exact filter_other_eq A.root B.root

theorem insertAll_built [LinearOrder Key] (es : List (Key × Value)) :
    ∀ t : AVLTree Key Value, Built false true t → Built false true (insertAll t es) := by
  induction es with
  | nil => intro t ht; exact ht
  | cons e es ih =>
    intro t ht
    exact ih _ (Built.insert e.1 e.2 false (fun h => by cases h) ht)

/-- C13: for trees `A` and `B` built with allow_duplicates = false,
`A.merge(B)` returns (given fuel for twice the size of `B`); afterwards the
keys of `A` are those of the previous `A` and `B` together, each stored once,
and `B` keeps exactly its previous keys that were already present in `A`. -/
theorem merge_key_sets [LinearOrder Key] [Inhabited Value] (A B : AVLTree Key Value)
    (hA : Built false true A) (hB : Built false true B) (fuel : Nat)
    (hfuel : 2 * B.size ≤ fuel) :
    ∃ A' B', AVLTree.merge fuel A B = some (A', B') ∧
      (∀ x, x ∈ keys A'.root ↔ x ∈ keys A.root ∨ x ∈ keys B.root) ∧
      (keys A'.root).Pairwise (· < ·) ∧
      keys B'.root = (keys B.root).filter (fun x => decide (x ∈ keys A.root)) := by
  obtain ⟨A', B', hrun, iA, _, hmem, hB'⟩ :=
    AVLTree_merge_spec A B (Built_TreeInv hA) (Built_TreeInv hB) fuel hfuel
  refine ⟨A', B', hrun, ?_, iA.1, ?_⟩
  · intro x
    constructor
    · intro hx
      obtain ⟨y, hy, rfl⟩ := List.mem_map.1 hx
      rcases (hmem y).1 hy with h1 | ⟨e, he, _, rfl⟩
      · exact Or.inl (List.mem_map_of_mem Prod.fst h1)
      · right
        show e.1 ∈ keys B.root
        exact List.mem_map_of_mem Prod.fst he
    · intro hx
      by_cases hxA : x ∈ keys A.root
      · obtain ⟨y, hy, rfl⟩ := List.mem_map.1 hxA
        exact List.mem_map_of_mem Prod.fst ((hmem y).2 (Or.inl hy))
      · rcases hx with hx | hx
        · exact absurd hx hxA
        · obtain ⟨e, he, rfl⟩ := List.mem_map.1 hx
          exact List.mem_map.2 ⟨(e.1, default), (hmem _).2 (Or.inr ⟨e, he, hxA, rfl⟩), rfl⟩
  · rw [keys, hB']
    show _ = List.filter _ ((inorder B.root).map Prod.fst)
    rw [List.filter_map]
    rfl

theorem merge_key_sets_witness :
    (Built false true mergeLeft ∧ Built false true mergeRight ∧ 2 * mergeRight.size ≤ 6) ∧
    (∃ A' B', AVLTree.merge 6 mergeLeft mergeRight = some (A', B') ∧
      (∀ x, x ∈ keys A'.root ↔ x ∈ keys mergeLeft.root ∨ x ∈ keys mergeRight.root) ∧
      (keys A'.root).Pairwise (· < ·) ∧
      keys B'.root = (keys mergeRight.root).filter (fun x => decide (x ∈ keys mergeLeft.root))) ∧
    (AVLTree.merge 6 mergeLeft mergeRight).map (fun p => (keys p.1.root, keys p.2.root)) =
      some ([1, 2, 3, 4], [2, 3]) :=
  ⟨⟨insertAll_built _ _ Built.empty, insertAll_built _ _ Built.empty, by decide⟩,
    merge_key_sets mergeLeft mergeRight (insertAll_built _ _ Built.empty)
      (insertAll_built _ _ Built.empty) 6 (by decide),
    by decide⟩

theorem map_eq_of_toAVLTree (m m' : map Key Value) (h : m.toAVLTree = m'.toAVLTree) :
    m = m' := by
  cases m; cases m'; simp only at h; rw [h]

theorem map_erase_in_eq [LinearOrder Key] [Inhabited Key] [Inhabited Value]
    (mem : node Key Value) (m : map Key Value) (pos : MapIterator) :
    (m.erase_in mem pos).toAVLTree = m.toAVLTree.erase_in mem pos := by
  unfold map.erase_in AVLTree.erase_in
  split_ifs with c
  · rfl
  · have hne : pos.it_node ≠ none := fun hc => c (Or.inr hc)
    obtain ⟨a, ha⟩ := Option.ne_none_iff_exists'.1 hne
    simp only [MapIterator.deref, Iterator.deref, ha]
    cases lookup a mem <;> rfl

theorem map_merge_body_at_cell [LinearOrder Key] [Inhabited Key] [Inhabited Value]
    (c_tree : map Key Value) (hd : (addrs c_tree.root).Nodup) (c : Nat × Key × Value)
    (hc : c ∈ cells c_tree.root) (pv : Option Nat) (s : map Key Value × map Key Value) :
    map.merge_body c_tree { it_node := some c.1, it_prev_node := pv } s =
      some ({ toAVLTree := (mergeStep Prod.snd c.2 (s.1.toAVLTree, s.2.toAVLTree)).1 },
        { toAVLTree := (mergeStep Prod.snd c.2 (s.1.toAVLTree, s.2.toAVLTree)).2 }) := by
  obtain ⟨a, k, v⟩ := c
  obtain ⟨p, l, r, h, hn⟩ := mem_cells_nodeOf c_tree.root a k v hc
  have hl := lookup_nodeOf a k v p l r h c_tree.root hd hn
  obtain ⟨e1, e2⟩ := map_insert_eq s.1 k v
  simp only [map.merge_body, MapIterator.deref, hl, mergeStep]
  congr 1
  refine Prod.ext (map_eq_of_toAVLTree _ _ e1) (map_eq_of_toAVLTree _ _ ?_)
  simp only [e2]
  split_ifs
  · rw [map_erase_in_eq, e1]
  · rfl

theorem foldl_lift_maps [LinearOrder Key] (cs : List (Nat × Key × Value)) :
    ∀ s : map Key Value × map Key Value,
      cs.foldl (fun (s : map Key Value × map Key Value) c =>
        (({ toAVLTree := (mergeStep Prod.snd c.2 (s.1.toAVLTree, s.2.toAVLTree)).1 } : map Key Value),
          ({ toAVLTree := (mergeStep Prod.snd c.2 (s.1.toAVLTree, s.2.toAVLTree)).2 } :
            map Key Value))) s =
      (({ toAVLTree := ((cs.map Prod.snd).foldl (fun s e => mergeStep Prod.snd e s)
          (s.1.toAVLTree, s.2.toAVLTree)).1 } : map Key Value),
        ({ toAVLTree := ((cs.map Prod.snd).foldl (fun s e => mergeStep Prod.snd e s)
          (s.1.toAVLTree, s.2.toAVLTree)).2 } : map Key Value)) := by
  induction cs with
  | nil => intro s; rfl
  | cons c cs ih => intro s; simp only [List.foldl_cons, List.map_cons]; rw [ih]

/-- What `map::merge` computes on maps that satisfy the invariant. -/
theorem map_merge_spec [LinearOrder Key] [Inhabited Key] [Inhabited Value]
    (A B : map Key Value) (hA : TreeInv A.toAVLTree) (hB : TreeInv B.toAVLTree) (fuel : Nat)
    (hfuel : 2 * B.size ≤ fuel) :
    ∃ A' B', map.merge fuel A B = some (A', B') ∧
      TreeInv A'.toAVLTree ∧ TreeInv B'.toAVLTree ∧
      (∀ x, x ∈ inorder A'.root ↔
        x ∈ inorder A.root ∨ (x ∈ inorder B.root ∧ x.1 ∉ keys A.root)) ∧
      inorder B'.root = (inorder B.root).filter (fun x => decide (x.1 ∈ keys A.root)) := by
  obtain ⟨c1, c2, c3, c4⟩ := copy_spec B.toAVLTree
  have hrun := for_each_node_tree B.copy.root c1 c2 B.copy.end (map_end_it_node _)
    (map.merge_body B.copy) _
    (fun c hc pv s => map_merge_body_at_cell B.copy c1 c hc pv s) (A, B) fuel
    (by
      have : RecursiveSize B.copy.root = RecursiveSize B.root := c4
      unfold map.size AVLTree.size at hfuel
      omega)
  rw [foldl_lift_maps] at hrun
  have hcells : (cells B.copy.root).map Prod.snd = inorder B.root := by
    rw [cells_map_snd]; exact c3
  rw [hcells] at hrun
  obtain ⟨i1, i2, i3, i4⟩ := mergeAll_spec (Prod.snd : Key × Value → Value)
    (inorder B.root) A.toAVLTree B.toAVLTree hA hB (strict_keys_nodup B.root hB.1)
    (fun e he => List.mem_map_of_mem Prod.fst he)
  refine ⟨_, _, hrun, i1, i2, ?_, ?_⟩
  · intro x
    rw [i3 x]
    constructor
    · rintro (h1 | ⟨e, he, h2, rfl⟩)
      · exact Or.inl h1
      · exact Or.inr ⟨he, h2⟩
    · rintro (h1 | ⟨h1, h2⟩)
      · exact Or.inl h1
      · exact Or.inr ⟨x, h1, h2, rfl⟩
  · show inorder _ = _
    rw [i4]
    exact filter_other_eq A.root B.root

theorem TreeInv_copy [LinearOrder Key] (t : AVLTree Key Value) (h : TreeInv t) :
    TreeInv t.copy := by
  obtain ⟨c1, c2, c3, c4, c5, c6⟩ := CopyTree_spec t.root 0 none
  refine ⟨?_, c3, ?_, c6⟩
  · show ((inorder (CopyTree 0 t.root none).1).map Prod.fst).Pairwise (· < ·)
    rw [c5]; exact h.1
  · intro a ha
    have := c2 a ha
    show a < (CopyTree 0 t.root none).2
    rw [c1]; exact this.2

theorem TreeInv_map_erase_in [LinearOrder Key] [Inhabited Key] [Inhabited Value]
    (mem : node Key Value) (m : map Key Value) (h : TreeInv m.toAVLTree) (pos : MapIterator) :
    TreeInv (m.erase_in mem pos).toAVLTree := by
  unfold map.erase_in
  split_ifs
  · exact h
  · cases MapIterator.deref mem pos with
    | error e => exact h
    | ok e => exact TreeInv_delete m.toAVLTree h e.1

/-- The invariant `TreeInv` holds for the empty map and is kept by `insert`,
`erase`, `insert_or_assign`, `operator[]`, the copy constructor and `merge`:
it holds for every map these operations can produce. -/
theorem map_invariant_kept [LinearOrder Key] [Inhabited Key] [Inhabited Value] :
    TreeInv (map.empty : map Key Value).toAVLTree ∧
    ∀ m : map Key Value, TreeInv m.toAVLTree →
      (∀ k v, TreeInv (m.insert k v).1.toAVLTree) ∧
      (∀ mem pos, TreeInv (m.erase_in mem pos).toAVLTree) ∧
      (∀ k obj r, m.insert_or_assign k obj = .ok r → TreeInv r.1.toAVLTree) ∧
      (∀ k, TreeInv (m.subscript k).1.toAVLTree) ∧
      TreeInv m.copy.toAVLTree ∧
      (∀ (B : map Key Value) (fuel : Nat), TreeInv B.toAVLTree → 2 * B.size ≤ fuel →
        ∃ A' B', map.merge fuel m B = some (A', B') ∧
          TreeInv A'.toAVLTree ∧ TreeInv B'.toAVLTree) := by
  refine ⟨TreeInv_empty, ?_⟩
  intro m h
  refine ⟨fun k v => (map_insert_spec m h k v).1, fun mem pos => TreeInv_map_erase_in mem m h pos,
    ?_, ?_, TreeInv_copy m.toAVLTree h, ?_⟩
  · intro k obj r hr
    unfold map.insert_or_assign at hr
    split_ifs at hr
    · split at hr
      · cases hr
      · injection hr with hr
        subst hr
        exact (map_insert_spec m h k _).1
    · split at hr
      · cases hr
      · injection hr with hr
        subst hr
        exact (map_insert_spec (m.erase (m.find k))
          (TreeInv_map_erase_in m.root m h (m.find k)) k _).1
  · intro k
    unfold map.subscript
    split_ifs
    · exact (map_insert_spec m h k default).1
    · exact h
  · intro B fuel hB hfuel
    obtain ⟨A', B', h1, h2, h3, _⟩ := map_merge_spec m B h hB fuel hfuel
    exact ⟨A', B', h1, h2, h3⟩

/-- C15: for maps `A` and `B` (trees that store every key once, see
`map_invariant_kept`), `A.merge(B)` returns (given fuel for twice the size of
`B`); afterwards `A` holds its previous entries unchanged and, for every key
of `B` that was absent from `A`, the entry of `B`, every key being stored
once, and `B` keeps exactly its previous entries whose keys were already
present in `A`. -/
theorem map_merge_entries [LinearOrder Key] [Inhabited Key] [Inhabited Value]
    (A B : map Key Value) (hA : TreeInv A.toAVLTree) (hB : TreeInv B.toAVLTree) (fuel : Nat)
    (hfuel : 2 * B.size ≤ fuel) :
    ∃ A' B', map.merge fuel A B = some (A', B') ∧
      (∀ x, x ∈ inorder A'.root ↔
        x ∈ inorder A.root ∨ (x ∈ inorder B.root ∧ x.1 ∉ keys A.root)) ∧
      (keys A'.root).Pairwise (· < ·) ∧
      inorder B'.root = (inorder B.root).filter (fun x => decide (x.1 ∈ keys A.root)) := by
  obtain ⟨A', B', h1, h2, _, h4, h5⟩ := map_merge_spec A B hA hB fuel hfuel
  exact ⟨A', B', h1, h4, h2.1, h5⟩

theorem map_merge_entries_witness :
    (TreeInv mergeLeftMap.toAVLTree ∧ TreeInv mergeRightMap.toAVLTree ∧
      2 * mergeRightMap.size ≤ 6) ∧
    (∃ A' B', map.merge 6 mergeLeftMap mergeRightMap = some (A', B') ∧
      (∀ x, x ∈ inorder A'.root ↔
        x ∈ inorder mergeLeftMap.root ∨
          (x ∈ inorder mergeRightMap.root ∧ x.1 ∉ keys mergeLeftMap.root)) ∧
      (keys A'.root).Pairwise (· < ·) ∧
      inorder B'.root =
        (inorder mergeRightMap.root).filter (fun x => decide (x.1 ∈ keys mergeLeftMap.root))) ∧
    (map.merge 6 mergeLeftMap mergeRightMap).map (fun p => (inorder p.1.root, inorder p.2.root)) =
      some ([(1, 10), (2, 20), (3, 30), (4, 400)], [(2, 200), (3, 300)]) :=
  ⟨⟨map_ofList_TreeInv _, map_ofList_TreeInv _, by decide⟩,
    map_merge_entries mergeLeftMap mergeRightMap (map_ofList_TreeInv _) (map_ofList_TreeInv _) 6
      (by decide),
    by decide⟩

/-! ## The merge of `Set` walks the set it erases from -/

theorem stuck_round_one (f : Nat) :
    Set.merge_round (f + 1) (stuckSource.begin, stuckTarget, stuckSource) =
      some ({ it_node := some 0, it_prev_node := none }, stuckTarget, stuckSource) := by
  rfl

theorem stuck_round_two (f : Nat) :
    Set.merge_round (f + 1)
      ({ it_node := some 0, it_prev_node := none }, stuckTarget, stuckSource) =
      some stuckState := by
  rfl

theorem stuck_round_again (f : Nat) : Set.merge_round (f + 1) stuckState = some stuckState := by
  rfl

theorem stuck_loop (fuel : Nat) : Set.merge_loop fuel stuckState = none := by
  induction fuel with
  | zero => rfl
  | succ n ih =>
    have hne : stuckState.1.eq stuckState.2.2.end = false := by rfl
    simp only [Set.merge_loop, hne, stuck_round_again, ih]
    rfl

/-- C14 on the code: with `this` = {1} and `other` built by inserting 2 and
then 1, `Set::merge` moves 2 over and erases it from `other`; the erased node
had one child, so `*Node = *temp` leaves at its address a node holding 1 with
a `parent_` link to itself.  The iterator of the loop is at that node, `++`
returns the same node, `insert(1)` reports a present key, and every further
round leaves the state as it is: the call returns for no amount of fuel. -/
theorem set_merge_never_returns :
    keys stuckTarget.tree_.root = [1] ∧ keys stuckSource.tree_.root = [1, 2] ∧
    (∀ f, Set.merge_round (f + 1) stuckState = some stuckState) ∧
    stuckState.1.eq stuckState.2.2.end = false ∧
    (∀ fuel, Set.merge fuel stuckTarget stuckSource = none) := by
  refine ⟨by decide, by decide, stuck_round_again, by rfl, ?_⟩
  intro fuel
  have hne0 : stuckSource.begin.eq stuckSource.end = false := by rfl
  have hne1 : Iterator.eq { it_node := some 0, it_prev_node := none } stuckSource.end = false := by
    rfl
  cases fuel with
  | zero => rfl
  | succ n =>
    cases n with
    | zero =>
      simp only [Set.merge, Set.merge_loop, hne0, stuck_round_one, hne1]
      rfl
    | succ m =>
      simp only [Set.merge, Set.merge_loop, hne0, stuck_round_one, hne1, stuck_round_two,
        stuck_loop]
      rfl

/-- On the sets {1, 2, 3} and {2, 3, 4} of the merge example, the round that
moves 4 over erases from `other` the very node the iterator is at (address
2): the following `++it` reads a freed node, which is undefined behaviour in
the source and has no result in the model. -/
theorem set_merge_example_reads_freed_node :
    (exampleSource.begin.it_node = some 1 ∧
      lookup 2 exampleSource.tree_.root = .mk 2 4 4 (some 0) .nullptr .nullptr 0) ∧
    lookup 2 (exampleSource.erase_in (exampleTarget.insert 4).1.tree_.root
      (exampleTarget.insert 4).2.1).tree_.root = .nullptr ∧
    Set.merge_round 8 ({ it_node := some 2, it_prev_node := none }, exampleTarget, exampleSource) =
      none ∧
    Set.merge 8 exampleTarget exampleSource = none := by
  refine ⟨⟨by rfl, by rfl⟩, by rfl, by rfl, by rfl⟩

/-! ## Erasing at `end()`, moving a container -/

theorem erase_outcome_ok [LinearOrder Key] (mem : node Key Value) (t t' : AVLTree Key Value)
    (pos : Iterator) (h : t.erase_outcome mem pos = .ok t') : t.erase_in mem pos = t' := by
  unfold AVLTree.erase_outcome at h
  unfold AVLTree.erase_in
  split_ifs at h ⊢ with hc
  · cases h; rfl
  · cases hd : pos.deref mem with
    | error e => rw [hd] at h; cases h
    | ok key => rw [hd] at h; cases h; rfl

theorem erase_end_tree [LinearOrder Key] (t : AVLTree Key Value) :
    t.erase_outcome t.root (AVLTree.end t) = .ok t ∧ t.erase (AVLTree.end t) = t := by
  constructor
  · simp [AVLTree.erase_outcome, AVLTree.end]
  · simp [AVLTree.erase, AVLTree.erase_in, AVLTree.end]

/-- C21: calling `erase(end())` returns without an exception and leaves the container
as it was, node for node (hence shape, entries and size() are unchanged), on
every tree, Set, Multiset and map. -/
theorem erase_end_is_noop [LinearOrder Key] [Inhabited Key] [Inhabited Value] :
    (∀ t : AVLTree Key Value,
      t.erase_outcome t.root (AVLTree.end t) = .ok t ∧ t.erase (AVLTree.end t) = t ∧
      (t.erase (AVLTree.end t)).size = t.size) ∧
    (∀ s : Set Key,
      s.erase_outcome s.end = .ok s ∧ s.erase s.end = s ∧ (s.erase s.end).size = s.size) ∧
    (∀ m : Multiset Key,
      m.erase_outcome m.end = .ok m ∧ m.erase m.end = m ∧ (m.erase m.end).size = m.size) ∧
    (∀ m : map Key Value,
      m.erase_outcome m.root m.end = .ok m ∧ m.erase m.end = m ∧
      (m.erase m.end).size = m.size) := by
  refine ⟨?_, ?_, ?_, ?_⟩
  · intro t
    exact ⟨(erase_end_tree t).1, (erase_end_tree t).2, by rw [(erase_end_tree t).2]⟩
  · intro s
    have h1 : s.erase_outcome s.end = .ok s := by
      unfold Set.erase_outcome Set.end
      rw [(erase_end_tree s.tree_).1]; rfl
    have h2 : s.erase s.end = s := by
      unfold Set.erase Set.erase_in Set.end
      have := (erase_end_tree s.tree_).2
      unfold AVLTree.erase at this
      rw [this]
    exact ⟨h1, h2, by rw [h2]⟩
  · intro m
    have h1 : m.erase_outcome m.end = .ok m := by
      unfold Multiset.erase_outcome Multiset.end
      rw [(erase_end_tree m.tree_).1]; rfl
    have h2 : m.erase m.end = m := by
      unfold Multiset.erase Multiset.end
      rw [(erase_end_tree m.tree_).2]
    exact ⟨h1, h2, by rw [h2]⟩
  · intro m
    have h1 : m.erase_outcome m.root m.end = .ok m := by
      simp [map.erase_outcome, map_end_it_node]
    have h2 : m.erase m.end = m := by
      simp [map.erase, map.erase_in, map_end_it_node]
    exact ⟨h1, h2, by rw [h2]⟩

/-- C24: move construction and move assignment of a tree, a Set and a
Multiset hand the root of the source over: the destination (empty or not
before the assignment) has the in-order entries and the size() of the source,
and the source is left with empty() true and size() 0. -/
theorem move_transfers_entries :
    (∀ other : AVLTree Key Value,
      inorder other.move_construct.1.root = inorder other.root ∧
      other.move_construct.1.size = other.size ∧
      other.move_construct.2.isEmpty = true ∧ other.move_construct.2.size = 0) ∧
    (∀ this other : AVLTree Key Value,
      inorder (this.move_assign other).1.root = inorder other.root ∧
      (this.move_assign other).1.size = other.size ∧
      (this.move_assign other).2.isEmpty = true ∧ (this.move_assign other).2.size = 0) ∧
    (∀ other : Set Key,
      inorder other.move_construct.1.tree_.root = inorder other.tree_.root ∧
      other.move_construct.1.size = other.size ∧
      other.move_construct.2.isEmpty = true ∧ other.move_construct.2.size = 0) ∧
    (∀ this other : Set Key,
      inorder (this.move_assign other).1.tree_.root = inorder other.tree_.root ∧
      (this.move_assign other).1.size = other.size ∧
      (this.move_assign other).2.isEmpty = true ∧ (this.move_assign other).2.size = 0) ∧
    (∀ other : Multiset Key,
      inorder other.move_construct.1.tree_.root = inorder other.tree_.root ∧
      other.move_construct.1.size = other.size ∧
      other.move_construct.2.isEmpty = true ∧ other.move_construct.2.size = 0) ∧
    (∀ this other : Multiset Key,
      inorder (this.move_assign other).1.tree_.root = inorder other.tree_.root ∧
      (this.move_assign other).1.size = other.size ∧
      (this.move_assign other).2.isEmpty = true ∧ (this.move_assign other).2.size = 0) := by
  refine ⟨?_, ?_, ?_, ?_, ?_, ?_⟩ <;> intros <;> exact ⟨rfl, rfl, rfl, rfl⟩

/-! ## Inserting into a copy -/

/-- C23 on the code: the tree built by inserting 40, 20, 60, 10, 30, 50
satisfies the invariants; its copy has the same shape with every `height_`
equal to 0, because `CopyTree` builds each node with `new node(key, value,
parent)`.  Inserting 25 into the copy recomputes the heights on the path only:
at the root the left subtree gets the stored height 2 against the stale 0 of
the right subtree, `Balancing` rotates, and the node holding 40 ends with no
left child and a right subtree of actual height 1 (balance factor 2), while
the node holding 60 keeps the stored height 0 above its child 50. -/
theorem insert_into_copy_unbalanced :
    Reachable sixKeys ∧ AVLActual sixKeys.root ∧
    shapeOf sixKeys.copy.root = shapeOf sixKeys.root ∧
    sixKeys.copy.root =
      .mk 0 40 40 none
        (.mk 1 20 20 (some 0) (.mk 2 10 10 (some 1) .nullptr .nullptr 0)
          (.mk 3 30 30 (some 1) .nullptr .nullptr 0) 0)
        (.mk 4 60 60 (some 0) (.mk 5 50 50 (some 4) .nullptr .nullptr 0) .nullptr 0) 0 ∧
    sixKeysCopyInsert.root =
      .mk 0 30 30 none
        (.mk 3 20 20 (some 0) (.mk 2 10 10 (some 3) .nullptr .nullptr 0)
          (.mk 6 25 25 (some 3) .nullptr .nullptr 0) 1)
        (.mk 1 40 40 (some 0) .nullptr
          (.mk 4 60 60 (some 1) (.mk 5 50 50 (some 4) .nullptr .nullptr 0) .nullptr 0) 1) 2 ∧
    height (.mk 4 60 60 (some 1) (.mk 5 50 50 (some 4) .nullptr .nullptr 0) .nullptr 0 :
      node Nat Nat) - height (.nullptr : node Nat Nat) = 2 ∧
    ¬ AVLActual sixKeysCopyInsert.root ∧ ¬ AVLInv sixKeysCopyInsert.root := by
  have hb : Built false true sixKeys := insertAll_built _ _ Built.empty
  have hroot : sixKeysCopyInsert.root =
      .mk 0 30 30 none
        (.mk 3 20 20 (some 0) (.mk 2 10 10 (some 3) .nullptr .nullptr 0)
          (.mk 6 25 25 (some 3) .nullptr .nullptr 0) 1)
        (.mk 1 40 40 (some 0) .nullptr
          (.mk 4 60 60 (some 1) (.mk 5 50 50 (some 4) .nullptr .nullptr 0) .nullptr 0) 1) 2 := by
    decide
  refine ⟨Built.mono hb, AVLInv_imp_AVLActual _ (Built_AVLInv hb), by decide, by decide, hroot,
    by decide,
    ?_, ?_⟩
  · rw [hroot]
    intro h
    have h40 := h.2.1.2.2.1
    revert h40
    decide
  · rw [hroot]
    intro h
    have h60 := h.2.1.2.1.2.2.2
    revert h60
    decide

/-! ## The circular buffer of `Queue` -/

theorem size_t_of_lt {n : Nat} (h : n < 2 ^ 64) : size_t n = n := Nat.mod_eq_of_lt h

theorem ring_index_inj (front cap i j : Nat) (hi : i < cap) (hj : j < cap)
    (h : (front + i) % cap = (front + j) % cap) : i = j := by
  have h1 : i ≡ j [MOD cap] := Nat.ModEq.add_left_cancel' front h
  exact Nat.ModEq.eq_of_lt_of_lt h1 hi hj

theorem pred_mod (x c : Nat) (hx : 1 ≤ x) (hc : 1 ≤ c) :
    (x - 1) % c = if x % c = 0 then c - 1 else x % c - 1 := by
  have hdiv := Nat.div_add_mod x c
  have hr := Nat.mod_lt x hc
  by_cases h0 : x % c = 0
  · rw [if_pos h0]
    have hq : 1 ≤ x / c := by
      rcases Nat.eq_zero_or_pos (x / c) with hz | hz
      · rw [hz, h0] at hdiv; omega
      · exact hz
    have : x - 1 = c * (x / c - 1) + (c - 1) := by
      have e : c * (x / c) = c * (x / c - 1) + c := by
        conv_lhs => rw [show x / c = (x / c - 1) + 1 by omega]
        rw [Nat.mul_add, Nat.mul_one]
      omega
    rw [this, Nat.mul_add_mod]
    exact Nat.mod_eq_of_lt (by omega)
  · rw [if_neg h0]
    have : x - 1 = c * (x / c) + (x % c - 1) := by omega
    rw [this, Nat.mul_add_mod]
    exact Nat.mod_eq_of_lt (by omega)

/-- The copying loop, run inside both arrays, fills the cells `i .. i + n - 1`
of the destination with the cells of the source from `front + i` on, around
the end of the source, and leaves the other cells as they are. -/
theorem copy_loop_spec (src : List T) (front cap : Nat) (hcap : 0 < cap)
    (hsrc : src.length = cap) :
    ∀ (n i : Nat) (dst : List T), i + n ≤ dst.length → front + i + n ≤ 2 ^ 64 →
      ∃ d, Queue.copy_loop src front cap n i dst = .ok d ∧ d.length = dst.length ∧
        (∀ j, i ≤ j → j < i + n → d[j]? = src[(front + j) % cap]?) ∧
        (∀ j, (j < i ∨ i + n ≤ j) → d[j]? = dst[j]?) := by
  intro n
  induction n with
  | zero =>
    intro i dst _ _
    exact ⟨dst, rfl, rfl, fun j h1 h2 => by omega, fun j _ => rfl⟩
  | succ n ih =>
    intro i dst hlen hb
    have hidx : (front + i) % cap < src.length := by rw [hsrc]; exact Nat.mod_lt _ hcap
    obtain ⟨d, hd, hdl, hin, hout⟩ := ih (i + 1) (dst.set i (src[(front + i) % cap]))
      (by rw [List.length_set]; omega) (by omega)
    refine ⟨d, ?_, ?_, ?_, ?_⟩
    · unfold Queue.copy_loop
      rw [if_neg (by omega), size_t_of_lt (by omega), List.getElem?_eq_getElem hidx]
      simp only []
      rw [if_pos (by omega)]
      exact hd
    · rw [hdl, List.length_set]
    · intro j h1 h2
      by_cases hj : j = i
      · subst hj
        rw [hout j (Or.inl (by omega)), List.getElem?_set_self (by omega),
          List.getElem?_eq_getElem hidx]
      · exact hin j (by omega) (by omega)
    · intro j hj
      rw [hout j (by omega), List.getElem?_set_ne (by omega)]

theorem lift_length [Inhabited T] (q : Queue T) : q.lift.length = q.size_ := by
  simp [Queue.lift]

theorem lift_getElem? [Inhabited T] (q : Queue T) (i : Nat) (hi : i < q.size_) :
    q.lift[i]? = some (q.data_.getD ((q.front_ + i) % q.capacity_) default) := by
  simp [Queue.lift, List.getElem?_map, List.getElem?_range hi]

theorem lift_eq_of_cells [Inhabited T] (q' : Queue T) (L : List T)
    (hlen : L.length = q'.size_)
    (h : ∀ i, i < q'.size_ → q'.data_[(q'.front_ + i) % q'.capacity_]? = L[i]?) :
    q'.lift = L := by
  apply List.ext_getElem?
  intro i
  by_cases hi : i < q'.size_
  · rw [lift_getElem? q' i hi, List.getD_eq_getElem?_getD, h i hi,
      List.getElem?_eq_getElem (by omega)]
    rfl
  · rw [List.getElem?_eq_none (by rw [lift_length]; omega),
      List.getElem?_eq_none (by omega)]

theorem cell_of_lift [Inhabited T] (q : Queue T) (hd : q.data_.length = q.capacity_)
    (hc : 1 ≤ q.capacity_) (i : Nat) (hi : i < q.size_) :
    q.data_[(q.front_ + i) % q.capacity_]? = q.lift[i]? := by
  have hlt : (q.front_ + i) % q.capacity_ < q.data_.length := by
    rw [hd]; exact Nat.mod_lt _ hc
  rw [lift_getElem? q i hi, List.getD_eq_getElem?_getD, List.getElem?_eq_getElem hlt]
  rfl

theorem resize_spec [Inhabited T] (q : Queue T) (n : Nat) (h : q.WF n) (new_capacity : Nat)
    (hnew : q.size_ ≤ new_capacity) (hb : 2 * n + 1 < 2 ^ 63) :
    ∃ q', q.resize new_capacity = .ok q' ∧ q'.data_.length = new_capacity ∧
      q'.size_ = q.size_ ∧ q'.capacity_ = new_capacity ∧ q'.front_ = 0 ∧
      q'.back_ = q.size_ ∧ q'.lift = q.lift := by
  obtain ⟨h1, h2, h3, h4, h5, h6, h7⟩ := h
  obtain ⟨d, hd, hdl, hin, _⟩ := copy_loop_spec q.data_ q.front_ q.capacity_ h2 h1 q.size_ 0
    (List.replicate new_capacity default) (by simp; exact hnew) (by omega)
  refine ⟨⟨d, q.size_, new_capacity, 0, q.size_⟩, by unfold Queue.resize; rw [hd],
    by simpa using hdl, rfl, rfl, rfl, rfl, ?_⟩
  apply lift_eq_of_cells _ _ (by rw [lift_length])
  intro i hi
  show d[(0 + i) % new_capacity]? = _
  have hi' : i < q.size_ := hi
  rw [Nat.zero_add, Nat.mod_eq_of_lt (by omega), hin i (by omega) (by omega)]
  exact cell_of_lift q h1 h2 i hi'

/-- A store at `back_` of a queue with room appends the value. -/
theorem store_spec [Inhabited T] (q : Queue T) (n : Nat) (h : q.WF n)
    (hroom : q.size_ < q.capacity_) (hb : 2 * n + 1 < 2 ^ 63) (value : T) :
    ∃ q', q.store value = .ok q' ∧ q'.WF (n + 1) ∧ q'.lift = q.lift ++ [value] := by
  obtain ⟨h1, h2, h3, h4, h5, h6, h7⟩ := h
  have hback : q.back_ < q.capacity_ := by rw [h5]; exact Nat.mod_lt _ h2
  have e1 : size_t (q.back_ + 1) = q.back_ + 1 := size_t_of_lt (by omega)
  have e2 : size_t (q.size_ + 1) = q.size_ + 1 := size_t_of_lt (by omega)
  refine ⟨⟨q.data_.set q.back_ value, q.size_ + 1, q.capacity_, q.front_,
    (q.back_ + 1) % q.capacity_⟩, ?_, ?_, ?_⟩
  · unfold Queue.store
    rw [if_pos (by omega), if_neg (by omega), e1, e2]
  · refine ⟨by simpa using h1, h2, by show q.size_ + 1 ≤ q.capacity_; omega, h4, ?_,
      by show q.size_ + 1 ≤ n + 1; omega, by show q.capacity_ ≤ 2 * (n + 1) + 1; omega⟩
    show (q.back_ + 1) % q.capacity_ = (q.front_ + (q.size_ + 1)) % q.capacity_
    rw [h5, Nat.mod_add_mod, Nat.add_assoc]
  · apply lift_eq_of_cells _ _ (by simp [lift_length])
    intro i hi
    have hi' : i < q.size_ + 1 := hi
    show (q.data_.set q.back_ value)[(q.front_ + i) % q.capacity_]? = _
    by_cases hlast : i = q.size_
    · subst hlast
      rw [← h5, List.getElem?_set_self (by omega),
        List.getElem?_append_right (by rw [lift_length]), lift_length]
      simp
    · have hi2 : i < q.size_ := by omega
      have hne : q.back_ ≠ (q.front_ + i) % q.capacity_ := by
        rw [h5]
        intro heq
        have := ring_index_inj q.front_ q.capacity_ q.size_ i hroom (by omega) heq
        omega
      rw [List.getElem?_set_ne hne, List.getElem?_append_left (by rw [lift_length]; exact hi2)]
      exact cell_of_lift q h1 h2 i hi2

theorem push_spec [Inhabited T] (q : Queue T) (n : Nat) (h : q.WF n) (hb : 2 * n + 1 < 2 ^ 63)
    (value : T) :
    ∃ q', q.push (.object value) = .ok q' ∧ q'.WF (n + 1) ∧ q'.lift = q.lift ++ [value] := by
  have h' := h
  obtain ⟨h1, h2, h3, h4, h5, h6, h7⟩ := h'
  by_cases hfull : q.size_ = q.capacity_
  · have e : size_t (q.capacity_ * 2) = q.capacity_ * 2 := size_t_of_lt (by omega)
    obtain ⟨q1, r1, r2, r3, r4, r5, r6, r7⟩ := resize_spec q n h (q.capacity_ * 2) (by omega) hb
    have hw1 : q1.WF n := by
      refine ⟨by rw [r2, r4], by omega, by omega, by omega, ?_, by omega, by omega⟩
      rw [r5, r6, r3, Nat.zero_add, Nat.mod_eq_of_lt (by omega)]
    obtain ⟨q2, g0, g1, g2⟩ := store_spec q1 n hw1 (by omega) hb value
    refine ⟨q2, ?_, g1, by rw [g2, r7]⟩
    unfold Queue.push
    rw [if_pos hfull, e, r1]
    exact g0
  · obtain ⟨q2, g0, g1, g2⟩ := store_spec q n h (by omega) hb value
    refine ⟨q2, ?_, g1, g2⟩
    unfold Queue.push
    rw [if_neg hfull]
    exact g0

theorem pop_spec [Inhabited T] (q : Queue T) (n : Nat) (h : q.WF n)
    (hb : 2 * n + 1 < 2 ^ 63) :
    (q.size_ = 0 → q.pop = (q, .error .out_of_range)) ∧
    (q.size_ ≠ 0 → (q.pop).2 = .ok () ∧ (q.pop).1.WF (n + 1) ∧ (q.pop).1.lift = q.lift.tail) := by
  obtain ⟨h1, h2, h3, h4, h5, h6, h7⟩ := h
  constructor
  · intro h0
    simp [Queue.pop, Queue.empty, h0]
  · intro h0
    have e1 : size_t (q.front_ + 1) = q.front_ + 1 := size_t_of_lt (by omega)
    have e2 : size_t (q.size_ + (2 ^ 64 - 1)) = q.size_ - 1 := by
      unfold size_t
      omega
    have e : q.pop = (⟨q.data_, q.size_ - 1, q.capacity_, (q.front_ + 1) % q.capacity_,
        q.back_⟩, .ok ()) := by
      unfold Queue.pop
      rw [if_neg (by simp [Queue.empty, h0]), if_neg (by omega), e1, e2]
    rw [e]
    refine ⟨rfl, ⟨h1, h2, by show q.size_ - 1 ≤ q.capacity_; omega, Nat.mod_lt _ h2, ?_,
      by show q.size_ - 1 ≤ n + 1; omega, by show q.capacity_ ≤ 2 * (n + 1) + 1; omega⟩, ?_⟩
    · show q.back_ = ((q.front_ + 1) % q.capacity_ + (q.size_ - 1)) % q.capacity_
      rw [h5, Nat.mod_add_mod, show q.front_ + 1 + (q.size_ - 1) = q.front_ + q.size_ by omega]
    · apply lift_eq_of_cells _ _ (by simp [lift_length])
      intro i hi
      have hi' : i < q.size_ - 1 := hi
      show q.data_[((q.front_ + 1) % q.capacity_ + i) % q.capacity_]? = _
      rw [Nat.mod_add_mod, List.getElem?_tail, ← cell_of_lift q h1 h2 (i + 1) (by omega),
        show q.front_ + 1 + i = q.front_ + (i + 1) by omega]

theorem clear_spec [Inhabited T] (q : Queue T) (n : Nat) (h : q.WF n) :
    q.clear.WF (n + 1) ∧ q.clear.lift = [] := by
  obtain ⟨h1, h2, h3, h4, h5, h6, h7⟩ := h
  refine ⟨⟨h1, h2, Nat.zero_le _, h2, ?_, Nat.zero_le _, by show q.capacity_ ≤ _; omega⟩, ?_⟩
  · show 0 = (0 + 0) % q.capacity_
    simp
  · simp [Queue.lift, Queue.clear]

theorem front_spec [Inhabited T] (q : Queue T) (n : Nat) (h : q.WF n) :
    q.front = element_or_throw q.lift.head? := by
  obtain ⟨h1, h2, h3, h4, h5, h6, h7⟩ := h
  by_cases h0 : q.size_ = 0
  · have : q.lift = [] := List.length_eq_zero.1 (by rw [lift_length, h0])
    simp [Queue.front, Queue.empty, h0, this, element_or_throw]
  · have hc := cell_of_lift q h1 h2 0 (by omega)
    rw [Nat.add_zero, Nat.mod_eq_of_lt h4] at hc
    unfold Queue.front
    rw [if_neg (by simp [Queue.empty, h0]), hc, List.head?_eq_getElem?]
    cases hl : q.lift[0]? with
    | none =>
      rw [List.getElem?_eq_none_iff, lift_length] at hl
      omega
    | some x => rfl

theorem back_spec [Inhabited T] (q : Queue T) (n : Nat) (h : q.WF n)
    (hb : 2 * n + 1 < 2 ^ 63) :
    q.back = element_or_throw q.lift.getLast? := by
  obtain ⟨h1, h2, h3, h4, h5, h6, h7⟩ := h
  by_cases h0 : q.size_ = 0
  · have : q.lift = [] := List.length_eq_zero.1 (by rw [lift_length, h0])
    simp [Queue.back, Queue.empty, h0, this, element_or_throw]
  · have hback : q.back_ < q.capacity_ := by rw [h5]; exact Nat.mod_lt _ h2
    have hidx : size_t (size_t (q.back_ + (2 ^ 64 - 1)) + q.capacity_) % q.capacity_ =
        (q.front_ + (q.size_ - 1)) % q.capacity_ := by
      have hp := pred_mod (q.front_ + q.size_) q.capacity_ (by omega) h2
      rw [← h5] at hp
      rw [show q.front_ + (q.size_ - 1) = q.front_ + q.size_ - 1 by omega, hp]
      by_cases hz : q.back_ = 0
      · rw [if_pos hz, hz]
        have : size_t (size_t (0 + (2 ^ 64 - 1)) + q.capacity_) = q.capacity_ - 1 := by
          unfold size_t; omega
        rw [this]
        exact Nat.mod_eq_of_lt (by omega)
      · rw [if_neg hz]
        have : size_t (size_t (q.back_ + (2 ^ 64 - 1)) + q.capacity_) =
            q.capacity_ + (q.back_ - 1) := by
          unfold size_t; omega
        rw [this, Nat.add_mod_left]
        exact Nat.mod_eq_of_lt (by omega)
    have hc := cell_of_lift q h1 h2 (q.size_ - 1) (by omega)
    unfold Queue.back
    rw [if_neg (by simp [Queue.empty, h0]), if_neg (by omega), hidx, hc,
      List.getLast?_eq_getElem?, lift_length]
    cases hl : q.lift[q.size_ - 1]? with
    | none =>
      rw [List.getElem?_eq_none_iff, lift_length] at hl
      omega
    | some x => rfl

theorem WF_mono (q : Queue T) (n m : Nat) (h : q.WF n) (hnm : n ≤ m) : q.WF m := by
  obtain ⟨h1, h2, h3, h4, h5, h6, h7⟩ := h
  exact ⟨h1, h2, h3, h4, h5, by omega, by omega⟩

theorem WF_new [Inhabited T] : (Queue.new : Queue T).WF 0 := by
  refine ⟨rfl, le_refl _, Nat.zero_le _, Nat.one_pos, rfl, le_refl _, ?_⟩
  show 1 ≤ 2 * 0 + 1
  omega

/-- Simulation: a run of calls from a well-formed queue, every `push` given an
object outside the queue, meets no undefined behaviour and ends in a
well-formed queue whose elements are those of the first-in-first-out list
after the same calls. -/
theorem run_spec [Inhabited T] (calls : List (Call T)) :
    ∀ (q : Queue T) (n : Nat), q.WF n → 2 * (n + calls.length) + 1 < 2 ^ 63 →
      ∃ q', Queue.run q calls = .ok q' ∧ q'.WF (n + calls.length) ∧
        q'.lift = fifo q.lift calls := by
  induction calls with
  | nil => intro q n h _; exact ⟨q, rfl, h, rfl⟩
  | cons c cs ih =>
    intro q n h hb
    simp only [List.length_cons] at hb ⊢
    cases c with
    | push value =>
      obtain ⟨q1, p1, p2, p3⟩ := push_spec q n h (by omega) value
      obtain ⟨q', r1, r2, r3⟩ := ih q1 (n + 1) p2 (by omega)
      refine ⟨q', ?_, by rw [show n + (cs.length + 1) = n + 1 + cs.length by omega]; exact r2, ?_⟩
      · simp only [Queue.run, Queue.call, p1]
        exact r1
      · rw [r3, p3]; rfl
    | pop =>
      obtain ⟨e0, e1⟩ := pop_spec q n h (by omega)
      by_cases h0 : q.size_ = 0
      · have hl : q.lift = [] := List.length_eq_zero.1 (by rw [lift_length, h0])
        obtain ⟨q', r1, r2, r3⟩ := ih q (n + 1) (WF_mono q n (n + 1) h (by omega)) (by omega)
        refine ⟨q', ?_, by rw [show n + (cs.length + 1) = n + 1 + cs.length by omega]; exact r2,
          ?_⟩
        · simp only [Queue.run, Queue.call, e0 h0]
          exact r1
        · rw [r3, hl]; rfl
      · obtain ⟨g1, g2, g3⟩ := e1 h0
        obtain ⟨q', r1, r2, r3⟩ := ih q.pop.1 (n + 1) g2 (by omega)
        refine ⟨q', ?_, by rw [show n + (cs.length + 1) = n + 1 + cs.length by omega]; exact r2,
          ?_⟩
        · have hp : q.pop = (q.pop.1, .ok ()) := by rw [← g1]
          simp only [Queue.run, Queue.call]
          rw [hp]
          exact r1
        · rw [r3, g3]; rfl
    | clear =>
      obtain ⟨g1, g2⟩ := clear_spec q n h
      obtain ⟨q', r1, r2, r3⟩ := ih q.clear (n + 1) g1 (by omega)
      refine ⟨q', ?_, by rw [show n + (cs.length + 1) = n + 1 + cs.length by omega]; exact r2, ?_⟩
      · simp only [Queue.run, Queue.call]
        exact r1
      · rw [r3, g2]; rfl

/-- When every `push` is given an object outside the queue: every sequence of
fewer than 2^62 `push`, `pop` and `clear` calls on a default-constructed queue
runs without undefined behaviour, and the queue it leaves answers as the
first-in-first-out list after the same calls: size() is the number of
elements of the list, empty() tells whether there is none, front() is the
oldest and back() the newest element (`out_of_range` when there is none),
also across buffer growth and index wrap-around. -/
theorem queue_behaves_as_fifo [Inhabited T] (calls : List (Call T))
    (hlen : calls.length < 2 ^ 62) :
    ∃ q, Queue.run Queue.new calls = .ok q ∧
      q.size = (fifo [] calls).length ∧
      q.empty = (fifo [] calls).isEmpty ∧
      q.front = element_or_throw (fifo [] calls).head? ∧
      q.back = element_or_throw (fifo [] calls).getLast? := by
  obtain ⟨q, r1, r2, r3⟩ := run_spec calls (Queue.new : Queue T) 0 WF_new (by omega)
  have hl : (Queue.new : Queue T).lift = [] := rfl
  rw [hl] at r3
  refine ⟨q, r1, ?_, ?_, ?_, ?_⟩
  · rw [← r3, lift_length]; rfl
  · rw [← r3]
    unfold Queue.empty
    cases hq : q.lift with
    | nil =>
      have : q.size_ = 0 := by rw [← lift_length, hq]; rfl
      simp [this]
    | cons x xs =>
      have : q.size_ = xs.length + 1 := by rw [← lift_length, hq]; rfl
      simp [this]
  · rw [← r3]; exact front_spec q _ r2
  · rw [← r3]; exact back_spec q _ r2 (by omega)

theorem queue_behaves_as_fifo_witness :
    sampleCalls.length < 2 ^ 62 ∧
    ∃ q, Queue.run (Queue.new : Queue Nat) sampleCalls = .ok q ∧
      q.size = (fifo [] sampleCalls).length ∧
      q.empty = (fifo [] sampleCalls).isEmpty ∧
      q.front = element_or_throw (fifo [] sampleCalls).head? ∧
      q.back = element_or_throw (fifo [] sampleCalls).getLast? :=
  ⟨by decide, queue_behaves_as_fifo sampleCalls (by decide)⟩

/-! ## The array of `Stack` -/

theorem move_loop_spec (src : List T) :
    ∀ (n i : Nat) (dst : List T), i + n ≤ dst.length → i + n ≤ src.length →
      ∃ d, Stack.move_loop src n i dst = .ok d ∧ d.length = dst.length ∧
        (∀ j, i ≤ j → j < i + n → d[j]? = src[j]?) ∧
        (∀ j, (j < i ∨ i + n ≤ j) → d[j]? = dst[j]?) := by
  intro n
  induction n with
  | zero =>
    intro i dst _ _
    exact ⟨dst, rfl, rfl, fun j h1 h2 => by omega, fun j _ => rfl⟩
  | succ n ih =>
    intro i dst hlen hsrc
    have hidx : i < src.length := by omega
    obtain ⟨d, hd, hdl, hin, hout⟩ := ih (i + 1) (dst.set i (src[i]))
      (by rw [List.length_set]; omega) (by omega)
    refine ⟨d, ?_, ?_, ?_, ?_⟩
    · unfold Stack.move_loop
      rw [List.getElem?_eq_getElem hidx]
      simp only []
      rw [if_pos (by omega)]
      exact hd
    · rw [hdl, List.length_set]
    · intro j h1 h2
      by_cases hj : j = i
      · subst hj
        rw [hout j (Or.inl (by omega)), List.getElem?_set_self (by omega),
          List.getElem?_eq_getElem hidx]
      · exact hin j (by omega) (by omega)
    · intro j hj
      rw [hout j (by omega), List.getElem?_set_ne (by omega)]

theorem stack_lift_length (s : Stack T) (h : s.size_ ≤ s.data_.length) :
    s.lift.length = s.size_ := by
  simp [Stack.lift, h]

theorem stack_resize_spec [Inhabited T] (s : Stack T) (n : Nat) (h : s.WF n)
    (new_capacity : Nat) (hnew : s.size_ ≤ new_capacity) :
    ∃ s', s.resize new_capacity = .ok s' ∧ s'.data_.length = new_capacity ∧
      s'.size_ = s.size_ ∧ s'.capacity_ = new_capacity ∧ s'.lift = s.lift := by
  obtain ⟨h1, h2, h3, h4, h5⟩ := h
  obtain ⟨d, hd, hdl, hin, _⟩ := move_loop_spec s.data_ s.size_ 0
    (List.replicate new_capacity default) (by simp; exact hnew) (by omega)
  refine ⟨⟨d, s.size_, new_capacity⟩, by unfold Stack.resize; rw [hd], by simpa using hdl, rfl,
    rfl, ?_⟩
  show d.take s.size_ = s.data_.take s.size_
  apply List.ext_getElem?
  intro j
  by_cases hj : j < s.size_
  · rw [List.getElem?_take_of_lt hj, List.getElem?_take_of_lt hj]
    exact hin j (by omega) (by omega)
  · rw [List.getElem?_eq_none (by simp; omega), List.getElem?_eq_none (by simp; omega)]

theorem stack_store_spec (s : Stack T) (n : Nat) (h : s.WF n) (hroom : s.size_ < s.capacity_)
    (hb : 2 * n + 256 < 2 ^ 63) (value : T) :
    ∃ s', s.store value = .ok s' ∧ s'.WF (n + 1) ∧ s'.lift = s.lift ++ [value] := by
  obtain ⟨h1, h2, h3, h4, h5⟩ := h
  have e : size_t (s.size_ + 1) = s.size_ + 1 := size_t_of_lt (by omega)
  refine ⟨⟨s.data_.set s.size_ value, s.size_ + 1, s.capacity_⟩, ?_, ?_, ?_⟩
  · unfold Stack.store
    rw [if_pos (by omega), e]
  · exact ⟨by simpa using h1, h2, by show s.size_ + 1 ≤ s.capacity_; omega,
      by show s.size_ + 1 ≤ n + 1; omega, by show s.capacity_ ≤ 2 * (n + 1) + 256; omega⟩
  · show (s.data_.set s.size_ value).take (s.size_ + 1) = s.data_.take s.size_ ++ [value]
    rw [List.take_succ, List.set_take, List.set_eq_of_length_le (by simp),
      List.getElem?_set_self (by omega)]
    rfl

theorem stack_push_spec [Inhabited T] (s : Stack T) (n : Nat) (h : s.WF n)
    (hb : 2 * n + 256 < 2 ^ 63) (value : T) :
    ∃ s', s.push value = .ok s' ∧ s'.WF (n + 1) ∧ s'.lift = s.lift ++ [value] := by
  have h' := h
  obtain ⟨h1, h2, h3, h4, h5⟩ := h'
  by_cases hfull : s.size_ = s.capacity_
  · have e : size_t (s.capacity_ * 2) = s.capacity_ * 2 := size_t_of_lt (by omega)
    obtain ⟨s1, r1, r2, r3, r4, r5⟩ := stack_resize_spec s n h (s.capacity_ * 2) (by omega)
    have hw1 : s1.WF n := ⟨by rw [r2, r4], by omega, by omega, by omega, by omega⟩
    obtain ⟨s2, g0, g1, g2⟩ := stack_store_spec s1 n hw1 (by omega) hb value
    refine ⟨s2, ?_, g1, by rw [g2, r5]⟩
    unfold Stack.push
    rw [if_pos hfull, e, r1]
    exact g0
  · obtain ⟨s2, g0, g1, g2⟩ := stack_store_spec s n h (by omega) hb value
    refine ⟨s2, ?_, g1, g2⟩
    unfold Stack.push
    rw [if_neg hfull]
    exact g0

theorem stack_pop_spec (s : Stack T) (n : Nat) (h : s.WF n) (hb : 2 * n + 256 < 2 ^ 63) :
    (s.size_ = 0 → s.pop = (s, .error .out_of_range)) ∧
    (s.size_ ≠ 0 → (s.pop).2 = .ok () ∧ (s.pop).1.WF (n + 1) ∧
      (s.pop).1.lift = s.lift.dropLast) := by
  obtain ⟨h1, h2, h3, h4, h5⟩ := h
  constructor
  · intro h0
    simp [Stack.pop, Stack.empty, h0]
  · intro h0
    have e2 : size_t (s.size_ + (2 ^ 64 - 1)) = s.size_ - 1 := by
      unfold size_t
      omega
    have e : s.pop = (⟨s.data_, s.size_ - 1, s.capacity_⟩, .ok ()) := by
      unfold Stack.pop
      rw [if_neg (by simp [Stack.empty, h0]), e2]
    rw [e]
    refine ⟨rfl, ⟨h1, h2, by show s.size_ - 1 ≤ s.capacity_; omega,
      by show s.size_ - 1 ≤ n + 1; omega, by show s.capacity_ ≤ 2 * (n + 1) + 256; omega⟩, ?_⟩
    show s.data_.take (s.size_ - 1) = (s.data_.take s.size_).dropLast
    rw [List.dropLast_eq_take, List.length_take, List.take_take, h1,
      Nat.min_eq_left h3, Nat.min_eq_left (Nat.sub_le _ _)]

theorem stack_clear_spec (s : Stack T) (n : Nat) (h : s.WF n) :
    s.clear.WF (n + 1) ∧ s.clear.lift = [] := by
  obtain ⟨h1, h2, h3, h4, h5⟩ := h
  exact ⟨⟨h1, h2, Nat.zero_le _, Nat.zero_le _, by show s.capacity_ ≤ _; omega⟩, rfl⟩

theorem stack_top_spec (s : Stack T) (n : Nat) (h : s.WF n) (hb : 2 * n + 256 < 2 ^ 63) :
    s.top = element_or_throw s.lift.getLast? := by
  obtain ⟨h1, h2, h3, h4, h5⟩ := h
  have hlen : s.lift.length = s.size_ := stack_lift_length s (by omega)
  by_cases h0 : s.size_ = 0
  · have : s.lift = [] := List.length_eq_zero.1 (by rw [hlen, h0])
    simp [Stack.top, Stack.empty, h0, this, element_or_throw]
  · have e2 : size_t (s.size_ + (2 ^ 64 - 1)) = s.size_ - 1 := by
      unfold size_t
      omega
    have hc : s.lift[s.size_ - 1]? = s.data_[s.size_ - 1]? := by
      unfold Stack.lift
      rw [List.getElem?_take_of_lt (by omega)]
    unfold Stack.top
    rw [if_neg (by simp [Stack.empty, h0]), e2, ← hc, List.getLast?_eq_getElem?, hlen]
    cases hl : s.lift[s.size_ - 1]? with
    | none =>
      rw [List.getElem?_eq_none_iff, hlen] at hl
      omega
    | some x => rfl

theorem stack_WF_mono (s : Stack T) (n m : Nat) (h : s.WF n) (hnm : n ≤ m) : s.WF m := by
  obtain ⟨h1, h2, h3, h4, h5⟩ := h
  exact ⟨h1, h2, h3, by omega, by omega⟩

theorem stack_WF_new [Inhabited T] : (Stack.new : Stack T).WF 0 := by
  refine ⟨List.length_replicate _ _, ?_, Nat.zero_le _, le_refl _, ?_⟩
  · show 1 ≤ 256
    omega
  · show 256 ≤ 2 * 0 + 256
    omega

/-- Simulation: a run of calls from a well-formed stack meets no undefined
behaviour and ends in a well-formed stack whose elements are those of the
last-in-first-out list after the same calls. -/
theorem stack_run_spec [Inhabited T] (calls : List (Call T)) :
    ∀ (s : Stack T) (n : Nat), s.WF n → 2 * (n + calls.length) + 256 < 2 ^ 63 →
      ∃ s', Stack.run s calls = .ok s' ∧ s'.WF (n + calls.length) ∧
        s'.lift = lifo s.lift calls := by
  induction calls with
  | nil => intro s n h _; exact ⟨s, rfl, h, rfl⟩
  | cons c cs ih =>
    intro s n h hb
    simp only [List.length_cons] at hb ⊢
    have hn : n + (cs.length + 1) = n + 1 + cs.length := by omega
    cases c with
    | push value =>
      obtain ⟨s1, p1, p2, p3⟩ := stack_push_spec s n h (by omega) value
      obtain ⟨s', r1, r2, r3⟩ := ih s1 (n + 1) p2 (by omega)
      refine ⟨s', ?_, by rw [hn]; exact r2, ?_⟩
      · simp only [Stack.run, Stack.call, p1]
        exact r1
      · rw [r3, p3]; rfl
    | pop =>
      obtain ⟨e0, e1⟩ := stack_pop_spec s n h (by omega)
      by_cases h0 : s.size_ = 0
      · have hl : s.lift = [] := by simp [Stack.lift, h0]
        obtain ⟨s', r1, r2, r3⟩ := ih s (n + 1) (stack_WF_mono s n (n + 1) h (by omega))
          (by omega)
        refine ⟨s', ?_, by rw [hn]; exact r2, ?_⟩
        · simp only [Stack.run, Stack.call, e0 h0]
          exact r1
        · rw [r3, hl]; rfl
      · obtain ⟨g1, g2, g3⟩ := e1 h0
        obtain ⟨s', r1, r2, r3⟩ := ih s.pop.1 (n + 1) g2 (by omega)
        refine ⟨s', ?_, by rw [hn]; exact r2, ?_⟩
        · have hp : s.pop = (s.pop.1, .ok ()) := by rw [← g1]
          simp only [Stack.run, Stack.call]
          rw [hp]
          exact r1
        · rw [r3, g3]; rfl
    | clear =>
      obtain ⟨g1, g2⟩ := stack_clear_spec s n h
      obtain ⟨s', r1, r2, r3⟩ := ih s.clear (n + 1) g1 (by omega)
      refine ⟨s', ?_, by rw [hn]; exact r2, ?_⟩
      · simp only [Stack.run, Stack.call]
        exact r1
      · rw [r3, g2]; rfl

/-- C28: every sequence of fewer than 2^61 `push` and `pop` calls (and
`clear` calls) on a default-constructed stack runs without undefined
behaviour, and the stack it leaves answers as the last-in-first-out list after
the same calls: size() is the number of elements pushed and not yet removed,
and top() is the most recently pushed of them (`out_of_range` when there is
none).  The number of stored elements is not bounded by the initial capacity
of 256. -/
theorem stack_behaves_as_lifo [Inhabited T] (calls : List (Call T))
    (hlen : calls.length < 2 ^ 61) :
    ∃ s, Stack.run Stack.new calls = .ok s ∧
      s.size = (lifo [] calls).length ∧
      s.empty = (lifo [] calls).isEmpty ∧
      s.top = element_or_throw (lifo [] calls).getLast? := by
  obtain ⟨s, r1, r2, r3⟩ := stack_run_spec calls (Stack.new : Stack T) 0 stack_WF_new (by omega)
  have hl : (Stack.new : Stack T).lift = [] := rfl
  rw [hl] at r3
  have hlen' : s.lift.length = s.size_ := stack_lift_length s (by have := r2.1; have := r2.2.2.1; omega)
  refine ⟨s, r1, ?_, ?_, ?_⟩
  · rw [← r3, hlen']; rfl
  · rw [← r3]
    unfold Stack.empty
    cases hq : s.lift with
    | nil =>
      have : s.size_ = 0 := by rw [← hlen', hq]; rfl
      simp [this]
    | cons x xs =>
      have : s.size_ = xs.length + 1 := by rw [← hlen', hq]; rfl
      simp [this]
  · rw [← r3]; exact stack_top_spec s _ r2 (by omega)

theorem manyCalls_length : manyCalls.length = 302 := by
  unfold manyCalls
  rw [List.length_append, List.length_replicate]
  rfl

theorem stack_behaves_as_lifo_witness :
    manyCalls.length < 2 ^ 61 ∧
    ∃ s, Stack.run (Stack.new : Stack Nat) manyCalls = .ok s ∧
      s.size = (lifo [] manyCalls).length ∧
      s.empty = (lifo [] manyCalls).isEmpty ∧
      s.top = element_or_throw (lifo [] manyCalls).getLast? :=
  ⟨by rw [manyCalls_length]; norm_num,
    stack_behaves_as_lifo manyCalls (by rw [manyCalls_length]; norm_num)⟩

/-! ## Copies of a queue, accesses to empty containers -/

/-- C26 on the code: after `push(1); push(2); pop();` the queue holds 2 in
cell 1 with `front_` = 1.  The copy constructor and the copy assignment copy
`front_` and `back_` as they are but put the elements into the cells from 0
on: the copy has size() 1 like the original, but its front() and back() read
cell 1, a value-initialised cell, and return 0 where the original returns 2. -/
theorem queue_copy_misplaces_elements :
    Queue.run (Queue.new : Queue Nat) [.push 1, .push 2, .pop] = .ok poppedQueue ∧
    (poppedQueue.size = 1 ∧ poppedQueue.front = .ok 2 ∧ poppedQueue.back = .ok 2) ∧
    poppedQueue.copy = .ok poppedQueueCopy ∧
    Queue.copy_assign Queue.new poppedQueue = .ok poppedQueueCopy ∧
    (poppedQueueCopy.size = 1 ∧ poppedQueueCopy.front = .ok 0 ∧
      poppedQueueCopy.back = .ok 0) := by
  refine ⟨by rfl, ⟨by rfl, by rfl, by rfl⟩, by rfl, by rfl, ⟨by rfl, by rfl, by rfl⟩⟩

/-- C27: on an empty queue `pop()`, `front()` and `back()` throw
`out_of_range`, and on an empty stack `pop()` and `top()` do; the container
is left as it was, hence empty. -/
theorem empty_access_throws (q : Queue T) (s : Stack T) (hq : q.empty = true)
    (hs : s.empty = true) :
    (q.pop = (q, .error .out_of_range) ∧ q.pop.1.empty = true ∧
      q.front = .error .out_of_range ∧ q.back = .error .out_of_range) ∧
    (s.pop = (s, .error .out_of_range) ∧ s.pop.1.empty = true ∧
      s.top = .error .out_of_range) := by
  have hp : q.pop = (q, .error .out_of_range) := by simp [Queue.pop, hq]
  have hsp : s.pop = (s, .error .out_of_range) := by simp [Stack.pop, hs]
  refine ⟨⟨hp, by rw [hp]; exact hq, by simp [Queue.front, hq], by simp [Queue.back, hq]⟩,
    ⟨hsp, by rw [hsp]; exact hs, by simp [Stack.top, hs]⟩⟩

theorem empty_access_throws_witness :
    ((Queue.new : Queue Nat).empty = true ∧ (Stack.new : Stack Nat).empty = true) ∧
    (((Queue.new : Queue Nat).pop = (Queue.new, .error .out_of_range) ∧
      (Queue.new : Queue Nat).pop.1.empty = true ∧
      (Queue.new : Queue Nat).front = .error .out_of_range ∧
      (Queue.new : Queue Nat).back = .error .out_of_range) ∧
    ((Stack.new : Stack Nat).pop = (Stack.new, .error .out_of_range) ∧
      (Stack.new : Stack Nat).pop.1.empty = true ∧
      (Stack.new : Stack Nat).top = .error .out_of_range)) :=
  ⟨⟨by rfl, by rfl⟩, empty_access_throws Queue.new Stack.new (by rfl) (by rfl)⟩

/-! ## Insertion into and erasure from a vector -/

theorem shift_loop_at_index (index fuel : Nat) (d : List (Option T)) :
    Vector.shift_loop index fuel index d = .ok d := by
  cases fuel with
  | zero => rfl
  | succ f => simp [Vector.shift_loop]

theorem size_t_pred {n : Nat} (h1 : 1 ≤ n) (h2 : n < 2 ^ 64) :
    size_t (n + (2 ^ 64 - 1)) = n - 1 := by
  unfold size_t
  omega

/-- C30: on a vector whose `size_` is a value of `size_t`, `erase(pos)` with
`pos` in [begin(), end()) returns the same position, reduces size() by one and
leaves the array as it is, so that `at(i)` is unchanged for every index below
the new size (the element at `pos` stays and the last element is the one
that leaves the vector); with `pos` outside [begin(), end()) it throws
`out_of_range` and leaves the vector unchanged. -/
theorem erase_keeps_leading_elements (v : Vector T) (offset : Int) (hsize : v.size_ < 2 ^ 64) :
    (0 ≤ offset ∧ offset < v.size_ →
      1 ≤ v.size ∧ (v.erase offset).2 = .ok offset.toNat ∧
      (v.erase offset).1.size = v.size - 1 ∧
      (∀ i, i < (v.erase offset).1.size → (v.erase offset).1.at i = v.at i) ∧
      (v.erase offset).1.data_ = v.data_) ∧
    ((offset < 0 ∨ (v.size_ : Int) ≤ offset) → v.erase offset = (v, .error .out_of_range)) := by
  constructor
  · rintro ⟨h0, h1⟩
    have hpos : 1 ≤ v.size_ := by omega
    have e : v.erase offset =
        (⟨v.size_ - 1, v.capacity_, v.data_⟩, .ok offset.toNat) := by
      unfold Vector.erase
      rw [if_neg (by omega), shift_loop_at_index, size_t_pred hpos hsize]
    rw [e]
    refine ⟨hpos, rfl, rfl, ?_, rfl⟩
    intro i hi
    have hi' : i < v.size_ - 1 := hi
    unfold Vector.at
    rw [if_neg (by show ¬ (i ≥ v.size_ - 1); omega), if_neg (by omega)]
  · intro h
    unfold Vector.erase
    rw [if_pos (by omega)]

theorem erase_keeps_leading_elements_witness :
    threeVector.size_ < 2 ^ 64 ∧
    (((0 : Int) ≤ 1 ∧ (1 : Int) < threeVector.size_ →
      1 ≤ threeVector.size ∧ (threeVector.erase 1).2 = .ok (1 : Int).toNat ∧
      (threeVector.erase 1).1.size = threeVector.size - 1 ∧
      (∀ i, i < (threeVector.erase 1).1.size →
        (threeVector.erase 1).1.at i = threeVector.at i) ∧
      (threeVector.erase 1).1.data_ = threeVector.data_) ∧
    (((1 : Int) < 0 ∨ (threeVector.size_ : Int) ≤ 1) →
      threeVector.erase 1 = (threeVector, .error .out_of_range))) ∧
    ((threeVector.erase 1).1.size = 2 ∧ (threeVector.erase 1).1.at 0 = .ok 1 ∧
      (threeVector.erase 1).1.at 1 = .ok 2) :=
  ⟨by decide, erase_keeps_leading_elements threeVector 1 (by decide),
    by rfl, by rfl, by rfl⟩

/-- C29 on the code: `reserve(2)` on a default-constructed vector gives an
empty vector of capacity 2; its copy-constructed copy has `size_` 0,
`capacity_` 2 and a null `data_`, because the copy constructor allocates
nothing when the source is empty.  On this copy `insert(begin(), 7)` calls
`push_back`, which sees `size_ != capacity_`, reserves nothing and constructs
the element at `data_ + 0`, through the null pointer.  The copy assignment,
which always allocates `capacity_` cells, yields a vector on which the same
`insert` gives the vector of the one element 7. -/
theorem insert_into_copy_of_empty :
    (Vector.new : Vector Nat).reserve 2 = .ok reservedVector ∧
    reservedVector.copy = .ok reservedCopy ∧
    (reservedCopy.size = 0 ∧ reservedCopy.capacity_ = 2 ∧ reservedCopy.data_ = []) ∧
    reservedCopy.push_back 7 = .error .undefined_behaviour ∧
    reservedCopy.insert 0 7 = .error .undefined_behaviour ∧
    Vector.copy_assign Vector.new reservedVector = .ok reservedVector ∧
    reservedVector.insert 0 7 = .ok ({ size_ := 1, capacity_ := 2, data_ := [some 7, none] }, 0) := by
  refine ⟨by rfl, by rfl, ⟨by rfl, by rfl, by rfl⟩, by rfl, by rfl, by rfl, by rfl⟩


/-! ## Parent links after erasures -/

theorem ParentsLoose_mono (D D' : Nat → Prop) (hD : ∀ q, D q → D' q) (t : node Key Value) :
    ∀ q, ParentsLoose D q t → ParentsLoose D' q t := by
  induction t with
  | nullptr => intro _ _; trivial
  | mk a k v p l r h ihl ihr =>
    intro q hq
    obtain ⟨h1, h2, h3⟩ := hq
    refine ⟨?_, ihl _ h2, ihr _ h3⟩
    rcases h1 with h1 | h1 | ⟨x, h1, hx⟩
    · exact Or.inl h1
    · exact Or.inr (Or.inl h1)
    · exact Or.inr (Or.inr ⟨x, h1, hD x hx⟩)

theorem ParentsLoose_of_ParentsOK (D : Nat → Prop) (t : node Key Value) :
    ∀ q, ParentsOK q t → ParentsLoose D q t := by
  induction t with
  | nullptr => intro _ _; trivial
  | mk a k v p l r h ihl ihr =>
    intro q hq
    exact ⟨Or.inl hq.1, ihl _ hq.2.1, ihr _ hq.2.2⟩

theorem ParentsLoose_setParent (D : Nat → Prop) (q : Option Nat) (p : Nat) (t : node Key Value)
    (h : ParentsLoose D q t) : ParentsLoose D (some p) (setParent p t) := by
  cases t with
  | nullptr => trivial
  | mk a k v p' l r ht => exact ⟨Or.inl rfl, h.2.1, h.2.2⟩

/-- A subtree taken over from a freed node hangs loosely below any node. -/
theorem ParentsLoose_rehang (D : Nat → Prop) (x : Nat) (hx : D x) (q : Option Nat)
    (t : node Key Value) (h : ParentsLoose D (some x) t) : ParentsLoose D q t := by
  cases t with
  | nullptr => trivial
  | mk a k v p l r ht =>
    refine ⟨?_, h.2.1, h.2.2⟩
    rcases h.1 with h1 | h1 | h1
    · exact Or.inr (Or.inr ⟨x, h1, hx⟩)
    · exact Or.inr (Or.inl h1)
    · exact Or.inr (Or.inr h1)

@[simp] theorem ParentsLoose_SetHeight (D : Nat → Prop) (q : Option Nat) (t : node Key Value) :
    ParentsLoose D q (SetHeight t) ↔ ParentsLoose D q t := by
  cases t <;> simp [SetHeight, ParentsLoose]

theorem ParentsLoose_RightRotation (D : Nat → Prop) (q : Option Nat) (t : node Key Value)
    (h : ParentsLoose D q t) : ParentsLoose D q (RightRotation t) := by
  unfold RightRotation
  split
  · rename_i a k v p la lk lv lp ll lr lh r ht
    obtain ⟨h1, ⟨h2, h3, h4⟩, h5⟩ := h
    simp only [ParentsLoose_SetHeight]
    exact ⟨h1, ParentsLoose_setParent D _ _ _ h3,
      ⟨h2, ParentsLoose_setParent D _ _ _ h4, ParentsLoose_setParent D _ _ _ h5⟩⟩
  · exact h

theorem ParentsLoose_LeftRotation (D : Nat → Prop) (q : Option Nat) (t : node Key Value)
    (h : ParentsLoose D q t) : ParentsLoose D q (LeftRotation t) := by
  unfold LeftRotation
  split
  · rename_i a k v p l ra rk rv rp rl rr rh ht
    obtain ⟨h1, h2, ⟨h3, h4, h5⟩⟩ := h
    simp only [ParentsLoose_SetHeight]
    exact ⟨h1, ⟨h3, ParentsLoose_setParent D _ _ _ h2, ParentsLoose_setParent D _ _ _ h4⟩,
      ParentsLoose_setParent D _ _ _ h5⟩
  · exact h

theorem ParentsLoose_Balancing (D : Nat → Prop) (q : Option Nat) (t : node Key Value)
    (h : ParentsLoose D q t) : ParentsLoose D q (Balancing t) := by
  unfold Balancing
  split
  · trivial
  · rename_i a k v p l r ht
    obtain ⟨h1, h2, h3⟩ := h
    split_ifs
    · exact ParentsLoose_RightRotation D _ _ ⟨h1, ParentsLoose_LeftRotation D _ _ h2, h3⟩
    · exact ParentsLoose_RightRotation D _ _ ⟨h1, h2, h3⟩
    · exact ParentsLoose_LeftRotation D _ _ ⟨h1, h2, ParentsLoose_RightRotation D _ _ h3⟩
    · exact ParentsLoose_LeftRotation D _ _ ⟨h1, h2, h3⟩
    · exact ⟨h1, h2, h3⟩

theorem ParentsLoose_rebalance (D : Nat → Prop) (q : Option Nat) (a : Nat) (k : Key) (v : Value)
    (p : Option Nat) (l r : node Key Value) (h : Int)
    (hp : p = q ∨ p = some a ∨ ∃ x, p = some x ∧ D x) (hl : ParentsLoose D (some a) l)
    (hr : ParentsLoose D (some a) r) :
    ParentsLoose D q (Balancing (SetHeight (.mk a k v p l r h))) :=
  ParentsLoose_Balancing D _ _ ((ParentsLoose_SetHeight D _ _).2 ⟨hp, hl, hr⟩)

theorem RecursiveInsertion_ParentsLoose [LinearOrder Key] (D : Nat → Prop) (fresh : Nat)
    (t : node Key Value) (key : Key) (value : Value) (dup : Bool) :
    ∀ q : Option Nat, ParentsLoose D q t →
      ParentsLoose D q (RecursiveInsertion fresh t key value dup).1 := by
  induction t with
  | nullptr => intro q _; trivial
  | mk a k v p l r h ihl ihr =>
    intro q hq
    obtain ⟨h1, h2, h3⟩ := hq
    simp only [RecursiveInsertion]
    by_cases c1 : key < k ∨ (dup = true ∧ key = k)
    · simp only [if_pos c1]
      cases l with
      | nullptr =>
        exact ParentsLoose_rebalance D q a k v p _ r h h1 ⟨Or.inl rfl, trivial, trivial⟩ h3
      | mk la lk lv lp ll lr lh =>
        exact ParentsLoose_rebalance D q a k v p _ r h h1 (ihl _ h2) h3
    by_cases c2 : key > k
    · simp only [if_neg c1, if_pos c2]
      cases r with
      | nullptr =>
        exact ParentsLoose_rebalance D q a k v p l _ h h1 h2 ⟨Or.inl rfl, trivial, trivial⟩
      | mk la lk lv lp ll lr lh =>
        exact ParentsLoose_rebalance D q a k v p l _ h h1 h2 (ihr _ h3)
    · simp only [if_neg c1, if_neg c2]
      exact ParentsLoose_rebalance D q a k v p l r h h1 h2 h3

theorem RecursiveDeleting_ParentsLoose [LinearOrder Key] (D : Nat → Prop) (t : node Key Value) :
    ∀ (key : Key) (q : Option Nat), (addrs t).Nodup → ParentsLoose D q t →
      (∀ x ∈ addrs t, x ∉ addrs (RecursiveDeleting t key) → D x) →
      ParentsLoose D q (RecursiveDeleting t key) := by
  induction t with
  | nullptr => intro key q _ _ _; trivial
  | mk a k v p l r h ihl ihr =>
    intro key q hd hq hfree
    obtain ⟨h1, h2, h3⟩ := hq
    simp only [addrs, List.nodup_append, List.nodup_cons] at hd
    obtain ⟨hdl, ⟨har, hdr⟩, hdis⟩ := hd
    have hal : a ∉ addrs l := fun hx => hdis hx (List.mem_cons_self _ _)
    have hlr : ∀ x ∈ addrs l, x ∉ addrs r := fun x hx hxr => hdis hx (List.mem_cons_of_mem _ hxr)
    simp only [RecursiveDeleting] at hfree ⊢
    split_ifs at hfree ⊢ with c1 c2
    · refine ParentsLoose_rebalance D q a k v p _ r h h1 (ihl key _ hdl h2 ?_) h3
      intro x hx hnx
      refine hfree x (by simp [addrs, hx]) ?_
      rw [(addrs_rebalance_perm _ _ _ _ _ _ _).mem_iff]
      simp only [List.mem_append, List.mem_cons, not_or]
      exact ⟨hnx, fun hc => hal (hc ▸ hx), hlr x hx⟩
    · refine ParentsLoose_rebalance D q a k v p l _ h h1 h2 (ihr key _ hdr h3 ?_)
      intro x hx hnx
      refine hfree x (by simp [addrs, hx]) ?_
      rw [(addrs_rebalance_perm _ _ _ _ _ _ _).mem_iff]
      simp only [List.mem_append, List.mem_cons, not_or]
      exact ⟨fun hc => hlr x hc hx, fun hc => har (hc ▸ hx), hnx⟩
    · cases l with
      | nullptr =>
        cases r with
        | nullptr => trivial
        | mk ta tk tv tp tl tr th =>
          simp only [addrs, List.nodup_append, List.nodup_cons] at hdr
          have hta : D ta := by
            refine hfree ta (by simp [addrs]) ?_
            rw [(addrs_rebalance_perm _ _ _ _ _ _ _).mem_iff]
            simp only [List.mem_append, List.mem_cons, not_or]
            refine ⟨fun hc => hdr.2.2 hc (List.mem_cons_self _ _), ?_, hdr.2.1.1⟩
            intro hc
            exact har (hc ▸ (by simp [addrs]))
          obtain ⟨g1, g2, g3⟩ := h3
          refine ParentsLoose_rebalance D q a tk tv tp tl tr th ?_
            (ParentsLoose_rehang D ta hta _ tl g2) (ParentsLoose_rehang D ta hta _ tr g3)
          rcases g1 with g1 | g1 | g1
          · exact Or.inr (Or.inl g1)
          · exact Or.inr (Or.inr ⟨ta, g1, hta⟩)
          · exact Or.inr (Or.inr g1)
      | mk ta tk tv tp tl tr th =>
        cases r with
        | nullptr =>
          simp only [addrs, List.nodup_append, List.nodup_cons] at hdl
          have hta : D ta := by
            refine hfree ta (by simp [addrs]) ?_
            rw [(addrs_rebalance_perm _ _ _ _ _ _ _).mem_iff]
            simp only [List.mem_append, List.mem_cons, not_or]
            refine ⟨fun hc => hdl.2.2 hc (List.mem_cons_self _ _), ?_, hdl.2.1.1⟩
            intro hc
            exact hal (hc ▸ (by simp [addrs]))
          obtain ⟨g1, g2, g3⟩ := h2
          refine ParentsLoose_rebalance D q a tk tv tp tl tr th ?_
            (ParentsLoose_rehang D ta hta _ tl g2) (ParentsLoose_rehang D ta hta _ tr g3)
          rcases g1 with g1 | g1 | g1
          · exact Or.inr (Or.inl g1)
          · exact Or.inr (Or.inr ⟨ta, g1, hta⟩)
          · exact Or.inr (Or.inr g1)
        | mk ra rk rv rp rl rr rh =>
          simp only [] at hfree ⊢
          cases hm : GetMinNode (node.mk ra rk rv rp rl rr rh) with
          | nullptr => exact ⟨h1, h2, h3⟩
          | mk ma mk mv mp ml mr mh =>
            rw [hm] at hfree
            simp only [] at hfree ⊢
            refine ParentsLoose_rebalance D q a mk mv p _ _ h h1 h2 (ihr mk _ hdr h3 ?_)
            intro x hx hnx
            refine hfree x (List.mem_append_right _ (List.mem_cons_of_mem _ hx)) ?_
            rw [(addrs_rebalance_perm _ _ _ _ _ _ _).mem_iff]
            simp only [List.mem_append, List.mem_cons, not_or]
            exact ⟨fun hc => hlr x hc hx, fun hc => har (hc ▸ hx), hnx⟩

/-- The parent links of every tree built by inserts and erases are loose at
worst: a link that is not the right one designates the node itself or a freed
node. -/
theorem Built_ParentsLoose [LinearOrder Key] {d e : Bool} {t : AVLTree Key Value}
    (h : Built d e t) :
    ParentsLoose (fun q => q ∉ addrs t.root ∧ q < t.alloc) none t.root := by
  induction h with
  | empty => trivial
  | @insert t key value dup _ hb ih =>
    have hp := insert_addrs t key value dup
    have ha := insert_alloc t key value dup
    have hlt := (Built_addrs hb).2
    have hmono : ∀ q, (q ∉ addrs t.root ∧ q < t.alloc) →
        (q ∉ addrs (t.insert key value dup).1.root ∧ q < (t.insert key value dup).1.alloc) := by
      rintro q ⟨h1, h2⟩
      rw [hp.mem_iff, ha]
      split_ifs
      · exact ⟨by simp only [List.mem_cons, not_or]; exact ⟨by omega, h1⟩, by omega⟩
      · exact ⟨h1, h2⟩
    have ih' := ParentsLoose_mono _ _ hmono t.root none ih
    generalize (fun q => q ∉ addrs (t.insert key value dup).1.root ∧
      q < (t.insert key value dup).1.alloc) = D' at ih' ⊢
    rw [insert_root]
    split_ifs
    · exact ⟨Or.inl rfl, trivial, trivial⟩
    · exact RecursiveInsertion_ParentsLoose _ _ _ _ _ _ none ih'
  | @erase t pos _ hb ih =>
    obtain ⟨hnd, hlt⟩ := Built_addrs hb
    rcases erase_cases t pos with h | ⟨key, _, _, h⟩
    · rw [h]; exact ih
    · rw [h]
      have hs := RecursiveDeleting_addrs t.root key
      have hmono : ∀ q, (q ∉ addrs t.root ∧ q < t.alloc) →
          (q ∉ addrs (RecursiveDeleting t.root key) ∧ q < t.alloc) := by
        rintro q ⟨h1, h2⟩
        exact ⟨fun hc => h1 (hs.subset hc), h2⟩
      have ih' := ParentsLoose_mono _ _ hmono t.root none ih
      exact RecursiveDeleting_ParentsLoose _ t.root key none hnd ih'
        (fun x hx hnx => ⟨hnx, hlt x hx⟩)

theorem split_at_middle {α : Type} (a x : α) (L2 B : List α) :
    ∀ (L1 A : List α), L1 ++ a :: L2 = A ++ x :: B →
      (∃ B', L1 = A ++ x :: B' ∧ B = B' ++ a :: L2) ∨ (A = L1 ∧ x = a ∧ B = L2) ∨
        (∃ A', L2 = A' ++ x :: B ∧ A = L1 ++ a :: A') := by
  intro L1
  induction L1 with
  | nil =>
    intro A h
    cases A with
    | nil =>
      simp only [List.nil_append, List.cons.injEq] at h
      exact Or.inr (Or.inl ⟨rfl, h.1.symm, h.2.symm⟩)
    | cons c A' =>
      simp only [List.nil_append, List.cons_append, List.cons.injEq] at h
      exact Or.inr (Or.inr ⟨A', h.2, by rw [h.1]; rfl⟩)
  | cons c L1 ih =>
    intro A h
    cases A with
    | nil =>
      simp only [List.nil_append, List.cons_append, List.cons.injEq] at h
      exact Or.inl ⟨L1, by rw [h.1]; rfl, h.2.symm⟩
    | cons c' A' =>
      simp only [List.cons_append, List.cons.injEq] at h
      rcases ih A' h.2 with ⟨B', h1, h2⟩ | ⟨h1, h2, h3⟩ | ⟨A'', h1, h2⟩
      · exact Or.inl ⟨B', by rw [h.1, h1]; rfl, h2⟩
      · exact Or.inr (Or.inl ⟨by rw [h.1, h1], h2, h3⟩)
      · exact Or.inr (Or.inr ⟨A'', h1, by rw [h.1, h2]; rfl⟩)

/-- Where a climb from the top node of a subtree may end: at the node after the
subtree in in-order sequence, or at a node before that one. -/
theorem loose_exit_of_status (R : node Key Value) (hd : (addrs R).Nodup) (D : Nat → Prop)
    (hD : ∀ q, D q → q ∉ addrs R) (a : Nat) (k : Key) (v : Value) (p : Option Nat)
    (l r : node Key Value) (h : Int) (hT : nodeOf (.mk a k v p l r h) R)
    (good : Option Nat → Prop) (up : Option Nat) (hself : good (some a))
    (hstat : p = up ∨ p = some a ∨ ∃ q, p = some q ∧ D q)
    (hup : ∀ f y, climb_from_right R f a up = some y → good y) :
    ∀ f y, climb_from_right R f a p = some y → good y := by
  intro f y hy
  have hlook := lookup_nodeOf a k v p l r h R hd hT
  have hnd : (addrs (.mk a k v p l r h)).Nodup := hd.sublist (nodeOf_addrs_sublist _ _ hT)
  simp only [addrs, List.nodup_append, List.nodup_cons] at hnd
  rcases hstat with hs | hs | ⟨q, hs, hq⟩
  · rw [hs] at hy; exact hup f y hy
  · rw [hs] at hy
    cases f with
    | zero => simp [climb_from_right] at hy
    | succ f =>
      have hne : r.addrOf ≠ some a := fun hc => hnd.2.1.1 (addrOf_mem_addrs r a hc)
      simp only [climb_from_right, hlook, if_neg hne, Option.some.injEq] at hy
      rw [← hy]; exact hself
  · rw [hs] at hy
    cases f with
    | zero => simp [climb_from_right] at hy
    | succ f =>
      simp [climb_from_right, lookup_absent q R (hD q hq)] at hy

/-- In a tree with distinct addresses and loose parent links, `++` on a node
yields, when it yields anything, the in-order successor of the node or a node
that is not after it in in-order sequence. -/
theorem subtree_loose_steps (R : node Key Value) (hd : (addrs R).Nodup) (D : Nat → Prop)
    (hD : ∀ q, D q → q ∉ addrs R) (T : node Key Value) :
    ∀ (pre post : List Nat) (q : Option Nat), (T.isNull = true ∨ nodeOf T R) →
      ParentsLoose D q T →
      (∀ a k v p l r h, T = .mk a k v p l r h → ∀ f y, climb_from_right R f a p = some y →
        (y = post.head? ∨ ∃ z ∈ pre ++ addrs T, y = some z)) →
      ∀ (A : List Nat) (x : Nat) (B : List Nat), addrs T = A ++ x :: B →
        ∀ f y, incNode R f x = some y →
          (y = (B ++ post).head? ∨ ∃ z ∈ pre ++ A ++ [x], y = some z) := by
  induction T with
  | nullptr =>
    intro pre post q _ _ _ A x B hs
    simp [addrs] at hs
  | mk a k v p l r h ihl ihr =>
    intro pre post q hT hq hout A x B hs f y hy
    have hT : nodeOf (.mk a k v p l r h) R := by
      rcases hT with h1 | h1
      · simp [node.isNull] at h1
      · exact h1
    obtain ⟨hp, hpl, hpr⟩ := hq
    have hlook := lookup_nodeOf a k v p l r h R hd hT
    have hnd : (addrs (.mk a k v p l r h)).Nodup := hd.sublist (nodeOf_addrs_sublist _ _ hT)
    simp only [addrs, List.nodup_append, List.nodup_cons] at hnd
    obtain ⟨_, ⟨har, _⟩, hdis⟩ := hnd
    have hout' := hout a k v p l r h rfl
    simp only [addrs] at hs hout'
    rcases split_at_middle a x (addrs r) B (addrs l) A hs with
      ⟨B', h1, h2⟩ | ⟨h1, h2, h3⟩ | ⟨A', h1, h2⟩
    · -- the node is in the left subtree
      cases l with
      | nullptr => simp [addrs] at h1
      | mk la lk lv lp ll lr lh =>
        have hl : nodeOf (.mk la lk lv lp ll lr lh) R :=
          nodeOf_trans _ (.mk a k v p (.mk la lk lv lp ll lr lh) r h) R
            (Or.inr (Or.inl (nodeOf_self _ _ _ _ _ _ _))) hT
        have hne : r.addrOf ≠ some la := by
          intro hc
          exact hdis (by simp [addrs]) (List.mem_cons_of_mem _ (addrOf_mem_addrs r la hc))
        have hexit : ∀ a' k' v' p' l' r' h', node.mk la lk lv lp ll lr lh =
            .mk a' k' v' p' l' r' h' → ∀ f y, climb_from_right R f a' p' = some y →
            (y = (a :: addrs r ++ post).head? ∨
              ∃ z ∈ pre ++ addrs (node.mk la lk lv lp ll lr lh), y = some z) := by
          intro a' k' v' p' l' r' h' he
          cases he
          refine loose_exit_of_status R hd D hD la lk lv lp ll lr lh hl _ (some a)
            (Or.inr ⟨la, by simp [addrs], rfl⟩) hpl.1 ?_
          intro f y hy
          cases f with
          | zero => simp [climb_from_right] at hy
          | succ f =>
            simp only [climb_from_right, hlook, if_neg hne, Option.some.injEq] at hy
            exact Or.inl (by rw [← hy]; rfl)
        rcases ihl pre (a :: addrs r ++ post) (some a) (Or.inr hl) hpl hexit A x B' h1 f y hy
          with g | g
        · left
          rw [g, h2]
          simp
        · exact Or.inr g
    · -- the node is the top node
      subst h2
      rw [h1, h3]
      cases r with
      | nullptr =>
        rw [incNode_of_lookup_leafright R _ x k v p l h hlook] at hy
        rcases hout' f y hy with g | ⟨z, hz, g⟩
        · left; rw [g]; simp [addrs]
        · right
          refine ⟨z, ?_, g⟩
          simpa [addrs] using hz
      | mk ra rk rv rp rl rr rh =>
        rw [incNode_of_lookup_right R _ x k v p l h ra rk rv rp rl rr rh hlook] at hy
        left
        simp only [Option.some.injEq] at hy
        rw [← hy]
        obtain ⟨ma, mk, mv, mp, mr, mh, rest, _, e2⟩ :=
          GetMinNode_spec (.mk ra rk rv rp rl rr rh) rfl
        have : ∃ c cs, addrs (node.mk ra rk rv rp rl rr rh) = c :: cs := by
          rw [← cells_map_fst, e2]
          exact ⟨_, _, rfl⟩
        obtain ⟨c, cs, hc⟩ := this
        rw [hc]
        rfl
    · -- the node is in the right subtree
      cases r with
      | nullptr => simp [addrs] at h1
      | mk ra rk rv rp rl rr rh =>
        have hr : nodeOf (.mk ra rk rv rp rl rr rh) R :=
          nodeOf_trans _ (.mk a k v p l (.mk ra rk rv rp rl rr rh) h) R
            (Or.inr (Or.inr (nodeOf_self _ _ _ _ _ _ _))) hT
        have hexit : ∀ a' k' v' p' l' r' h', node.mk ra rk rv rp rl rr rh =
            .mk a' k' v' p' l' r' h' → ∀ f y, climb_from_right R f a' p' = some y →
            (y = post.head? ∨
              ∃ z ∈ (pre ++ addrs l ++ [a]) ++ addrs (node.mk ra rk rv rp rl rr rh),
                y = some z) := by
          intro a' k' v' p' l' r' h' he
          cases he
          refine loose_exit_of_status R hd D hD ra rk rv rp rl rr rh hr _ (some a)
            (Or.inr ⟨ra, by simp [addrs], rfl⟩) hpr.1 ?_
          intro f y hy
          cases f with
          | zero => simp [climb_from_right] at hy
          | succ f =>
            simp only [climb_from_right, hlook, node.addrOf, if_true] at hy
            rcases hout' f y hy with g | ⟨z, hz, g⟩
            · exact Or.inl g
            · right
              refine ⟨z, ?_, g⟩
              simpa [List.append_assoc] using hz
        rcases ihr (pre ++ addrs l ++ [a]) post (some a) (Or.inr hr) hpr hexit A' x B h1 f y hy
          with g | ⟨z, hz, g⟩
        · exact Or.inl g
        · right
          refine ⟨z, ?_, g⟩
          rw [h2]
          simpa [List.append_assoc] using hz

theorem tree_loose_steps (R : node Key Value) (hd : (addrs R).Nodup) (D : Nat → Prop)
    (hD : ∀ q, D q → q ∉ addrs R) (hp : ParentsLoose D none R) :
    ∀ (A : List Nat) (x : Nat) (B : List Nat), addrs R = A ++ x :: B →
      ∀ f y, incNode R f x = some y → (y = B.head? ∨ ∃ z ∈ A ++ [x], y = some z) := by
  intro A x B hs f y hy
  have hnull : R.isNull = true ∨ nodeOf R R := by
    cases R with
    | nullptr => exact Or.inl rfl
    | mk a k v p l r h => exact Or.inr (nodeOf_self _ _ _ _ _ _ _)
  have hexit : ∀ a k v p l r h, R = .mk a k v p l r h → ∀ f y,
      climb_from_right R f a p = some y → (y = ([] : List Nat).head? ∨
        ∃ z ∈ [] ++ addrs R, y = some z) := by
    intro a k v p l r h he
    have hn : nodeOf (.mk a k v p l r h) R := by rw [he]; exact nodeOf_self _ _ _ _ _ _ _
    have hst : p = none ∨ p = some a ∨ ∃ q, p = some q ∧ D q := by
      have := hp
      rw [he] at this
      exact this.1
    refine loose_exit_of_status R hd D hD a k v p l r h hn _ none
      (Or.inr ⟨a, ?_, rfl⟩) hst ?_
    · rw [he]; simp [addrs]
    · intro f y hy
      cases f <;> simp [climb_from_right] at hy <;> exact Or.inl hy.symm
  have := subtree_loose_steps R hd D hD R [] [] none hnull hp hexit A x B hs f y hy
  simpa using this

theorem loose_step_index (R : node Key Value) (hd : (addrs R).Nodup) (D : Nat → Prop)
    (hD : ∀ q, D q → q ∉ addrs R) (hp : ParentsLoose D none R) (i x : Nat)
    (hx : (addrs R)[i]? = some x) (f : Nat) (y : Option Nat) (hy : incNode R f x = some y) :
    y = (addrs R)[i + 1]? ∨ ∃ j, j ≤ i ∧ j < (addrs R).length ∧ y = (addrs R)[j]? := by
  obtain ⟨hi, hxi⟩ := List.getElem?_eq_some.1 hx
  have hsplit : addrs R = (addrs R).take i ++ x :: (addrs R).drop (i + 1) := by
    rw [← hxi, ← List.drop_eq_getElem_cons hi, List.take_append_drop]
  rcases tree_loose_steps R hd D hD hp _ x _ hsplit f y hy with g | ⟨z, hz, g⟩
  · left
    rw [g, List.head?_drop]
  · right
    rcases List.mem_append.1 hz with hz | hz
    · obtain ⟨j, hj⟩ := List.mem_iff_getElem?.1 hz
      have hji : j < i := by
        by_contra hc
        rw [List.getElem?_take_eq_none (by omega)] at hj
        cases hj
      rw [List.getElem?_take_of_lt hji] at hj
      exact ⟨j, by omega, by omega, by rw [g, hj]⟩
    · simp only [List.mem_singleton] at hz
      exact ⟨i, le_refl _, hi, by rw [g, hz, hx]⟩

theorem getElem?_ne_of_lt {L : List Nat} (hL : L.Nodup) (i e : Nat) (hie : i < e)
    (he : e ≤ L.length) : L[i]? ≠ L[e]? := by
  intro heq
  have := List.getElem?_inj (by omega) hL heq
  omega

/-- A walk that has to pass a node whose `++` does not lead to its successor
never arrives beyond that node. -/
theorem distance_stuck (R : node Key Value) (hd : (addrs R).Nodup) (D : Nat → Prop)
    (hD : ∀ q, D q → q ∉ addrs R) (hp : ParentsLoose D none R) (c e : Nat) (hce : c < e)
    (he : e ≤ (addrs R).length)
    (hbad : ∀ f y x, (addrs R)[c]? = some x → incNode R f x = some y →
      ∃ j, j ≤ c ∧ y = (addrs R)[j]?) :
    ∀ (F i : Nat) (pv pv' : Option Nat), i ≤ c →
      distance R F { it_node := (addrs R)[i]?, it_prev_node := pv }
        { it_node := (addrs R)[e]?, it_prev_node := pv' } = none := by
  intro F
  induction F with
  | zero =>
    intro i pv pv' hic
    have hne := getElem?_ne_of_lt hd i e (by omega) he
    simp [distance, Iterator.eq, hne]
  | succ F ih =>
    intro i pv pv' hic
    have hne := getElem?_ne_of_lt hd i e (by omega) he
    have hi : i < (addrs R).length := by omega
    have hx : (addrs R)[i]? = some ((addrs R)[i]) := List.getElem?_eq_getElem hi
    simp only [distance, Iterator.eq, decide_eq_true_eq, if_neg hne]
    rw [hx, increment_eq_incNode]
    cases hy : incNode R (F + 1) (addrs R)[i] with
    | none => rfl
    | some y =>
      have hnext : ∃ j, j ≤ c ∧ y = (addrs R)[j]? := by
        rcases loose_step_index R hd D hD hp i _ hx (F + 1) y hy with g | ⟨j, hj, _, g⟩
        · by_cases hic' : i = c
          · subst hic'
            exact hbad (F + 1) y _ hx hy
          · exact ⟨i + 1, by omega, g⟩
        · exact ⟨j, by omega, g⟩
      obtain ⟨j, hj, g⟩ := hnext
      simp only [Option.map_some']
      rw [g, ih j pv pv' hj]
      rfl

/-- In a tree with distinct addresses and loose parent links, `std::distance`
between two positions of the in-order sequence, when it returns, returns the
difference of the positions. -/
theorem distance_loose (R : node Key Value) (hd : (addrs R).Nodup) (D : Nat → Prop)
    (hD : ∀ q, D q → q ∉ addrs R) (hp : ParentsLoose D none R) (e : Nat)
    (he : e ≤ (addrs R).length) :
    ∀ (F i n : Nat) (pv pv' : Option Nat), i ≤ e →
      distance R F { it_node := (addrs R)[i]?, it_prev_node := pv }
        { it_node := (addrs R)[e]?, it_prev_node := pv' } = some n → n = e - i := by
  intro F
  induction F with
  | zero =>
    intro i n pv pv' hie hdist
    by_cases hlt : i < e
    · have hne := getElem?_ne_of_lt hd i e hlt he
      simp [distance, Iterator.eq, hne] at hdist
    · have : i = e := by omega
      subst this
      simp [distance, Iterator.eq] at hdist
      omega
  | succ F ih =>
    intro i n pv pv' hie hdist
    by_cases hlt : i < e
    · have hne := getElem?_ne_of_lt hd i e hlt he
      have hi : i < (addrs R).length := by omega
      have hx : (addrs R)[i]? = some ((addrs R)[i]) := List.getElem?_eq_getElem hi
      simp only [distance, Iterator.eq, decide_eq_true_eq, if_neg hne] at hdist
      rw [hx, increment_eq_incNode] at hdist
      cases hy : incNode R (F + 1) (addrs R)[i] with
      | none => rw [hy] at hdist; simp at hdist
      | some y =>
        rw [hy] at hdist
        simp only [Option.map_some'] at hdist
        rcases loose_step_index R hd D hD hp i _ hx (F + 1) y hy with g | ⟨j, hj, _, g⟩
        · rw [g] at hdist
          cases hm : distance R F { it_node := (addrs R)[i + 1]?, it_prev_node := pv }
              { it_node := (addrs R)[e]?, it_prev_node := pv' } with
          | none => rw [hm] at hdist; simp at hdist
          | some m =>
            rw [hm] at hdist
            simp only [Option.map_some', Option.some.injEq] at hdist
            have := ih (i + 1) m pv pv' (by omega) hm
            omega
        · exfalso
          have hbad : ∀ f' y' x', (addrs R)[i]? = some x' → incNode R f' x' = some y' →
              ∃ j, j ≤ i ∧ y' = (addrs R)[j]? := by
            intro f' y' x' hx' hy'
            rw [hx] at hx'
            cases hx'
            have h1 := incNode_mono R f' (max f' (F + 1)) _ _ hy' (le_max_left _ _)
            have h2 := incNode_mono R (F + 1) (max f' (F + 1)) _ _ hy (le_max_right _ _)
            rw [h1] at h2
            cases h2
            exact ⟨j, hj, g⟩
          have := distance_stuck R hd D hD hp i e hlt he hbad F j pv pv' hj
          rw [g, this] at hdist
          simp at hdist
    · have : i = e := by omega
      subst this
      simp [distance, Iterator.eq] at hdist
      omega

/-- On every tree built by inserts and erases, a `count(k)` that returns
returns the number of stored keys equal to `k`. -/
theorem count_of_reachable [LinearOrder Key] (t : AVLTree Key Value) (ht : Reachable t)
    (k : Key) (F n : Nat)
    (hdist : distance t.root F (t.lower_bound k) (t.upper_bound k) = some n) :
    n = (keys t.root).count k := by
  have hs := Built_sorted ht
  obtain ⟨hd, _⟩ := Built_addrs ht
  have hp := Built_ParentsLoose ht
  have e1 : (fun c : Nat × Key × Value => !decide (¬ c.2.1 < k)) =
      (fun c => decide (c.2.1 < k)) := by
    funext c
    by_cases hc : c.2.1 < k <;> simp [hc]
  have e2 : (fun c : Nat × Key × Value => !decide (k < c.2.1)) =
      (fun c => decide (c.2.1 ≤ k)) := by
    funext c
    by_cases hc : k < c.2.1
    · simp [hc, not_le.2 hc]
    · simp [hc, not_lt.1 hc]
  have hlow := lower_bound_it_node t k hs
  have hup := upper_bound_it_node t k hs
  rw [find?_eq_getElem?_takeWhile, e1, ← List.getElem?_map, cells_map_fst] at hlow
  rw [find?_eq_getElem?_takeWhile, e2, ← List.getElem?_map, cells_map_fst] at hup
  have hs' : ((cells t.root).map (fun c => c.2.1)).Pairwise (· ≤ ·) := by
    rw [← keys_eq_cells_map]; exact hs
  have hcount := sorted_takeWhile_count k (cells t.root) hs'
  rw [← keys_eq_cells_map] at hcount
  have hlen : ((cells t.root).takeWhile (fun c => decide (c.2.1 ≤ k))).length ≤
      (addrs t.root).length := by
    rw [← cells_map_fst, List.length_map]
    exact (List.takeWhile_sublist _).length_le
  rw [hcount] at hup hlen
  have hl : t.lower_bound k = { it_node := (t.lower_bound k).it_node, it_prev_node := none } := rfl
  have hu : t.upper_bound k = { it_node := (t.upper_bound k).it_node, it_prev_node := none } := rfl
  rw [hl, hu, hlow, hup] at hdist
  have := distance_loose t.root hd _ (fun q hq => hq.1) hp _ hlen F _ n none none
    (Nat.le_add_right _ _) hdist
  omega

/-! ## Copies of a tree -/

theorem CopyTree_shape (t : node Key Value) :
    ∀ (n : Nat) (q : Option Nat), shapeOf (CopyTree n t q).1 = shapeOf t := by
  induction t with
  | nullptr => intro n q; rfl
  | mk a k v p l r h ihl ihr =>
    intro n q
    simp only [CopyTree, shapeOf, ihl, ihr]

theorem RecursiveSearch_shape [LinearOrder Key] (key : Key) (t : node Key Value) :
    ∀ t' : node Key Value, shapeOf t' = shapeOf t →
      (RecursiveSearch t' key).isNull = (RecursiveSearch t key).isNull := by
  induction t with
  | nullptr =>
    intro t' h
    cases t' with
    | nullptr => rfl
    | mk a k v p l r ht => simp [shapeOf] at h
  | mk a k v p l r ht ihl ihr =>
    intro t' h
    cases t' with
    | nullptr => simp [shapeOf] at h
    | mk a' k' v' p' l' r' ht' =>
      simp only [shapeOf, Shape.fork.injEq] at h
      obtain ⟨hk, _, hl, hr⟩ := h
      subst hk
      simp only [RecursiveSearch]
      split_ifs
      · rfl
      · exact ihl l' hl
      · exact ihr r' hr

theorem inorder_of_shape (t : node Key Value) :
    ∀ t' : node Key Value, shapeOf t' = shapeOf t → inorder t' = inorder t := by
  induction t with
  | nullptr =>
    intro t' h
    cases t' with
    | nullptr => rfl
    | mk a k v p l r ht => simp [shapeOf] at h
  | mk a k v p l r ht ihl ihr =>
    intro t' h
    cases t' with
    | nullptr => simp [shapeOf] at h
    | mk a' k' v' p' l' r' ht' =>
      simp only [shapeOf, Shape.fork.injEq] at h
      obtain ⟨hk, hv, hl, hr⟩ := h
      simp only [inorder, ihl l' hl, ihr r' hr, hk, hv]

theorem copy_count [LinearOrder Key] (t : AVLTree Key Value) (ht : Reachable t) (k : Key)
    (fuel : Nat) (hf : 2 * t.size ≤ fuel) :
    distance t.copy.root fuel (t.copy.lower_bound k) (t.copy.upper_bound k) =
      some ((keys t.root).count k) := by
  obtain ⟨c1, c2, c3, c4⟩ := copy_spec t
  have hk : keys t.copy.root = keys t.root := by rw [keys, c3]; rfl
  have := distance_bounds t.copy (by rw [hk]; exact Built_sorted ht) c1 c2 k fuel
    (by rw [c4]; exact hf)
  rw [hk] at this
  exact this

/-- The copy-constructed copy of a tree `s` built by inserts and erases has
the shape of `s` with the same key and payload at every position, hence the
same in-order entries and keys, the same size() and the same answers of
contains.  For a multiset `m` whose tree is built by inserts and erases,
count(k) on the copy returns the number of stored keys equal to `k`, which is
also what count(k) on `m` returns in the cases where it returns; after an
erase it need not return (`erasedDuplicate_count_stuck`). -/
theorem copy_same_shape_and_answers [LinearOrder Key] (s : AVLTree Key Value)
    (hs : Reachable s) (m : Multiset Key) (hm : Reachable m.tree_) :
    shapeOf s.copy.root = shapeOf s.root ∧
    inorder s.copy.root = inorder s.root ∧
    keys s.copy.root = keys s.root ∧
    (keys s.copy.root).Pairwise (· ≤ ·) ∧
    s.copy.size = s.size ∧
    (∀ k, s.copy.contains k = s.contains k) ∧
    (m.copy.size = m.size ∧ ∀ k, m.copy.contains k = m.contains k) ∧
    (∀ k fuel, 2 * m.size ≤ fuel →
      m.copy.count fuel k = some ((keys m.tree_.root).count k)) ∧
    (∀ k fuel n, m.count fuel k = some n →
      ∀ fuel', 2 * m.size ≤ fuel' → m.copy.count fuel' k = some n) := by
  have hshape : ∀ {V : Type} (t : AVLTree Key V), shapeOf t.copy.root = shapeOf t.root :=
    fun t => CopyTree_shape t.root 0 none
  have hin : inorder s.copy.root = inorder s.root := inorder_of_shape _ _ (hshape s)
  have hk : keys s.copy.root = keys s.root := by rw [keys, hin]; rfl
  have hcont : ∀ {V : Type} (t : AVLTree Key V) (k : Key), t.copy.contains k = t.contains k := by
    intro V t k
    unfold AVLTree.contains
    rw [RecursiveSearch_shape k t.root t.copy.root (hshape t)]
  refine ⟨hshape s, hin, hk, by rw [hk]; exact Built_sorted hs, (copy_spec s).2.2.2, hcont s,
    ⟨(copy_spec m.tree_).2.2.2, fun k => hcont m.tree_ k⟩, ?_, ?_⟩
  · intro k fuel hf
    exact copy_count m.tree_ hm k fuel hf
  · intro k fuel n hn fuel' hf
    have := count_of_reachable m.tree_ hm k fuel n hn
    rw [this]
    exact copy_count m.tree_ hm k fuel' hf

theorem erasedFixture_reachable : Reachable erasedFixture.tree_ := by
  have h1 : Reachable (Multiset.ofList [10, 20, 20, 30]).tree_ := by
    rw [ofList_tree]
    exact Built.mono (insertDups_reachable _)
  show Reachable ((Multiset.ofList [10, 20, 20, 30]).tree_.erase
    ((Multiset.ofList [10, 20, 20, 30]).find 20))
  exact Built.erase _ rfl h1

theorem copy_same_shape_and_answers_witness :
    (Reachable sampleTree ∧ Reachable erasedFixture.tree_) ∧
    (shapeOf sampleTree.copy.root = shapeOf sampleTree.root ∧
    inorder sampleTree.copy.root = inorder sampleTree.root ∧
    keys sampleTree.copy.root = keys sampleTree.root ∧
    (keys sampleTree.copy.root).Pairwise (· ≤ ·) ∧
    sampleTree.copy.size = sampleTree.size ∧
    (∀ k, sampleTree.copy.contains k = sampleTree.contains k) ∧
    (erasedFixture.copy.size = erasedFixture.size ∧
      ∀ k, erasedFixture.copy.contains k = erasedFixture.contains k) ∧
    (∀ k fuel, 2 * erasedFixture.size ≤ fuel →
      erasedFixture.copy.count fuel k = some ((keys erasedFixture.tree_.root).count k)) ∧
    (∀ k fuel n, erasedFixture.count fuel k = some n →
      ∀ fuel', 2 * erasedFixture.size ≤ fuel' → erasedFixture.copy.count fuel' k = some n)) ∧
    (erasedFixture.count 6 20 = some 1 ∧ erasedFixture.copy.count 6 20 = some 1) :=
  ⟨⟨sampleTree_reachable, erasedFixture_reachable⟩,
    copy_same_shape_and_answers sampleTree sampleTree_reachable erasedFixture
      erasedFixture_reachable,
    by decide, by decide⟩


/-! ## Parent links after an erasure, insertion of a stored key -/

/-- C36 on the code: the tree built by inserting 10 and 20 satisfies the
balance invariant and has consistent parent links; `erase(find(10))` deletes
the root, which has the one child 20, by `*Node = *temp`, and the node that
remains holds 20 with the `parent_` of the child, the address of the node
itself, where the root must have a null `parent_`. -/
theorem erase_breaks_parent_links :
    AVLInv twoKeys.root ∧ ParentsOK none twoKeys.root ∧
    twoKeys.root = .mk 0 10 10 none .nullptr (.mk 1 20 20 (some 0) .nullptr .nullptr 0) 1 ∧
    (twoKeys.find 10).deref twoKeys.root = .ok 10 ∧
    (twoKeys.erase (twoKeys.find 10)).root = .mk 0 20 20 (some 0) .nullptr .nullptr 0 ∧
    ¬ ParentsOK none (twoKeys.erase (twoKeys.find 10)).root := by
  have hb : Built false false twoKeys :=
    Built.insert 20 20 false (fun h => by cases h)
      (Built.insert 10 10 false (fun h => by cases h) Built.empty)
  have hroot : (twoKeys.erase (twoKeys.find 10)).root =
      .mk 0 20 20 (some 0) .nullptr .nullptr 0 := by decide
  refine ⟨Built_AVLInv hb, Built_ParentsOK hb, by decide, by rfl, hroot, ?_⟩
  rw [hroot]
  intro h
  exact absurd h.1 (by decide)

theorem rebalance_id (a : Nat) (k : Key) (v : Value) (p : Option Nat) (l r : node Key Value)
    (h : Int) (ht : AVLInv (.mk a k v p l r h)) :
    Balancing (SetHeight (.mk a k v p l r h)) = .mk a k v p l r h := by
  obtain ⟨_, _, hb, he⟩ := ht
  rw [abs_le] at hb
  have e : SetHeight (.mk a k v p l r h) = .mk a k v p l r h := by
    simp only [SetHeight, node.mk.injEq, true_and]
    omega
  rw [e]
  simp only [Balancing]
  rw [if_neg (by omega), if_neg (by omega)]

/-- An insertion that reports a stored key leaves a subtree satisfying the
invariants as it is. -/
theorem RecursiveInsertion_noop [LinearOrder Key] (fresh : Nat) (key : Key) (value : Value)
    (t : node Key Value) (ht : AVLInv t)
    (hf : (RecursiveInsertion fresh t key value false).2 = false) :
    (RecursiveInsertion fresh t key value false).1 = t := by
  induction t with
  | nullptr => rfl
  | mk a k v p l r h ihl ihr =>
    have ht' := ht
    obtain ⟨hl, hr, _, _⟩ := ht'
    simp only [RecursiveInsertion] at hf ⊢
    by_cases c1 : key < k ∨ (false = true ∧ key = k)
    · rw [if_pos c1] at hf ⊢
      cases l with
      | nullptr => simp at hf
      | mk la lk lv lp ll lr lh =>
        simp only [] at hf ⊢
        rw [ihl hl hf]
        exact rebalance_id a k v p _ r h ht
    · rw [if_neg c1] at hf ⊢
      by_cases c2 : key > k
      · rw [if_pos c2] at hf ⊢
        cases r with
        | nullptr => simp at hf
        | mk ra rk rv rp rl rr rh =>
          simp only [] at hf ⊢
          rw [ihr hr hf]
          exact rebalance_id a k v p l _ h ht
      · rw [if_neg c2] at hf ⊢
        exact rebalance_id a k v p l r h ht

theorem insert_stored_key [LinearOrder Key] (t : AVLTree Key Value) (ht : Built false true t)
    (k : Key) (hk : k ∈ keys t.root) (v : Value) :
    (t.insert k v false).1 = t ∧ (t.insert k v false).2.2 = false ∧
      (t.insert k v false).2.1 = t.find k := by
  have hflag : (t.insert k v false).2.2 = false := by
    have := (insert_inorder t k v false (Built_sorted ht)).1
    cases hc : (t.insert k v false).2.2 with
    | false => rfl
    | true =>
      rcases this.1 hc with h1 | h1
      · cases h1
      · exact absurd hk h1
  have hinv := Built_AVLInv ht
  cases hr : t.root with
  | nullptr => rw [hr] at hk; simp [keys, inorder] at hk
  | mk a k' v' p l r h =>
    have hf : (RecursiveInsertion t.alloc (.mk a k' v' p l r h) k v false).2 = false := by
      have := hflag
      unfold AVLTree.insert at this
      rw [hr] at this
      exact this
    rw [hr] at hinv
    have hn := RecursiveInsertion_noop t.alloc k v _ hinv hf
    have h1 : (t.insert k v false).1 = t := by
      unfold AVLTree.insert
      rw [hr]
      simp only [hf, hn]
      cases t
      simp only [Bool.false_eq_true, if_false] at hr ⊢
      rw [← hr]
    refine ⟨h1, hflag, ?_⟩
    rw [insert_iterator, h1]

/-- C37: on a tree built by inserts without duplicates and erases, `insert(k,
v)` of a key already stored returns false with the iterator of `find(k)` and
leaves the tree equal to what it was, node for node: shape, keys, payloads,
stored heights, parent links and addresses; so does `map::insert(k, v)` on a
map whose tree is so built. -/
theorem insert_stored_key_unchanged [LinearOrder Key] (t : AVLTree Key Value)
    (ht : Built false true t) (k : Key) (hk : k ∈ keys t.root) (v : Value) :
    (t.insert k v false).1 = t ∧ (t.insert k v false).2.2 = false ∧
    (t.insert k v false).2.1 = t.find k ∧
    inorder (t.insert k v false).1.root = inorder t.root ∧
    shapeOf (t.insert k v false).1.root = shapeOf t.root ∧
    (∀ m : map Key Value, m.toAVLTree = t →
      (m.insert k v).1 = m ∧ (m.insert k v).2.2 = false) := by
  obtain ⟨h1, h2, h3⟩ := insert_stored_key t ht k hk v
  refine ⟨h1, h2, h3, by rw [h1], by rw [h1], ?_⟩
  intro m hm
  obtain ⟨e1, e2⟩ := map_insert_eq m k v
  constructor
  · apply map_eq_of_toAVLTree
    rw [e1, hm, h1]
  · rw [e2, hm, h2]

theorem insert_stored_key_unchanged_witness :
    (Built false true sampleSet ∧ 1 ∈ keys sampleSet.root) ∧
    ((sampleSet.insert 1 77 false).1 = sampleSet ∧ (sampleSet.insert 1 77 false).2.2 = false ∧
    (sampleSet.insert 1 77 false).2.1 = sampleSet.find 1 ∧
    inorder (sampleSet.insert 1 77 false).1.root = inorder sampleSet.root ∧
    shapeOf (sampleSet.insert 1 77 false).1.root = shapeOf sampleSet.root ∧
    (∀ m : map Nat Nat, m.toAVLTree = sampleSet →
      (m.insert 1 77).1 = m ∧ (m.insert 1 77).2.2 = false)) :=
  ⟨⟨sampleSet_built, by decide⟩,
    insert_stored_key_unchanged sampleSet sampleSet_built 1 (by decide) 77⟩

/-! ## Rotations and rebalancing on their own -/

@[simp] theorem HeightsExact_setParent (p : Nat) (t : node Key Value) :
    HeightsExact (setParent p t) ↔ HeightsExact t := by
  cases t <;> simp [setParent, HeightsExact]

theorem HeightsExact_stored_eq_height (t : node Key Value) (h : HeightsExact t) :
    GetHeightNum t = height t := by
  induction t with
  | nullptr => rfl
  | mk a k v p l r ht ihl ihr =>
    obtain ⟨hl, hr, he⟩ := h
    simp only [GetHeightNum_mk, height, he, ihl hl, ihr hr]

theorem HeightsExact_RightRotation (a la : Nat) (k lk : Key) (v lv : Value) (p lp : Option Nat)
    (ll lr r : node Key Value) (h lh : Int) (hl : HeightsExact (.mk la lk lv lp ll lr lh))
    (hr : HeightsExact r) :
    HeightsExact (RightRotation (.mk a k v p (.mk la lk lv lp ll lr lh) r h)) := by
  obtain ⟨h1, h2, _⟩ := hl
  simp only [RightRotation, SetHeight, HeightsExact, HeightsExact_setParent, GetHeightNum_mk,
    GetHeightNum_setParent]
  refine ⟨h1, ⟨h2, hr, ?_⟩, ?_⟩ <;> omega

theorem HeightsExact_LeftRotation (a ra : Nat) (k rk : Key) (v rv : Value) (p rp : Option Nat)
    (l rl rr : node Key Value) (h rh : Int) (hl : HeightsExact l)
    (hr : HeightsExact (.mk ra rk rv rp rl rr rh)) :
    HeightsExact (LeftRotation (.mk a k v p l (.mk ra rk rv rp rl rr rh) h)) := by
  obtain ⟨h1, h2, _⟩ := hr
  simp only [LeftRotation, SetHeight, HeightsExact, HeightsExact_setParent, GetHeightNum_mk,
    GetHeightNum_setParent]
  refine ⟨⟨hl, h1, ?_⟩, h2, ?_⟩ <;> omega

/-- C32: for a node `N` whose parent links are consistent (its own link being
`q`) and whose two subtrees carry correct stored heights: when the left child
is not null, `RightRotation(N)` keeps the in-order sequence of the entries,
leaves every node of the subtree with the parent link of its position (the top
one with `q`), and leaves every stored height, those of the two nodes involved
included, equal to 1 + max of the heights of the children, which are the
actual heights; the nodes are the same ones.  When the right child is not
null, the same holds of `LeftRotation(N)`. -/
theorem rotation_keeps_order_links_heights (q : Option Nat) (a : Nat) (k : Key) (v : Value)
    (p : Option Nat) (l r : node Key Value) (h : Int)
    (hp : ParentsOK q (.mk a k v p l r h)) (hl : HeightsExact l) (hr : HeightsExact r) :
    (l.isNull = false →
      inorder (RightRotation (.mk a k v p l r h)) = inorder (.mk a k v p l r h) ∧
      ParentsOK q (RightRotation (.mk a k v p l r h)) ∧
      HeightsExact (RightRotation (.mk a k v p l r h)) ∧
      GetHeightNum (RightRotation (.mk a k v p l r h)) =
        height (RightRotation (.mk a k v p l r h)) ∧
      (addrs (RightRotation (.mk a k v p l r h))).Perm (addrs (.mk a k v p l r h))) ∧
    (r.isNull = false →
      inorder (LeftRotation (.mk a k v p l r h)) = inorder (.mk a k v p l r h) ∧
      ParentsOK q (LeftRotation (.mk a k v p l r h)) ∧
      HeightsExact (LeftRotation (.mk a k v p l r h)) ∧
      GetHeightNum (LeftRotation (.mk a k v p l r h)) =
        height (LeftRotation (.mk a k v p l r h)) ∧
      (addrs (LeftRotation (.mk a k v p l r h))).Perm (addrs (.mk a k v p l r h))) := by
  constructor
  · intro hn
    cases l with
    | nullptr => cases hn
    | mk la lk lv lp ll lr lh =>
      have he := HeightsExact_RightRotation a la k lk v lv p lp ll lr r h lh hl hr
      exact ⟨inorder_RightRotation _, ParentsOK_RightRotation q _ hp, he,
        HeightsExact_stored_eq_height _ he, addrs_RightRotation_perm _⟩
  · intro hn
    cases r with
    | nullptr => cases hn
    | mk ra rk rv rp rl rr rh =>
      have he := HeightsExact_LeftRotation a ra k rk v rv p rp l rl rr h rh hl hr
      exact ⟨inorder_LeftRotation _, ParentsOK_LeftRotation q _ hp, he,
        HeightsExact_stored_eq_height _ he, addrs_LeftRotation_perm _⟩

theorem rotation_keeps_order_links_heights_witness :
    (ParentsOK none rotationFixture ∧ rotationFixture.isNull = false) ∧
    inorder (RightRotation rotationFixture) = [(10, 1), (20, 2), (40, 4), (60, 6), (70, 7)] ∧
    ParentsOK none (RightRotation rotationFixture) ∧
    HeightsExact (LeftRotation rotationFixture) ∧
    GetHeightNum (LeftRotation rotationFixture) = 3 := by
  have hp : ParentsOK none rotationFixture := by
    simp [rotationFixture, ParentsOK]
  have hl : HeightsExact (.mk 1 20 2 (some 0) (.mk 3 10 1 (some 1) .nullptr .nullptr 0)
      (.nullptr : node Nat Nat) 1) := by
    simp [HeightsExact]
  have hr : HeightsExact (.mk 2 60 6 (some 0) (.nullptr : node Nat Nat)
      (.mk 4 70 7 (some 2) .nullptr .nullptr 0) 1) := by
    simp [HeightsExact]
  have key := rotation_keeps_order_links_heights none 0 40 4 none _ _ 2 hp hl hr
  obtain ⟨k1, k2⟩ := key
  obtain ⟨r1, r2, _, _, _⟩ := k1 rfl
  obtain ⟨_, _, l3, _, _⟩ := k2 rfl
  exact ⟨⟨hp, rfl⟩, r1.trans (by decide), r2, l3, by decide⟩

theorem LeftRotation_nonnull (t : node Key Value) (h : t.isNull = false) :
    (LeftRotation t).isNull = false := by
  unfold LeftRotation
  split
  · rfl
  · exact h

theorem RightRotation_nonnull (t : node Key Value) (h : t.isNull = false) :
    (RightRotation t).isNull = false := by
  unfold RightRotation
  split
  · rfl
  · exact h

/-- A rotation of a node with the child it turns on does not read the stored
height of the node. -/
theorem RightRotation_top_height (a : Nat) (k : Key) (v : Value) (p : Option Nat)
    (l r : node Key Value) (h h' : Int) (hl : l.isNull = false) :
    RightRotation (.mk a k v p l r h) = RightRotation (.mk a k v p l r h') := by
  cases l with
  | nullptr => cases hl
  | mk la lk lv lp ll lr lh => simp [RightRotation, SetHeight]

theorem LeftRotation_top_height (a : Nat) (k : Key) (v : Value) (p : Option Nat)
    (l r : node Key Value) (h h' : Int) (hr : r.isNull = false) :
    LeftRotation (.mk a k v p l r h) = LeftRotation (.mk a k v p l r h') := by
  cases r with
  | nullptr => cases hr
  | mk ra rk rv rp rl rr rh => simp [LeftRotation, SetHeight]

theorem nonnull_of_height (t : node Key Value) (h : 0 ≤ GetHeightNum t) : t.isNull = false := by
  cases t with
  | nullptr => simp at h
  | mk a k v p l r ht => rfl

/-- On a node out of balance by two, `Balancing` does not read the stored
height of the node. -/
theorem Balancing_top_height (a : Nat) (k : Key) (v : Value) (p : Option Nat)
    (l r : node Key Value) (h h' : Int) (hl : AVLInv l) (hr : AVLInv r)
    (hb : GetHeightNum r - GetHeightNum l = -2 ∨ GetHeightNum r - GetHeightNum l = 2) :
    Balancing (.mk a k v p l r h) = Balancing (.mk a k v p l r h') := by
  have hlge := AVLInv_height_ge l hl
  have hrge := AVLInv_height_ge r hr
  simp only [Balancing]
  rcases hb with hb | hb
  · simp only [if_pos hb]
    have hn : l.isNull = false := nonnull_of_height l (by omega)
    apply RightRotation_top_height
    split_ifs
    · exact LeftRotation_nonnull l hn
    · exact hn
  · have hne : ¬ (GetHeightNum r - GetHeightNum l = -2) := by omega
    simp only [if_neg hne, if_pos hb]
    have hn : r.isNull = false := nonnull_of_height r (by omega)
    apply LeftRotation_top_height
    split_ifs
    · exact RightRotation_nonnull r hn
    · exact hn

/-- C33: for a node `N` whose two subtrees satisfy the balance and height
invariants: when the balance factor `height(right) - height(left)` of `N` is
-2 or +2, the subtree `Balancing(N)` satisfies the balance and height
invariants at every node, its stored heights being the actual ones, and has the
in-order entry sequence of `N`; when the balance factor is -1, 0 or 1,
`Balancing(N)` is `N`, unchanged. -/
theorem balancing_restores_invariants (a : Nat) (k : Key) (v : Value) (p : Option Nat)
    (l r : node Key Value) (h : Int) (hl : AVLInv l) (hr : AVLInv r) :
    ((GetBalanceNum (.mk a k v p l r h) = -2 ∨ GetBalanceNum (.mk a k v p l r h) = 2) →
      AVLInv (Balancing (.mk a k v p l r h)) ∧ AVLActual (Balancing (.mk a k v p l r h)) ∧
      inorder (Balancing (.mk a k v p l r h)) = inorder (.mk a k v p l r h)) ∧
    ((GetBalanceNum (.mk a k v p l r h) = -1 ∨ GetBalanceNum (.mk a k v p l r h) = 0 ∨
        GetBalanceNum (.mk a k v p l r h) = 1) →
      Balancing (.mk a k v p l r h) = .mk a k v p l r h) := by
  simp only [GetBalanceNum]
  constructor
  · intro hb
    have e := Balancing_top_height a k v p l r h
      (max (GetHeightNum l) (GetHeightNum r) + 1) hl hr hb
    have hb2 : |GetHeightNum r - GetHeightNum l| ≤ 2 := by
      rw [abs_le]; omega
    have key := (Balancing_SetHeight_AVLInv a k v p l r h hl hr hb2).1
    simp only [SetHeight] at key
    rw [← e] at key
    exact ⟨key, AVLInv_imp_AVLActual _ key, inorder_Balancing _⟩
  · intro hb
    simp only [Balancing]
    rw [if_neg (by omega), if_neg (by omega)]

theorem balancing_restores_invariants_witness :
    (AVLInv (.mk 1 20 2 (some 0) (.mk 3 10 1 (some 1) .nullptr .nullptr 0)
      (.nullptr : node Nat Nat) 1) ∧ AVLInv (.nullptr : node Nat Nat)) ∧
    AVLInv (Balancing (.mk 0 40 4 none (.mk 1 20 2 (some 0)
      (.mk 3 10 1 (some 1) .nullptr .nullptr 0) (.nullptr : node Nat Nat) 1) .nullptr 2)) ∧
    inorder (Balancing (.mk 0 40 4 none (.mk 1 20 2 (some 0)
      (.mk 3 10 1 (some 1) .nullptr .nullptr 0) (.nullptr : node Nat Nat) 1) .nullptr 2)) =
      [(10, 1), (20, 2), (40, 4)] := by
  have hl : AVLInv (.mk 1 20 2 (some 0) (.mk 3 10 1 (some 1) .nullptr .nullptr 0)
      (.nullptr : node Nat Nat) 1) := by
    simp [AVLInv]
  have hr : AVLInv (.nullptr : node Nat Nat) := trivial
  obtain ⟨k1, _⟩ := balancing_restores_invariants 0 40 4 none _ _ 2 hl hr
  obtain ⟨r1, _, r3⟩ := k1 (Or.inl (by decide))
  exact ⟨⟨hl, hr⟩, r1, r3.trans (by decide)⟩

/-! ## Size against height -/

theorem fib_le_size (t : node Key Value) (ht : AVLInv t) :
    Nat.fib (GetHeightNum t + 3).toNat ≤ RecursiveSize t + 1 := by
  induction t with
  | nullptr => simp [GetHeightNum, RecursiveSize]
  | mk a k v p l r h ihl ihr =>
    obtain ⟨hl, hr, hb, he⟩ := ht
    have il := ihl hl
    have ir := ihr hr
    have hlge := AVLInv_height_ge l hl
    have hrge := AVLInv_height_ge r hr
    rw [abs_le] at hb
    simp only [GetHeightNum_mk, RecursiveSize]
    obtain ⟨x, hx⟩ : ∃ x : Nat, GetHeightNum l = (x : Int) - 1 := ⟨(GetHeightNum l + 1).toNat, by omega⟩
    obtain ⟨y, hy⟩ : ∃ y : Nat, GetHeightNum r = (y : Int) - 1 := ⟨(GetHeightNum r + 1).toNat, by omega⟩
    rw [hx] at il
    rw [hy] at ir
    rw [show ((x : Int) - 1 + 3).toNat = x + 2 by omega] at il
    rw [show ((y : Int) - 1 + 3).toNat = y + 2 by omega] at ir
    rw [he, hx, hy]
    rcases Nat.lt_trichotomy x y with hxy | hxy | hxy
    · have e : y = x + 1 := by omega
      subst e
      rw [show (1 + max ((x : Int) - 1) (((x + 1 : Nat) : Int) - 1) + 3).toNat = x + 4 by omega]
      have e1 : Nat.fib (x + 4) = Nat.fib (x + 2) + Nat.fib (x + 3) := Nat.fib_add_two
      have ir1 : Nat.fib (x + 3) ≤ RecursiveSize r + 1 := ir
      omega
    · subst hxy
      rw [show (1 + max ((x : Int) - 1) ((x : Int) - 1) + 3).toNat = x + 3 by omega]
      have e1 : Nat.fib (x + 3) = Nat.fib (x + 1) + Nat.fib (x + 2) := Nat.fib_add_two
      have e2 : Nat.fib (x + 1) ≤ Nat.fib (x + 2) := Nat.fib_le_fib_succ
      omega
    · have e : x = y + 1 := by omega
      subst e
      rw [show (1 + max (((y + 1 : Nat) : Int) - 1) ((y : Int) - 1) + 3).toNat = y + 4 by omega]
      have e1 : Nat.fib (y + 4) = Nat.fib (y + 2) + Nat.fib (y + 3) := Nat.fib_add_two
      have il1 : Nat.fib (y + 3) ≤ RecursiveSize l + 1 := il
      omega

theorem two_pow_le_fib (n : Nat) : 2 ^ n ≤ Nat.fib (2 * n + 1) := by
  induction n with
  | zero => simp
  | succ n ih =>
    rw [show 2 * (n + 1) + 1 = (2 * n + 1) + 2 by ring, Nat.fib_add_two, pow_succ]
    have := Nat.fib_le_fib_succ (n := 2 * n + 1)
    omega

/-- C38: for a non-empty tree reachable by inserts and erases, with stored
root height `h` (0 for a single node, and the actual height of the tree):
`size() ≥ fib(h + 3) - 1`, `fib` being the sequence with `fib(1) = fib(2) = 1`
and `fib(n + 2) = fib(n + 1) + fib(n)`; hence the number `h + 1` of nodes on
the longest walk from the root down is at most `2 * log2(size() + 1)`. -/
theorem size_at_least_fib [LinearOrder Key] (t : AVLTree Key Value) (ht : Reachable t)
    (hne : t.isEmpty = false) :
    0 ≤ GetHeightNum t.root ∧ GetHeightNum t.root = height t.root ∧
    Nat.fib ((GetHeightNum t.root).toNat + 3) - 1 ≤ t.size ∧
    (Nat.fib 1 = 1 ∧ Nat.fib 2 = 1 ∧ ∀ n, Nat.fib (n + 2) = Nat.fib (n + 1) + Nat.fib n) ∧
    (GetHeightNum t.root).toNat + 1 ≤ 2 * Nat.log 2 (t.size + 1) ∧
    (∀ k v, GetHeightNum (node.new t.alloc k v none : node Key Value) = 0) := by
  have hinv := Built_AVLInv ht
  have h0 : 0 ≤ GetHeightNum t.root := by
    cases hr : t.root with
    | nullptr => simp [AVLTree.isEmpty, hr, node.isNull] at hne
    | mk a k v p l r h =>
      rw [hr] at hinv
      obtain ⟨hl, hr', _, he⟩ := hinv
      have := AVLInv_height_ge l hl
      simp only [GetHeightNum_mk]
      omega
  have hf := fib_le_size t.root hinv
  have e : (GetHeightNum t.root + 3).toNat = (GetHeightNum t.root).toNat + 3 := by omega
  rw [e] at hf
  refine ⟨h0, AVLInv_stored_eq_height _ hinv, ?_, ⟨rfl, rfl, ?_⟩, ?_, ?_⟩
  · unfold AVLTree.size
    omega
  · intro n
    rw [Nat.fib_add_two, Nat.add_comm]
  · unfold AVLTree.size
    set n := (GetHeightNum t.root).toNat with hn
    have h1 : 2 ^ ((n + 2) / 2) ≤ RecursiveSize t.root + 1 :=
      le_trans (two_pow_le_fib _) (le_trans (Nat.fib_mono (by omega)) hf)
    have h2 : (n + 2) / 2 ≤ Nat.log 2 (RecursiveSize t.root + 1) :=
      Nat.le_log_of_pow_le (by decide) h1
    omega
  · intro k v
    rfl

theorem size_at_least_fib_witness :
    (Reachable sixKeys ∧ sixKeys.isEmpty = false) ∧
    (0 ≤ GetHeightNum sixKeys.root ∧ GetHeightNum sixKeys.root = height sixKeys.root ∧
    Nat.fib ((GetHeightNum sixKeys.root).toNat + 3) - 1 ≤ sixKeys.size ∧
    (Nat.fib 1 = 1 ∧ Nat.fib 2 = 1 ∧ ∀ n, Nat.fib (n + 2) = Nat.fib (n + 1) + Nat.fib n) ∧
    (GetHeightNum sixKeys.root).toNat + 1 ≤ 2 * Nat.log 2 (sixKeys.size + 1) ∧
    (∀ k v, GetHeightNum (node.new sixKeys.alloc k v none : node Nat Nat) = 0)) ∧
    GetHeightNum sixKeys.root = 2 ∧ sixKeys.size = 6 :=
  ⟨⟨Built.mono (insertAll_built _ _ Built.empty), by decide⟩,
    size_at_least_fib sixKeys (Built.mono (insertAll_built _ _ Built.empty)) (by decide),
    by decide, by decide⟩


/-! ## Backward steps and whole walks -/

theorem climb_from_left_mono (mem : node Key Value) :
    ∀ (f f' : Nat) (prev : Nat) (cur : Option Nat) (x : Option Nat),
      climb_from_left mem f prev cur = some x → f ≤ f' →
      climb_from_left mem f' prev cur = some x := by
  intro f
  induction f with
  | zero =>
    intro f' prev cur x h _
    cases cur with
    | none => cases f' <;> simpa [climb_from_left] using h
    | some c => simp [climb_from_left] at h
  | succ n ih =>
    intro f' prev cur x h hle
    cases cur with
    | none => cases f' <;> simpa [climb_from_left] using h
    | some c =>
      obtain ⟨m, rfl⟩ : ∃ m, f' = m + 1 := ⟨f' - 1, by omega⟩
      simp only [climb_from_left] at h ⊢
      cases hl : lookup c mem with
      | nullptr => rw [hl] at h; simp at h
      | mk b k v p l r ht =>
        rw [hl] at h
        simp only [] at h ⊢
        split_ifs at h ⊢ with c1
        · exact ih m c p x h (by omega)
        · exact h

theorem decNode_mono (mem : node Key Value) (f f' : Nat) (x : Nat) (y : Option Nat)
    (h : decNode mem f x = some y) (hle : f ≤ f') : decNode mem f' x = some y := by
  unfold decNode Iterator.decrement at h ⊢
  simp only [] at h ⊢
  cases hl : lookup x mem with
  | nullptr => rw [hl] at h; simp at h
  | mk b k v p l r ht =>
    rw [hl] at h
    cases l with
    | nullptr =>
      simp only [] at h ⊢
      cases hc : climb_from_left mem f x p with
      | none => rw [hc] at h; simp at h
      | some z =>
        rw [hc] at h
        rw [climb_from_left_mono mem f f' x p z hc hle]
        exact h
    | mk rb rk rv rp rl rr rh => exact h

theorem DecChain_mono (mem : node Key Value) (f f' : Nat) (hle : f ≤ f') :
    ∀ (L : List Nat) (e : Option Nat), DecChain mem f L e → DecChain mem f' L e := by
  intro L
  induction L with
  | nil => intro e _; trivial
  | cons x rest ih =>
    intro e h
    exact ⟨decNode_mono mem f f' x _ h.1 hle, ih e h.2⟩

theorem DecChain_append (mem : node Key Value) (f : Nat) (L2 : List Nat) (e : Option Nat) :
    ∀ L1 : List Nat, DecChain mem f L1 (L2.head?.or e) → DecChain mem f L2 e →
      DecChain mem f (L1 ++ L2) e := by
  intro L1
  induction L1 with
  | nil => intro _ h2; exact h2
  | cons x rest ih =>
    intro h1 h2
    refine ⟨?_, ih h1.2 h2⟩
    have := h1.1
    cases rest with
    | nil => simpa using this
    | cons y ys => simpa using this

theorem DecChain_get (mem : node Key Value) (f : Nat) (e : Option Nat) :
    ∀ (L : List Nat) (i : Nat) (x : Nat), DecChain mem f L e → L[i]? = some x →
      decNode mem f x = some (L[i + 1]?.or e) := by
  intro L
  induction L with
  | nil => intro i x _ hx; simp at hx
  | cons y rest ih =>
    intro i x h hx
    cases i with
    | zero =>
      simp only [List.getElem?_cons_zero, Option.some.injEq] at hx
      subst hx
      have := h.1
      cases rest <;> simpa using this
    | succ n =>
      simp only [List.getElem?_cons_succ] at hx ⊢
      exact ih n x h.2 hx

theorem decNode_of_lookup_leafleft (mem : node Key Value) (f : Nat) (a : Nat) (k : Key)
    (v : Value) (p : Option Nat) (r : node Key Value) (h : Int)
    (hl : lookup a mem = .mk a k v p .nullptr r h) :
    decNode mem f a = climb_from_left mem f a p := by
  unfold decNode Iterator.decrement
  simp only [hl]
  cases climb_from_left mem f a p <;> rfl

theorem decNode_of_lookup_left (mem : node Key Value) (f : Nat) (a : Nat) (k : Key)
    (v : Value) (p : Option Nat) (r : node Key Value) (h : Int)
    (la : Nat) (lk : Key) (lv : Value) (lp : Option Nat) (ll lr : node Key Value) (lh : Int)
    (hl : lookup a mem = .mk a k v p (.mk la lk lv lp ll lr lh) r h) :
    decNode mem f a = some (addrs (.mk la lk lv lp ll lr lh)).reverse.head? := by
  unfold decNode Iterator.decrement
  simp only [hl]
  obtain ⟨ma, mk, mv, mp, ml, mh, rest, e1, e2⟩ := GetMaxNode_spec (.mk la lk lv lp ll lr lh) rfl
  rw [e1, ← cells_map_fst, e2]
  simp [node.addrOf]

/-- Mirror image of `subtree_IncChain`: within a subtree with consistent parent
links `--` walks the nodes in reverse in-order sequence and leaves the subtree
towards the node the climb from its top node ends at. -/
theorem subtree_DecChain (R : node Key Value) (hd : (addrs R).Nodup) (T : node Key Value) :
    ∀ (q e : Option Nat) (f : Nat), (T.isNull = true ∨ nodeOf T R) → ParentsOK q T →
      (∀ a, T.addrOf = some a → climb_from_left R f a q = some e) →
      DecChain R (f + RecursiveSize T) (addrs T).reverse e := by
  induction T with
  | nullptr => intro q e f _ _ _; trivial
  | mk a k v p l r h ihl ihr =>
    intro q e f hT hq hexit
    have hT : nodeOf (.mk a k v p l r h) R := by
      rcases hT with h1 | h1
      · simp [node.isNull] at h1
      · exact h1
    obtain ⟨hp, hpl, hpr⟩ := hq
    subst hp
    have hlook := lookup_nodeOf a k v p l r h R hd hT
    have hnd : (addrs (.mk a k v p l r h)).Nodup := hd.sublist (nodeOf_addrs_sublist _ _ hT)
    simp only [addrs, List.nodup_append, List.nodup_cons] at hnd
    obtain ⟨_, ⟨har, _⟩, hdis⟩ := hnd
    have hex := hexit a rfl
    simp only [addrs, RecursiveSize, List.reverse_append, List.reverse_cons, List.append_assoc,
      List.singleton_append]
    refine DecChain_append R _ _ e _ ?_ ⟨?_, ?_⟩
    · -- the right subtree leads to the node itself
      simp only [List.head?_cons, Option.or_some]
      cases r with
      | nullptr => trivial
      | mk ra rk rv rp rl rr rh =>
        have hr : nodeOf (.mk ra rk rv rp rl rr rh) R :=
          nodeOf_trans _ (.mk a k v p l (.mk ra rk rv rp rl rr rh) h) R
            (Or.inr (Or.inr (nodeOf_self _ _ _ _ _ _ _))) hT
        have hne : l.addrOf ≠ some ra := by
          intro hc
          exact hdis (addrOf_mem_addrs l ra hc) (List.mem_cons_of_mem _ (by simp [addrs]))
        have hclimb : ∀ b, (node.mk ra rk rv rp rl rr rh).addrOf = some b →
            climb_from_left R 1 b (some a) = some (some a) := by
          intro b hb
          simp only [node.addrOf, Option.some.injEq] at hb
          subst hb
          simp [climb_from_left, hlook, hne]
        have := ihr (some a) (some a) 1 (Or.inr hr) hpr hclimb
        exact DecChain_mono R _ _ (by omega) _ _ this
    · -- the node itself
      cases l with
      | nullptr =>
        rw [decNode_of_lookup_leafleft R _ a k v p r h hlook]
        simp only [addrs, List.reverse_nil, List.head?_nil, Option.none_or]
        exact climb_from_left_mono R f _ a p e hex (by omega)
      | mk la lk lv lp ll lr lh =>
        rw [decNode_of_lookup_left R _ a k v p r h la lk lv lp ll lr lh hlook]
        have : (addrs (node.mk la lk lv lp ll lr lh)).reverse.head? ≠ none := by
          obtain ⟨ma, mk, mv, mp, ml, mh, rest, _, e2⟩ :=
            GetMaxNode_spec (.mk la lk lv lp ll lr lh) rfl
          rw [← cells_map_fst, e2]; simp
        cases hh : (addrs (node.mk la lk lv lp ll lr lh)).reverse.head? with
        | none => exact absurd hh this
        | some y => simp
    · -- the left subtree leads where the node leads
      cases l with
      | nullptr => trivial
      | mk la lk lv lp ll lr lh =>
        have hl : nodeOf (.mk la lk lv lp ll lr lh) R :=
          nodeOf_trans _ (.mk a k v p (.mk la lk lv lp ll lr lh) r h) R
            (Or.inr (Or.inl (nodeOf_self _ _ _ _ _ _ _))) hT
        have hclimb : ∀ b, (node.mk la lk lv lp ll lr lh).addrOf = some b →
            climb_from_left R (f + 1) b (some a) = some e := by
          intro b hb
          simp only [node.addrOf, Option.some.injEq] at hb
          subst hb
          simp only [climb_from_left, hlook, node.addrOf, if_true]
          exact hex
        have := ihl (some a) e (f + 1) (Or.inr hl) hpl hclimb
        exact DecChain_mono R _ _ (by simp only [RecursiveSize]; omega) _ _ this

/-- In a tree with distinct addresses and consistent parent links, `--` leads
from every node to its in-order predecessor and from the first node to a null
`it_node`. -/
theorem tree_DecChain (R : node Key Value) (hd : (addrs R).Nodup) (hp : ParentsOK none R) :
    DecChain R (RecursiveSize R) (addrs R).reverse none := by
  have := subtree_DecChain R hd R none none 0 (by
    cases R with
    | nullptr => exact Or.inl rfl
    | mk a k v p l r h => exact Or.inr (nodeOf_self _ _ _ _ _ _ _)) hp
    (fun a _ => by cases a <;> rfl)
  simpa using this

theorem decrement_eq_decNode (mem : node Key Value) (f : Nat) (x : Nat) (pv : Option Nat) :
    Iterator.decrement mem f { it_node := some x, it_prev_node := pv } =
      (decNode mem f x).map (fun n => { it_node := n, it_prev_node := pv }) := by
  unfold decNode Iterator.decrement
  simp only []
  cases lookup x mem with
  | nullptr => rfl
  | mk b k v p l r h =>
    cases l with
    | nullptr =>
      simp only []
      cases climb_from_left mem f x p <;> rfl
    | mk rb rk rv rp rl rr rh => rfl

/-- In a tree with distinct addresses and consistent parent links, `++` at the
node of in-order position `i` gives the node of position `i + 1` (the null
`it_node` after the last). -/
theorem increment_at_index (R : node Key Value) (hd : (addrs R).Nodup)
    (hp : ParentsOK none R) (F : Nat) (hF : RecursiveSize R ≤ F) (i x : Nat) (pv : Option Nat)
    (hx : (addrs R)[i]? = some x) :
    Iterator.increment R F { it_node := some x, it_prev_node := pv } =
      some { it_node := (addrs R)[i + 1]?, it_prev_node := pv } := by
  have hc := IncChain_mono R _ F hF _ _ (tree_IncChain R hd hp)
  rw [increment_eq_incNode, IncChain_get R F none _ i x hc hx]
  simp

/-- In such a tree `--` at the node of in-order position `i + 1` gives the node
of position `i`. -/
theorem decrement_at_index (R : node Key Value) (hd : (addrs R).Nodup)
    (hp : ParentsOK none R) (F : Nat) (hF : RecursiveSize R ≤ F) (i x : Nat) (pv : Option Nat)
    (hx : (addrs R)[i + 1]? = some x) :
    Iterator.decrement R F { it_node := some x, it_prev_node := pv } =
      some { it_node := (addrs R)[i]?, it_prev_node := pv } := by
  have hc := DecChain_mono R _ F hF _ _ (tree_DecChain R hd hp)
  have hlt : i + 1 < (addrs R).length := by
    by_contra hcon
    rw [List.getElem?_eq_none (by omega)] at hx
    cases hx
  have hj : (addrs R).reverse[(addrs R).length - 1 - (i + 1)]? = some x := by
    rw [List.getElem?_reverse (by omega)]
    rw [show (addrs R).length - 1 - ((addrs R).length - 1 - (i + 1)) = i + 1 by omega]
    exact hx
  rw [decrement_eq_decNode, DecChain_get R F none _ _ x hc hj]
  rw [List.getElem?_reverse (by omega)]
  rw [show (addrs R).length - 1 - ((addrs R).length - 1 - (i + 1) + 1) = i by omega]
  simp

theorem advance_at_index (R : node Key Value) (hd : (addrs R).Nodup)
    (hp : ParentsOK none R) (F : Nat) (hF : RecursiveSize R ≤ F) :
    ∀ (n i : Nat) (pv : Option Nat), i + n ≤ (addrs R).length →
      Iterator.advance R F n { it_node := (addrs R)[i]?, it_prev_node := pv } =
        some { it_node := (addrs R)[i + n]?, it_prev_node := pv } := by
  intro n
  induction n with
  | zero => intro i pv _; rfl
  | succ n ih =>
    intro i pv hle
    obtain ⟨x, hx⟩ : ∃ x, (addrs R)[i]? = some x :=
      ⟨(addrs R)[i], List.getElem?_eq_getElem (by omega)⟩
    simp only [Iterator.advance]
    rw [hx, increment_at_index R hd hp F hF i x pv hx]
    simp only [Option.some_bind]
    rw [ih (i + 1) pv (by omega)]
    rw [show i + 1 + n = i + (n + 1) by omega]

theorem begin_it_node (t : AVLTree Key Value) : t.begin.it_node = (addrs t.root)[0]? := by
  unfold AVLTree.begin
  simp only []
  cases hr : t.root with
  | nullptr => rfl
  | mk a k v p l r h =>
    obtain ⟨ma, mk, mv, mp, mr, mh, rest, e1, e2⟩ := GetMinNode_spec (.mk a k v p l r h) rfl
    rw [e1, ← cells_map_fst, e2]
    simp [node.addrOf]

theorem twoKeys_built : Built false false twoKeys :=
  Built.insert 20 20 false (fun h => by cases h)
    (Built.insert 10 10 false (fun h => by cases h) Built.empty)

/-- C34: in a tree built from the empty tree by insert calls only (either
duplicate mode), with fuel for the loop of every `++`: for every `i < size()`,
`i` applications of `++` to `begin()` return an iterator that differs from
`end()` and dereferences to the key of the entry at in-order position `i`; and
`size()` applications return an iterator equal to `end()`. -/
theorem forward_walk_in_order [LinearOrder Key] {d : Bool} (t : AVLTree Key Value)
    (ht : Built d false t) (fuel : Nat) (hf : t.size ≤ fuel) :
    (∀ i, i < t.size → ∃ it k v, Iterator.advance t.root fuel i t.begin = some it ∧
      (inorder t.root)[i]? = some (k, v) ∧ it.deref t.root = .ok k ∧ it.eq t.end = false) ∧
    (∃ it, Iterator.advance t.root fuel t.size t.begin = some it ∧ it.eq t.end = true) := by
  have hd := (Built_addrs ht).1
  have hp := Built_ParentsOK ht
  have hlen : (addrs t.root).length = t.size := addrs_length t.root
  have hb : t.begin = { it_node := (addrs t.root)[0]?, it_prev_node := none } := by
    rw [← begin_it_node]
    rfl
  have hadv := advance_at_index t.root hd hp fuel hf
  constructor
  · intro i hi
    have hc : i < (cells t.root).length := by rw [cells_length]; omega
    have hcell : (cells t.root)[i]? = some (cells t.root)[i] := List.getElem?_eq_getElem hc
    have ha : (addrs t.root)[i]? = some (cells t.root)[i].1 := by
      rw [← cells_map_fst, List.getElem?_map, hcell]
      rfl
    refine ⟨{ it_node := (addrs t.root)[0 + i]?, it_prev_node := none },
      (cells t.root)[i].2.1, (cells t.root)[i].2.2, ?_, ?_, ?_, ?_⟩
    · rw [hb, hadv i 0 none (by omega)]
    · rw [← cells_map_snd, List.getElem?_map, hcell]
      rfl
    · apply deref_of_cell t.root _ (cells t.root)[i].1 _ (cells t.root)[i].2.2 hd
      · simp only [Nat.zero_add]
        exact ha
      · exact List.getElem_mem _
    · simp only [Iterator.eq, AVLTree.end, Nat.zero_add, ha]
      rfl
  · refine ⟨{ it_node := (addrs t.root)[0 + t.size]?, it_prev_node := none }, ?_, ?_⟩
    · rw [hb, hadv t.size 0 none (by omega)]
    · simp only [Iterator.eq, AVLTree.end, Nat.zero_add]
      rw [List.getElem?_eq_none (by omega)]
      rfl

theorem forward_walk_in_order_witness :
    (Built false false twoKeys ∧ twoKeys.size ≤ 2) ∧
    ((∀ i, i < twoKeys.size → ∃ it k v, Iterator.advance twoKeys.root 2 i twoKeys.begin = some it ∧
      (inorder twoKeys.root)[i]? = some (k, v) ∧ it.deref twoKeys.root = .ok k ∧
      it.eq twoKeys.end = false) ∧
    (∃ it, Iterator.advance twoKeys.root 2 twoKeys.size twoKeys.begin = some it ∧
      it.eq twoKeys.end = true)) ∧
    twoKeys.size = 2 ∧ inorder twoKeys.root = [(10, 10), (20, 20)] :=
  ⟨⟨twoKeys_built, by decide⟩, forward_walk_in_order twoKeys twoKeys_built 2 (by decide),
    by decide, by decide⟩

/-- C35: in a tree built from the empty tree by insert calls only, with fuel
for the loops, for the iterator `it` at the node of in-order position `i`: when
the entry is not the last one, `++it` is at an entry and `--` of it returns
`it` again; when the entry is not the first one, `--it` is at an entry and `++`
of it returns `it` again (the same `it_node`, which is what `==` compares, and
the same `it_prev_node`). -/
theorem increment_decrement_inverse [LinearOrder Key] {d : Bool} (t : AVLTree Key Value)
    (ht : Built d false t) (fuel : Nat) (hf : t.size ≤ fuel) (i x : Nat) (pv : Option Nat)
    (hx : (addrs t.root)[i]? = some x) :
    (i + 1 < t.size → ∃ it1, Iterator.increment t.root fuel ⟨some x, pv⟩ = some it1 ∧
      it1.it_node = (addrs t.root)[i + 1]? ∧ it1.eq t.end = false ∧
      Iterator.decrement t.root fuel it1 = some ⟨some x, pv⟩ ∧
      (Iterator.mk (some x) pv).eq ⟨some x, pv⟩ = true) ∧
    (0 < i → ∃ it1, Iterator.decrement t.root fuel ⟨some x, pv⟩ = some it1 ∧
      it1.it_node = (addrs t.root)[i - 1]? ∧ it1.eq t.end = false ∧
      Iterator.increment t.root fuel it1 = some ⟨some x, pv⟩) := by
  have hd := (Built_addrs ht).1
  have hp := Built_ParentsOK ht
  have hlen : (addrs t.root).length = t.size := addrs_length t.root
  constructor
  · intro hi
    obtain ⟨y, hy⟩ : ∃ y, (addrs t.root)[i + 1]? = some y :=
      ⟨(addrs t.root)[i + 1], List.getElem?_eq_getElem (by omega)⟩
    refine ⟨_, increment_at_index t.root hd hp fuel hf i x pv hx, rfl, ?_, ?_, ?_⟩
    · simp [Iterator.eq, AVLTree.end, hy]
    · simp only [hy]
      rw [decrement_at_index t.root hd hp fuel hf i y pv hy, hx]
    · simp [Iterator.eq]
  · intro hi
    obtain ⟨j, rfl⟩ : ∃ j, i = j + 1 := ⟨i - 1, by omega⟩
    have hj : j < (addrs t.root).length := by
      by_contra hcon
      rw [List.getElem?_eq_none (by omega)] at hx
      cases hx
    obtain ⟨y, hy⟩ : ∃ y, (addrs t.root)[j]? = some y :=
      ⟨(addrs t.root)[j], List.getElem?_eq_getElem hj⟩
    refine ⟨_, decrement_at_index t.root hd hp fuel hf j x pv hx, rfl, ?_, ?_⟩
    · simp [Iterator.eq, AVLTree.end, hy]
    · simp only [hy]
      rw [increment_at_index t.root hd hp fuel hf j y pv hy, hx]

theorem increment_decrement_inverse_witness :
    (Built false false twoKeys ∧ twoKeys.size ≤ 2 ∧ (addrs twoKeys.root)[0]? = some 0) ∧
    ((0 + 1 < twoKeys.size → ∃ it1, Iterator.increment twoKeys.root 2 ⟨some 0, none⟩ = some it1 ∧
      it1.it_node = (addrs twoKeys.root)[0 + 1]? ∧ it1.eq twoKeys.end = false ∧
      Iterator.decrement twoKeys.root 2 it1 = some ⟨some 0, none⟩ ∧
      (Iterator.mk (some 0) none).eq ⟨some 0, none⟩ = true) ∧
    (0 < 0 → ∃ it1, Iterator.decrement twoKeys.root 2 ⟨some 0, none⟩ = some it1 ∧
      it1.it_node = (addrs twoKeys.root)[0 - 1]? ∧ it1.eq twoKeys.end = false ∧
      Iterator.increment twoKeys.root 2 it1 = some ⟨some 0, none⟩)) ∧
    0 + 1 < twoKeys.size :=
  ⟨⟨twoKeys_built, by decide, by decide⟩,
    increment_decrement_inverse twoKeys twoKeys_built 2 (by decide) 0 0 none (by decide),
    by decide⟩


/-! ## The queue a move leaves behind -/

/-- C39 on the code: `push(1); push(2)` on a new queue gives a queue with
`capacity_` 2; moving from it (by the constructor or by the assignment) leaves
the source with `size_`, `capacity_`, `front_`, `back_` all 0, so the safety
conditions (`capacity_ ≥ 1` among them) fail on a state that `empty()` reports
as an empty queue; `push(3)` on it
calls `resize(0)`, which allocates no cell, and then writes `data_[0]` and
takes `(back_ + 1) % 0`: undefined behaviour. -/
theorem push_on_moved_from_queue :
    Queue.run (Queue.new : Queue Nat) [.push 1, .push 2] = .ok twoPushed ∧
    Queue.move_construct twoPushed = (twoPushed, movedFrom) ∧
    Queue.move_assign (Queue.new : Queue Nat) twoPushed = (twoPushed, movedFrom) ∧
    movedFrom = ⟨[], 0, 0, 0, 0⟩ ∧
    movedFrom.empty = true ∧ movedFrom.capacity_ = 0 ∧ ¬ movedFrom.Safe ∧
    movedFrom.resize (size_t (movedFrom.capacity_ * 2)) = .ok ⟨[], 0, 0, 0, 0⟩ ∧
    Queue.store (⟨[], 0, 0, 0, 0⟩ : Queue Nat) 3 = .error .undefined_behaviour ∧
    movedFrom.push (.object 3) = .error .undefined_behaviour ∧
    Queue.run movedFrom [.push 3] = .error .undefined_behaviour :=
  ⟨rfl, rfl, rfl, rfl, rfl, rfl, fun h => absurd h.1 (by decide), rfl, rfl, rfl, rfl⟩

/-! ## The list as a double-ended sequence -/

theorem Linked_lt (heap : List (Option (ListNode T))) :
    ∀ (cells : List (Nat × T)) (p e : Option Nat), Linked heap p cells e →
      ∀ b ∈ cells.map Prod.fst, b < heap.length := by
  intro cells
  induction cells with
  | nil => intro p e _ b hb; simp at hb
  | cons c rest ih =>
    intro p e h b hb
    obtain ⟨a, x⟩ := c
    obtain ⟨h1, h2⟩ := h
    simp only [List.map_cons, List.mem_cons] at hb
    rcases hb with rfl | hb
    · by_contra hcon
      rw [List.getElem?_eq_none (by omega)] at h1
      cases h1
    · exact ih _ _ h2 b hb

theorem Linked_congr (heap heap' : List (Option (ListNode T))) :
    ∀ (cells : List (Nat × T)) (p e : Option Nat),
      (∀ b ∈ cells.map Prod.fst, heap'[b]? = heap[b]?) → Linked heap p cells e →
      Linked heap' p cells e := by
  intro cells
  induction cells with
  | nil => intro p e _ _; trivial
  | cons c rest ih =>
    intro p e hag h
    obtain ⟨a, x⟩ := c
    obtain ⟨h1, h2⟩ := h
    refine ⟨?_, ih _ _ (fun b hb => hag b (by simp only [List.map_cons]; exact List.mem_cons_of_mem _ hb)) h2⟩
    rw [hag a (by simp)]
    exact h1

/-- A segment ending in the cell `(t, y)`: the segment before it leads to `t`,
and the node at `t` names the last node before it and the exit. -/
theorem Linked_snoc (heap : List (Option (ListNode T))) (t : Nat) (y : T) (e : Option Nat) :
    ∀ (init : List (Nat × T)) (p : Option Nat),
      Linked heap p (init ++ [(t, y)]) e ↔
        (Linked heap p init (some t) ∧
          heap[t]? = some (some { data := y, prev := (init.getLast?.map Prod.fst).or p,
                                  next := e })) := by
  intro init
  induction init with
  | nil => intro p; simp [Linked]
  | cons c rest ih =>
    intro p
    obtain ⟨a, x⟩ := c
    cases rest with
    | nil => simp [Linked]
    | cons c2 rest2 =>
      have := ih (some a)
      simp only [List.cons_append, Linked, List.head?_cons, Option.map_some', Option.or_some,
        List.getLast?_cons_cons] at this ⊢
      rw [this]
      have e1 : ((c2 :: rest2).getLast?.map Prod.fst).or (some a) =
          ((c2 :: rest2).getLast?.map Prod.fst).or p := by
        cases hg : (c2 :: rest2).getLast? with
        | none => simp at hg
        | some z => rfl
      rw [e1]
      tauto

theorem get_heap_new (heap : List (Option (ListNode T))) (z : Option (ListNode T)) :
    (heap ++ [z])[heap.length]? = some z := by
  simp

theorem get_heap_old (heap : List (Option (ListNode T))) (z : Option (ListNode T)) (b : Nat)
    (hb : b < heap.length) : (heap ++ [z])[b]? = heap[b]? :=
  List.getElem?_append_left hb

theorem size_t_succ (n : Nat) (h : n + 1 < 2 ^ 64) : size_t (n + 1) = n + 1 :=
  Nat.mod_eq_of_lt h

theorem size_t_dec (n : Nat) (h : n + 1 < 2 ^ 64) : size_t (n + 1 + (2 ^ 64 - 1)) = n := by
  unfold size_t
  omega

theorem push_front_rep (l : list T) (cells : List (Nat × T)) (x : T) (hr : l.Rep cells)
    (hn : cells.length + 1 < 2 ^ 64) :
    ∃ l1, l.push_front x = .ok l1 ∧ l1.Rep ((l.heap.length, x) :: cells) := by
  obtain ⟨hL, hnd, hh, ht, hs⟩ := hr
  have hlt := Linked_lt l.heap cells none none hL
  have hfresh : l.heap.length ∉ cells.map Prod.fst := fun hc => by
    have := hlt _ hc
    omega
  cases cells with
  | nil =>
    simp only [List.head?_nil, Option.map_none'] at hh
    refine ⟨_, by unfold list.push_front; simp only [hh]; rfl, ?_⟩
    refine ⟨⟨?_, trivial⟩, by simp, rfl, rfl, ?_⟩
    · simp
    · simp only [hs, List.length_nil, List.length_singleton]
      exact size_t_succ 0 (by decide)
  | cons c rest =>
    obtain ⟨h, y⟩ := c
    simp only [List.head?_cons, Option.map_some'] at hh
    obtain ⟨h1, h2⟩ := hL
    have hlen : h < l.heap.length := hlt h (by simp)
    have hne : h ≠ l.heap.length := by omega
    have e1 : (l.heap ++ [some { data := x, prev := none, next := none }])[h]? =
        some (some { data := y, prev := none,
                     next := (rest.head?.map Prod.fst).or none }) := by
      rw [get_heap_old _ _ _ hlen]
      exact h1
    refine ⟨_, by unfold list.push_front; simp only [hh, e1]; rfl, ?_⟩
    simp only [List.map_cons, List.nodup_cons] at hnd hfresh
    refine ⟨⟨?_, ?_, ?_⟩, ?_, rfl, ?_, ?_⟩
    · simp only [List.head?_cons, Option.map_some', Option.or_some]
      rw [List.getElem?_set_self (by simp)]
    · rw [List.getElem?_set_ne (Ne.symm hne), List.getElem?_set_self (by simp; omega)]
    · apply Linked_congr l.heap _ rest (some h) none ?_ h2
      intro b hb
      have hb1 : b < l.heap.length := hlt b (by simp only [List.map_cons]; exact List.mem_cons_of_mem _ hb)
      have hb2 : b ≠ h := fun hc => hnd.1 (hc ▸ hb)
      rw [List.getElem?_set_ne (by omega), List.getElem?_set_ne (Ne.symm hb2),
        get_heap_old _ _ _ hb1]
    · simp only [List.map_cons, List.nodup_cons]
      exact ⟨hfresh, hnd⟩
    · simp only [ht]
      rw [List.getLast?_cons_cons]
    · simp only [hs, List.length_cons]
      exact size_t_succ _ hn

theorem eq_nil_or_snoc {α : Type} (l : List α) : l = [] ∨ ∃ L b, l = L ++ [b] := by
  rcases List.eq_nil_or_concat l with h | ⟨L, b, h⟩
  · exact Or.inl h
  · exact Or.inr ⟨L, b, by rw [h, List.concat_eq_append]⟩

theorem push_back_rep (l : list T) (cells : List (Nat × T)) (x : T) (hr : l.Rep cells)
    (hn : cells.length + 1 < 2 ^ 64) :
    ∃ l1, l.push_back x = .ok l1 ∧ l1.Rep (cells ++ [(l.heap.length, x)]) := by
  obtain ⟨hL, hnd, hh, ht, hs⟩ := hr
  have hlt := Linked_lt l.heap cells none none hL
  have hfresh : l.heap.length ∉ cells.map Prod.fst := fun hc => by
    have := hlt _ hc
    omega
  rcases eq_nil_or_snoc cells with rfl | ⟨init, c, rfl⟩
  · simp only [List.getLast?_nil, Option.map_none'] at ht
    refine ⟨_, by unfold list.push_back; simp only [ht]; rfl, ?_⟩
    refine ⟨⟨?_, trivial⟩, by simp, rfl, rfl, ?_⟩
    · simp
    · simp only [hs, List.length_nil, List.nil_append, List.length_singleton]
      exact size_t_succ 0 (by decide)
  · obtain ⟨t, y⟩ := c
    simp only [List.getLast?_append, List.getLast?_singleton, Option.or_some,
      Option.map_some'] at ht
    rw [Linked_snoc] at hL
    obtain ⟨h1, h2⟩ := hL
    have hlen : t < l.heap.length := hlt t (by simp)
    have hne : t ≠ l.heap.length := by omega
    have e1 : (l.heap ++ [some { data := x, prev := none, next := none }])[t]? =
        some (some { data := y, prev := (init.getLast?.map Prod.fst).or none,
                     next := none }) := by
      rw [get_heap_old _ _ _ hlen]
      exact h2
    refine ⟨_, by unfold list.push_back; simp only [ht, e1]; rfl, ?_⟩
    simp only [List.map_append, List.map_cons, List.map_nil] at hnd hfresh
    have hnd1 : (init.map Prod.fst).Nodup := (List.nodup_append.1 hnd).1
    have htn : t ∉ init.map Prod.fst := fun hc =>
      (List.nodup_append.1 hnd).2.2 hc (by simp)
    refine ⟨?_, ?_, ?_, ?_, ?_⟩
    · rw [Linked_snoc, Linked_snoc]
      refine ⟨⟨?_, ?_⟩, ?_⟩
      · apply Linked_congr l.heap _ init none (some t) ?_ h1
        intro b hb
        have hb1 : b < l.heap.length := hlt b (by
          simp only [List.map_append]; exact List.mem_append_left _ hb)
        have hb2 : b ≠ t := fun hc => htn (hc ▸ hb)
        rw [List.getElem?_set_ne (by omega), List.getElem?_set_ne (Ne.symm hb2),
          get_heap_old _ _ _ hb1]
      · rw [List.getElem?_set_ne (Ne.symm hne), List.getElem?_set_self (by simp; omega)]
      · rw [List.getElem?_set_self (by simp)]
        simp
    · simp only [List.map_append, List.map_cons, List.map_nil]
      rw [List.nodup_append]
      refine ⟨hnd, by simp, ?_⟩
      intro b hb1 hb2
      simp only [List.mem_singleton] at hb2
      exact hfresh (hb2 ▸ hb1)
    · simp only [hh]
      cases init <;> rfl
    · simp
    · simp only [hs, List.length_append, List.length_singleton] at hn ⊢
      exact size_t_succ _ hn

theorem pop_front_rep (l : list T) (cells : List (Nat × T)) (hr : l.Rep cells)
    (hn : cells.length < 2 ^ 64) :
    ∃ l1, l.pop_front = .ok l1 ∧ l1.Rep cells.tail ∧ (cells = [] → l1 = l) := by
  obtain ⟨hL, hnd, hh, ht, hs⟩ := hr
  have hlt := Linked_lt l.heap cells none none hL
  cases cells with
  | nil =>
    simp only [List.head?_nil, Option.map_none'] at hh
    exact ⟨l, by unfold list.pop_front; simp only [hh], ⟨hL, hnd, hh, ht, hs⟩, fun _ => rfl⟩
  | cons c rest =>
    obtain ⟨h, y⟩ := c
    simp only [List.head?_cons, Option.map_some'] at hh
    obtain ⟨h1, h2⟩ := hL
    simp only [List.map_cons, List.nodup_cons] at hnd
    have hlen : h < l.heap.length := hlt h (by simp)
    cases rest with
    | nil =>
      simp only [List.head?_nil, Option.map_none', Option.or_none] at h1
      refine ⟨_, by unfold list.pop_front; simp only [hh, h1]; rfl, ?_, fun hc => by cases hc⟩
      refine ⟨trivial, by simp, rfl, rfl, ?_⟩
      simp only [hs, List.length_singleton, List.tail_cons, List.length_nil]
      exact size_t_dec 0 (by decide)
    | cons c2 rest2 =>
      obtain ⟨h', z⟩ := c2
      simp only [List.head?_cons, Option.map_some', Option.or_some] at h1
      obtain ⟨h3, h4⟩ := h2
      simp only [List.map_cons, List.nodup_cons, List.mem_cons, not_or] at hnd
      have hlen2 : h' < l.heap.length := hlt h' (by simp)
      refine ⟨_, by unfold list.pop_front; simp only [hh, h1, h3]; rfl, ?_, fun hc => by cases hc⟩
      refine ⟨⟨?_, ?_⟩, ?_, rfl, ?_, ?_⟩
      · rw [List.getElem?_set_ne hnd.1.1, List.getElem?_set_self hlen2]
      · apply Linked_congr l.heap _ rest2 (some h') none ?_ h4
        intro b hb
        have hb1 : b ≠ h := fun hc => hnd.1.2 (hc ▸ hb)
        have hb2 : b ≠ h' := fun hc => hnd.2.1 (hc ▸ hb)
        rw [List.getElem?_set_ne (Ne.symm hb1), List.getElem?_set_ne (Ne.symm hb2)]
      · simp only [List.tail_cons, List.map_cons, List.nodup_cons]
        exact hnd.2
      · simp only [ht, List.tail_cons]
        rw [List.getLast?_cons_cons]
      · simp only [hs, List.length_cons, List.tail_cons] at hn ⊢
        exact size_t_dec _ hn

theorem pop_back_rep (l : list T) (cells : List (Nat × T)) (hr : l.Rep cells)
    (hn : cells.length < 2 ^ 64) :
    ∃ l1, l.pop_back = .ok l1 ∧ l1.Rep cells.dropLast ∧ (cells = [] → l1 = l) := by
  obtain ⟨hL, hnd, hh, ht, hs⟩ := hr
  have hlt := Linked_lt l.heap cells none none hL
  rcases eq_nil_or_snoc cells with rfl | ⟨init, c, rfl⟩
  · simp only [List.getLast?_nil, Option.map_none'] at ht
    exact ⟨l, by unfold list.pop_back; simp only [ht], ⟨hL, hnd, hh, ht, hs⟩, fun _ => rfl⟩
  · obtain ⟨t, y⟩ := c
    simp only [List.getLast?_append, List.getLast?_singleton, Option.or_some,
      Option.map_some'] at ht
    rw [Linked_snoc] at hL
    obtain ⟨h1, h2⟩ := hL
    simp only [List.map_append, List.map_cons, List.map_nil] at hnd
    have hnd1 : (init.map Prod.fst).Nodup := (List.nodup_append.1 hnd).1
    have htn : t ∉ init.map Prod.fst := fun hc =>
      (List.nodup_append.1 hnd).2.2 hc (by simp)
    have hlen : t < l.heap.length := hlt t (by simp)
    rcases eq_nil_or_snoc init with rfl | ⟨init2, c2, rfl⟩
    · simp only [List.getLast?_nil, Option.map_none', Option.or_none] at h2
      refine ⟨_, by unfold list.pop_back; simp only [ht, h2]; rfl, ?_,
        fun hc => by simp at hc⟩
      refine ⟨trivial, by simp, rfl, rfl, ?_⟩
      simp only [hs, List.nil_append, List.length_singleton, List.dropLast_single,
        List.length_nil]
      exact size_t_dec 0 (by decide)
    · obtain ⟨p, z⟩ := c2
      simp only [List.getLast?_append, List.getLast?_singleton, Option.or_some,
        Option.map_some', Option.or_some] at h2
      rw [Linked_snoc] at h1
      obtain ⟨h3, h4⟩ := h1
      simp only [List.map_append, List.map_cons, List.map_nil] at hnd1 htn
      have hpn : p ∉ init2.map Prod.fst := fun hc =>
        (List.nodup_append.1 hnd1).2.2 hc (by simp)
      have hpt : p ≠ t := fun hc => htn (by simp [hc])
      have hlenp : p < l.heap.length := hlt p (by simp)
      refine ⟨_, by unfold list.pop_back; simp only [ht, h2, h4]; rfl, ?_,
        fun hc => by simp at hc⟩
      rw [List.dropLast_concat]
      refine ⟨?_, ?_, ?_, ?_, ?_⟩
      · rw [Linked_snoc]
        refine ⟨?_, ?_⟩
        · apply Linked_congr l.heap _ init2 none (some p) ?_ h3
          intro b hb
          have hb1 : b ≠ p := fun hc => hpn (hc ▸ hb)
          have hb2 : b ≠ t := fun hc => htn (by simp [← hc, hb])
          rw [List.getElem?_set_ne (Ne.symm hb2), List.getElem?_set_ne (Ne.symm hb1)]
        · rw [List.getElem?_set_ne (Ne.symm hpt), List.getElem?_set_self hlenp]
      · simp only [List.map_append, List.map_cons, List.map_nil]
        exact hnd1
      · simp only [hh]
        cases init2 <;> rfl
      · simp
      · simp only [hs, List.length_append, List.length_singleton] at hn ⊢
        exact size_t_dec _ hn

theorem clear_rep : ∀ (fuel : Nat) (l : list T) (cells : List (Nat × T)), l.Rep cells →
    cells.length < 2 ^ 64 → cells.length ≤ fuel →
    ∃ l1, list.clear fuel l = some (.ok l1) ∧ l1.Rep [] := by
  intro fuel
  induction fuel with
  | zero =>
    intro l cells hr _ hf
    have hc : cells = [] := List.eq_nil_of_length_eq_zero (by omega)
    subst hc
    have hs : l.size_ = 0 := hr.2.2.2.2
    exact ⟨l, by simp [list.clear, list.empty, hs], hr⟩
  | succ n ih =>
    intro l cells hr hn hf
    have hs : l.size_ = cells.length := hr.2.2.2.2
    cases cells with
    | nil => exact ⟨l, by simp [list.clear, list.empty, hs], hr⟩
    | cons c rest =>
      obtain ⟨l1, p1, p2, _⟩ := pop_front_rep l _ hr hn
      simp only [List.tail_cons, List.length_cons] at p2 hn hf
      obtain ⟨l2, q1, q2⟩ := ih l1 rest p2 (by omega) (by omega)
      refine ⟨l2, ?_, q2⟩
      simp only [list.clear, list.empty, hs, List.length_cons, p1]
      rw [if_neg (by simp)]
      exact q1

theorem front_rep (l : list T) (cells : List (Nat × T)) (hr : l.Rep cells) :
    l.front = element_or_runtime_error (cells.head?.map Prod.snd) := by
  obtain ⟨hL, _, hh, _, _⟩ := hr
  cases cells with
  | nil =>
    simp only [List.head?_nil, Option.map_none'] at hh
    simp [list.front, hh, element_or_runtime_error]
  | cons c rest =>
    obtain ⟨h, y⟩ := c
    simp only [List.head?_cons, Option.map_some'] at hh
    simp [list.front, hh, hL.1, element_or_runtime_error]

theorem back_rep (l : list T) (cells : List (Nat × T)) (hr : l.Rep cells) :
    l.back = element_or_runtime_error (cells.getLast?.map Prod.snd) := by
  obtain ⟨hL, _, _, ht, _⟩ := hr
  rcases eq_nil_or_snoc cells with rfl | ⟨init, c, rfl⟩
  · simp only [List.getLast?_nil, Option.map_none'] at ht
    simp [list.back, ht, element_or_runtime_error]
  · obtain ⟨t, y⟩ := c
    simp only [List.getLast?_append, List.getLast?_singleton, Option.or_some,
      Option.map_some'] at ht
    rw [Linked_snoc] at hL
    simp [list.back, ht, hL.2, element_or_runtime_error]

theorem Rep_new : (list.new : list T).Rep [] :=
  ⟨trivial, List.nodup_nil, rfl, rfl, rfl⟩

/-- Under the representation invariant every sequence of calls returns, and
the list then holds the double-ended sequence of the calls. -/
theorem list_run_rep (fuel : Nat) (calls : List (ListCall T)) :
    ∀ (l : list T) (cells : List (Nat × T)), l.Rep cells →
      cells.length + calls.length < 2 ^ 64 → cells.length + calls.length ≤ fuel →
      ∃ l1 cells1, list.run fuel l calls = some (.ok l1) ∧ l1.Rep cells1 ∧
        cells1.map Prod.snd = deque (cells.map Prod.snd) calls := by
  induction calls with
  | nil => intro l cells hr _ _; exact ⟨l, cells, rfl, hr, rfl⟩
  | cons c cs ih =>
    intro l cells hr hn hf
    simp only [List.length_cons] at hn hf
    cases c with
    | push_back value =>
      obtain ⟨l1, p1, p2⟩ := push_back_rep l cells value hr (by omega)
      obtain ⟨l2, cells2, q1, q2, q3⟩ := ih l1 _ p2
        (by simp only [List.length_append, List.length_singleton]; omega)
        (by simp only [List.length_append, List.length_singleton]; omega)
      refine ⟨l2, cells2, ?_, q2, ?_⟩
      · simp only [list.run, list.call, p1]
        exact q1
      · rw [q3]
        simp [deque]
    | push_front value =>
      obtain ⟨l1, p1, p2⟩ := push_front_rep l cells value hr (by omega)
      obtain ⟨l2, cells2, q1, q2, q3⟩ := ih l1 _ p2
        (by simp only [List.length_cons]; omega) (by simp only [List.length_cons]; omega)
      refine ⟨l2, cells2, ?_, q2, ?_⟩
      · simp only [list.run, list.call, p1]
        exact q1
      · rw [q3]
        simp [deque]
    | pop_back =>
      obtain ⟨l1, p1, p2, _⟩ := pop_back_rep l cells hr (by omega)
      obtain ⟨l2, cells2, q1, q2, q3⟩ := ih l1 _ p2
        (by simp only [List.length_dropLast]; omega)
        (by simp only [List.length_dropLast]; omega)
      refine ⟨l2, cells2, ?_, q2, ?_⟩
      · simp only [list.run, list.call, p1]
        exact q1
      · rw [q3]
        simp [deque, List.map_dropLast]
    | pop_front =>
      obtain ⟨l1, p1, p2, _⟩ := pop_front_rep l cells hr (by omega)
      obtain ⟨l2, cells2, q1, q2, q3⟩ := ih l1 _ p2
        (by simp only [List.length_tail]; omega) (by simp only [List.length_tail]; omega)
      refine ⟨l2, cells2, ?_, q2, ?_⟩
      · simp only [list.run, list.call, p1]
        exact q1
      · rw [q3]
        simp [deque, List.map_tail]
    | clear =>
      obtain ⟨l1, p1, p2⟩ := clear_rep fuel l cells hr (by omega) (by omega)
      obtain ⟨l2, cells2, q1, q2, q3⟩ := ih l1 [] p2
        (by simp only [List.length_nil]; omega) (by simp only [List.length_nil]; omega)
      refine ⟨l2, cells2, ?_, q2, ?_⟩
      · simp only [list.run, list.call, p1]
        exact q1
      · rw [q3]
        simp [deque]

/-- C31: every sequence of fewer than 2^64 `push_back`, `push_front`,
`pop_back`, `pop_front` and `clear` calls on a default-constructed list returns
(the loop of `clear` given as many rounds as there are calls) without undefined
behaviour, and the list behaves as the double-ended sequence of the calls:
`size()` is its length, `empty()` tells whether it is empty, `front()` and
`back()` return its first and last element and fail with `runtime_error` when
it is empty, and on the empty list `pop_back` and `pop_front` return normally
and leave the list as it is. -/
theorem list_behaves_as_deque (calls : List (ListCall T)) (fuel : Nat)
    (hn : calls.length < 2 ^ 64) (hf : calls.length ≤ fuel) :
    ∃ l, list.run fuel list.new calls = some (.ok l) ∧
      l.size = (deque [] calls).length ∧
      (l.empty = true ↔ deque [] calls = []) ∧
      l.front = element_or_runtime_error (deque [] calls).head? ∧
      l.back = element_or_runtime_error (deque [] calls).getLast? ∧
      (deque [] calls = [] →
        l.pop_back = .ok l ∧ l.pop_front = .ok l ∧
        l.front = .error .runtime_error ∧ l.back = .error .runtime_error) := by
  obtain ⟨l, cells, h1, h2, h3⟩ := list_run_rep fuel calls list.new [] Rep_new
    (by simp only [List.length_nil]; omega) (by simp only [List.length_nil]; omega)
  simp only [List.map_nil] at h3
  have hs : l.size_ = cells.length := h2.2.2.2.2
  have hlen : cells.length = (deque [] calls).length := by
    rw [← h3, List.length_map]
  have hfront := front_rep l cells h2
  have hback := back_rep l cells h2
  rw [← List.head?_map, h3] at hfront
  rw [← List.getLast?_map, h3] at hback
  refine ⟨l, h1, ?_, ?_, hfront, hback, ?_⟩
  · unfold list.size
    omega
  · unfold list.empty
    rw [decide_eq_true_iff, hs, hlen]
    exact List.length_eq_zero
  · intro he
    have hc : cells = [] := by
      apply List.eq_nil_of_length_eq_zero
      rw [hlen, he]
      rfl
    subst hc
    obtain ⟨l1, p1, _, p3⟩ := pop_back_rep l [] h2 (Nat.two_pow_pos 64)
    obtain ⟨l2, q1, _, q3⟩ := pop_front_rep l [] h2 (Nat.two_pow_pos 64)
    rw [p3 rfl] at p1
    rw [q3 rfl] at q1
    refine ⟨p1, q1, ?_, ?_⟩
    · rw [hfront, he]; rfl
    · rw [hback, he]; rfl

theorem list_behaves_as_deque_witness :
    (sampleListCalls.length < 2 ^ 64 ∧ sampleListCalls.length ≤ 5) ∧
    (∃ l, list.run 5 list.new sampleListCalls = some (.ok l) ∧
      l.size = (deque [] sampleListCalls).length ∧
      (l.empty = true ↔ deque [] sampleListCalls = []) ∧
      l.front = element_or_runtime_error (deque [] sampleListCalls).head? ∧
      l.back = element_or_runtime_error (deque [] sampleListCalls).getLast? ∧
      (deque [] sampleListCalls = [] →
        l.pop_back = .ok l ∧ l.pop_front = .ok l ∧
        l.front = .error .runtime_error ∧ l.back = .error .runtime_error)) ∧
    deque [] sampleListCalls = [] ∧
    deque [] [ListCall.push_back 1, .push_front 2, .push_back 3, .pop_front] = [1, 3] ∧
    (list.run 5 list.new [ListCall.push_back 1, .push_front 2, .push_back 3,
      .pop_front]).map (fun r => r.toOption.map (fun l => (l.size, l.front.toOption,
        l.back.toOption))) = some (some (2, some 1, some 3)) :=
  ⟨⟨by decide, by decide⟩, list_behaves_as_deque sampleListCalls 5 (by decide) (by decide),
    by decide, by decide, by decide⟩


/-- The safety conditions hold of the queues built from `Queue()` by `push`,
`pop` and `clear`, and are kept by `swap`, by the copy operations and for the
destination of a move; they fail for the source of a move. -/
theorem queue_safe_kept [Inhabited T] :
    (∀ (q : Queue T) (n : Nat), q.WF n → q.Safe) ∧
    (∀ q other : Queue T, q.Safe → other.Safe →
      (q.swap other).1.Safe ∧ (q.swap other).2.Safe) ∧
    (∀ other c : Queue T, other.Safe → other.copy = .ok c → c.Safe) ∧
    (∀ this other c : Queue T, other.Safe → this.copy_assign other = .ok c → c.Safe) ∧
    (∀ other : Queue T, other.Safe → (Queue.move_construct other).1.Safe) ∧
    (∀ other : Queue T, ¬ (Queue.move_construct other).2.Safe) ∧
    (∀ this other : Queue T, ¬ (Queue.move_assign this other).2.Safe) := by
  refine ⟨?_, ?_, ?_, ?_, ?_, ?_, ?_⟩
  · intro q n h
    exact ⟨h.2.1, h.2.2.1, h.2.2.2.1, h.2.2.2.2.1⟩
  · intro q other h1 h2
    exact ⟨h2, h1⟩
  · intro other c h hc
    unfold Queue.copy at hc
    split at hc
    · cases hc
    · injection hc with hc
      subst hc
      exact h
  · intro this other c h hc
    unfold Queue.copy_assign at hc
    split at hc
    · cases hc
    · injection hc with hc
      subst hc
      exact h
  · intro other h
    exact h
  · intro other h
    exact absurd h.1 (by simp [Queue.move_construct])
  · intro this other h
    exact absurd h.1 (by simp [Queue.move_assign])


/-! ## Copies of a queue that has not been popped -/


/-- The copy of a queue whose `front_` is 0, the only case the tests exercise,
holds the same elements. -/
theorem queue_copy_front_zero [Inhabited T] (q : Queue T) (n : Nat) (h : q.WF n)
    (hb : 2 * n + 1 < 2 ^ 63) (h0 : q.front_ = 0) :
    ∃ c, q.copy = .ok c ∧ c.WF n ∧ c.lift = q.lift := by
  have h' := h
  obtain ⟨h1, h2, h3, h4, h5, h6, h7⟩ := h'
  obtain ⟨d, hd, hdl, hin, _⟩ := copy_loop_spec q.data_ q.front_ q.capacity_ h2 h1 q.size_ 0
    (List.replicate q.capacity_ default) (by simp; exact h3) (by omega)
  refine ⟨⟨d, q.size_, q.capacity_, q.front_, q.back_⟩, by unfold Queue.copy; rw [hd],
    ⟨by simpa using hdl, h2, h3, h4, h5, h6, h7⟩, ?_⟩
  apply lift_eq_of_cells _ _ (by rw [lift_length])
  intro i hi
  have hi' : i < q.size_ := hi
  show d[(q.front_ + i) % q.capacity_]? = _
  rw [← cell_of_lift q h1 h2 i hi', h0, Nat.zero_add, Nat.mod_eq_of_lt (by omega),
    hin i (by omega) (by omega), h0, Nat.zero_add, Nat.mod_eq_of_lt (by omega)]


/-! ## Arguments that refer into the container -/

/-- C18 on the code: in the map built by inserting (2, 20), (1, 10), (3, 30),
(4, 40), `at(3)` returns a reference to the `value_` of the node at address 2,
which holds 30.  `insert_or_assign(1, m.at(3))` first erases the node of key
1; the rotation that rebalances the root moves the entry (2, 20) into the node
at address 2, and `insert` then copies 20 through the reference: `at(1)`
returns 20, not the 30 that was passed, where with an object holding 30 it
returns 30.  With `m.at(1)` as argument the reference is to the node that
`erase` deletes, and `insert` reads a deleted node. -/
theorem insert_or_assign_reads_obj_after_erase :
    fourEntries.root =
      .mk 0 2 20 none (.mk 1 1 10 (some 0) .nullptr .nullptr 0)
        (.mk 2 3 30 (some 0) .nullptr (.mk 3 4 40 (some 2) .nullptr .nullptr 0) 1) 2 ∧
    TreeInv fourEntries.toAVLTree ∧
    (fourEntries.at 3).2 = .ok 30 ∧
    fourEntries.at_reference 3 = .ok (.stored 2) ∧
    (fourEntries.erase (fourEntries.find 1)).root =
      .mk 0 3 30 none (.mk 2 2 20 (some 0) .nullptr .nullptr 0)
        (.mk 3 4 40 (some 0) .nullptr .nullptr 0) 1 ∧
    (Reference.stored 2).in_tree (fourEntries.erase (fourEntries.find 1)).root = .ok 20 ∧
    (∃ r, fourEntries.insert_or_assign 1 (.stored 2) = .ok r ∧
      (map.at r.1 1).2 = .ok 20 ∧
      inorder r.1.root = [(1, 20), (2, 20), (3, 30), (4, 40)]) ∧
    (∃ r, fourEntries.insert_or_assign 1 (.object 30) = .ok r ∧
      (map.at r.1 1).2 = .ok 30 ∧
      inorder r.1.root = [(1, 30), (2, 20), (3, 30), (4, 40)]) ∧
    fourEntries.at_reference 1 = .ok (.stored 1) ∧
    fourEntries.insert_or_assign 1 (.stored 1) = .error .undefined_behaviour :=
  ⟨by decide, map_ofList_TreeInv _, rfl, rfl, by decide, rfl, ⟨_, rfl, rfl, by decide⟩,
    ⟨_, rfl, rfl, by decide⟩, rfl, rfl⟩

/-- C25 on the code: after `push(5)` on a new queue the one cell of the array
is taken and `front()` returns a reference to cell 0.  `push(q.front())` finds
`size_ == capacity_`, `resize(2)` copies the element to a new array and
releases the old one, and `data_[back_] = value` then reads `value` in the
released array: undefined behaviour, where the first-in-first-out list has the
elements 5, 5, as the push of an object holding 5 gives.  When no growth is
needed (three elements in four cells) the push through the reference stores
the element read. -/
theorem push_own_front_reads_released_array :
    Queue.run (Queue.new : Queue Nat) [.push 5] = .ok onePushed ∧
    onePushed.front = .ok 5 ∧
    onePushed.front_reference = .ok (.stored 0) ∧
    onePushed.size_ = onePushed.capacity_ ∧
    onePushed.resize (size_t (onePushed.capacity_ * 2)) = .ok ⟨[5, 0], 1, 2, 0, 1⟩ ∧
    onePushed.push (.stored 0) = .error .undefined_behaviour ∧
    onePushed.push (.object 5) = .ok ⟨[5, 5], 2, 2, 0, 0⟩ ∧
    fifo [] [Call.push 5, .push 5] = [5, 5] ∧
    Queue.run (Queue.new : Queue Nat) [.push 1, .push 2, .push 3] = .ok threePushed ∧
    threePushed.front_reference = .ok (.stored 0) ∧
    threePushed.push (.stored 0) = .ok ⟨[1, 2, 3, 1], 4, 4, 0, 0⟩ :=
  ⟨rfl, rfl, rfl, rfl, rfl, rfl, rfl, rfl, rfl, rfl, rfl⟩

theorem erasedDuplicate_reachable : Reachable erasedDuplicate.tree_ := by
  have h1 : Reachable (Multiset.ofList [30, 20, 40, 20]).tree_ := by
    rw [ofList_tree]
    exact Built.mono (insertDups_reachable _)
  show Reachable ((Multiset.ofList [30, 20, 40, 20]).tree_.erase
    ((Multiset.ofList [30, 20, 40, 20]).find 20))
  exact Built.erase _ rfl h1

/-- On the multiset left by inserting 30, 20, 40, 20 and erasing one 20,
`count(20)` returns for no amount of fuel: `++` at the node of `lower_bound(20)`
returns the same node. -/
theorem erasedDuplicate_count_stuck : ∀ fuel, erasedDuplicate.count fuel 20 = none := by
  have hroot : erasedDuplicate.tree_.root =
      .mk 0 30 30 none (.mk 1 20 20 (some 1) .nullptr .nullptr 0)
        (.mk 2 40 40 (some 0) .nullptr .nullptr 0) 1 := by decide
  have hlow : erasedDuplicate.tree_.lower_bound 20 = { it_node := some 1, it_prev_node := none } := by
    decide
  have hup : erasedDuplicate.tree_.upper_bound 20 = { it_node := some 0, it_prev_node := none } := by
    decide
  have hinc : ∀ fuel, Iterator.increment erasedDuplicate.tree_.root (fuel + 1)
      { it_node := some 1, it_prev_node := none } =
        some { it_node := some 1, it_prev_node := none } := by
    intro fuel
    rw [hroot]
    simp [Iterator.increment, lookup, climb_from_right, node.addrOf]
  intro fuel
  unfold Multiset.count Multiset.equal_range
  rw [hlow, hup]
  induction fuel with
  | zero => simp [distance, Iterator.eq]
  | succ n ih => simp [distance, Iterator.eq, hinc n, ih]

/-- C22 on the code: the multiset `s` left by inserting 30, 20, 40, 20 and
calling `erase(find(20))` is reachable by inserts and erases and holds the keys
20, 30, 40.  Its copy has the same shape with the same entries, the same
size() and the same answers of contains, and `count(20)` on the copy returns 1
(given fuel 6 or more), but `count(20)` on `s` itself returns for no amount of
fuel: the two do not give the same answer. -/
theorem copy_count_differs_after_erase :
    Reachable erasedDuplicate.tree_ ∧
    keys erasedDuplicate.tree_.root = [20, 30, 40] ∧
    shapeOf erasedDuplicate.copy.tree_.root = shapeOf erasedDuplicate.tree_.root ∧
    inorder erasedDuplicate.copy.tree_.root = inorder erasedDuplicate.tree_.root ∧
    erasedDuplicate.copy.size = erasedDuplicate.size ∧
    (∀ k, erasedDuplicate.copy.contains k = erasedDuplicate.contains k) ∧
    (∀ fuel, 6 ≤ fuel → erasedDuplicate.copy.count fuel 20 = some 1) ∧
    (∀ fuel, erasedDuplicate.count fuel 20 = none) := by
  have hshape : shapeOf erasedDuplicate.copy.tree_.root = shapeOf erasedDuplicate.tree_.root :=
    CopyTree_shape erasedDuplicate.tree_.root 0 none
  refine ⟨erasedDuplicate_reachable, by decide, hshape, inorder_of_shape _ _ hshape,
    (copy_spec erasedDuplicate.tree_).2.2.2, ?_, ?_, erasedDuplicate_count_stuck⟩
  · intro k
    unfold Multiset.contains AVLTree.contains
    rw [RecursiveSearch_shape k erasedDuplicate.tree_.root erasedDuplicate.copy.tree_.root hshape]
  · intro fuel hf
    have h := copy_count erasedDuplicate.tree_ erasedDuplicate_reachable 20 fuel
      (by
        have : erasedDuplicate.tree_.size = 3 := by decide
        omega)
    have hc : (keys erasedDuplicate.tree_.root).count 20 = 1 := by decide
    rw [hc] at h
    exact h

end s21
